import Mathlib

/-! # hipTT: tensor-transpose kernels, launch planner and occupancy cache

A shallow embedding of `src/cuttkernel.cpp` and `src/CudaMemcpy.cpp`.

Conventions.
* The digit records `TensorConv` / `TensorConvInOut` are declared in a header
  that is not part of the sources; their fields (a divisor, a digit count and
  a stride multiplier) are natural numbers here, as are thread indices and
  array offsets.  Host-side `int` arithmetic of the planner is modelled on
  `Int` with truncating division.  Arguments are taken to fit their C++
  types.  Where 32-bit arithmetic is modelled it is explicit: the cache key,
  the unsigned products `blockIdx*splitDim` and `blockIdx*volMbar` of
  `transposePackedSplit`, and the `int` loop indices of the copy kernels
  wrap modulo a power of two; elsewhere results are taken to fit.
* Device arrays are functions from offsets to values.
* Calls into the HIP runtime are taken to succeed: the `hipCheck` wrapper is
  declared outside the sources, and what it does on an error code is not
  modelled.
-/

namespace HipTT

/-! ## Definitions -/

/-- Digit record `TensorConv`: divisor `c`, digit count `d`, stride `ct`. -/
structure TensorConv where
  c : Nat
  d : Nat
  ct : Nat
deriving DecidableEq, Repr

/-- Digit record `TensorConvInOut`: one divisor / count / stride triple for
the input layout and one for the output layout. -/
structure TensorConvInOut where
  c_in : Nat
  d_in : Nat
  ct_in : Nat
  c_out : Nat
  d_out : Nat
  ct_out : Nat
deriving DecidableEq, Repr

/-- Input half of a `TensorConvInOut`. -/
def TensorConvInOut.inPart (m : TensorConvInOut) : TensorConv :=
  ⟨m.c_in, m.d_in, m.ct_in⟩

/-- Output half of a `TensorConvInOut`. -/
def TensorConvInOut.outPart (m : TensorConvInOut) : TensorConv :=
  ⟨m.c_out, m.d_out, m.ct_out⟩

/-- One digit of the codec: `((p / c) % d) * ct` (cuttkernel.cpp:176). -/
def digit (m : TensorConv) (p : Nat) : Nat :=
  ((p / m.c) % m.d) * m.ct

/-- The accumulation loop `for (i = 0; i < n; i++) pos += ((p / c_i) % d_i) * ct_i`
(cuttkernel.cpp:172-180) over a table of digit records, after `n` iterations,
started from `pos = 0`. -/
def decode (tbl : Nat → TensorConv) (p : Nat) : Nat → Nat
  | 0 => 0
  | i + 1 => decode tbl p i + digit (tbl i) p

/-- Cumulative product `d_0 * ... * d_{i-1}` of a shape. -/
def cumProd (d : Nat → Nat) : Nat → Nat
  | 0 => 1
  | i + 1 => cumProd d i * d i

/-- The digit table of a shape `d` with stride multipliers `ct`:
record `i` has divisor `d_0 * ... * d_{i-1}`, digit count `d_i`, stride `ct_i`. -/
def shapeTable (d ct : Nat → Nat) : Nat → TensorConv :=
  fun i => ⟨cumProd d i, d i, ct i⟩

/-- Digit `i` of the mixed-radix representation of `p` in shape `d`. -/
def coord (d : Nat → Nat) (p i : Nat) : Nat :=
  (p / cumProd d i) % d i

/-- The shape `(4, 6, 8)`. -/
def shape468 : Nat → Nat := fun i => [4, 6, 8].getD i 1

/-- The permutation `(2, 0, 1)`: output axis `j` is input axis `perm201 j`. -/
def perm201 : Nat → Nat := fun j => [2, 0, 1].getD j 0

/-- Strides of the input axes of shape `(4, 6, 8)` in the output layout
`(8, 4, 6)` obtained with the permutation `(2, 0, 1)`. -/
def stride468 : Nat → Nat := fun i => [8, 32, 1].getD i 0

/-- Naive reference for shape `(4, 6, 8)` and permutation `(2, 0, 1)`: the
input element with coordinate `(i0, i1, i2)` has output coordinate
`(i2, i0, i1)` in the output shape `(8, 4, 6)`. -/
def expected468 (p : Nat) : Nat :=
  let i0 := p % 4
  let i1 := (p / 4) % 6
  let i2 := p / 24
  i2 + 8 * (i0 + 4 * i1)

/-- The registers of the threads of one block for one variable: the value
held by thread `t`, and `none` when the block has no thread `t`. -/
def blockRegs (blockDim : Nat) (f : Nat → Nat) : Nat → Option Nat :=
  fun t => if t < blockDim then some (f t) else none

/-- `__shfl(var, srcLane)`: the value of `var` held by lane `srcLane` of the
caller's warp (threads `warp*warpSize .. warp*warpSize + warpSize - 1`);
undefined (`none`) when that lane holds no thread. -/
def shfl (warpSize : Nat) (r : Nat → Option Nat) (tid srcLane : Nat) : Option Nat :=
  r ((tid / warpSize) * warpSize + srcLane % warpSize)

/-- `__shfl_xor(var, laneMask)`: the value of `var` held by lane
`lane xor laneMask` of the caller's warp; the caller's own value when that
lane index is outside the warp; undefined when the lane holds no thread. -/
def shflXor (warpSize : Nat) (r : Nat → Option Nat) (tid laneMask : Nat) : Option Nat :=
  let src := (tid % warpSize) ^^^ laneMask
  if src < warpSize then r ((tid / warpSize) * warpSize + src) else r tid

/-- One round `r += __shfl_xor(r, i)`, executed in lock-step by all threads. -/
def xorRound (warpSize i : Nat) (r : Nat → Option Nat) : Nat → Option Nat :=
  fun tid =>
    match r tid, shflXor warpSize r tid i with
    | some a, some b => some (a + b)
    | _, _ => none

/-- The loop `for (i = start; i >= 1; i /= 2) r += __shfl_xor(r, i)`
(cuttkernel.cpp:197-199), with a bound on the number of iterations; running
out of the bound leaves every register undefined. -/
def butterflyLoop (warpSize : Nat) : Nat → Nat → (Nat → Option Nat) → Nat → Option Nat
  | 0, i, r => if 1 ≤ i then fun _ => none else r
  | fuel + 1, i, r =>
    if 1 ≤ i then butterflyLoop warpSize fuel (i / 2) (xorRound warpSize i r) else r

/-- The reduction loop started at `i = warpSize/2`. -/
def butterfly (warpSize : Nat) (r : Nat → Option Nat) : Nat → Option Nat :=
  butterflyLoop warpSize warpSize (warpSize / 2) r

/-- The per-lane load of a major-group record (cuttkernel.cpp:183-190):
`c` and `d` are preset to 1, the strides are left as found in the register
(`junk`), and lanes below `sizeMbar` load their record from the table. -/
def loadInOut (size : Nat) (gl : Nat → TensorConvInOut) (junk : TensorConvInOut)
    (warpLane : Nat) : TensorConvInOut :=
  if warpLane < size then gl warpLane
  else { c_in := 1, d_in := 1, ct_in := junk.ct_in, c_out := 1, d_out := 1, ct_out := junk.ct_out }

/-- `warpLane = threadIdx.x & (warpSize - 1)`. -/
def warpLane (warpSize tid : Nat) : Nat := tid &&& (warpSize - 1)

/-- The per-thread partial sum `((posMbar / Mbar.c_out) % Mbar.d_out) * Mbar.ct_out`
(cuttkernel.cpp:195) of every thread of a block of `blockDim` threads, `junk t`
being what thread `t` finds in its uninitialised registers. -/
def majorDigitOut (warpSize sizeMbar : Nat) (glMbar : Nat → TensorConvInOut)
    (junk : Nat → TensorConvInOut) (posMbar : Nat) (t : Nat) : Nat :=
  digit (loadInOut sizeMbar glMbar (junk t) (warpLane warpSize t)).outPart posMbar

/-- The per-thread partial sum `((posMbar / Mbar.c_in) % Mbar.d_in) * Mbar.ct_in`
(cuttkernel.cpp:201). -/
def majorDigitIn (warpSize sizeMbar : Nat) (glMbar : Nat → TensorConvInOut)
    (junk : Nat → TensorConvInOut) (posMbar : Nat) (t : Nat) : Nat :=
  digit (loadInOut sizeMbar glMbar (junk t) (warpLane warpSize t)).inPart posMbar

/-- The register `posMbarOut` of every thread after the reduction loop
(cuttkernel.cpp:195-199). -/
def posMajorOut (warpSize blockDim sizeMbar : Nat) (glMbar : Nat → TensorConvInOut)
    (junk : Nat → TensorConvInOut) (posMbar : Nat) : Nat → Option Nat :=
  butterfly warpSize (blockRegs blockDim (majorDigitOut warpSize sizeMbar glMbar junk posMbar))

/-- The register `posMbarIn` of every thread after the reduction loop
(cuttkernel.cpp:201-205). -/
def posMajorIn (warpSize blockDim sizeMbar : Nat) (glMbar : Nat → TensorConvInOut)
    (junk : Nat → TensorConvInOut) (posMbar : Nat) : Nat → Option Nat :=
  butterfly warpSize (blockRegs blockDim (majorDigitIn warpSize sizeMbar glMbar junk posMbar))

/-- A two-record major table used in examples. -/
def exMbar : Nat → TensorConvInOut := fun i =>
  [(⟨1, 2, 3, 1, 2, 5⟩ : TensorConvInOut), ⟨2, 3, 6, 2, 3, 10⟩].getD i ⟨0, 0, 0, 0, 0, 0⟩

/-- Register garbage used in examples. -/
def exJunk : Nat → TensorConvInOut := fun t => ⟨7, 7, 100 + t, 7, 7, 200 + t⟩

/-! ### Host side: occupancy cache and launch planner -/

/-- The transposition methods (`ts.method`). -/
inductive Method where
  | Trivial
  | Packed
  | PackedSplit
  | Tiled
  | TiledCopy
deriving DecidableEq, Repr

/-- A `dim3` triple. -/
structure Dim3 where
  x : Int
  y : Int
  z : Int
deriving DecidableEq, Repr

/-- The launch configuration `LaunchConfig`. -/
structure LaunchConfig where
  numthread : Dim3
  numblock : Dim3
  shmemsize : Nat
  numRegStorage : Int
deriving DecidableEq, Repr

/-- The fields of `hipDeviceProp_t` the planner reads. -/
structure DeviceProp where
  warpSize : Int
  maxThreadsPerBlock : Int
  sharedMemPerBlock : Nat
  multiProcessorCount : Int
  maxGridSize0 : Int
  maxGridSize1 : Int
  maxGridSize2 : Int
deriving DecidableEq, Repr

/-- The fields of `TensorSplit` the planner reads. -/
structure TensorSplit where
  method : Method
  volMm : Int
  volMk : Int
  volMkBar : Int
  volMmk : Int
  volMbar : Int
  splitDim : Int
  numSplit : Int
  volMmkUnsplit : Int
deriving DecidableEq, Repr

/-- What `cuttkernel.cpp` takes from outside the sources: the constants
`MAX_REG_STORAGE`, `TILEDIM`, `TILEROWS`, the case values that `calls.h`
generates, the member functions `ts.shmemAlloc(sizeofType)` and
`ts.volMmkUsed()` (a number of bytes and a volume), the device count that
`hipGetDeviceCount` reports, the answer of
`hipOccupancyMaxActiveBlocksPerMultiprocessor` (which may depend on how many
queries were issued before, and on the kernel, element size, register
multiplicity, thread count and shared-memory size), and the content of the
uninitialised local `numActiveBlock`. -/
structure Externals where
  MAX_REG_STORAGE : Int
  TILEDIM : Int
  TILEROWS : Int
  calls : List Int
  shmemAlloc : TensorSplit → Int → Nat
  volMmkUsed : TensorSplit → Nat
  deviceCount : Int
  occupancy : Nat → Method → Int → Int → Int → Nat → Int
  uninit : Int

/-- `CACHE_SIZE`. -/
def CACHE_SIZE : Int := 100000

/-- `MAX_NUMWARP = 1024/64`. -/
def MAX_NUMWARP : Int := Int.tdiv 1024 64

/-- `MAX_NUMTYPE`. -/
def MAX_NUMTYPE : Int := 2

/-- Modelled from the spec: `LRUCache<unsigned long long, int>` (LRUCache.h is
not part of the sources), as a key-to-value map whose `get` answers the
sentinel -1 for an absent key; no entry is evicted (the cache stays below its
capacity).  The host state also holds the static `numDevices` and counts the
occupancy queries issued so far. -/
structure HostState where
  numDevices : Int
  nabCache : Int → Int
  queries : Nat

/-- The state at program start: `numDevices = -1`, an empty cache. -/
def HostState.init : HostState := ⟨-1, fun _ => -1, 0⟩

/-- Conversion to `unsigned long long`. -/
def u64 (x : Int) : Int := x % 18446744073709551616

/-- The cache key (cuttkernel.cpp:608-615), computed in `unsigned long long`. -/
def cacheKey (E : Externals) (numDevices : Int) (shmemsize : Nat) (sizeofType deviceID
    numRegStorage key_warp : Int) : Int :=
  let key_reg := numRegStorage - 1
  let key_type := sizeofType
  u64 (u64 (Int.tdiv (shmemsize : Int) sizeofType) * MAX_NUMWARP * E.MAX_REG_STORAGE
        * MAX_NUMTYPE * numDevices
      + u64 deviceID * MAX_NUMWARP * E.MAX_REG_STORAGE * MAX_NUMTYPE
      + u64 key_type * MAX_NUMWARP * E.MAX_REG_STORAGE
      + u64 key_reg * MAX_NUMWARP
      + u64 key_warp)

/-- The lazy initialisation `if (numDevices == -1) hipGetDeviceCount(&numDevices)`
(cuttkernel.cpp:599-601). -/
def withDevices (E : Externals) (st : HostState) : HostState :=
  if st.numDevices = -1 then { st with numDevices := E.deviceCount } else st

/-- The macro-generated `switch (lc.numRegStorage)` around the occupancy
query (cuttkernel.cpp:587-590, 623-626): for a register multiplicity among
the generated cases and an element size of 2, 4 or 8 the query is issued and
its answer stored in `numActiveBlock`; otherwise `numActiveBlock` keeps the
value `cur`. -/
def occupancySwitch (E : Externals) (kernel : Method) (sizeofType : Int) (lc : LaunchConfig)
    (numthread cur : Int) (st : HostState) : Int × HostState :=
  if lc.numRegStorage ∈ E.calls ∧ (sizeofType = 2 ∨ sizeofType = 4 ∨ sizeofType = 8) then
    (E.occupancy st.queries kernel sizeofType lc.numRegStorage numthread lc.shmemsize,
      { st with queries := st.queries + 1 })
  else (cur, st)

/-- The `if (sizeofType == 2) .. else if (== 4) .. else if (== 8) .. else`
chain of the tiled methods (cuttkernel.cpp:636-647, 653-664). -/
def occupancyTiled (E : Externals) (kernel : Method) (sizeofType : Int) (lc : LaunchConfig)
    (numthread : Int) (st : HostState) : Int × HostState :=
  if sizeofType = 2 ∨ sizeofType = 4 ∨ sizeofType = 8 then
    (E.occupancy st.queries kernel sizeofType 0 numthread lc.shmemsize,
      { st with queries := st.queries + 1 })
  else (E.uninit, st)

/-- `getNumActiveBlock` (cuttkernel.cpp:569-670).  `none` is `exit(1)`. -/
def getNumActiveBlock (E : Externals) (method : Method) (sizeofType : Int) (lc : LaunchConfig)
    (deviceID : Int) (prop : DeviceProp) (st : HostState) : Option (Int × HostState) :=
  let numthread := lc.numthread.x * lc.numthread.y * lc.numthread.z
  match method with
  | Method.Trivial => some (1, st)
  | Method.Packed => some (occupancySwitch E Method.Packed sizeofType lc numthread E.uninit st)
  | Method.PackedSplit =>
    let st1 := withDevices E st
    let key_warp := Int.tdiv numthread prop.warpSize - 1
    if key_warp ≥ MAX_NUMWARP then none
    else
      let key := cacheKey E st1.numDevices lc.shmemsize sizeofType deviceID lc.numRegStorage
        key_warp
      let numActiveBlock := st1.nabCache key
      if numActiveBlock = -1 then
        let r := occupancySwitch E Method.PackedSplit sizeofType lc numthread numActiveBlock st1
        some (r.1, { r.2 with nabCache := Function.update r.2.nabCache key r.1 })
      else some (numActiveBlock, st1)
  | Method.Tiled => some (occupancyTiled E Method.Tiled sizeofType lc numthread st)
  | Method.TiledCopy => some (occupancyTiled E Method.TiledCopy sizeofType lc numthread st)

/-- The three running maxima of the scan: `bestVal`, `bestNumRegStorage`,
`bestNumActiveBlock`. -/
structure Best where
  bestVal : Int
  bestNumRegStorage : Int
  bestNumActiveBlock : Int
deriving DecidableEq, Repr

/-- One candidate of the scan as the planner saw it: the register
multiplicity, the thread count derived from it and the occupancy that
`getNumActiveBlock` returned. -/
structure Candidate where
  numRegStorage : Int
  numthreadX : Int
  numActiveBlock : Int
deriving DecidableEq, Repr

/-- `lc.numthread.x = ((V - 1)/(prop.warpSize*lc.numRegStorage) + 1)*prop.warpSize`. -/
def threadsFor (prop : DeviceProp) (V r : Int) : Int :=
  (Int.tdiv (V - 1) (prop.warpSize * r) + 1) * prop.warpSize

/-- The loop `for (lc.numRegStorage = r; lc.numRegStorage <= max; lc.numRegStorage++)`
(cuttkernel.cpp:741-752, 797-808) with `n` candidates left; besides the
launch configuration, the running maxima and the host state it returns the
list of the candidates it visited.  `none` is `exit(1)` inside
`getNumActiveBlock`. -/
def scanLoop (E : Externals) (sizeofType : Int) (ts : TensorSplit) (deviceID : Int)
    (prop : DeviceProp) (V : Int) :
    Nat → Int → LaunchConfig → Best → HostState →
      Option (LaunchConfig × Best × HostState × List Candidate)
  | 0, r, lc, best, st => some ({ lc with numRegStorage := r }, best, st, [])
  | n + 1, r, lc, best, st =>
    let lc1 : LaunchConfig :=
      { lc with numRegStorage := r, numthread := { lc.numthread with x := threadsFor prop V r } }
    match getNumActiveBlock E ts.method sizeofType lc1 deviceID prop st with
    | none => none
    | some (numActiveBlock, st1) =>
      let val := (E.volMmkUsed ts : Int) * numActiveBlock
      let best1 : Best := if val > best.bestVal then ⟨val, r, numActiveBlock⟩ else best
      match scanLoop E sizeofType ts deviceID prop V n (r + 1) lc1 best1 st1 with
      | none => none
      | some (lc2, best2, st2, tr) =>
        some (lc2, best2, st2, ⟨r, threadsFor prop V r, numActiveBlock⟩ :: tr)

/-- The minor volume one block handles: `ts.volMmk` for Packed,
`volMmkWithSplit` (cuttkernel.cpp:773) for PackedSplit. -/
def planVolume (ts : TensorSplit) : Int :=
  match ts.method with
  | Method.PackedSplit =>
    (Int.tdiv ts.splitDim ts.numSplit + (if Int.tmod ts.splitDim ts.numSplit > 0 then 1 else 0))
      * ts.volMmkUnsplit
  | _ => ts.volMmk

/-- `minNumthread` (cuttkernel.cpp:719, 776). -/
def minNumthread (E : Externals) (prop : DeviceProp) (V : Int) : Int :=
  (Int.tdiv (V - 1) (prop.warpSize * E.MAX_REG_STORAGE) + 1) * prop.warpSize

/-- `maxNumthread` after the clamp (cuttkernel.cpp:720-722, 777-779). -/
def maxNumthread (prop : DeviceProp) (V : Int) : Int :=
  min prop.maxThreadsPerBlock ((Int.tdiv (V - 1) prop.warpSize + 1) * prop.warpSize)

/-- `minNumRegStorage` (cuttkernel.cpp:726, 783). -/
def minNumRegStorage (prop : DeviceProp) (V : Int) : Int :=
  Int.tdiv (V - 1) (maxNumthread prop V) + 1

/-- `maxNumRegStorage` (cuttkernel.cpp:727, 784). -/
def maxNumRegStorage (E : Externals) (prop : DeviceProp) (V : Int) : Int :=
  Int.tdiv (V - 1) (minNumthread E prop V) + 1

/-- The grid the Packed / PackedSplit cases set before the scan
(cuttkernel.cpp:734-739, 791-795). -/
def packedGrid (ts : TensorSplit) (prop : DeviceProp) (lc : LaunchConfig) : LaunchConfig :=
  match ts.method with
  | Method.PackedSplit =>
    { lc with
      numthread := { lc.numthread with y := 1, z := 1 },
      numblock := ⟨ts.numSplit,
        max 1 (min (Int.tdiv (prop.multiProcessorCount * 18) ts.numSplit) ts.volMbar), 1⟩ }
  | _ =>
    { lc with
      numthread := { lc.numthread with y := 1, z := 1 },
      numblock := ⟨min (prop.multiProcessorCount * 18) (max 1 ts.volMbar), 1, 1⟩ }

/-- The tail of `cuttKernelLaunchConfiguration` (cuttkernel.cpp:847-856): the
grid-extent check and the return value. -/
def finishPlan (E : Externals) (sizeofType : Int) (ts : TensorSplit) (deviceID : Int)
    (prop : DeviceProp) (lc : LaunchConfig) (numActiveBlockReturn : Int) (st : HostState)
    (tr : List Candidate) : Option (Int × LaunchConfig × HostState × List Candidate) :=
  if lc.numblock.x > prop.maxGridSize0 ∨ lc.numblock.y > prop.maxGridSize1 ∨
      lc.numblock.z > prop.maxGridSize2 then some (0, lc, st, tr)
  else if numActiveBlockReturn = -1 then
    match getNumActiveBlock E ts.method sizeofType lc deviceID prop st with
    | none => none
    | some (v, st1) => some (v, lc, st1, tr)
  else some (numActiveBlockReturn, lc, st, tr)

/-- The Packed and PackedSplit cases of `cuttKernelLaunchConfiguration`
(cuttkernel.cpp:707-816), which differ in the volume `V` and in the grid. -/
def planPacked (E : Externals) (sizeofType : Int) (ts : TensorSplit) (deviceID : Int)
    (prop : DeviceProp) (lc : LaunchConfig) (st : HostState) :
    Option (Int × LaunchConfig × HostState × List Candidate) :=
  let lc0 : LaunchConfig := { lc with shmemsize := E.shmemAlloc ts sizeofType }
  if lc0.shmemsize > prop.sharedMemPerBlock then some (0, lc0, st, [])
  else
    let V := planVolume ts
    if minNumthread E prop V > prop.maxThreadsPerBlock then some (0, lc0, st, [])
    else
      let lo := minNumRegStorage prop V
      let hi := maxNumRegStorage E prop V
      let lc1 := packedGrid ts prop lc0
      match scanLoop E sizeofType ts deviceID prop V (hi + 1 - lo).toNat lo lc1 ⟨0, 0, 0⟩ st with
      | none => none
      | some (lc2, best, st2, tr) =>
        if best.bestNumRegStorage = 0 then some (0, lc2, st2, tr)
        else
          let lc3 : LaunchConfig :=
            { lc2 with
              numRegStorage := best.bestNumRegStorage,
              numthread := { lc2.numthread with x := threadsFor prop V best.bestNumRegStorage } }
          finishPlan E sizeofType ts deviceID prop lc3 best.bestNumActiveBlock st2 tr

/-- `cuttKernelLaunchConfiguration` (cuttkernel.cpp:684-857): the return
value, the launch configuration it leaves in `lc`, the host state, and the
candidates the scan visited.  `none` is `exit(1)`. -/
def cuttKernelLaunchConfiguration (E : Externals) (sizeofType : Int) (ts : TensorSplit)
    (deviceID : Int) (prop : DeviceProp) (lc : LaunchConfig) (st : HostState) :
    Option (Int × LaunchConfig × HostState × List Candidate) :=
  match ts.method with
  | Method.Trivial =>
    finishPlan E sizeofType ts deviceID prop
      { numthread := ⟨1, 1, 1⟩, numblock := ⟨1, 1, 1⟩, shmemsize := 0, numRegStorage := 0 }
      (-1) st []
  | Method.Packed => planPacked E sizeofType ts deviceID prop lc st
  | Method.PackedSplit => planPacked E sizeofType ts deviceID prop lc st
  | Method.Tiled =>
    let nbx := (Int.tdiv (ts.volMm - 1) E.TILEDIM + 1) * (Int.tdiv (ts.volMk - 1) E.TILEDIM + 1)
    finishPlan E sizeofType ts deviceID prop
      { numthread := ⟨E.TILEDIM, E.TILEROWS, 1⟩,
        numblock := ⟨nbx, 1,
          max 1 (min (Int.tdiv (prop.multiProcessorCount * 8) (nbx * 1)) ts.volMbar)⟩,
        shmemsize := 0, numRegStorage := 0 }
      (-1) st []
  | Method.TiledCopy =>
    let nbx := (Int.tdiv (ts.volMm - 1) E.TILEDIM + 1) * (Int.tdiv (ts.volMkBar - 1) E.TILEDIM + 1)
    finishPlan E sizeofType ts deviceID prop
      { numthread := ⟨E.TILEDIM, E.TILEROWS, 1⟩,
        numblock := ⟨nbx, 1,
          max 1 (min (Int.tdiv (prop.multiProcessorCount * 8) (nbx * 1)) ts.volMbar)⟩,
        shmemsize := 0, numRegStorage := 0 }
      (-1) st []

/-- Example externals: `MAX_REG_STORAGE = 8`, `TILEDIM = 64`, `TILEROWS = 8`,
cases 1..8, `shmemAlloc` and `volMmkUsed` taken from the minor volume, one
device, and an occupancy of `min (2048 / numthread) 16`. -/
def exE : Externals where
  MAX_REG_STORAGE := 8
  TILEDIM := 64
  TILEROWS := 8
  calls := [1, 2, 3, 4, 5, 6, 7, 8]
  shmemAlloc := fun ts sizeofType => (planVolume ts * sizeofType).toNat
  volMmkUsed := fun ts => (planVolume ts).toNat
  deviceCount := 1
  occupancy := fun _ _ _ _ numthread _ => min (Int.tdiv 2048 numthread) 16
  uninit := 0

/-- A 64-wide example device. -/
def exProp : DeviceProp where
  warpSize := 64
  maxThreadsPerBlock := 1024
  sharedMemPerBlock := 65536
  multiProcessorCount := 60
  maxGridSize0 := 2147483647
  maxGridSize1 := 65535
  maxGridSize2 := 65535

/-- A 32-wide example device. -/
def exProp32 : DeviceProp := { exProp with warpSize := 32 }

/-- An example split with a minor volume of 256 and 10 batches. -/
def exTs (m : Method) : TensorSplit where
  method := m
  volMm := 16
  volMk := 16
  volMkBar := 16
  volMmk := 256
  volMbar := 10
  splitDim := 8
  numSplit := 2
  volMmkUnsplit := 64

/-- An example split for PackedSplit whose blocks handle 1024 elements. -/
def exTsBig : TensorSplit := { exTs Method.PackedSplit with splitDim := 32 }

/-- A launch configuration with all fields zero. -/
def lcZero : LaunchConfig := ⟨⟨0, 0, 0⟩, ⟨0, 0, 0⟩, 0, 0⟩

/-- The score `ts.volMmkUsed() * numActiveBlock` of a candidate
(cuttkernel.cpp:746, 802). -/
def score (E : Externals) (ts : TensorSplit) (c : Candidate) : Int :=
  (E.volMmkUsed ts : Int) * c.numActiveBlock

/-- The grid-extent check (cuttkernel.cpp:847-849) passes. -/
def gridFits (prop : DeviceProp) (lc : LaunchConfig) : Prop :=
  lc.numblock.x ≤ prop.maxGridSize0 ∧ lc.numblock.y ≤ prop.maxGridSize1 ∧
    lc.numblock.z ≤ prop.maxGridSize2

/-- The warp-count component `numthread/prop.warpSize - 1` of the cache key
for candidate `r` (cuttkernel.cpp:603), the block being `numthread.x` by 1 by 1. -/
def keyWarpFor (prop : DeviceProp) (V r : Int) : Int :=
  Int.tdiv (threadsFor prop V r * 1 * 1) prop.warpSize - 1

/-- The host state `b` is a later state than `a`: `numDevices` is initialised
and is the one `a` has or gets, and every entry present in the cache of `a`
is unchanged in `b`. -/
def Extends (E : Externals) (a b : HostState) : Prop :=
  withDevices E b = b ∧ b.numDevices = (withDevices E a).numDevices ∧
    ∀ k, a.nabCache k ≠ -1 → b.nabCache k = a.nabCache k

/-- An example launch configuration for PackedSplit: 128 threads, 2 by 10
blocks, 1024 bytes of shared memory, register multiplicity 2. -/
def exLc : LaunchConfig := ⟨⟨128, 1, 1⟩, ⟨2, 10, 1⟩, 1024, 2⟩

/-! ### Device side: memory, loops and the packed kernels -/

/-- The effect of a list of stores `(offset, value)`, applied in order, on an
array. -/
def applyWrites {α : Type} (l : List (Nat × α)) (m : Nat → α) : Nat → α :=
  l.foldl (fun m w => Function.update m w.1 w.2) m

/-- Concatenation of the results of a list of steps, undefined as soon as
one step is. -/
def optConcat {β : Type} : List (Option (List β)) → Option (List β)
  | [] => some []
  | none :: _ => none
  | some l :: rest =>
    match optConcat rest with
    | none => none
    | some ls => some (l ++ ls)

/-- The index values of the loop `for (pos = start; pos < bound; pos += step)`
(cuttkernel.cpp:84, 102, 192), with a bound on the number of iterations;
`none` when the bound is exhausted before the loop ends. -/
def strideLoop (step bound : Nat) : Nat → Nat → Option (List Nat)
  | 0, pos => if pos < bound then none else some []
  | fuel + 1, pos =>
    if pos < bound then
      match strideLoop step bound fuel (pos + step) with
      | none => none
      | some l => some (pos :: l)
    else some []

/-- The per-lane load of a shared-slot record (cuttkernel.cpp:154-159). -/
def loadConv (size : Nat) (gl : Nat → TensorConv) (junk : TensorConv) (warpLane : Nat) :
    TensorConv :=
  if warpLane < size then gl warpLane else { c := 1, d := 1, ct := junk.ct }

/-- One term `((pos / __shfl(M.c, i)) % __shfl(M.d, i)) * __shfl(M.ct, i)`
(cuttkernel.cpp:176-178), `reg t` being the record thread `t` holds. -/
def shflDigit (warpSize blockDim : Nat) (reg : Nat → TensorConv) (tid i pos : Nat) :
    Option Nat :=
  match shfl warpSize (blockRegs blockDim (fun t => (reg t).c)) tid i,
    shfl warpSize (blockRegs blockDim (fun t => (reg t).d)) tid i,
    shfl warpSize (blockRegs blockDim (fun t => (reg t).ct)) tid i with
  | some c, some d, some ct => some (((pos / c) % d) * ct)
  | _, _, _ => none

/-- The accumulation `for (i = 0; i < n; i++) acc += ...` of one register slot
(cuttkernel.cpp:172-180), started from `init`. -/
def shflDecode (warpSize blockDim : Nat) (reg : Nat → TensorConv) (tid pos init : Nat) :
    Nat → Option Nat
  | 0 => some init
  | i + 1 =>
    match shflDecode warpSize blockDim reg tid pos init i,
      shflDigit warpSize blockDim reg tid i pos with
    | some a, some x => some (a + x)
    | _, _ => none

/-- What a block finds in its uninitialised registers and shared memory. -/
structure Garbage (α : Type) where
  mmk : Nat → TensorConvInOut
  msh : Nat → TensorConv
  mbar : Nat → TensorConvInOut
  shared : Nat → α

/-- The work of one block of the packed kernels, as the kernels derive it
from their arguments and the block index: the two digit tables, the base
offsets `posMmkIn0` / `posMmkOut0`, the number of elements and the batch
indices the block loops over. -/
structure PackedWork where
  warpSize : Nat
  blockDim : Nat
  numRegStorage : Nat
  sizeMmk : Nat
  sizeMbar : Nat
  vol : Nat
  posMmkIn0 : Nat
  posMmkOut0 : Nat
  Mmk : Nat → TensorConvInOut
  Msh : Nat → TensorConv
  Mbar : Nat → TensorConvInOut

/-- The register `posMmkIn[j]` of thread `tid` (cuttkernel.cpp:163-180). -/
def PackedWork.posMmkIn {α : Type} (w : PackedWork) (g : Garbage α) (tid j : Nat) : Option Nat :=
  shflDecode w.warpSize w.blockDim
    (fun t => (loadInOut w.sizeMmk w.Mmk (g.mmk t) (warpLane w.warpSize t)).inPart)
    tid (tid + j * w.blockDim) w.posMmkIn0 w.sizeMmk

/-- The register `posMmkOut[j]` of thread `tid`. -/
def PackedWork.posMmkOut {α : Type} (w : PackedWork) (g : Garbage α) (tid j : Nat) :
    Option Nat :=
  shflDecode w.warpSize w.blockDim
    (fun t => (loadInOut w.sizeMmk w.Mmk (g.mmk t) (warpLane w.warpSize t)).outPart)
    tid (tid + j * w.blockDim) w.posMmkOut0 w.sizeMmk

/-- The register `posSh[j]` of thread `tid`. -/
def PackedWork.posSh {α : Type} (w : PackedWork) (g : Garbage α) (tid j : Nat) : Option Nat :=
  shflDecode w.warpSize w.blockDim
    (fun t => loadConv w.sizeMmk w.Msh (g.msh t) (warpLane w.warpSize t))
    tid (tid + j * w.blockDim) 0 w.sizeMmk

/-- The stores to `shBuffer` of the phase "Read from global memory"
(cuttkernel.cpp:209-215) of batch index `posMbar`, for all threads of the
block and all register slots; undefined when an executed load uses an
undefined offset. -/
def PackedWork.loads {α : Type} (w : PackedWork) (g : Garbage α) (dataIn : Nat → α)
    (posMbar : Nat) : Option (List (Nat × α)) :=
  optConcat ((List.range w.blockDim).map fun tid =>
    optConcat ((List.range w.numRegStorage).map fun j =>
      let posMmk := tid + j * w.blockDim
      if posMmk < w.vol then
        match posMajorIn w.warpSize w.blockDim w.sizeMbar w.Mbar g.mbar posMbar tid,
          w.posMmkIn g tid j with
        | some posMbarIn, some posMmkIn => some [(posMmk, dataIn (posMbarIn + posMmkIn))]
        | _, _ => none
      else some []))

/-- The stores to `dataOut` of the phase "Write to global memory"
(cuttkernel.cpp:219-225) of batch index `posMbar`, reading the shared buffer
`sh` as the first phase left it. -/
def PackedWork.stores {α : Type} (w : PackedWork) (g : Garbage α) (sh : Nat → α)
    (posMbar : Nat) : Option (List (Nat × α)) :=
  optConcat ((List.range w.blockDim).map fun tid =>
    optConcat ((List.range w.numRegStorage).map fun j =>
      let posMmk := tid + j * w.blockDim
      if posMmk < w.vol then
        match posMajorOut w.warpSize w.blockDim w.sizeMbar w.Mbar g.mbar posMbar tid,
          w.posMmkOut g tid j, w.posSh g tid j with
        | some posMbarOut, some posMmkOut, some posSh =>
          some [(posMbarOut + posMmkOut, sh posSh)]
        | _, _, _ => none
      else some []))

/-- One iteration of the batch loop: both phases, separated by the barrier.
Returns the shared buffer it leaves and its stores to `dataOut`. -/
def PackedWork.iter {α : Type} (w : PackedWork) (g : Garbage α) (dataIn : Nat → α)
    (posMbar : Nat) (sh : Nat → α) : Option ((Nat → α) × List (Nat × α)) :=
  match w.loads g dataIn posMbar with
  | none => none
  | some ld =>
    match w.stores g (applyWrites ld sh) posMbar with
    | none => none
    | some st => some (applyWrites ld sh, st)

/-- The batch loop of one block over the batch indices `batches`: the stores
to `dataOut`, in program order. -/
def PackedWork.run {α : Type} (w : PackedWork) (g : Garbage α) (dataIn : Nat → α) :
    List Nat → (Nat → α) → Option (List (Nat × α))
  | [], _ => some []
  | posMbar :: rest, sh =>
    match w.iter g dataIn posMbar sh with
    | none => none
    | some (sh1, st) =>
      match PackedWork.run w g dataIn rest sh1 with
      | none => none
      | some sts => some (st ++ sts)

/-- `transposePacked` (cuttkernel.cpp:131-230) on a grid of `gridDim` blocks
of `blockDim` threads: the stores to `dataOut` of all blocks, block after
block; `garbage b` is what block `b` finds in its registers and shared
memory.  Undefined (`none`) when a thread uses the value of a shuffle from a
lane that holds no thread. -/
def transposePacked {α : Type} (warpSize gridDim blockDim numRegStorage : Nat)
    (volMmk volMbar sizeMmk sizeMbar : Nat)
    (gl_Mmk gl_Mbar : Nat → TensorConvInOut) (gl_Msh : Nat → TensorConv)
    (garbage : Nat → Garbage α) (dataIn : Nat → α) : Option (List (Nat × α)) :=
  optConcat ((List.range gridDim).map fun blockIdx =>
    match strideLoop gridDim volMbar volMbar blockIdx with
    | none => none
    | some batches =>
      PackedWork.run
        { warpSize := warpSize, blockDim := blockDim, numRegStorage := numRegStorage,
          sizeMmk := sizeMmk, sizeMbar := sizeMbar, vol := volMmk,
          posMmkIn0 := 0, posMmkOut0 := 0, Mmk := gl_Mmk, Msh := gl_Msh, Mbar := gl_Mbar }
        (garbage blockIdx) dataIn batches (garbage blockIdx).shared)

/-- The input offset the codec assigns to batch index `b` and minor index
`p`: `inBar(b) + posMmkIn0 + inMmk(p)`. -/
def PackedWork.inOff (w : PackedWork) (b p : Nat) : Nat :=
  decode (fun i => (w.Mbar i).inPart) b w.sizeMbar
    + (w.posMmkIn0 + decode (fun i => (w.Mmk i).inPart) p w.sizeMmk)

/-- The output offset the codec assigns to batch index `b` and minor index
`p`: `outBar(b) + posMmkOut0 + outMmk(p)`. -/
def PackedWork.outOff (w : PackedWork) (b p : Nat) : Nat :=
  decode (fun i => (w.Mbar i).outPart) b w.sizeMbar
    + (w.posMmkOut0 + decode (fun i => (w.Mmk i).outPart) p w.sizeMmk)

/-- The shared-slot decode `sh(p)`. -/
def PackedWork.shOff (w : PackedWork) (p : Nat) : Nat :=
  0 + decode w.Msh p w.sizeMmk

/-- A block of `nw` full warps of `2^k` lanes whose tables fit a warp. -/
structure PackedWork.Full (w : PackedWork) (k nw : Nat) : Prop where
  ws : w.warpSize = 2 ^ k
  bd : w.blockDim = nw * 2 ^ k
  smmk : w.sizeMmk ≤ 2 ^ k
  smbar : w.sizeMbar ≤ 2 ^ k

/-- Minor table of a 2 x 2 transposition: input order and output order both
enumerate their own layout contiguously. -/
def exMmk2 : Nat → TensorConvInOut := fun i =>
  [(⟨1, 2, 1, 1, 2, 1⟩ : TensorConvInOut), ⟨2, 2, 2, 2, 2, 2⟩].getD i ⟨1, 1, 0, 1, 1, 0⟩

/-- Shared-slot table of a 2 x 2 transposition: the output-order index
`b + 2a` reads the slot `a + 2b`. -/
def exMsh2 : Nat → TensorConv := fun i =>
  [(⟨1, 2, 2⟩ : TensorConv), ⟨2, 2, 1⟩].getD i ⟨1, 1, 0⟩

/-- Major table of two batches of 4 elements. -/
def exMbar2 : Nat → TensorConvInOut := fun i =>
  [(⟨1, 2, 4, 1, 2, 4⟩ : TensorConvInOut)].getD i ⟨1, 1, 0, 1, 1, 0⟩

/-- Arbitrary register and shared-memory garbage used in examples. -/
def exGarbage : Nat → Garbage Nat := fun b =>
  { mmk := fun t => ⟨9, 9, 9 + t, 9, 9, 9 + b⟩,
    msh := fun t => ⟨9, 9, 90 + t⟩,
    mbar := fun t => ⟨9, 9, 900 + b, 9, 9, 900 + t⟩,
    shared := fun s => 1000 + s }

/-- The input array `0, 1, 2, ..`. -/
def exIn : Nat → Nat := fun i => i

/-- An output array of zeros. -/
def exOut : Nat → Nat := fun _ => 0

/-- The start position `floor(s*splitDim/G)` of split `s` as the claims on
`transposePackedSplit` write it, on unbounded integers: the value of `p0`
when the product `blockIdx.x*splitDim` does not wrap. -/
def exactP0 (splitDim gridDimX s : Nat) : Nat := s * splitDim / gridDimX

/-- The split volume `floor((s+1)*splitDim/G) - floor(s*splitDim/G)` as the
claims write it, on unbounded integers; the difference is never negative. -/
def exactVol (splitDim gridDimX s : Nat) : Nat :=
  (s + 1) * splitDim / gridDimX - exactP0 splitDim gridDimX s

/-- The table selector `volSplit(s) - floor(splitDim/G)` as the claims write
it, on unbounded integers; the difference is never negative. -/
def exactPlusOne (splitDim gridDimX s : Nat) : Nat :=
  exactVol splitDim gridDimX s - splitDim / gridDimX

/-- The work of the block with split index `s` as the claims on
`transposePackedSplit` describe it: the table rows `glMmk[r*sizeMmk ..]` and
`glMsh[r*sizeMmk ..]` with `r = exactPlusOne`, the base offsets
`exactP0*cMmSplit` and `exactP0*cMkSplit`, and `exactVol*volMmkUnsplit`
elements. -/
def exactWork (warpSize gridDimX blockDim numRegStorage : Nat)
    (splitDim volMmkUnsplit sizeMmk sizeMbar cMmSplit cMkSplit : Nat)
    (glMmk glMbar : Nat → TensorConvInOut) (glMsh : Nat → TensorConv) (s : Nat) : PackedWork :=
  { warpSize := warpSize, blockDim := blockDim, numRegStorage := numRegStorage,
    sizeMmk := sizeMmk, sizeMbar := sizeMbar,
    vol := exactVol splitDim gridDimX s * volMmkUnsplit,
    posMmkIn0 := exactP0 splitDim gridDimX s * cMmSplit,
    posMmkOut0 := exactP0 splitDim gridDimX s * cMkSplit,
    Mmk := fun i => glMmk (i + exactPlusOne splitDim gridDimX s * sizeMmk),
    Msh := fun i => glMsh (i + exactPlusOne splitDim gridDimX s * sizeMmk),
    Mbar := glMbar }

/-- `p0 = blockIdx.x*splitDim/gridDim.x` (cuttkernel.cpp:255): `blockIdx.x` and
`gridDim.x` are 32-bit unsigned, so the product is formed modulo 2^32.  For
a `splitDim` that fits `int` and `blockIdx.x < gridDim.x` the quotient is
below 2^31, so its conversion to `int` is exact. -/
def splitP0 (splitDim gridDimX s : Nat) : Nat := s * splitDim % 4294967296 / gridDimX

/-- `volSplit = (blockIdx.x + 1)*splitDim/gridDim.x - p0` (cuttkernel.cpp:256),
the product again modulo 2^32; the difference of the two quotients, both
below 2^31, may be negative. -/
def splitVol (splitDim gridDimX s : Nat) : Int :=
  (((s + 1) * splitDim % 4294967296 / gridDimX : Nat) : Int)
    - ((splitP0 splitDim gridDimX s : Nat) : Int)

/-- `plusone = volSplit - splitDim/gridDim.x` (cuttkernel.cpp:257); it may be
negative. -/
def splitPlusOne (splitDim gridDimX s : Nat) : Int :=
  splitVol splitDim gridDimX s - ((splitDim / gridDimX : Nat) : Int)

/-- The work of the block with split index `s` of `transposePackedSplit`
(cuttkernel.cpp:252-283): the table rows `glMmk[warpLane + plusone*sizeMmk]`
and `glMsh[warpLane + plusone*sizeMmk]`, the base offsets `p0*cMmSplit` and
`p0*cMkSplit`, and `volMmkSplit = volSplit*volMmkUnsplit` elements (none when
the product is negative: the tests `posMmk < volMmkSplit` then all fail).
Undefined (`none`) when `plusone` is negative and a lane reads its table row:
the read is before the start of the table. -/
def splitWork (warpSize gridDimX blockDim numRegStorage : Nat)
    (splitDim volMmkUnsplit sizeMmk sizeMbar cMmSplit cMkSplit : Nat)
    (glMmk glMbar : Nat → TensorConvInOut) (glMsh : Nat → TensorConv) (s : Nat) :
    Option PackedWork :=
  if splitPlusOne splitDim gridDimX s < 0 ∧ 0 < sizeMmk ∧ 0 < blockDim then none
  else some
    { warpSize := warpSize, blockDim := blockDim, numRegStorage := numRegStorage,
      sizeMmk := sizeMmk, sizeMbar := sizeMbar,
      vol := (splitVol splitDim gridDimX s * (volMmkUnsplit : Int)).toNat,
      posMmkIn0 := splitP0 splitDim gridDimX s * cMmSplit,
      posMmkOut0 := splitP0 splitDim gridDimX s * cMkSplit,
      Mmk := fun i => glMmk (i + (splitPlusOne splitDim gridDimX s).toNat * sizeMmk),
      Msh := fun i => glMsh (i + (splitPlusOne splitDim gridDimX s).toNat * sizeMmk),
      Mbar := glMbar }

/-- `posMbar0 = blockIdx.y*volMbar/gridDim.y` (cuttkernel.cpp:315): `blockIdx.y`
and `gridDim.y` are 32-bit unsigned, so the product is formed modulo 2^32.
For a `volMbar` that fits `int` and `blockIdx.y < gridDim.y` the quotient is
below 2^31, so its conversion to `int` is exact. -/
def posMbar0 (gridDimY volMbar y : Nat) : Nat := y * volMbar % 4294967296 / gridDimY

/-- `posMbar1 = (blockIdx.y + 1)*volMbar/gridDim.y` (cuttkernel.cpp:316), the
product modulo 2^32. -/
def posMbar1 (gridDimY volMbar y : Nat) : Nat := (y + 1) * volMbar % 4294967296 / gridDimY

/-- The batch loop `for (posMbar = posMbar0; posMbar < posMbar1; posMbar++)` of
the blocks with `blockIdx.y = y` (cuttkernel.cpp:317): the batch indices
visited. -/
def rangeBatch (gridDimY volMbar y : Nat) : Option (List Nat) :=
  strideLoop 1 (posMbar1 gridDimY volMbar y) (posMbar1 gridDimY volMbar y)
    (posMbar0 gridDimY volMbar y)

/-- The block `(x, y)` of `transposePackedSplit`: its stores to `dataOut`, in
program order. -/
def splitBlock {α : Type} (warpSize gridDimX gridDimY blockDim numRegStorage : Nat)
    (splitDim volMmkUnsplit volMbar sizeMmk sizeMbar cMmSplit cMkSplit : Nat)
    (glMmk glMbar : Nat → TensorConvInOut) (glMsh : Nat → TensorConv)
    (garbage : Nat → Nat → Garbage α) (dataIn : Nat → α) (blockIdxY blockIdxX : Nat) :
    Option (List (Nat × α)) :=
  match splitWork warpSize gridDimX blockDim numRegStorage splitDim volMmkUnsplit sizeMmk
      sizeMbar cMmSplit cMkSplit glMmk glMbar glMsh blockIdxX with
  | none => none
  | some w =>
    match rangeBatch gridDimY volMbar blockIdxY with
    | none => none
    | some batches =>
      PackedWork.run w (garbage blockIdxX blockIdxY) dataIn batches
        (garbage blockIdxX blockIdxY).shared

/-- `transposePackedSplit` (cuttkernel.cpp:238-355) on a grid of
`gridDimX` by `gridDimY` blocks of `blockDim` threads: the stores to
`dataOut` of all blocks.  The block `(x, y)` handles split `x` and loops over
the batch indices `posMbar0 .. posMbar1 - 1`. -/
def transposePackedSplit {α : Type} (warpSize gridDimX gridDimY blockDim numRegStorage : Nat)
    (splitDim volMmkUnsplit volMbar sizeMmk sizeMbar cMmSplit cMkSplit : Nat)
    (glMmk glMbar : Nat → TensorConvInOut) (glMsh : Nat → TensorConv)
    (garbage : Nat → Nat → Garbage α) (dataIn : Nat → α) : Option (List (Nat × α)) :=
  optConcat ((List.range gridDimY).map fun blockIdxY =>
    optConcat ((List.range gridDimX).map
      (splitBlock warpSize gridDimX gridDimY blockDim numRegStorage splitDim volMmkUnsplit
        volMbar sizeMmk sizeMbar cMmSplit cMkSplit glMmk glMbar glMsh garbage dataIn
        blockIdxY)))

/-- Minor table whose output strides are all 0. -/
def exMmkFlat : Nat → TensorConvInOut := fun i =>
  [(⟨1, 2, 1, 1, 2, 0⟩ : TensorConvInOut), ⟨2, 2, 2, 2, 2, 0⟩].getD i ⟨1, 1, 0, 1, 1, 0⟩

/-- Garbage for a two-dimensional grid used in examples. -/
def exGarbage2 : Nat → Nat → Garbage Nat := fun x y => exGarbage (x + 7 * y)

/-- Minor tables of a 2 x 3 transposition split in two along the axis of
size 3: the rows for a split volume of 1 and of 2. -/
def exMmkSplit : Nat → TensorConvInOut := fun i =>
  [(⟨1, 2, 1, 1, 1, 1⟩ : TensorConvInOut), ⟨2, 1, 2, 1, 2, 3⟩,
    ⟨1, 2, 1, 1, 2, 1⟩, ⟨2, 2, 2, 2, 2, 3⟩].getD i ⟨1, 1, 0, 1, 1, 0⟩

/-- Shared-slot tables matching `exMmkSplit`. -/
def exMshSplit : Nat → TensorConv := fun i =>
  [(⟨1, 1, 2⟩ : TensorConv), ⟨1, 2, 1⟩, ⟨1, 2, 2⟩, ⟨2, 2, 1⟩].getD i ⟨1, 1, 0⟩

/-- Major table of two batches of 6 elements. -/
def exMbar6 : Nat → TensorConvInOut := fun i =>
  [(⟨1, 2, 6, 1, 2, 6⟩ : TensorConvInOut)].getD i ⟨1, 1, 0, 1, 1, 0⟩

/-! ### Device side: the tiled kernels -/

/-- `PADDING = (sizeof(T) < 4 ? (4 / sizeof(T)) : 1)` (cuttkernel.cpp:50). -/
def padding (sizeofT : Nat) : Nat := if sizeofT < 4 then 4 / sizeofT else 1

/-- The bits `0 .. n-1` of a ballot: bit `l` is set when `act l` holds. -/
def ballotBits (act : Nat → Bool) : Nat → Nat
  | 0 => 0
  | l + 1 => ballotBits act l + (if act l then 2 ^ l else 0)

/-- `__ballot(pred)` as thread `tid` of a block of `blockDim` threads gets
it: bit `l` is set when lane `l` of its warp holds a thread and the
predicate holds for that thread. -/
def ballot (warpSize blockDim : Nat) (pred : Nat → Bool) (tid : Nat) : Nat :=
  ballotBits (fun l => decide (tid / warpSize * warpSize + l < blockDim)
    && pred (tid / warpSize * warpSize + l)) warpSize

/-- The test `(mask & (one << j)) != 0` on `unsigned long long`
(cuttkernel.cpp:105, 118). -/
def maskBit (mask j : Nat) : Bool :=
  (mask &&& ((1 <<< j) % 18446744073709551616)) != 0

/-- The arguments and launch geometry of `transposeTiled` and
`transposeTiledCopy`: blocks of `TILEDIM` by `TILEROWS` threads on a grid of
`gridDimX` by 1 by `gridDimZ` blocks. -/
structure TiledLaunch where
  warpSize : Nat
  TILEDIM : Nat
  TILEROWS : Nat
  sizeofT : Nat
  gridDimX : Nat
  gridDimZ : Nat
  numMm : Nat
  volMbar : Nat
  sizeMbar : Nat
  tiledVolX : Nat
  tiledVolY : Nat
  cuDimMk : Nat
  cuDimMm : Nat
  glMbar : Nat → TensorConvInOut

/-- Number of threads of a block. -/
def TiledLaunch.blockSize (L : TiledLaunch) : Nat := L.TILEDIM * L.TILEROWS

/-- `threadIdx.x` of the thread with linear index `t`. -/
def TiledLaunch.tx (L : TiledLaunch) (t : Nat) : Nat := t % L.TILEDIM

/-- `threadIdx.y` of the thread with linear index `t`. -/
def TiledLaunch.ty (L : TiledLaunch) (t : Nat) : Nat := t / L.TILEDIM

/-- `bx = (blockIdx.x % numMm)*TILEDIM` (cuttkernel.cpp:65). -/
def TiledLaunch.bx (L : TiledLaunch) (blockX : Nat) : Nat := (blockX % L.numMm) * L.TILEDIM

/-- `by = (blockIdx.x / numMm)*TILEDIM` (cuttkernel.cpp:66). -/
def TiledLaunch.by (L : TiledLaunch) (blockX : Nat) : Nat := (blockX / L.numMm) * L.TILEDIM

/-- The partial sum of thread `t` for the input offset, its lane being
`threadIdx.x & (warpSize - 1)` (cuttkernel.cpp:54-63, 87). -/
def TiledLaunch.digitIn (L : TiledLaunch) (junk : Nat → TensorConvInOut) (posMbar t : Nat) :
    Nat :=
  digit (loadInOut L.sizeMbar L.glMbar (junk t) (warpLane L.warpSize (L.tx t))).inPart posMbar

/-- The partial sum of thread `t` for the output offset (cuttkernel.cpp:88). -/
def TiledLaunch.digitOut (L : TiledLaunch) (junk : Nat → TensorConvInOut) (posMbar t : Nat) :
    Nat :=
  digit (loadInOut L.sizeMbar L.glMbar (junk t) (warpLane L.warpSize (L.tx t))).outPart posMbar

/-- `posMajorIn` of every thread after the reduction loop (cuttkernel.cpp:87-93). -/
def TiledLaunch.posMajorIn (L : TiledLaunch) (junk : Nat → TensorConvInOut) (posMbar : Nat) :
    Nat → Option Nat :=
  butterfly L.warpSize (blockRegs L.blockSize (L.digitIn junk posMbar))

/-- `posMajorOut` of every thread after the reduction loop. -/
def TiledLaunch.posMajorOut (L : TiledLaunch) (junk : Nat → TensorConvInOut) (posMbar : Nat) :
    Nat → Option Nat :=
  butterfly L.warpSize (blockRegs L.blockSize (L.digitOut junk posMbar))

/-- `maskIny = __ballot((yin + warpLane < tiledVol.y))*(xin < tiledVol.x)`
(cuttkernel.cpp:74), which is also the `mask` of `transposeTiledCopy`
(cuttkernel.cpp:388). -/
def TiledLaunch.maskIny (L : TiledLaunch) (blockX t : Nat) : Nat :=
  (ballot L.warpSize L.blockSize
      (fun t' => decide (L.by blockX + L.ty t' + warpLane L.warpSize (L.tx t') < L.tiledVolY)) t
    * (if L.bx blockX + L.tx t < L.tiledVolX then 1 else 0)) % 18446744073709551616

/-- `maskOutx = __ballot((xout + warpLane < tiledVol.x))*(yout < tiledVol.y)`
(cuttkernel.cpp:75). -/
def TiledLaunch.maskOutx (L : TiledLaunch) (blockX t : Nat) : Nat :=
  (ballot L.warpSize L.blockSize
      (fun t' => decide (L.bx blockX + L.ty t' + warpLane L.warpSize (L.tx t') < L.tiledVolX)) t
    * (if L.by blockX + L.tx t < L.tiledVolY then 1 else 0)) % 18446744073709551616

/-- One global-memory access of a tiled kernel, with the block, thread, row
step and batch iteration that performs it, the position `(X, Y)` of the
tiled volume it is about, the slot of the tile (or of the private array) it
goes through, its offset and the value moved. -/
structure TileAccess (α : Type) where
  blockX : Nat
  blockZ : Nat
  tid : Nat
  j : Nat
  posMbar : Nat
  X : Nat
  Y : Nat
  slot : Nat
  addr : Nat
  val : α

/-- The loop `for (j = 0; j < TILEDIM; j += TILEROWS) { if (mask bit j) access(pos);
pos += add; }` (cuttkernel.cpp:102-109, 115-122) over the row steps `steps`:
the accesses performed, `mk j pos` being the access of step `j` at offset
`pos`.  Undefined when an access is performed at an undefined offset. -/
def tileLoop {β : Type} (mask add : Nat) (mk : Nat → Nat → β) :
    List Nat → Option Nat → Option (List β)
  | [], _ => some []
  | j :: js, pos =>
    match tileLoop mask add mk js (pos.map (· + add)) with
    | none => none
    | some rest =>
      if maskBit mask j then
        match pos with
        | some p => some (mk j p :: rest)
        | none => none
      else some rest

/-- What a block of a tiled kernel finds in its registers, its shared tile
and its private array. -/
structure TiledGarbage (α : Type) where
  mbar : Nat → TensorConvInOut
  shared : Nat → α
  priv : Nat → Nat → α

/-- The slot `shTile[row][col]` of the tile `shTile[TILEDIM][TILEDIM+PADDING]`. -/
def TiledLaunch.slot (L : TiledLaunch) (row col : Nat) : Nat :=
  row * (L.TILEDIM + padding L.sizeofT) + col

/-- The load of `transposeTiled` by thread `t` at row step `j` and offset
`pos`: `shTile[ty + j][tx] = dataIn[pos]`, about position `(xin, yin + j)`
(cuttkernel.cpp:106). -/
def TiledLaunch.mkLoad {α : Type} (L : TiledLaunch) (dataIn : Nat → α)
    (blockX blockZ posMbar t j pos : Nat) : TileAccess α :=
  { blockX := blockX, blockZ := blockZ, tid := t, j := j, posMbar := posMbar,
    X := L.bx blockX + L.tx t, Y := L.by blockX + L.ty t + j,
    slot := L.slot (L.ty t + j) (L.tx t), addr := pos, val := dataIn pos }

/-- The store of `transposeTiled` by thread `t` at row step `j` and offset
`pos`: `dataOut[pos] = shTile[tx][ty + j]`, about position `(xout + j, yout)`
(cuttkernel.cpp:119). -/
def TiledLaunch.mkStore {α : Type} (L : TiledLaunch) (sh : Nat → α)
    (blockX blockZ posMbar t j pos : Nat) : TileAccess α :=
  { blockX := blockX, blockZ := blockZ, tid := t, j := j, posMbar := posMbar,
    X := L.bx blockX + L.ty t + j, Y := L.by blockX + L.tx t,
    slot := L.slot (L.tx t) (L.ty t + j), addr := pos,
    val := sh (L.slot (L.tx t) (L.ty t + j)) }

/-- `posIn = posMajorIn + posMinorIn` with `posMinorIn = xin + yin*cuDimMk`
(cuttkernel.cpp:79, 94). -/
def TiledLaunch.posIn {α : Type} (L : TiledLaunch) (g : TiledGarbage α)
    (blockX posMbar t : Nat) : Option Nat :=
  (L.posMajorIn g.mbar posMbar t).map
    (· + (L.bx blockX + L.tx t + (L.by blockX + L.ty t) * L.cuDimMk))

/-- `posOut = posMajorOut + posMinorOut` with `posMinorOut = yout + xout*cuDimMm`
(cuttkernel.cpp:80, 95). -/
def TiledLaunch.posOut {α : Type} (L : TiledLaunch) (g : TiledGarbage α)
    (blockX posMbar t : Nat) : Option Nat :=
  (L.posMajorOut g.mbar posMbar t).map
    (· + (L.by blockX + L.tx t + (L.bx blockX + L.ty t) * L.cuDimMm))

/-- The loads of one batch iteration of a block of `transposeTiled`
(cuttkernel.cpp:100-109), with `posInAdd = TILEROWS*cuDimMk`. -/
def TiledLaunch.loads {α : Type} (L : TiledLaunch) (g : TiledGarbage α) (dataIn : Nat → α)
    (steps : List Nat) (blockX blockZ posMbar : Nat) : Option (List (TileAccess α)) :=
  optConcat ((List.range L.blockSize).map fun t =>
    tileLoop (L.maskIny blockX t) (L.TILEROWS * L.cuDimMk)
      (L.mkLoad dataIn blockX blockZ posMbar t) steps (L.posIn g blockX posMbar t))

/-- The stores of one batch iteration of a block of `transposeTiled`
(cuttkernel.cpp:114-122), with `posOutAdd = TILEROWS*cuDimMm`. -/
def TiledLaunch.stores {α : Type} (L : TiledLaunch) (g : TiledGarbage α) (sh : Nat → α)
    (steps : List Nat) (blockX blockZ posMbar : Nat) : Option (List (TileAccess α)) :=
  optConcat ((List.range L.blockSize).map fun t =>
    tileLoop (L.maskOutx blockX t) (L.TILEROWS * L.cuDimMm)
      (L.mkStore sh blockX blockZ posMbar t) steps (L.posOut g blockX posMbar t))

/-- The batch loop of one block of `transposeTiled` over the batch indices
`batches`: the loads and the stores, in program order; the tile keeps its
content from one iteration to the next. -/
def TiledLaunch.run {α : Type} (L : TiledLaunch) (g : TiledGarbage α) (dataIn : Nat → α)
    (steps : List Nat) (blockX blockZ : Nat) :
    List Nat → (Nat → α) → Option (List (TileAccess α) × List (TileAccess α))
  | [], _ => some ([], [])
  | posMbar :: rest, sh =>
    match L.loads g dataIn steps blockX blockZ posMbar with
    | none => none
    | some ld =>
      let sh1 := applyWrites (ld.map fun e => (e.slot, e.val)) sh
      match L.stores g sh1 steps blockX blockZ posMbar with
      | none => none
      | some st =>
        match TiledLaunch.run L g dataIn steps blockX blockZ rest sh1 with
        | none => none
        | some (lds, sts) => some (ld ++ lds, st ++ sts)

/-- The two lists of a list of pairs of lists, concatenated. -/
def unzipConcat {β : Type} (l : List (List β × List β)) : List β × List β :=
  (l.flatMap Prod.fst, l.flatMap Prod.snd)

/-- The block `(blockX, 0, blockZ)` of a tiled kernel: its batch loop over
the values of `for (posMbar = blockIdx.z; posMbar < volMbar; posMbar += gridDim.z)`
(cuttkernel.cpp:84, 397). -/
def TiledLaunch.gridBlock {β : Type} (L : TiledLaunch)
    (block : List Nat → Nat → Nat → List Nat → Option (List β × List β))
    (steps : List Nat) (blockZ blockX : Nat) : Option (List (List β × List β)) :=
  match strideLoop L.gridDimZ L.volMbar L.volMbar blockZ with
  | none => none
  | some batches =>
    match block steps blockX blockZ batches with
    | none => none
    | some r => some [r]

/-- All blocks of a tiled kernel: `block blockX blockZ batches` is the batch
loop of one block, `batches` being the values of its loop
`for (posMbar = blockIdx.z; posMbar < volMbar; posMbar += gridDim.z)`, and
the row steps are those of `for (j = 0; j < TILEDIM; j += TILEROWS)`. -/
def TiledLaunch.grid {β : Type} (L : TiledLaunch)
    (block : List Nat → Nat → Nat → List Nat → Option (List β × List β)) :
    Option (List β × List β) :=
  match strideLoop L.TILEROWS L.TILEDIM L.TILEDIM 0 with
  | none => none
  | some steps =>
    match optConcat ((List.range L.gridDimZ).map fun blockZ =>
      optConcat ((List.range L.gridDimX).map (L.gridBlock block steps blockZ))) with
    | none => none
    | some rs => some (unzipConcat rs)

/-- `transposeTiled` (cuttkernel.cpp:43-126): the loads from `dataIn` and the
stores to `dataOut` of all blocks. -/
def transposeTiled {α : Type} (L : TiledLaunch) (garbage : Nat → Nat → TiledGarbage α)
    (dataIn : Nat → α) : Option (List (TileAccess α) × List (TileAccess α)) :=
  L.grid fun steps blockX blockZ batches =>
    L.run (garbage blockX blockZ) dataIn steps blockX blockZ batches
      (garbage blockX blockZ).shared

/-- The stores of a list of accesses, as `(offset, value)` pairs. -/
def storesOf {α : Type} (l : List (TileAccess α)) : List (Nat × α) :=
  l.map fun e => (e.addr, e.val)

/-- The launch the claims on the tiled kernels assume, for a warp of `2^k`
lanes: `TILEDIM = warpSize ≤ 64`, `TILEROWS` divides `TILEDIM`,
`sizeMbar ≤ warpSize`, `numMm = ceil(tiledVol.x / TILEDIM)`,
`gridDim.x = numMm * ceil(tiledVol.y / TILEDIM)` and `gridDim.z ≥ 1`. -/
structure TiledLaunch.Good (L : TiledLaunch) (k : Nat) : Prop where
  ws : L.warpSize = 2 ^ k
  td : L.TILEDIM = 2 ^ k
  k6 : k ≤ 6
  tr : L.TILEROWS ∣ L.TILEDIM
  smbar : L.sizeMbar ≤ 2 ^ k
  nmm : L.numMm = (L.tiledVolX + L.TILEDIM - 1) / L.TILEDIM
  gx : L.gridDimX = L.numMm * ((L.tiledVolY + L.TILEDIM - 1) / L.TILEDIM)
  gz : 1 ≤ L.gridDimZ

/-- The codec sum `inBar(b)` over the input fields of the major table. -/
def TiledLaunch.inBar (L : TiledLaunch) (b : Nat) : Nat :=
  decode (fun i => (L.glMbar i).inPart) b L.sizeMbar

/-- The codec sum `outBar(b)` over the output fields of the major table. -/
def TiledLaunch.outBar (L : TiledLaunch) (b : Nat) : Nat :=
  decode (fun i => (L.glMbar i).outPart) b L.sizeMbar

/-- The load of thread `t` at row step `j` in `transposeTiled`: position
`(xin, yin + j)`, tile slot `[ty + j][tx]`. -/
def TiledLaunch.loadEvent {α : Type} (L : TiledLaunch) (dataIn : Nat → α)
    (blockX blockZ posMbar t j : Nat) : TileAccess α :=
  { blockX := blockX, blockZ := blockZ, tid := t, j := j, posMbar := posMbar,
    X := L.bx blockX + L.tx t, Y := L.by blockX + L.ty t + j,
    slot := L.slot (L.ty t + j) (L.tx t),
    addr := L.inBar posMbar + (L.bx blockX + L.tx t + (L.by blockX + L.ty t) * L.cuDimMk)
      + j * L.cuDimMk,
    val := dataIn (L.inBar posMbar
      + (L.bx blockX + L.tx t + (L.by blockX + L.ty t) * L.cuDimMk) + j * L.cuDimMk) }

/-- The store of thread `t` at row step `j` in `transposeTiled`: position
`(xout + j, yout)`, tile slot `[tx][ty + j]`, carrying the value `v`. -/
def TiledLaunch.storeEvent {α : Type} (L : TiledLaunch) (v : α)
    (blockX blockZ posMbar t j : Nat) : TileAccess α :=
  { blockX := blockX, blockZ := blockZ, tid := t, j := j, posMbar := posMbar,
    X := L.bx blockX + L.ty t + j, Y := L.by blockX + L.tx t,
    slot := L.slot (L.tx t) (L.ty t + j),
    addr := L.outBar posMbar + (L.by blockX + L.tx t + (L.bx blockX + L.ty t) * L.cuDimMm)
      + j * L.cuDimMm,
    val := v }

/-- The block, batch iteration, thread and row step that perform an access. -/
def TileAccess.handler {α : Type} (e : TileAccess α) : Nat × Nat × Nat × Nat × Nat :=
  (e.blockX, e.blockZ, e.posMbar, e.tid, e.j)

/-- Whether an access is about position `(X, Y)` of the tiled volume in batch
`b`. -/
def TileAccess.about {α : Type} (e : TileAccess α) (b X Y : Nat) : Bool :=
  e.posMbar == b && e.X == X && e.Y == Y

/-- Major table of three batches of 6 elements. -/
def exMbarTiled : Nat → TensorConvInOut := fun i =>
  [(⟨1, 3, 6, 1, 3, 6⟩ : TensorConvInOut)].getD i ⟨1, 1, 0, 1, 1, 0⟩

/-- Three batches of a 3 x 2 tiled volume on a warp of two lanes: tiles of
2 x 2 handled by blocks of 2 x 1 threads, a grid of 2 x 1 x 2 blocks. -/
def exTiled : TiledLaunch :=
  { warpSize := 2, TILEDIM := 2, TILEROWS := 1, sizeofT := 4, gridDimX := 2, gridDimZ := 2,
    numMm := 2, volMbar := 3, sizeMbar := 1, tiledVolX := 3, tiledVolY := 2,
    cuDimMk := 3, cuDimMm := 2, glMbar := exMbarTiled }

/-- One batch of a 2 x 2 tiled volume whose output row stride `cuDimMm` is 1,
so that positions `(0, 1)` and `(1, 0)` have the same output offset: one tile
handled by one block of 2 x 2 threads. -/
def exTiledFlat : TiledLaunch :=
  { warpSize := 2, TILEDIM := 2, TILEROWS := 2, sizeofT := 4, gridDimX := 1, gridDimZ := 1,
    numMm := 1, volMbar := 1, sizeMbar := 1, tiledVolX := 2, tiledVolY := 2,
    cuDimMk := 2, cuDimMm := 1, glMbar := fun _ => ⟨1, 1, 0, 1, 1, 0⟩ }

/-- What the blocks of a tiled kernel find in registers, shared memory and
private arrays in the examples. -/
def exTiledGarbage : Nat → Nat → TiledGarbage Nat := fun x z =>
  { mbar := fun t => ⟨9, 9, 9 + t, 9, 9, 9 + x⟩,
    shared := fun s => 1000 + s + z,
    priv := fun t i => 2000 + t + i }

/-- `posOut = posMajorOut + posMinorOut` of `transposeTiledCopy`, with
`posMinorOut = x + y*cuDimMm` (cuttkernel.cpp:393, 408). -/
def TiledLaunch.copyPosOut {α : Type} (L : TiledLaunch) (g : TiledGarbage α)
    (blockX posMbar t : Nat) : Option Nat :=
  (L.posMajorOut g.mbar posMbar t).map
    (· + (L.bx blockX + L.tx t + (L.by blockX + L.ty t) * L.cuDimMm))

/-- The load of `transposeTiledCopy` by thread `t` at row step `j` and offset
`pos`: `val[j/TILEROWS] = dataIn[pos]`, about position `(x, y + j)`
(cuttkernel.cpp:418). -/
def TiledLaunch.mkCopyLoad {α : Type} (L : TiledLaunch) (dataIn : Nat → α)
    (blockX blockZ posMbar t j pos : Nat) : TileAccess α :=
  { blockX := blockX, blockZ := blockZ, tid := t, j := j, posMbar := posMbar,
    X := L.bx blockX + L.tx t, Y := L.by blockX + L.ty t + j,
    slot := j / L.TILEROWS, addr := pos, val := dataIn pos }

/-- The store of `transposeTiledCopy` by thread `t` at row step `j` and offset
`pos`: `dataOut[pos] = val[j/TILEROWS]`, about position `(x, y + j)`
(cuttkernel.cpp:428). -/
def TiledLaunch.mkCopyStore {α : Type} (L : TiledLaunch) (val : Nat → α)
    (blockX blockZ posMbar t j pos : Nat) : TileAccess α :=
  { blockX := blockX, blockZ := blockZ, tid := t, j := j, posMbar := posMbar,
    X := L.bx blockX + L.tx t, Y := L.by blockX + L.ty t + j,
    slot := j / L.TILEROWS, addr := pos, val := val (j / L.TILEROWS) }

/-- One batch iteration of one thread of `transposeTiledCopy`
(cuttkernel.cpp:410-432): its loads into the private array `val`, which
starts with whatever the thread finds there, then its stores from it; both
loops test the same `mask`. -/
def TiledLaunch.copyThread {α : Type} (L : TiledLaunch) (g : TiledGarbage α)
    (dataIn : Nat → α) (steps : List Nat) (blockX blockZ posMbar t : Nat) :
    Option (List (TileAccess α) × List (TileAccess α)) :=
  match tileLoop (L.maskIny blockX t) (L.TILEROWS * L.cuDimMk)
      (L.mkCopyLoad dataIn blockX blockZ posMbar t) steps (L.posIn g blockX posMbar t) with
  | none => none
  | some ld =>
    match tileLoop (L.maskIny blockX t) (L.TILEROWS * L.cuDimMm)
        (L.mkCopyStore (applyWrites (ld.map fun e => (e.slot, e.val)) (g.priv t))
          blockX blockZ posMbar t)
        steps (L.copyPosOut g blockX posMbar t) with
    | none => none
    | some st => some (ld, st)

/-- The batch loop of one block of `transposeTiledCopy` over the batch
indices `batches`: the loads and the stores of its threads. -/
def TiledLaunch.copyRun {α : Type} (L : TiledLaunch) (g : TiledGarbage α) (dataIn : Nat → α)
    (steps : List Nat) (blockX blockZ : Nat) :
    List Nat → Option (List (TileAccess α) × List (TileAccess α))
  | [] => some ([], [])
  | posMbar :: rest =>
    match optConcat ((List.range L.blockSize).map fun t =>
        (L.copyThread g dataIn steps blockX blockZ posMbar t).map Prod.fst) with
    | none => none
    | some ld =>
      match optConcat ((List.range L.blockSize).map fun t =>
          (L.copyThread g dataIn steps blockX blockZ posMbar t).map Prod.snd) with
      | none => none
      | some st =>
        match TiledLaunch.copyRun L g dataIn steps blockX blockZ rest with
        | none => none
        | some (lds, sts) => some (ld ++ lds, st ++ sts)

/-- `transposeTiledCopy` (cuttkernel.cpp:364-435): the loads from `dataIn` and
the stores to `dataOut` of all blocks. -/
def transposeTiledCopy {α : Type} (L : TiledLaunch) (garbage : Nat → Nat → TiledGarbage α)
    (dataIn : Nat → α) : Option (List (TileAccess α) × List (TileAccess α)) :=
  L.grid fun steps blockX blockZ batches =>
    L.copyRun (garbage blockX blockZ) dataIn steps blockX blockZ batches

/-- The load of thread `t` at row step `j` in `transposeTiledCopy`: position
`(x, y + j)`, private slot `j/TILEROWS`. -/
def TiledLaunch.copyLoadEvent {α : Type} (L : TiledLaunch) (dataIn : Nat → α)
    (blockX blockZ posMbar t j : Nat) : TileAccess α :=
  { blockX := blockX, blockZ := blockZ, tid := t, j := j, posMbar := posMbar,
    X := L.bx blockX + L.tx t, Y := L.by blockX + L.ty t + j,
    slot := j / L.TILEROWS,
    addr := L.inBar posMbar + (L.bx blockX + L.tx t + (L.by blockX + L.ty t) * L.cuDimMk)
      + j * L.cuDimMk,
    val := dataIn (L.inBar posMbar
      + (L.bx blockX + L.tx t + (L.by blockX + L.ty t) * L.cuDimMk) + j * L.cuDimMk) }

/-- The store of thread `t` at row step `j` in `transposeTiledCopy`: position
`(x, y + j)`, private slot `j/TILEROWS`, carrying the value `v`. -/
def TiledLaunch.copyStoreEvent {α : Type} (L : TiledLaunch) (v : α)
    (blockX blockZ posMbar t j : Nat) : TileAccess α :=
  { blockX := blockX, blockZ := blockZ, tid := t, j := j, posMbar := posMbar,
    X := L.bx blockX + L.tx t, Y := L.by blockX + L.ty t + j,
    slot := j / L.TILEROWS,
    addr := L.outBar posMbar + (L.bx blockX + L.tx t + (L.by blockX + L.ty t) * L.cuDimMm)
      + j * L.cuDimMm,
    val := v }

/-- Major table of two batches, 6 elements apart in the input and 8 in the
output. -/
def exMbarCopy : Nat → TensorConvInOut := fun i =>
  [(⟨1, 2, 6, 1, 2, 8⟩ : TensorConvInOut)].getD i ⟨1, 1, 0, 1, 1, 0⟩

/-- Two batches of a 3 x 2 tiled volume copied from rows 3 apart to rows 4
apart, on a warp of two lanes: tiles of 2 x 2 handled by blocks of 2 x 1
threads, a grid of 2 x 1 x 1 blocks. -/
def exTiledCopy : TiledLaunch :=
  { warpSize := 2, TILEDIM := 2, TILEROWS := 1, sizeofT := 4, gridDimX := 2, gridDimZ := 1,
    numMm := 2, volMbar := 2, sizeMbar := 1, tiledVolX := 3, tiledVolY := 2,
    cuDimMk := 3, cuDimMm := 4, glMbar := exMbarCopy }

/-- What `getNumActiveBlock` does besides computing its return value, in
program order: the device-count query of the lazy initialisation
(cuttkernel.cpp:599-601), a lookup in `nabCache` (cuttkernel.cpp:617), an
insertion into it (cuttkernel.cpp:630) and an occupancy query. -/
inductive HostEvent where
  | deviceCount
  | cacheGet (key : Int)
  | cacheSet (key value : Int)
  | occupancyQuery (kernel : Method) (sizeofType numRegStorage numthread : Int)
      (shmemsize : Nat)
deriving DecidableEq, Repr

/-- The occupancy query that `occupancySwitch` issues, if any. -/
def occupancySwitchEvents (E : Externals) (kernel : Method) (sizeofType : Int)
    (lc : LaunchConfig) (numthread : Int) : List HostEvent :=
  if lc.numRegStorage ∈ E.calls ∧ (sizeofType = 2 ∨ sizeofType = 4 ∨ sizeofType = 8) then
    [HostEvent.occupancyQuery kernel sizeofType lc.numRegStorage numthread lc.shmemsize]
  else []

/-- The occupancy query that `occupancyTiled` issues, if any. -/
def occupancyTiledEvents (kernel : Method) (sizeofType : Int) (lc : LaunchConfig)
    (numthread : Int) : List HostEvent :=
  if sizeofType = 2 ∨ sizeofType = 4 ∨ sizeofType = 8 then
    [HostEvent.occupancyQuery kernel sizeofType 0 numthread lc.shmemsize]
  else []

/-- The device-count query that `withDevices` issues, if any. -/
def withDevicesEvents (st : HostState) : List HostEvent :=
  if st.numDevices = -1 then [HostEvent.deviceCount] else []

/-- `getNumActiveBlock` (cuttkernel.cpp:569-670) with the operations it
performs on the way to its result; `none` is `exit(1)`. -/
def getNumActiveBlockTraced (E : Externals) (method : Method) (sizeofType : Int)
    (lc : LaunchConfig) (deviceID : Int) (prop : DeviceProp) (st : HostState) :
    List HostEvent × Option (Int × HostState) :=
  let numthread := lc.numthread.x * lc.numthread.y * lc.numthread.z
  match method with
  | Method.Trivial => ([], some (1, st))
  | Method.Packed =>
    (occupancySwitchEvents E Method.Packed sizeofType lc numthread,
      some (occupancySwitch E Method.Packed sizeofType lc numthread E.uninit st))
  | Method.PackedSplit =>
    let st1 := withDevices E st
    let key_warp := Int.tdiv numthread prop.warpSize - 1
    if key_warp ≥ MAX_NUMWARP then (withDevicesEvents st, none)
    else
      let key := cacheKey E st1.numDevices lc.shmemsize sizeofType deviceID lc.numRegStorage
        key_warp
      let numActiveBlock := st1.nabCache key
      if numActiveBlock = -1 then
        let r := occupancySwitch E Method.PackedSplit sizeofType lc numthread numActiveBlock st1
        (withDevicesEvents st ++ [HostEvent.cacheGet key]
            ++ occupancySwitchEvents E Method.PackedSplit sizeofType lc numthread
            ++ [HostEvent.cacheSet key r.1],
          some (r.1, { r.2 with nabCache := Function.update r.2.nabCache key r.1 }))
      else (withDevicesEvents st ++ [HostEvent.cacheGet key], some (numActiveBlock, st1))
  | Method.Tiled =>
    (occupancyTiledEvents Method.Tiled sizeofType lc numthread,
      some (occupancyTiled E Method.Tiled sizeofType lc numthread st))
  | Method.TiledCopy =>
    (occupancyTiledEvents Method.TiledCopy sizeofType lc numthread,
      some (occupancyTiled E Method.TiledCopy sizeofType lc numthread st))

/-- Whether an operation reads or writes the cache or is an occupancy
query. -/
def HostEvent.touchesCache : HostEvent → Bool
  | HostEvent.deviceCount => false
  | _ => true

/-- A launch configuration of `x` by 1 by 1 threads, for examples. -/
def exLcThreads (x : Int) : LaunchConfig := ⟨⟨x, 1, 1⟩, ⟨2, 10, 1⟩, 1024, 2⟩

/-! ### Host side: the dispatcher -/

/-- The fields of `cuttPlan_t` that `cuttKernel` reads: the launch
configuration, the split (with its fields `sizeMmk` and `sizeMbar`, which the
planner does not read), the element size, the leading dimensions and the
tiled volume.  The digit tables and the stream are passed on unread. -/
structure Plan where
  launchConfig : LaunchConfig
  tensorSplit : TensorSplit
  sizeofType : Int
  sizeMmk : Int
  sizeMbar : Int
  cuDimMk : Int
  cuDimMm : Int
  tiledVolX : Int
  tiledVolY : Int
deriving DecidableEq, Repr

/-- What `cuttKernel` submits to the stream of the plan: the asynchronous copy
of the Trivial method with its byte count, or the launch of a kernel (named
by its method) for an element size and a register multiplicity (0 for the
tiled kernels, which have no such template parameter), with the grid, the
block, the shared-memory size and the scalar arguments. -/
inductive DeviceOp where
  | memcpy (bytes : Int)
  | launch (kernel : Method) (sizeofType numRegStorage : Int) (numblock numthread : Dim3)
      (shmemsize : Nat) (args : List Int)
deriving DecidableEq, Repr

/-- The chain `if (plan.sizeofType == 2) CALL(half); if (plan.sizeofType == 4)
CALL(float); if (plan.sizeofType == 8) CALL(double);` (cuttkernel.cpp:886,
902, 920-922, 932-934): the launch is submitted for an element size of 2, 4
or 8 and for no other. -/
def launchTyped (sizeofType : Int) (op : DeviceOp) : List DeviceOp :=
  if sizeofType = 2 ∨ sizeofType = 4 ∨ sizeofType = 8 then [op] else []

/-- `cuttKernel` (cuttkernel.cpp:859-943): the return value and the
operations submitted.  The runtime calls are taken to succeed, so that
`hipCheck`, a macro defined outside the sources, lets execution continue. -/
def cuttKernel (E : Externals) (plan : Plan) : Bool × List DeviceOp :=
  let lc := plan.launchConfig
  let ts := plan.tensorSplit
  match ts.method with
  | Method.Trivial => (true, [DeviceOp.memcpy (ts.volMmk * ts.volMbar * plan.sizeofType)])
  | Method.Packed =>
    if lc.numRegStorage ∈ E.calls then
      (true, launchTyped plan.sizeofType
        (DeviceOp.launch Method.Packed plan.sizeofType lc.numRegStorage lc.numblock
          lc.numthread lc.shmemsize [ts.volMmk, ts.volMbar, plan.sizeMmk, plan.sizeMbar]))
    else (false, [])
  | Method.PackedSplit =>
    if lc.numRegStorage ∈ E.calls then
      (true, launchTyped plan.sizeofType
        (DeviceOp.launch Method.PackedSplit plan.sizeofType lc.numRegStorage lc.numblock
          lc.numthread lc.shmemsize
          [ts.splitDim, ts.volMmkUnsplit, ts.volMbar, plan.sizeMmk, plan.sizeMbar,
            plan.cuDimMm, plan.cuDimMk]))
    else (false, [])
  | Method.Tiled =>
    (true, launchTyped plan.sizeofType
      (DeviceOp.launch Method.Tiled plan.sizeofType 0 lc.numblock lc.numthread 0
        [Int.tdiv (ts.volMm - 1) E.TILEDIM + 1, ts.volMbar, plan.sizeMbar,
          plan.tiledVolX, plan.tiledVolY, plan.cuDimMk, plan.cuDimMm]))
  | Method.TiledCopy =>
    (true, launchTyped plan.sizeofType
      (DeviceOp.launch Method.TiledCopy plan.sizeofType 0 lc.numblock lc.numthread 0
        [Int.tdiv (ts.volMm - 1) E.TILEDIM + 1, ts.volMbar, plan.sizeMbar,
          plan.cuDimMk, plan.cuDimMm, plan.tiledVolX, plan.tiledVolY]))

/-- The content of `dataOut` once the submitted operations have run, each
operation `op` turning the content `m` into `effect op m`. -/
def deviceOut {α : Type} (effect : DeviceOp → (Nat → α) → (Nat → α)) (ops : List DeviceOp)
    (dataOut : Nat → α) : Nat → α :=
  ops.foldl (fun m op => effect op m) dataOut

/-- An example plan for method `m`, element size `sizeofType` and register
multiplicity `r`. -/
def exPlan (m : Method) (sizeofType r : Int) : Plan :=
  { launchConfig := ⟨⟨128, 1, 1⟩, ⟨2, 10, 1⟩, 1024, r⟩, tensorSplit := exTs m,
    sizeofType := sizeofType, sizeMmk := 2, sizeMbar := 1, cuDimMk := 16, cuDimMm := 16,
    tiledVolX := 16, tiledVolY := 16 }

/-! ### Device side: the bulk copies of `CudaMemcpy.cpp` -/

/-- `const int numthread = 64` (CudaMemcpy.cpp:30). -/
def numthread : Int := 64

/-- One access of a copy kernel: the block and the thread that perform it
and the index accessed (of an element, or of a 16-byte vector). -/
structure CopyAccess where
  block : Nat
  thread : Nat
  index : Nat
deriving DecidableEq, Repr

/-- The loop `for (i = start; i < bound; i += step)` on unbounded integers as
every thread `(b, t)` of a grid of `gridDim` blocks of `blockDim` threads
would run it: what `gridLoop` computes when no index of the kernel leaves the
range of `int`. -/
def gridLoopExact (gridDim blockDim : Nat) (start step : Nat → Nat → Nat) (bound : Nat) :
    Option (List CopyAccess) :=
  optConcat ((List.range gridDim).map fun b =>
    optConcat ((List.range blockDim).map fun t =>
      (strideLoop (step b t) bound bound (start b t)).map fun l =>
        l.map fun i => CopyAccess.mk b t i))

/-- The accesses of `scalarCopyKernel` on unbounded integers. -/
def scalarCopyKernelExact (gridDim blockDim n : Nat) : Option (List CopyAccess) :=
  gridLoopExact gridDim blockDim (fun b t => t + b * blockDim) (fun _ _ => blockDim * gridDim) n

/-- `numblock = (n - 1)/numthread + 1` of `scalarCopy` (CudaMemcpy.cpp:47). -/
def scalarCopyNumblock (n : Int) : Int := Int.tdiv (n - 1) numthread + 1

/-- The accesses of the launch of `scalarCopy` on unbounded integers. -/
def scalarCopyExact (n : Int) : Option (List CopyAccess) :=
  scalarCopyKernelExact (scalarCopyNumblock n).toNat numthread.toNat n.toNat

/-- The stores `data_out[i] = data_in[i]` of a list of element accesses, as
`(offset, value)` pairs. -/
def copyStores {α : Type} (dataIn : Nat → α) (ev : List CopyAccess) : List (Nat × α) :=
  ev.map fun e => (e.index, dataIn e.index)

/-- `vectorLength = 16/sizeof(T)` (CudaMemcpy.cpp:65, 84). -/
def vectorLength (sizeofT : Nat) : Nat := 16 / sizeofT

/-- The vector accesses and the tail accesses of `vectorCopyKernel` on
unbounded integers. -/
def vectorCopyKernelExact (gridDim blockDim vectorLength n : Nat) :
    Option (List CopyAccess × List CopyAccess) :=
  (gridLoopExact gridDim blockDim (fun b t => t + b * blockDim) (fun _ _ => blockDim * gridDim)
      (n / vectorLength)).bind fun vec =>
    (gridLoopExact gridDim blockDim
        (fun b t => t + b * blockDim + (n / vectorLength) * vectorLength)
        (fun _ t => blockDim * gridDim + t) n).map fun tail => (vec, tail)

/-- `numblock = (n/vectorLength - 1)/numthread + 1` of `vectorCopy`
(CudaMemcpy.cpp:86). -/
def vectorCopyNumblock (sizeofT : Nat) (n : Int) : Int :=
  Int.tdiv (Int.tdiv n (vectorLength sizeofT) - 1) numthread + 1

/-- The accesses of the launch of `vectorCopy` on unbounded integers. -/
def vectorCopyExact (sizeofT : Nat) (n : Int) : Option (List CopyAccess × List CopyAccess) :=
  vectorCopyKernelExact (vectorCopyNumblock sizeofT n).toNat numthread.toNat (vectorLength sizeofT)
    n.toNat

/-- The `int` with the 32-bit pattern of `x`: the conversion of an `unsigned`
value to `int`, and the result of an `int` sum that leaves the range. -/
def toInt32 (x : Int) : Int := (x + 2147483648) % 4294967296 - 2147483648

/-- The values of `i` at which the body of
`for (int i = start; i < bound; i += step)` runs, `step` being `unsigned`:
`i + step` is formed modulo 2^32 and converted to `int` (CudaMemcpy.cpp:39,
70, 75).  `none` when the loop has not ended after `fuel` iterations. -/
def intLoop (step : Nat) (bound : Int) : Nat → Int → Option (List Int)
  | 0, i => if i < bound then none else some []
  | fuel + 1, i =>
    if i < bound then
      match intLoop step bound fuel (toInt32 (i + (step : Int))) with
      | none => none
      | some l => some (i :: l)
    else some []

/-- The accesses `data[i]` of thread `t` of block `b` at the values of `i` in
`l`.  Undefined (`none`) when an index is negative: the access is before the
start of the array. -/
def threadAccesses (b t : Nat) (l : List Int) : Option (List CopyAccess) :=
  if l.all (fun i => decide (0 ≤ i)) then some (l.map fun i => CopyAccess.mk b t i.toNat)
  else none

/-- The loop `for (int i = start; i < bound; i += step)` as every thread
`(b, t)` of a grid of `gridDim` blocks of `blockDim` threads runs it, the
start and the step depending on the thread: the accesses, by block and
thread.  Undefined when a loop does not end within `bound` iterations or
accesses a negative index. -/
def gridLoop (gridDim blockDim : Nat) (start : Nat → Nat → Int) (step : Nat → Nat → Nat)
    (bound : Nat) : Option (List CopyAccess) :=
  optConcat ((List.range gridDim).map fun b =>
    optConcat ((List.range blockDim).map fun t =>
      (intLoop (step b t) (bound : Int) bound (start b t)).bind (threadAccesses b t)))

/-- `scalarCopyKernel` (CudaMemcpy.cpp:36-43) for `n ≥ 0`: the accesses
`data_out[i] = data_in[i]`, with `int i` from
`threadIdx.x + blockIdx.x*blockDim.x` in steps of `blockDim.x*gridDim.x`,
both formed in 32-bit unsigned arithmetic. -/
def scalarCopyKernel (gridDim blockDim n : Nat) : Option (List CopyAccess) :=
  gridLoop gridDim blockDim
    (fun b t => toInt32 (((t + b * blockDim) % 4294967296 : Nat) : Int))
    (fun _ _ => blockDim * gridDim % 4294967296) n

/-- `scalarCopy` (CudaMemcpy.cpp:44-54): the accesses of the kernel it
launches on `numblock` blocks of `numthread` threads. -/
def scalarCopy (n : Int) : Option (List CopyAccess) :=
  scalarCopyKernel (scalarCopyNumblock n).toNat numthread.toNat n.toNat

/-- `vectorCopyKernel` (CudaMemcpy.cpp:61-79) for `n ≥ 0`, with
`int idx = threadIdx.x + blockIdx.x*blockDim.x`: the vector accesses
`int4 out[i] = in[i]` of the first loop, with `i` from `idx` below
`n/vectorLength` in steps of `blockDim.x*gridDim.x`, and the element accesses
of the second loop, with `i` from the `int` sum
`idx + (n/vectorLength)*vectorLength` in steps of
`blockDim.x*gridDim.x + threadIdx.x`; the unsigned expressions are formed
modulo 2^32, and an `int` sum that leaves the range wraps. -/
def vectorCopyKernel (gridDim blockDim vectorLength n : Nat) :
    Option (List CopyAccess × List CopyAccess) :=
  (gridLoop gridDim blockDim
      (fun b t => toInt32 (((t + b * blockDim) % 4294967296 : Nat) : Int))
      (fun _ _ => blockDim * gridDim % 4294967296) (n / vectorLength)).bind fun vec =>
    (gridLoop gridDim blockDim
        (fun b t => toInt32 (toInt32 (((t + b * blockDim) % 4294967296 : Nat) : Int)
          + (((n / vectorLength) * vectorLength : Nat) : Int)))
        (fun _ t => (blockDim * gridDim + t) % 4294967296) n).map fun tail => (vec, tail)

/-- `vectorCopy` (CudaMemcpy.cpp:81-93) for elements of `sizeofT` bytes: the
vector accesses and the tail accesses of the kernel it launches. -/
def vectorCopy (sizeofT : Nat) (n : Int) : Option (List CopyAccess × List CopyAccess) :=
  vectorCopyKernel (vectorCopyNumblock sizeofT n).toNat numthread.toNat (vectorLength sizeofT)
    n.toNat

/-- The element stores of a list of vector accesses: the 16-byte store of
vector `g` writes the elements `vectorLength*g .. vectorLength*g + vectorLength - 1`. -/
def vectorStores {α : Type} (vectorLength : Nat) (dataIn : Nat → α) (ev : List CopyAccess) :
    List (Nat × α) :=
  ev.flatMap fun e => (List.range vectorLength).map fun j =>
    (vectorLength * e.index + j, dataIn (vectorLength * e.index + j))

/-- One access of `memcpyFloatKernel`: the block and the thread that perform
it, the unroll step `i`, the `float4` index `index + i*blockDim.x` and the
value moved. -/
structure UnrollAccess (β : Type) where
  block : Nat
  thread : Nat
  step : Nat
  index : Nat
  val : β

/-- One thread of `memcpyFloatKernel` (CudaMemcpy.cpp:100-112): with
`index = threadIdx.x + numElem*blockIdx.x*blockDim.x`, the loads
`a[i] = data_in[index + i*blockDim.x]` into the private array `a`, which
starts as `a0`, then the stores `data_out[index + i*blockDim.x] = a[i]`, both
under the test `index + i*blockDim.x < n`. -/
def memcpyFloatThread {β : Type} (numElem blockDim n : Nat) (a0 : Nat → β) (dataIn : Nat → β)
    (b t : Nat) : List (UnrollAccess β) × List (UnrollAccess β) :=
  let index := t + numElem * b * blockDim
  let loads := ((List.range numElem).filter fun i => decide (index + i * blockDim < n)).map
    fun i => UnrollAccess.mk b t i (index + i * blockDim) (dataIn (index + i * blockDim))
  let a := applyWrites (loads.map fun e => (e.step, e.val)) a0
  let stores := ((List.range numElem).filter fun i => decide (index + i * blockDim < n)).map
    fun i => UnrollAccess.mk b t i (index + i * blockDim) (a i)
  (loads, stores)

/-- `memcpyFloatKernel<numElem>` (CudaMemcpy.cpp:100-112) for `n ≥ 0` on a grid
of `gridDim` blocks of `blockDim` threads: the loads and the stores of all
threads, `priv b t` being what thread `t` of block `b` finds in its private
array. -/
def memcpyFloatKernel {β : Type} (numElem gridDim blockDim n : Nat)
    (priv : Nat → Nat → Nat → β) (dataIn : Nat → β) :
    List (UnrollAccess β) × List (UnrollAccess β) :=
  unzipConcat ((List.range gridDim).flatMap fun b => (List.range blockDim).map fun t =>
    memcpyFloatThread numElem blockDim n (priv b t) dataIn b t)

/-- `#define NUM_ELEM 2` (CudaMemcpy.cpp:130). -/
def NUM_ELEM : Nat := 2

/-- `numblock = (n/(4*NUM_ELEM) - 1)/numthread + 1` of `memcpyFloat`
(CudaMemcpy.cpp:133). -/
def memcpyFloatNumblock (n : Int) : Int :=
  Int.tdiv (Int.tdiv n (4 * (NUM_ELEM : Int)) - 1) numthread + 1

/-- The array of `float4` values that the cast `(float4 *)data` makes of an
array of floats: value `q` holds the floats `4q .. 4q + 3`. -/
def asFloat4 {α : Type} (d : Nat → α) : Nat → α × α × α × α :=
  fun q => (d (4 * q), d (4 * q + 1), d (4 * q + 2), d (4 * q + 3))

/-- `memcpyFloat` (CudaMemcpy.cpp:131-143): the `float4` loads and stores of
the kernel it launches with `n/4` on `numblock` blocks of `numthread`
threads. -/
def memcpyFloat {α : Type} (n : Int) (priv : Nat → Nat → Nat → α × α × α × α)
    (dataIn : Nat → α) :
    List (UnrollAccess (α × α × α × α)) × List (UnrollAccess (α × α × α × α)) :=
  memcpyFloatKernel NUM_ELEM (memcpyFloatNumblock n).toNat numthread.toNat (Int.tdiv n 4).toNat
    priv (asFloat4 dataIn)

/-- The float stores of a list of `float4` stores: the store of value `q`
writes the floats `4q .. 4q + 3`. -/
def float4Stores {α : Type} (st : List (UnrollAccess (α × α × α × α))) : List (Nat × α) :=
  st.flatMap fun e =>
    [(4 * e.index, e.val.1), (4 * e.index + 1, e.val.2.1), (4 * e.index + 2, e.val.2.2.1),
      (4 * e.index + 3, e.val.2.2.2)]

/-- What the threads find in their private arrays in the examples. -/
def exPriv : Nat → Nat → Nat → Nat × Nat × Nat × Nat := fun b t i => (7, b, t, i)

/-- The inverse `(1, 2, 0)` of the permutation `(2, 0, 1)`. -/
def perm120 : Nat → Nat := fun i => [1, 2, 0].getD i 0

/-- Strides of the axes of the permuted shape `(8, 4, 6)` in the layout
`(4, 6, 8)` obtained by permuting back with `(1, 2, 0)`. -/
def stride846 : Nat → Nat := fun i => [24, 1, 4].getD i 0

/-- The per-element bounds test that the mask test of the load loop of
`transposeTiled` replaces, `xin < readVol.x && yin + j < readVol.y`
(cuttkernel.cpp:104), with `xin = bx + threadIdx.x`, `yin = by + threadIdx.y`. -/
def TiledLaunch.boundsIn (L : TiledLaunch) (blockX t j : Nat) : Bool :=
  decide (L.bx blockX + L.tx t < L.tiledVolX) && decide (L.by blockX + L.ty t + j < L.tiledVolY)

/-- The per-element bounds test that the mask test of the store loop of
`transposeTiled` replaces, `xout + j < readVol.x && yout < readVol.y`
(cuttkernel.cpp:117), with `xout = bx + threadIdx.y`, `yout = by + threadIdx.x`. -/
def TiledLaunch.boundsOut (L : TiledLaunch) (blockX t j : Nat) : Bool :=
  decide (L.bx blockX + L.ty t + j < L.tiledVolX) && decide (L.by blockX + L.tx t < L.tiledVolY)

/-- The per-element bounds test that the mask test of both loops of
`transposeTiledCopy` replaces, `(x < tiledVol.x) && (y + j < tiledVol.y)`
(cuttkernel.cpp:416, 426), with `x = bx + threadIdx.x`, `y = by + threadIdx.y`. -/
def TiledLaunch.boundsCopy (L : TiledLaunch) (blockX t j : Nat) : Bool :=
  decide (L.bx blockX + L.tx t < L.tiledVolX) && decide (L.by blockX + L.ty t + j < L.tiledVolY)

/-- The loop `for (j = 0; j < TILEDIM; j += TILEROWS) { if (test j) access(pos);
pos += add; }` with a per-element test in place of the mask test: `tileLoop`
as the commented-out lines of the kernels have it. -/
def tileLoopChecked {β : Type} (test : Nat → Bool) (add : Nat) (mk : Nat → Nat → β) :
    List Nat → Option Nat → Option (List β)
  | [], _ => some []
  | j :: js, pos =>
    match tileLoopChecked test add mk js (pos.map (· + add)) with
    | none => none
    | some rest =>
      if test j then
        match pos with
        | some p => some (mk j p :: rest)
        | none => none
      else some rest

/-- An example launch of the tiled kernels for the mask tests: 4-wide warps,
tiles of 4 by 4 handled by blocks of 4 by 2 threads, on the tiled volume
6 by 5. -/
def exTiledMask : TiledLaunch :=
  { warpSize := 4, TILEDIM := 4, TILEROWS := 2, sizeofT := 4, gridDimX := 4, gridDimZ := 1,
    numMm := 2, volMbar := 1, sizeMbar := 0, tiledVolX := 6, tiledVolY := 5,
    cuDimMk := 6, cuDimMm := 5, glMbar := exMbar }

/-- The launch configuration the planner leaves for the Packed example:
128 threads, 10 blocks, 1024 bytes of shared memory, register multiplicity 2. -/
def exLcPacked : LaunchConfig := ⟨⟨128, 1, 1⟩, ⟨10, 1, 1⟩, 1024, 2⟩

/-- An example split for the tiled methods: a minor volume of 100 by 130 and
1000 batches. -/
def exTsTiled (m : Method) : TensorSplit :=
  { exTs m with volMm := 100, volMk := 130, volMkBar := 130, volMbar := 1000 }

/-! ## Theorems -/

theorem decode_eq_sum (tbl : Nat → TensorConv) (p n : Nat) :
    decode tbl p n = ∑ i ∈ Finset.range n, digit (tbl i) p := by
  induction n with
  | zero => simp [decode]
  | succ n ih => rw [decode, ih, Finset.sum_range_succ]

theorem cumProd_pos (d : Nat → Nat) (k : Nat) (hd : ∀ i < k, 1 ≤ d i) :
    ∀ i ≤ k, 0 < cumProd d i := by
  intro i
  induction i with
  | zero => intro _; simp [cumProd]
  | succ i ih =>
    intro hi
    have h1 := ih (by omega)
    have h2 := hd i (by omega)
    simp only [cumProd]
    positivity

theorem cumProd_succ_dvd (d : Nat → Nat) (i k : Nat) (hik : i < k) :
    cumProd d (i + 1) ∣ cumProd d k := by
  induction k with
  | zero => omega
  | succ k ih =>
    rcases Nat.lt_succ_iff_lt_or_eq.mp hik with h | h
    · exact Dvd.dvd.mul_right (ih h) _
    · subst h; exact dvd_rfl

/-- The digits of `p` recombine to `p` modulo the volume. -/
theorem sum_coord_mul_cumProd (d : Nat → Nat) (p k : Nat) :
    ∑ i ∈ Finset.range k, coord d p i * cumProd d i = p % cumProd d k := by
  induction k with
  | zero => simp [cumProd, Nat.mod_one]
  | succ k ih =>
    rw [Finset.sum_range_succ, ih]
    simp only [cumProd, coord]
    rw [Nat.mod_mul, Nat.mul_comm (cumProd d k)]

theorem flat_lt_cumProd (d y : Nat → Nat) (k : Nat) (hy : ∀ i < k, y i < d i) :
    ∑ i ∈ Finset.range k, y i * cumProd d i < cumProd d k ∨ k = 0 := by
  induction k with
  | zero => right; rfl
  | succ k ih =>
    left
    rw [Finset.sum_range_succ]
    have hk := hy k (by omega)
    simp only [cumProd]
    rcases ih (fun i hi => hy i (by omega)) with h | h
    · calc ∑ i ∈ Finset.range k, y i * cumProd d i + y k * cumProd d k
          < cumProd d k + y k * cumProd d k := by omega
        _ = (y k + 1) * cumProd d k := by ring
        _ ≤ d k * cumProd d k := Nat.mul_le_mul_right _ hk
        _ = cumProd d k * d k := by ring
    · subst h
      simp only [Finset.range_zero, Finset.sum_empty, cumProd, Nat.zero_add, Nat.mul_one,
        Nat.one_mul]
      exact hk

theorem flat_lt_cumProd' (d y : Nat → Nat) (k : Nat) (hy : ∀ i < k, y i < d i) :
    ∑ i ∈ Finset.range k, y i * cumProd d i < cumProd d k := by
  rcases flat_lt_cumProd d y k hy with h | h
  · exact h
  · subst h; simp [cumProd]

/-- The digits of a flattened coordinate are the coordinate. -/
theorem coord_flat (d y : Nat → Nat) (k : Nat) (hy : ∀ i < k, y i < d i) :
    ∀ i < k, coord d (∑ j ∈ Finset.range k, y j * cumProd d j) i = y i := by
  induction k with
  | zero => intro i hi; omega
  | succ k ih =>
    intro i hi
    have hy' : ∀ i < k, y i < d i := fun i hi => hy i (by omega)
    have hlt := flat_lt_cumProd' d y k hy'
    have hdpos : ∀ j < k + 1, 1 ≤ d j := fun j hj => by have := hy j hj; omega
    rw [Finset.sum_range_succ]
    rcases Nat.lt_succ_iff_lt_or_eq.mp hi with h | h
    · obtain ⟨M, hM⟩ := cumProd_succ_dvd d i k h
      have hci : 0 < cumProd d i := cumProd_pos d (k + 1) hdpos i (by omega)
      have := ih hy' i h
      simp only [coord] at this ⊢
      rw [hM]
      simp only [cumProd]
      have e : y k * (cumProd d i * d i * M) = cumProd d i * (d i * (M * y k)) := by ring
      rw [e, Nat.add_mul_div_left _ _ hci, Nat.add_mul_mod_self_left]
      exact this
    · subst h
      have hci : 0 < cumProd d i := cumProd_pos d (i + 1) hdpos i (by omega)
      simp only [coord]
      rw [Nat.mul_comm (y i), Nat.add_mul_div_left _ _ hci, Nat.div_eq_of_lt hlt, Nat.zero_add]
      exact Nat.mod_eq_of_lt (hy i (by omega))

theorem sum_reindex (k : Nat) (σ : Nat → Nat) (hσ : ∀ j < k, σ j < k)
    (hinj : ∀ i < k, ∀ j < k, σ i = σ j → i = j) (f : Nat → Nat) :
    ∑ i ∈ Finset.range k, f i = ∑ j ∈ Finset.range k, f (σ j) := by
  have hInj : Set.InjOn σ (Finset.range k : Set Nat) := by
    intro a ha b hb hab
    simp only [Finset.coe_range, Set.mem_Iio] at ha hb
    exact hinj a ha b hb hab
  have himg : (Finset.range k).image σ = Finset.range k := by
    apply Finset.eq_of_subset_of_card_le
    · intro x hx
      simp only [Finset.mem_image, Finset.mem_range] at hx ⊢
      obtain ⟨j, hj, rfl⟩ := hx
      exact hσ j hj
    · rw [Finset.card_image_of_injOn hInj]
  conv_lhs => rw [← himg]
  rw [Finset.sum_image]
  intro a ha b hb hab
  simp only [Finset.mem_range] at ha hb
  exact hinj a ha b hb hab

theorem decode_shapeTable (d ct : Nat → Nat) (p k : Nat) :
    decode (shapeTable d ct) p k = ∑ i ∈ Finset.range k, coord d p i * ct i := by
  rw [decode_eq_sum]
  rfl

/-- C5 (position codec).  For a shape `d_0 .. d_{k-1}` with all `d_i ≥ 1` and
a linear index `p` below the volume, the digits `(p / c_i) % d_i` (with
`c_i = d_0 * ... * d_{i-1}`) are the unique mixed-radix coordinate of `p`;
the decoded offset is `Σ x_i * ct_i` for any strides `ct`, it is `p` itself
when `ct_i = c_i`, and when `ct` holds the strides of the input axes in the
output layout of a permutation `σ` (output axis `j` is input axis `σ j`) it
is the flattened offset of the permuted coordinate, whose `j`-th digit in
the output shape is the input digit `σ j`. -/
theorem position_codec (k : Nat) (d ct σ : Nat → Nat)
    (hd : ∀ i < k, 1 ≤ d i)
    (hσ : ∀ j < k, σ j < k) (hinj : ∀ i < k, ∀ j < k, σ i = σ j → i = j)
    (hct : ∀ j < k, ct (σ j) = cumProd (fun m => d (σ m)) j)
    (p : Nat) (hp : p < cumProd d k) :
    (∀ i < k, coord d p i < d i) ∧
    (∑ i ∈ Finset.range k, coord d p i * cumProd d i = p) ∧
    (∀ y : Nat → Nat, (∀ i < k, y i < d i) →
      ∑ i ∈ Finset.range k, y i * cumProd d i = p → ∀ i < k, y i = coord d p i) ∧
    (∀ ct' : Nat → Nat,
      decode (shapeTable d ct') p k = ∑ i ∈ Finset.range k, coord d p i * ct' i) ∧
    decode (shapeTable d (cumProd d)) p k = p ∧
    decode (shapeTable d ct) p k
      = ∑ j ∈ Finset.range k, coord d p (σ j) * cumProd (fun m => d (σ m)) j ∧
    (∀ j < k, coord (fun m => d (σ m)) (decode (shapeTable d ct) p k) j = coord d p (σ j)) := by
  have hx : ∀ i < k, coord d p i < d i := fun i hi =>
    Nat.mod_lt _ (by have := hd i hi; omega)
  have hsum : ∑ i ∈ Finset.range k, coord d p i * cumProd d i = p := by
    rw [sum_coord_mul_cumProd, Nat.mod_eq_of_lt hp]
  have hperm : decode (shapeTable d ct) p k
      = ∑ j ∈ Finset.range k, coord d p (σ j) * cumProd (fun m => d (σ m)) j := by
    rw [decode_shapeTable, sum_reindex k σ hσ hinj]
    apply Finset.sum_congr rfl
    intro j hj
    rw [hct j (Finset.mem_range.mp hj)]
  refine ⟨hx, hsum, ?_, fun ct' => decode_shapeTable d ct' p k, ?_, hperm, ?_⟩
  · intro y hy hyp i hi
    rw [← hyp]
    exact (coord_flat d y k hy i hi).symm
  · rw [decode_shapeTable, hsum]
  · intro j hj
    rw [hperm]
    exact coord_flat (fun m => d (σ m)) (fun j => coord d p (σ j)) k
      (fun i hi => hx (σ i) (hσ i hi)) j hj

/-- Witness for C5: shape `(4, 6, 8)`, permutation `(2, 0, 1)`, all 192 input
offsets agree with the naive reference permutation. -/
theorem position_codec_witness :
    (∀ i < 3, 1 ≤ shape468 i) ∧ cumProd shape468 3 = 192 ∧
    ∀ p, p < 192 → decode (shapeTable shape468 stride468) p 3 = expected468 p := by
  refine ⟨by decide, by decide, fun p hp => ?_⟩
  have h := (position_codec 3 shape468 stride468 perm201 (by decide) (by decide)
    (by decide) (by decide) p (by simpa [cumProd, shape468] using hp)).2.2.2.2.2.1
  rw [h]
  simp only [Finset.sum_range_succ, Finset.sum_range_zero, coord, cumProd, perm201, shape468,
    expected468, List.getD_cons_zero, List.getD_cons_succ]
  omega

theorem testBit_div_two_pow' (x i j : Nat) : (x / 2 ^ i).testBit j = x.testBit (i + j) := by
  rw [← Nat.shiftRight_eq_div_pow, Nat.testBit_shiftRight]

theorem testBit_one_succ (i : Nat) : Nat.testBit 1 (i + 1) = false := by
  rw [Nat.testBit_succ]; simp

theorem xor_one_eq (a : Nat) : a ^^^ 1 = if a % 2 = 0 then a + 1 else a - 1 := by
  apply Nat.eq_of_testBit_eq
  intro i
  rw [Nat.testBit_xor]
  have h2 := Nat.div_add_mod a 2
  split
  · next h =>
    have e : a + 1 = 2 ^ 1 * (a / 2) + 1 := by omega
    have ea : a = 2 ^ 1 * (a / 2) + 0 := by omega
    rw [e, Nat.testBit_mul_pow_two_add _ (by norm_num)]
    conv_lhs => rw [ea, Nat.testBit_mul_pow_two_add _ (by norm_num)]
    rcases i with _ | i <;> simp [testBit_one_succ]
  · next h =>
    have e : a - 1 = 2 ^ 1 * (a / 2) + 0 := by omega
    have ea : a = 2 ^ 1 * (a / 2) + 1 := by omega
    rw [e, Nat.testBit_mul_pow_two_add _ (by norm_num)]
    conv_lhs => rw [ea, Nat.testBit_mul_pow_two_add _ (by norm_num)]
    rcases i with _ | i <;> simp [testBit_one_succ]

theorem xor_two_pow_eq (x m : Nat) :
    x ^^^ 2 ^ m = 2 ^ m * ((x / 2 ^ m) ^^^ 1) + x % 2 ^ m := by
  apply Nat.eq_of_testBit_eq
  intro i
  rw [Nat.testBit_xor, Nat.testBit_mul_pow_two_add _ (Nat.mod_lt _ (by positivity)),
    Nat.testBit_two_pow]
  by_cases h : i < m
  · have : m ≠ i := by omega
    simp [h, this]
  · simp only [h, if_false, Nat.testBit_xor, testBit_div_two_pow']
    have e : m + (i - m) = i := by omega
    rw [e]
    congr 1
    by_cases h' : m = i
    · subst h'; simp
    · obtain ⟨n, hn⟩ : ∃ n, i - m = n + 1 := ⟨i - m - 1, by omega⟩
      simp [h', hn, testBit_one_succ]

theorem warp_xor_eq (u k m : Nat) (hm : m < k) :
    (u / 2 ^ k) * 2 ^ k + ((u % 2 ^ k) ^^^ 2 ^ m) = u ^^^ 2 ^ m := by
  have hlt : (u % 2 ^ k) ^^^ 2 ^ m < 2 ^ k :=
    Nat.xor_lt_two_pow (Nat.mod_lt _ (by positivity)) (Nat.pow_lt_pow_right (by norm_num) hm)
  apply Nat.eq_of_testBit_eq
  intro i
  rw [Nat.mul_comm, Nat.testBit_mul_pow_two_add _ hlt, Nat.testBit_xor, Nat.testBit_xor,
    Nat.testBit_two_pow, Nat.testBit_mod_two_pow, testBit_div_two_pow']
  by_cases h : i < k
  · simp [h]
  · have e : k + (i - k) = i := by omega
    have : m ≠ i := by omega
    simp [h, e, this]

/-- partner of `u` for stride `2^m`. -/
theorem xor_two_pow_cases (u m : Nat) :
    ((u / 2 ^ m) % 2 = 0 ∧ u ^^^ 2 ^ m = u + 2 ^ m) ∨
    ((u / 2 ^ m) % 2 = 1 ∧ (u ^^^ 2 ^ m) + 2 ^ m = u) := by
  have hdm := Nat.div_add_mod u (2 ^ m)
  have hx := xor_two_pow_eq u m
  rw [xor_one_eq (u / 2 ^ m)] at hx
  rcases Nat.mod_two_eq_zero_or_one (u / 2 ^ m) with h | h
  · left
    refine ⟨h, ?_⟩
    rw [if_pos h] at hx
    rw [hx]
    calc 2 ^ m * (u / 2 ^ m + 1) + u % 2 ^ m = (2 ^ m * (u / 2 ^ m) + u % 2 ^ m) + 2 ^ m := by ring
      _ = u + 2 ^ m := by rw [hdm]
  · right
    refine ⟨h, ?_⟩
    rw [if_neg (by omega)] at hx
    rw [hx]
    have h1 : 1 ≤ u / 2 ^ m := by
      rcases Nat.eq_zero_or_pos (u / 2 ^ m) with h0 | h0
      · rw [h0] at h; simp at h
      · exact h0
    obtain ⟨a, ha⟩ : ∃ a, u / 2 ^ m = a + 1 := ⟨u / 2 ^ m - 1, by omega⟩
    rw [ha] at hdm ⊢
    simp only [Nat.add_sub_cancel]
    calc 2 ^ m * a + u % 2 ^ m + 2 ^ m = 2 ^ m * (a + 1) + u % 2 ^ m := by ring
      _ = u := hdm

theorem warp_partner_lt (k nw m t : Nat) (hm : m < k) (ht : t < nw * 2 ^ k) :
    (t ^^^ 2 ^ m) < nw * 2 ^ k := by
  rw [← warp_xor_eq t k m hm]
  have hlt : (t % 2 ^ k) ^^^ 2 ^ m < 2 ^ k :=
    Nat.xor_lt_two_pow (Nat.mod_lt _ (by positivity)) (Nat.pow_lt_pow_right (by norm_num) hm)
  have hq : t / 2 ^ k < nw := Nat.div_lt_of_lt_mul (by rw [Nat.mul_comm]; exact ht)
  calc t / 2 ^ k * 2 ^ k + ((t % 2 ^ k) ^^^ 2 ^ m) < t / 2 ^ k * 2 ^ k + 2 ^ k := by omega
    _ = (t / 2 ^ k + 1) * 2 ^ k := by ring
    _ ≤ nw * 2 ^ k := Nat.mul_le_mul_right _ hq

theorem xorRound_blockRegs (k nw m : Nat) (hm : m < k) (f : Nat → Nat) :
    xorRound (2 ^ k) (2 ^ m) (blockRegs (nw * 2 ^ k) f)
      = blockRegs (nw * 2 ^ k) (fun t => f t + f (t ^^^ 2 ^ m)) := by
  funext t
  have hlt : (t % 2 ^ k) ^^^ 2 ^ m < 2 ^ k :=
    Nat.xor_lt_two_pow (Nat.mod_lt _ (by positivity)) (Nat.pow_lt_pow_right (by norm_num) hm)
  simp only [xorRound, shflXor, blockRegs, hlt, if_true, warp_xor_eq t k m hm]
  by_cases ht : t < nw * 2 ^ k
  · simp [ht, warp_partner_lt k nw m t hm ht]
  · simp [ht]

theorem sum_block_step (f : Nat → Nat) (m t : Nat) :
    ∑ j ∈ Finset.range (2 ^ m),
        (f (t / 2 ^ m * 2 ^ m + j) + f ((t / 2 ^ m * 2 ^ m + j) ^^^ 2 ^ m))
      = ∑ j ∈ Finset.range (2 ^ (m + 1)), f (t / 2 ^ (m + 1) * 2 ^ (m + 1) + j) := by
  have hpos : 0 < 2 ^ m := by positivity
  have hq : t / (2 ^ m + 2 ^ m) = t / 2 ^ m / 2 := by
    rw [← Nat.mul_two, Nat.div_div_eq_div_mul]
  have hdiv : ∀ j < 2 ^ m, (t / 2 ^ m * 2 ^ m + j) / 2 ^ m = t / 2 ^ m := by
    intro j hj
    rw [Nat.mul_comm, Nat.mul_add_div hpos, Nat.div_eq_of_lt hj, Nat.add_zero]
  have h2 := Nat.div_add_mod (t / 2 ^ m) 2
  rw [Finset.sum_add_distrib, pow_succ 2 m, Nat.mul_two, Finset.sum_range_add, hq]
  rcases Nat.mod_two_eq_zero_or_one (t / 2 ^ m) with h | h
  · have hb : t / 2 ^ m / 2 * (2 ^ m + 2 ^ m) = t / 2 ^ m * 2 ^ m := by
      have : t / 2 ^ m = 2 * (t / 2 ^ m / 2) := by omega
      conv_rhs => rw [this]
      ring
    rw [hb]
    congr 1
    apply Finset.sum_congr rfl
    intro j hj
    have hj' := Finset.mem_range.mp hj
    rcases xor_two_pow_cases (t / 2 ^ m * 2 ^ m + j) m with ⟨_, hx⟩ | ⟨hx, _⟩
    · rw [hx]; congr 1; ring
    · rw [hdiv j hj'] at hx; omega
  · have hb : t / 2 ^ m / 2 * (2 ^ m + 2 ^ m) + 2 ^ m = t / 2 ^ m * 2 ^ m := by
      have : t / 2 ^ m = 2 * (t / 2 ^ m / 2) + 1 := by omega
      conv_rhs => rw [this]
      ring
    rw [Nat.add_comm]
    congr 1
    · apply Finset.sum_congr rfl
      intro j hj
      have hj' := Finset.mem_range.mp hj
      rcases xor_two_pow_cases (t / 2 ^ m * 2 ^ m + j) m with ⟨hx, _⟩ | ⟨_, hx⟩
      · rw [hdiv j hj'] at hx; omega
      · congr 1
        have : (t / 2 ^ m * 2 ^ m + j ^^^ 2 ^ m) + 2 ^ m
            = (t / 2 ^ m / 2 * (2 ^ m + 2 ^ m) + j) + 2 ^ m := by
          rw [hx, ← hb]; ring
        omega
    · apply Finset.sum_congr rfl
      intro j _
      rw [← hb]; congr 1; ring

theorem butterflyLoop_blockRegs (k nw : Nat) :
    ∀ (m : Nat), m ≤ k → ∀ (fuel : Nat), m ≤ fuel → ∀ (f : Nat → Nat),
      butterflyLoop (2 ^ k) fuel (2 ^ m / 2) (blockRegs (nw * 2 ^ k) f)
        = blockRegs (nw * 2 ^ k)
            (fun t => ∑ j ∈ Finset.range (2 ^ m), f (t / 2 ^ m * 2 ^ m + j)) := by
  intro m
  induction m with
  | zero =>
    intro _ fuel _ f
    have h0 : (2 : Nat) ^ 0 / 2 = 0 := by norm_num
    rw [h0]
    cases fuel <;> simp [butterflyLoop]
  | succ m ih =>
    intro hm fuel hfuel f
    obtain ⟨fuel', rfl⟩ : ∃ n, fuel = n + 1 := ⟨fuel - 1, by omega⟩
    have hi : (2 : Nat) ^ (m + 1) / 2 = 2 ^ m := by
      rw [pow_succ, Nat.mul_div_cancel _ (by norm_num)]
    have hpos : 1 ≤ 2 ^ m := Nat.one_le_two_pow
    rw [hi]
    simp only [butterflyLoop, hpos, if_true]
    rw [xorRound_blockRegs k nw m (by omega) f, ih (by omega) fuel' (by omega)]
    have e : (fun t => ∑ j ∈ Finset.range (2 ^ m),
          (f (t / 2 ^ m * 2 ^ m + j) + f ((t / 2 ^ m * 2 ^ m + j) ^^^ 2 ^ m)))
        = (fun t => ∑ j ∈ Finset.range (2 ^ (m + 1)), f (t / 2 ^ (m + 1) * 2 ^ (m + 1) + j)) :=
      funext (fun t => sum_block_step f m t)
    rw [e]

theorem butterfly_blockRegs (k nw : Nat) (f : Nat → Nat) :
    butterfly (2 ^ k) (blockRegs (nw * 2 ^ k) f)
      = blockRegs (nw * 2 ^ k)
          (fun t => ∑ j ∈ Finset.range (2 ^ k), f (t / 2 ^ k * 2 ^ k + j)) := by
  unfold butterfly
  exact butterflyLoop_blockRegs k nw k (le_refl _) (2 ^ k) (Nat.lt_two_pow k).le f

theorem warpLane_eq_mod (k t : Nat) : warpLane (2 ^ k) t = t % 2 ^ k := by
  unfold warpLane
  exact Nat.and_pow_two_sub_one_eq_mod t k

theorem warpLane_block (k q j : Nat) (hj : j < 2 ^ k) :
    warpLane (2 ^ k) (q * 2 ^ k + j) = j := by
  rw [warpLane_eq_mod, Nat.mul_comm, Nat.mul_add_mod, Nat.mod_eq_of_lt hj]

theorem sum_range_ite_lt (n w : Nat) (h : n ≤ w) (a : Nat → Nat) :
    ∑ j ∈ Finset.range w, (if j < n then a j else 0) = ∑ j ∈ Finset.range n, a j := by
  obtain ⟨e, rfl⟩ : ∃ e, w = n + e := ⟨w - n, by omega⟩
  rw [Finset.sum_range_add]
  have h1 : ∑ x ∈ Finset.range n, (if x < n then a x else 0) = ∑ x ∈ Finset.range n, a x :=
    Finset.sum_congr rfl (fun x hx => by simp [Finset.mem_range.mp hx])
  have h2 : ∑ x ∈ Finset.range e, (if n + x < n then a (n + x) else 0) = 0 :=
    Finset.sum_eq_zero (fun x _ => by simp)
  rw [h1, h2, Nat.add_zero]

/-- The reduction over a block of full warps: every thread ends with the sum
of the values of the lanes below `size`, when the other lanes hold 0. -/
theorem butterfly_lanes (k nw size : Nat) (hsz : size ≤ 2 ^ k) (a g : Nat → Nat)
    (hg : ∀ t, g t = if warpLane (2 ^ k) t < size then a (warpLane (2 ^ k) t) else 0)
    (tid : Nat) (ht : tid < nw * 2 ^ k) :
    butterfly (2 ^ k) (blockRegs (nw * 2 ^ k) g) tid = some (∑ i ∈ Finset.range size, a i) := by
  rw [butterfly_blockRegs]
  simp only [blockRegs, ht, if_true]
  congr 1
  rw [← sum_range_ite_lt size (2 ^ k) hsz a]
  apply Finset.sum_congr rfl
  intro j hj
  rw [hg, warpLane_block k _ j (Finset.mem_range.mp hj)]

theorem digit_unit (ct p : Nat) : digit ⟨1, 1, ct⟩ p = 0 := by
  simp [digit, Nat.mod_one]

theorem majorDigitOut_eq (warpSize sizeMbar : Nat) (glMbar junk : Nat → TensorConvInOut)
    (posMbar t : Nat) :
    majorDigitOut warpSize sizeMbar glMbar junk posMbar t
      = if warpLane warpSize t < sizeMbar
          then digit (glMbar (warpLane warpSize t)).outPart posMbar else 0 := by
  unfold majorDigitOut loadInOut
  split
  · rfl
  · exact digit_unit _ _

theorem majorDigitIn_eq (warpSize sizeMbar : Nat) (glMbar junk : Nat → TensorConvInOut)
    (posMbar t : Nat) :
    majorDigitIn warpSize sizeMbar glMbar junk posMbar t
      = if warpLane warpSize t < sizeMbar
          then digit (glMbar (warpLane warpSize t)).inPart posMbar else 0 := by
  unfold majorDigitIn loadInOut
  split
  · rfl
  · exact digit_unit _ _

theorem posMajorOut_full (k nw sizeMbar : Nat) (hsz : sizeMbar ≤ 2 ^ k)
    (glMbar junk : Nat → TensorConvInOut) (posMbar tid : Nat) (ht : tid < nw * 2 ^ k) :
    posMajorOut (2 ^ k) (nw * 2 ^ k) sizeMbar glMbar junk posMbar tid
      = some (decode (fun i => (glMbar i).outPart) posMbar sizeMbar) := by
  rw [decode_eq_sum]
  exact butterfly_lanes k nw sizeMbar hsz (fun i => digit (glMbar i).outPart posMbar) _
    (majorDigitOut_eq (2 ^ k) sizeMbar glMbar junk posMbar) tid ht

theorem posMajorIn_full (k nw sizeMbar : Nat) (hsz : sizeMbar ≤ 2 ^ k)
    (glMbar junk : Nat → TensorConvInOut) (posMbar tid : Nat) (ht : tid < nw * 2 ^ k) :
    posMajorIn (2 ^ k) (nw * 2 ^ k) sizeMbar glMbar junk posMbar tid
      = some (decode (fun i => (glMbar i).inPart) posMbar sizeMbar) := by
  rw [decode_eq_sum]
  exact butterfly_lanes k nw sizeMbar hsz (fun i => digit (glMbar i).inPart posMbar) _
    (majorDigitIn_eq (2 ^ k) sizeMbar glMbar junk posMbar) tid ht

/-- C6 as amended (major-offset reduction).  For a warp size that is a power of two and
`sizeMbar ≤ warpSize`, in a block of full warps every lane ends the
xor-butterfly loop with the same value, the codec sum
`Σ_{i < sizeMbar} ((posMbar / c_i) % d_i) * ct_i` (for the output and for the
input strides); a lane at or beyond `sizeMbar`, whose record has `c = d = 1`
and whatever stride its register held, contributes 0. -/
theorem major_offset_reduction (warpSize k nw sizeMbar : Nat) (hws : warpSize = 2 ^ k)
    (hsz : sizeMbar ≤ warpSize) (glMbar junk : Nat → TensorConvInOut) (posMbar : Nat) :
    (∀ tid, tid < nw * warpSize →
      posMajorOut warpSize (nw * warpSize) sizeMbar glMbar junk posMbar tid
        = some (decode (fun i => (glMbar i).outPart) posMbar sizeMbar) ∧
      posMajorIn warpSize (nw * warpSize) sizeMbar glMbar junk posMbar tid
        = some (decode (fun i => (glMbar i).inPart) posMbar sizeMbar)) ∧
    (∀ t, sizeMbar ≤ warpLane warpSize t →
      majorDigitOut warpSize sizeMbar glMbar junk posMbar t = 0 ∧
      majorDigitIn warpSize sizeMbar glMbar junk posMbar t = 0) := by
  subst hws
  refine ⟨fun tid ht => ⟨posMajorOut_full k nw sizeMbar hsz glMbar junk posMbar tid ht,
    posMajorIn_full k nw sizeMbar hsz glMbar junk posMbar tid ht⟩, fun t ht => ?_⟩
  rw [majorDigitOut_eq, majorDigitIn_eq, if_neg (by omega), if_neg (by omega)]
  exact ⟨rfl, rfl⟩

/-- Witness for C6: a warp of 4 lanes, two major records, batch index 5. -/
theorem major_offset_reduction_witness :
    (4 = 2 ^ 2 ∧ 2 ≤ 4) ∧
    (posMajorOut 4 (1 * 4) 2 exMbar exJunk 5 3 = some 25 ∧
      posMajorIn 4 (1 * 4) 2 exMbar exJunk 5 3 = some 15) ∧
    majorDigitOut 4 2 exMbar exJunk 5 3 = 0 := by
  have h := major_offset_reduction 4 2 1 2 (by decide) (by decide) exMbar exJunk 5
  refine ⟨⟨by decide, by decide⟩, ?_, (h.2 3 (by decide)).1⟩
  have h3 := h.1 3 (by decide)
  rw [h3.1, h3.2]
  decide

theorem finishPlan_spec (E : Externals) (sizeofType : Int) (ts : TensorSplit) (deviceID : Int)
    (prop : DeviceProp) (lc : LaunchConfig) (nab : Int) (st : HostState) (tr : List Candidate)
    (ret : Int) (lc' : LaunchConfig) (st' : HostState) (tr' : List Candidate)
    (h : finishPlan E sizeofType ts deviceID prop lc nab st tr = some (ret, lc', st', tr')) :
    lc' = lc ∧ tr' = tr ∧
    (ret ≠ 0 → lc.numblock.x ≤ prop.maxGridSize0 ∧ lc.numblock.y ≤ prop.maxGridSize1 ∧
      lc.numblock.z ≤ prop.maxGridSize2) := by
  unfold finishPlan at h
  split at h
  · simp only [Option.some.injEq, Prod.mk.injEq] at h
    obtain ⟨h1, h2, _, h4⟩ := h
    exact ⟨h2.symm, h4.symm, fun hne => absurd h1.symm hne⟩
  · next hg =>
    have hb : lc.numblock.x ≤ prop.maxGridSize0 ∧ lc.numblock.y ≤ prop.maxGridSize1 ∧
        lc.numblock.z ≤ prop.maxGridSize2 := by
      simp only [not_or, not_lt] at hg
      exact hg
    split at h
    · split at h
      · exact absurd h (by simp)
      · simp only [Option.some.injEq, Prod.mk.injEq] at h
        exact ⟨h.2.1.symm, h.2.2.2.symm, fun _ => hb⟩
    · simp only [Option.some.injEq, Prod.mk.injEq] at h
      exact ⟨h.2.1.symm, h.2.2.2.symm, fun _ => hb⟩

theorem scanLoop_frame (E : Externals) (sizeofType : Int) (ts : TensorSplit) (deviceID : Int)
    (prop : DeviceProp) (V : Int) :
    ∀ (n : Nat) (r : Int) (lc : LaunchConfig) (best : Best) (st : HostState)
      (lc2 : LaunchConfig) (best2 : Best) (st2 : HostState) (tr : List Candidate),
      scanLoop E sizeofType ts deviceID prop V n r lc best st = some (lc2, best2, st2, tr) →
      lc2.shmemsize = lc.shmemsize ∧ lc2.numblock = lc.numblock ∧
      lc2.numthread.y = lc.numthread.y ∧ lc2.numthread.z = lc.numthread.z := by
  intro n
  induction n with
  | zero =>
    intro r lc best st lc2 best2 st2 tr h
    simp only [scanLoop, Option.some.injEq, Prod.mk.injEq] at h
    obtain ⟨h1, _⟩ := h
    subst h1
    exact ⟨rfl, rfl, rfl, rfl⟩
  | succ n ih =>
    intro r lc best st lc2 best2 st2 tr h
    simp only [scanLoop] at h
    split at h
    · exact absurd h (by simp)
    · split at h
      · exact absurd h (by simp)
      · next hrec =>
        simp only [Option.some.injEq, Prod.mk.injEq] at h
        obtain ⟨h1, _⟩ := h
        subst h1
        have := ih _ _ _ _ _ _ _ _ hrec
        exact this

theorem packedGrid_shmemsize (ts : TensorSplit) (prop : DeviceProp) (lc : LaunchConfig) :
    (packedGrid ts prop lc).shmemsize = lc.shmemsize := by
  unfold packedGrid
  split <;> rfl

theorem planPacked_budget (E : Externals) (sizeofType : Int) (ts : TensorSplit)
    (deviceID : Int) (prop : DeviceProp) (lc : LaunchConfig) (st : HostState)
    (ret : Int) (lc' : LaunchConfig) (st' : HostState) (tr : List Candidate)
    (h : planPacked E sizeofType ts deviceID prop lc st = some (ret, lc', st', tr))
    (hret : ret ≠ 0) :
    lc'.shmemsize ≤ prop.sharedMemPerBlock ∧ lc'.numblock.x ≤ prop.maxGridSize0 ∧
      lc'.numblock.y ≤ prop.maxGridSize1 ∧ lc'.numblock.z ≤ prop.maxGridSize2 := by
  unfold planPacked at h
  simp only at h
  split at h
  · simp only [Option.some.injEq, Prod.mk.injEq] at h
    exact absurd h.1.symm hret
  · next hsh =>
    split at h
    · simp only [Option.some.injEq, Prod.mk.injEq] at h
      exact absurd h.1.symm hret
    · split at h
      · exact absurd h (by simp)
      · next lc2 best st2 tr2 hscan =>
        have hfr := scanLoop_frame _ _ _ _ _ _ _ _ _ _ _ _ _ _ _ hscan
        rw [packedGrid_shmemsize] at hfr
        split at h
        · simp only [Option.some.injEq, Prod.mk.injEq] at h
          exact absurd h.1.symm hret
        · obtain ⟨hlc, _, hgrid⟩ := finishPlan_spec _ _ _ _ _ _ _ _ _ _ _ _ _ h
          subst hlc
          refine ⟨?_, hgrid hret⟩
          show lc2.shmemsize ≤ prop.sharedMemPerBlock
          rw [hfr.1]
          exact Nat.le_of_not_lt hsh

theorem planPacked_over_budget (E : Externals) (sizeofType : Int) (ts : TensorSplit)
    (deviceID : Int) (prop : DeviceProp) (lc : LaunchConfig) (st : HostState)
    (h : E.shmemAlloc ts sizeofType > prop.sharedMemPerBlock) :
    planPacked E sizeofType ts deviceID prop lc st
      = some (0, { lc with shmemsize := E.shmemAlloc ts sizeofType }, st, []) := by
  unfold planPacked
  simp only [h, if_true]

/-- C7.  `cuttKernelLaunchConfiguration` never reports success with an
over-budget configuration: whenever it returns a nonzero value, the shared
memory it requests fits `prop.sharedMemPerBlock` and the grid extents fit
`prop.maxGridSize`; and for Packed and PackedSplit a shared-memory need
above the budget makes it return 0 with the host state untouched, so before
any occupancy query. -/
theorem launch_config_within_budget (E : Externals) (sizeofType : Int) (ts : TensorSplit)
    (deviceID : Int) (prop : DeviceProp) (lc : LaunchConfig) (st : HostState) :
    (∀ (ret : Int) (lc' : LaunchConfig) (st' : HostState) (tr : List Candidate),
      cuttKernelLaunchConfiguration E sizeofType ts deviceID prop lc st
        = some (ret, lc', st', tr) →
      ret ≠ 0 →
      lc'.shmemsize ≤ prop.sharedMemPerBlock ∧ lc'.numblock.x ≤ prop.maxGridSize0 ∧
        lc'.numblock.y ≤ prop.maxGridSize1 ∧ lc'.numblock.z ≤ prop.maxGridSize2) ∧
    ((ts.method = Method.Packed ∨ ts.method = Method.PackedSplit) →
      E.shmemAlloc ts sizeofType > prop.sharedMemPerBlock →
      ∃ lc', cuttKernelLaunchConfiguration E sizeofType ts deviceID prop lc st
          = some (0, lc', st, [])) := by
  constructor
  · intro ret lc' st' tr h hret
    unfold cuttKernelLaunchConfiguration at h
    split at h
    · obtain ⟨hlc, _, hgrid⟩ := finishPlan_spec _ _ _ _ _ _ _ _ _ _ _ _ _ h
      subst hlc
      exact ⟨Nat.zero_le _, hgrid hret⟩
    · exact planPacked_budget _ _ _ _ _ _ _ _ _ _ _ h hret
    · exact planPacked_budget _ _ _ _ _ _ _ _ _ _ _ h hret
    · obtain ⟨hlc, _, hgrid⟩ := finishPlan_spec _ _ _ _ _ _ _ _ _ _ _ _ _ h
      subst hlc
      exact ⟨Nat.zero_le _, hgrid hret⟩
    · obtain ⟨hlc, _, hgrid⟩ := finishPlan_spec _ _ _ _ _ _ _ _ _ _ _ _ _ h
      subst hlc
      exact ⟨Nat.zero_le _, hgrid hret⟩
  · intro hm hsh
    refine ⟨{ lc with shmemsize := E.shmemAlloc ts sizeofType }, ?_⟩
    unfold cuttKernelLaunchConfiguration
    rcases hm with hm | hm <;> rw [hm] <;> exact planPacked_over_budget _ _ _ _ _ _ _ hsh

theorem u64_modEq (x : Int) : u64 x ≡ x [ZMOD 18446744073709551616] := by
  unfold u64
  exact Int.mod_modEq x _

/-- C9 (the key is not unique).  With `key_type = sizeofType` in `{2, 4, 8}`
but only `MAX_NUMTYPE = 2` slots reserved for it, the configuration with
`s` elements of 4 bytes on the last device and the one with `s + 1` elements
of 2 bytes on device 0 (same register multiplicity and warp count) are
different tuples with the same key, for every device count `nd + 1`. -/
theorem cacheKey_alias (E : Externals) (nd s : Nat) (r w : Int) :
    ((s : Int), (nd : Int), (4 : Int)) ≠ ((s : Int) + 1, (0 : Int), (2 : Int)) ∧
    Int.tdiv ((4 * s : Nat) : Int) 4 = s ∧ Int.tdiv ((2 * (s + 1) : Nat) : Int) 2 = s + 1 ∧
    cacheKey E ((nd : Int) + 1) (4 * s) 4 nd r w
      = cacheKey E ((nd : Int) + 1) (2 * (s + 1)) 2 0 r w := by
  have h4 : Int.tdiv ((4 * s : Nat) : Int) 4 = s := by
    rw [Int.tdiv_eq_ediv (by positivity) (by norm_num)]
    omega
  have h2 : Int.tdiv ((2 * (s + 1) : Nat) : Int) 2 = (s : Int) + 1 := by
    rw [Int.tdiv_eq_ediv (by positivity) (by norm_num)]
    omega
  refine ⟨by simp, h4, h2, ?_⟩
  unfold cacheKey
  simp only [h4, h2]
  have e1 := u64_modEq (s : Int)
  have e2 := u64_modEq ((s : Int) + 1)
  have e3 := u64_modEq (nd : Int)
  have e4 := u64_modEq 0
  have e5 := u64_modEq 4
  have e6 := u64_modEq 2
  have lhs : u64 (s : Int) * MAX_NUMWARP * E.MAX_REG_STORAGE * MAX_NUMTYPE * ((nd : Int) + 1)
        + u64 (nd : Int) * MAX_NUMWARP * E.MAX_REG_STORAGE * MAX_NUMTYPE
        + u64 4 * MAX_NUMWARP * E.MAX_REG_STORAGE + u64 (r - 1) * MAX_NUMWARP + u64 w
      ≡ (s : Int) * MAX_NUMWARP * E.MAX_REG_STORAGE * MAX_NUMTYPE * ((nd : Int) + 1)
        + (nd : Int) * MAX_NUMWARP * E.MAX_REG_STORAGE * MAX_NUMTYPE
        + 4 * MAX_NUMWARP * E.MAX_REG_STORAGE + u64 (r - 1) * MAX_NUMWARP + u64 w
        [ZMOD 18446744073709551616] := by
    gcongr
  have rhs : u64 ((s : Int) + 1) * MAX_NUMWARP * E.MAX_REG_STORAGE * MAX_NUMTYPE
          * ((nd : Int) + 1)
        + u64 0 * MAX_NUMWARP * E.MAX_REG_STORAGE * MAX_NUMTYPE
        + u64 2 * MAX_NUMWARP * E.MAX_REG_STORAGE + u64 (r - 1) * MAX_NUMWARP + u64 w
      ≡ ((s : Int) + 1) * MAX_NUMWARP * E.MAX_REG_STORAGE * MAX_NUMTYPE * ((nd : Int) + 1)
        + 0 * MAX_NUMWARP * E.MAX_REG_STORAGE * MAX_NUMTYPE
        + 2 * MAX_NUMWARP * E.MAX_REG_STORAGE + u64 (r - 1) * MAX_NUMWARP + u64 w
        [ZMOD 18446744073709551616] := by
    gcongr
  have mid : (s : Int) * MAX_NUMWARP * E.MAX_REG_STORAGE * MAX_NUMTYPE * ((nd : Int) + 1)
        + (nd : Int) * MAX_NUMWARP * E.MAX_REG_STORAGE * MAX_NUMTYPE
        + 4 * MAX_NUMWARP * E.MAX_REG_STORAGE + u64 (r - 1) * MAX_NUMWARP + u64 w
      = ((s : Int) + 1) * MAX_NUMWARP * E.MAX_REG_STORAGE * MAX_NUMTYPE * ((nd : Int) + 1)
        + 0 * MAX_NUMWARP * E.MAX_REG_STORAGE * MAX_NUMTYPE
        + 2 * MAX_NUMWARP * E.MAX_REG_STORAGE + u64 (r - 1) * MAX_NUMWARP + u64 w := by
    have : MAX_NUMTYPE = 2 := rfl
    rw [this]
    ring
  rw [mid] at lhs
  exact lhs.trans rhs.symm

theorem range_succ_map_add (n : Nat) (r : Int) :
    (List.range (n + 1)).map (fun (i : Nat) => r + (i : Int))
      = r :: (List.range n).map (fun (i : Nat) => r + 1 + (i : Int)) := by
  rw [List.range_succ_eq_map, List.map_cons, List.map_map]
  simp only [Nat.cast_zero, add_zero, List.cons.injEq, true_and]
  apply List.map_congr_left
  intro i _
  simp only [Function.comp, Nat.succ_eq_add_one, Nat.cast_add, Nat.cast_one]
  ring

theorem mem_range_map_add (n : Nat) (r x : Int)
    (h : x ∈ (List.range n).map (fun (i : Nat) => r + (i : Int))) : r ≤ x ∧ x < r + n := by
  simp only [List.mem_map, List.mem_range] at h
  obtain ⟨i, hi, rfl⟩ := h
  constructor <;> omega

/-- What the scan leaves: it visits `r, r + 1, .., r + n - 1` in this order
with the thread count derived from each, and the running maxima are either
unchanged (no candidate beat `bestVal`) or those of the first candidate of
maximal score. -/
theorem scanLoop_spec (E : Externals) (sizeofType : Int) (ts : TensorSplit) (deviceID : Int)
    (prop : DeviceProp) (V : Int) :
    ∀ (n : Nat) (r : Int) (lc : LaunchConfig) (best : Best) (st : HostState)
      (lc2 : LaunchConfig) (best2 : Best) (st2 : HostState) (tr : List Candidate),
      scanLoop E sizeofType ts deviceID prop V n r lc best st = some (lc2, best2, st2, tr) →
      tr.map Candidate.numRegStorage = (List.range n).map (fun (i : Nat) => r + (i : Int)) ∧
      (∀ c ∈ tr, c.numthreadX = threadsFor prop V c.numRegStorage) ∧
      ((best2 = best ∧ ∀ c ∈ tr, score E ts c ≤ best.bestVal) ∨
       (∃ c ∈ tr, best2 = ⟨score E ts c, c.numRegStorage, c.numActiveBlock⟩ ∧
          best.bestVal < score E ts c ∧
          (∀ c' ∈ tr, score E ts c' ≤ score E ts c) ∧
          (∀ c' ∈ tr, c'.numRegStorage < c.numRegStorage → score E ts c' < score E ts c))) := by
  intro n
  induction n with
  | zero =>
    intro r lc best st lc2 best2 st2 tr h
    simp only [scanLoop, Option.some.injEq, Prod.mk.injEq] at h
    obtain ⟨_, h2, _, h4⟩ := h
    subst h2 h4
    simp
  | succ n ih =>
    intro r lc best st lc2 best2 st2 tr h
    simp only [scanLoop] at h
    split at h
    · exact absurd h (by simp)
    · next nab st1 hcall =>
      split at h
      · exact absurd h (by simp)
      · next lc3 best3 st3 tr3 hrec =>
        simp only [Option.some.injEq, Prod.mk.injEq] at h
        obtain ⟨_, hb, _, htr⟩ := h
        subst hb htr
        obtain ⟨hmap, hthr, hbest⟩ := ih _ _ _ _ _ _ _ _ hrec
        have hrs : ∀ c' ∈ tr3, r < c'.numRegStorage := by
          intro c' hc'
          have : c'.numRegStorage ∈ tr3.map Candidate.numRegStorage :=
            List.mem_map_of_mem _ hc'
          rw [hmap] at this
          have := (mem_range_map_add n (r + 1) _ this).1
          omega
        refine ⟨?_, ?_, ?_⟩
        · rw [range_succ_map_add, List.map_cons, hmap]
        · intro c hc
          rcases List.mem_cons.mp hc with rfl | hc
          · rfl
          · exact hthr c hc
        · by_cases hup : (E.volMmkUsed ts : Int) * nab > best.bestVal
          · simp only [hup, if_true] at hbest
            rcases hbest with ⟨hb, hall⟩ | ⟨c, hc, hb, hlt, hmax, hfirst⟩
            · right
              refine ⟨⟨r, threadsFor prop V r, nab⟩, List.mem_cons_self _ _, hb, hup, ?_, ?_⟩
              · intro c' hc'
                rcases List.mem_cons.mp hc' with rfl | hc'
                · exact le_refl _
                · exact hall c' hc'
              · intro c' hc' hlt'
                rcases List.mem_cons.mp hc' with rfl | hc'
                · exact absurd hlt' (lt_irrefl _)
                · have := hrs c' hc'
                  simp only at hlt'
                  omega
            · right
              refine ⟨c, List.mem_cons_of_mem _ hc, hb, ?_, ?_, ?_⟩
              · omega
              · intro c' hc'
                rcases List.mem_cons.mp hc' with rfl | hc'
                · simp only [score] at hlt ⊢
                  omega
                · exact hmax c' hc'
              · intro c' hc' hlt'
                rcases List.mem_cons.mp hc' with rfl | hc'
                · simp only [score] at hlt ⊢
                  omega
                · exact hfirst c' hc' hlt'
          · simp only [hup, if_false] at hbest
            rcases hbest with ⟨hb, hall⟩ | ⟨c, hc, hb, hlt, hmax, hfirst⟩
            · left
              refine ⟨hb, ?_⟩
              intro c' hc'
              rcases List.mem_cons.mp hc' with rfl | hc'
              · simp only [score]
                omega
              · exact hall c' hc'
            · right
              refine ⟨c, List.mem_cons_of_mem _ hc, hb, hlt, ?_, ?_⟩
              · intro c' hc'
                rcases List.mem_cons.mp hc' with rfl | hc'
                · simp only [score] at hlt ⊢
                  omega
                · exact hmax c' hc'
              · intro c' hc' hlt'
                rcases List.mem_cons.mp hc' with rfl | hc'
                · simp only [score] at hlt ⊢
                  omega
                · exact hfirst c' hc' hlt'

theorem getNumActiveBlock_some (E : Externals) (method : Method) (sizeofType : Int)
    (lc : LaunchConfig) (deviceID : Int) (prop : DeviceProp) (st : HostState)
    (hm : method = Method.PackedSplit →
      Int.tdiv (lc.numthread.x * lc.numthread.y * lc.numthread.z) prop.warpSize - 1
        < MAX_NUMWARP) :
    ∃ res, getNumActiveBlock E method sizeofType lc deviceID prop st = some res := by
  cases method with
  | Trivial => exact ⟨_, rfl⟩
  | Packed => exact ⟨_, rfl⟩
  | Tiled => exact ⟨_, rfl⟩
  | TiledCopy => exact ⟨_, rfl⟩
  | PackedSplit =>
    have h := hm rfl
    simp only [getNumActiveBlock, ge_iff_le, not_le.mpr h, if_false]
    split
    · exact ⟨_, rfl⟩
    · exact ⟨_, rfl⟩

theorem scanLoop_some (E : Externals) (sizeofType : Int) (ts : TensorSplit) (deviceID : Int)
    (prop : DeviceProp) (V : Int) :
    ∀ (n : Nat) (r : Int) (lc : LaunchConfig) (best : Best) (st : HostState),
      lc.numthread.y = 1 → lc.numthread.z = 1 →
      (ts.method = Method.PackedSplit →
        ∀ i : Nat, i < n → keyWarpFor prop V (r + i) < MAX_NUMWARP) →
      ∃ res, scanLoop E sizeofType ts deviceID prop V n r lc best st = some res := by
  intro n
  induction n with
  | zero => intro r lc best st _ _ _; exact ⟨_, rfl⟩
  | succ n ih =>
    intro r lc best st hy hz hk
    simp only [scanLoop]
    obtain ⟨⟨nab, st1⟩, hcall⟩ := getNumActiveBlock_some E ts.method sizeofType
      { lc with numRegStorage := r, numthread := { lc.numthread with x := threadsFor prop V r } }
      deviceID prop st (by
        intro hm
        have := hk hm 0 (by omega)
        simp only [keyWarpFor, Nat.cast_zero, add_zero] at this
        simp only [hy, hz]
        exact this)
    rw [hcall]
    obtain ⟨⟨lc2, best2, st2, tr⟩, hrec⟩ := ih (r + 1)
      { lc with numRegStorage := r, numthread := { lc.numthread with x := threadsFor prop V r } }
      (if (E.volMmkUsed ts : Int) * nab > best.bestVal then ⟨(E.volMmkUsed ts : Int) * nab, r, nab⟩
        else best) st1 hy hz (by
        intro hm i hi
        have := hk hm (i + 1) (by omega)
        have e : r + ((i + 1 : Nat) : Int) = r + 1 + (i : Int) := by push_cast; ring
        rw [e] at this
        exact this)
    simp only [hrec]
    exact ⟨_, rfl⟩

theorem minNumRegStorage_pos (E : Externals) (prop : DeviceProp) (V : Int) (hV : 1 ≤ V)
    (hws : 1 ≤ prop.warpSize) (hR : 1 ≤ E.MAX_REG_STORAGE)
    (hth : minNumthread E prop V ≤ prop.maxThreadsPerBlock) :
    1 ≤ minNumRegStorage prop V := by
  have h1 : 0 ≤ Int.tdiv (V - 1) (prop.warpSize * E.MAX_REG_STORAGE) :=
    Int.tdiv_nonneg (by omega) (by positivity)
  have h2 : 0 ≤ Int.tdiv (V - 1) prop.warpSize := Int.tdiv_nonneg (by omega) (by omega)
  have hmin : 1 ≤ minNumthread E prop V := by
    unfold minNumthread
    nlinarith
  have hmax : 1 ≤ maxNumthread prop V := by
    unfold maxNumthread
    apply le_min
    · omega
    · nlinarith
  unfold minNumRegStorage
  have := Int.tdiv_nonneg (show 0 ≤ V - 1 by omega) (show 0 ≤ maxNumthread prop V by omega)
  omega

theorem packedGrid_numthread (ts : TensorSplit) (prop : DeviceProp) (lc : LaunchConfig) :
    (packedGrid ts prop lc).numthread.y = 1 ∧ (packedGrid ts prop lc).numthread.z = 1 := by
  unfold packedGrid
  split <;> exact ⟨rfl, rfl⟩

/-- C8 as amended (planner selection).  For Packed, and for PackedSplit when
no candidate's warp count reaches `MAX_NUMWARP`, on a device with
`warpSize ≥ 1` and a minor volume `V ≥ 1`: when the shared-memory and
thread-count checks pass the planner returns, having visited every `r` of
`[minNumRegStorage, maxNumRegStorage]` in increasing order with
`numthread.x = ((V-1)/(warpSize*r) + 1)*warpSize`; if some candidate has a
positive score it leaves in `lc` the smallest `r` of maximal score and the
thread count of that `r`, and returns that candidate's occupancy when the
grid-extent check passes and 0 when it does not; if no candidate has a
positive score it returns 0. -/
theorem planner_selection (E : Externals) (sizeofType : Int) (ts : TensorSplit)
    (deviceID : Int) (prop : DeviceProp) (lc : LaunchConfig) (st : HostState)
    (hm : ts.method = Method.Packed ∨ ts.method = Method.PackedSplit)
    (hV : 1 ≤ planVolume ts) (hws : 1 ≤ prop.warpSize) (hR : 1 ≤ E.MAX_REG_STORAGE)
    (hsh : E.shmemAlloc ts sizeofType ≤ prop.sharedMemPerBlock)
    (hth : minNumthread E prop (planVolume ts) ≤ prop.maxThreadsPerBlock)
    (hkw : ts.method = Method.PackedSplit →
      ∀ i : Nat, i < (maxNumRegStorage E prop (planVolume ts) + 1
          - minNumRegStorage prop (planVolume ts)).toNat →
        keyWarpFor prop (planVolume ts) (minNumRegStorage prop (planVolume ts) + i)
          < MAX_NUMWARP) :
    ∃ ret lc' st' tr,
      cuttKernelLaunchConfiguration E sizeofType ts deviceID prop lc st
        = some (ret, lc', st', tr) ∧
      tr.map Candidate.numRegStorage
        = (List.range (maxNumRegStorage E prop (planVolume ts) + 1
              - minNumRegStorage prop (planVolume ts)).toNat).map
            (fun (i : Nat) => minNumRegStorage prop (planVolume ts) + (i : Int)) ∧
      (∀ c ∈ tr, c.numthreadX = threadsFor prop (planVolume ts) c.numRegStorage) ∧
      ((∃ c ∈ tr, 0 < score E ts c) →
        ∃ c ∈ tr, (∀ c' ∈ tr, score E ts c' ≤ score E ts c) ∧
          (∀ c' ∈ tr, c'.numRegStorage < c.numRegStorage → score E ts c' < score E ts c) ∧
          lc'.numRegStorage = c.numRegStorage ∧
          lc'.numthread.x = threadsFor prop (planVolume ts) c.numRegStorage ∧
          (gridFits prop lc' → ret = c.numActiveBlock) ∧
          (¬ gridFits prop lc' → ret = 0)) ∧
      ((∀ c ∈ tr, score E ts c ≤ 0) → ret = 0) := by
  have hplan : cuttKernelLaunchConfiguration E sizeofType ts deviceID prop lc st
      = planPacked E sizeofType ts deviceID prop lc st := by
    unfold cuttKernelLaunchConfiguration
    rcases hm with h | h <;> rw [h]
  rw [hplan]
  unfold planPacked
  simp only [not_lt.mpr hsh, not_lt.mpr hth, if_false]
  have hg := packedGrid_numthread ts prop { lc with shmemsize := E.shmemAlloc ts sizeofType }
  obtain ⟨⟨lc2, best, st2, tr⟩, hscan⟩ := scanLoop_some E sizeofType ts deviceID prop
    (planVolume ts) _ (minNumRegStorage prop (planVolume ts))
    (packedGrid ts prop { lc with shmemsize := E.shmemAlloc ts sizeofType }) ⟨0, 0, 0⟩ st
    hg.1 hg.2 hkw
  obtain ⟨hmap, hthr, hbest⟩ := scanLoop_spec _ _ _ _ _ _ _ _ _ _ _ _ _ _ _ hscan
  have hlo := minNumRegStorage_pos E prop (planVolume ts) hV hws hR hth
  simp only [hscan]
  rcases hbest with ⟨hb, hall⟩ | ⟨c, hc, hb, hpos, hmax, hfirst⟩
  · subst hb
    simp only [if_true]
    refine ⟨0, lc2, st2, tr, rfl, hmap, hthr, ?_, fun _ => rfl⟩
    rintro ⟨c, hc, hpos⟩
    have := hall c hc
    simp only at this
    omega
  · have hcr : c.numRegStorage ≠ 0 := by
      have : c.numRegStorage ∈ tr.map Candidate.numRegStorage := List.mem_map_of_mem _ hc
      rw [hmap] at this
      have := (mem_range_map_add _ _ _ this).1
      omega
    have hnab : c.numActiveBlock ≠ -1 := by
      intro h
      simp only [score, h] at hpos
      have : (0 : Int) ≤ (E.volMmkUsed ts : Int) := Int.ofNat_nonneg _
      nlinarith
    subst hb
    simp only [hcr, if_false]
    unfold finishPlan
    by_cases hgrid : gridFits prop lc2
    · have hg' : ¬ (lc2.numblock.x > prop.maxGridSize0 ∨ lc2.numblock.y > prop.maxGridSize1 ∨
          lc2.numblock.z > prop.maxGridSize2) := by
        unfold gridFits at hgrid
        omega
      simp only [hg', if_false, hnab]
      refine ⟨_, _, _, _, rfl, hmap, hthr, fun _ => ⟨c, hc, hmax, hfirst, rfl, rfl,
        fun _ => rfl, fun h => absurd hgrid h⟩, ?_⟩
      intro hall
      have := hall c hc
      simp only at hpos
      omega
    · have hg' : (lc2.numblock.x > prop.maxGridSize0 ∨ lc2.numblock.y > prop.maxGridSize1 ∨
          lc2.numblock.z > prop.maxGridSize2) := by
        unfold gridFits at hgrid
        omega
      simp only [hg', if_true]
      refine ⟨_, _, _, _, rfl, hmap, hthr, fun _ => ⟨c, hc, hmax, hfirst, rfl, rfl,
        fun h => absurd h hgrid, fun _ => rfl⟩, fun _ => rfl⟩

/-- Counterexample to C8 as stated: PackedSplit with 1024 elements per block
on a 32-wide device with 1024 threads per block.  The shared-memory and
thread-count checks pass, and the first candidate `r = 1` has 32 warps, so
`getNumActiveBlock` terminates the process: the planner returns nothing. -/
theorem planner_selection_counterexample :
    exTsBig.method = Method.PackedSplit ∧
    exE.shmemAlloc exTsBig 4 ≤ exProp32.sharedMemPerBlock ∧
    minNumthread exE exProp32 (planVolume exTsBig) ≤ exProp32.maxThreadsPerBlock ∧
    minNumRegStorage exProp32 (planVolume exTsBig) = 1 ∧
    keyWarpFor exProp32 (planVolume exTsBig) 1 = 31 ∧
    (cuttKernelLaunchConfiguration exE 4 exTsBig 0 exProp32 lcZero HostState.init).isNone
      = true := by
  decide

/-- Witness for C8: Packed with a minor volume of 256 on the 64-wide example
device.  The candidates 1..4 have occupancies 8, 16, 16, 16; the planner
keeps `r = 2` with 128 threads and returns 16. -/
theorem planner_selection_witness :
    (1 ≤ planVolume (exTs Method.Packed) ∧ 1 ≤ exProp.warpSize ∧ 1 ≤ exE.MAX_REG_STORAGE ∧
      exE.shmemAlloc (exTs Method.Packed) 4 ≤ exProp.sharedMemPerBlock ∧
      minNumthread exE exProp (planVolume (exTs Method.Packed)) ≤ exProp.maxThreadsPerBlock) ∧
    (cuttKernelLaunchConfiguration exE 4 (exTs Method.Packed) 0 exProp lcZero
        HostState.init).map (fun r => (r.1, r.2.1, r.2.2.2))
      = some (16, ⟨⟨128, 1, 1⟩, ⟨10, 1, 1⟩, 1024, 2⟩,
          [⟨1, 256, 8⟩, ⟨2, 128, 16⟩, ⟨3, 128, 16⟩, ⟨4, 64, 16⟩]) ∧
    ∃ ret lc' st' tr,
      cuttKernelLaunchConfiguration exE 4 (exTs Method.Packed) 0 exProp lcZero HostState.init
        = some (ret, lc', st', tr) ∧
      ((∃ c ∈ tr, 0 < score exE (exTs Method.Packed) c) →
        ∃ c ∈ tr, (∀ c' ∈ tr, score exE (exTs Method.Packed) c'
            ≤ score exE (exTs Method.Packed) c) ∧
          lc'.numRegStorage = c.numRegStorage) := by
  refine ⟨by decide, by decide, ?_⟩
  obtain ⟨ret, lc', st', tr, h, _, _, hsel, _⟩ :=
    planner_selection exE 4 (exTs Method.Packed) 0 exProp lcZero HostState.init
      (Or.inl rfl) (by decide) (by decide) (by decide) (by decide) (by decide)
      (fun h => absurd h (by decide))
  refine ⟨ret, lc', st', tr, h, fun hex => ?_⟩
  obtain ⟨c, hc, hmax, _, hr, _⟩ := hsel hex
  exact ⟨c, hc, hmax, hr⟩

theorem withDevices_idem (E : Externals) (st : HostState) :
    withDevices E (withDevices E st) = withDevices E st := by
  unfold withDevices
  by_cases h : st.numDevices = -1
  · simp only [h, if_true]
    by_cases h' : E.deviceCount = -1
    · simp only [h', if_true]
    · simp only [h', if_false]
  · simp only [h, if_false]

theorem withDevices_cache (E : Externals) (st : HostState) :
    (withDevices E st).nabCache = st.nabCache := by
  unfold withDevices
  split <;> rfl

theorem normal_of_numDevices (E : Externals) (s s' : HostState)
    (h : s'.numDevices = (withDevices E s).numDevices) : withDevices E s' = s' := by
  unfold withDevices at h ⊢
  by_cases h1 : s'.numDevices = -1
  · simp only [h1, if_true]
    by_cases h2 : s.numDevices = -1
    · simp only [h2, if_true] at h
      rw [← h, h1]
      cases s'
      simp only at h1
      simp only [h1]
    · simp only [h2, if_false] at h
      exact absurd (h.symm.trans h1) h2
  · simp only [h1, if_false]

theorem extends_refl (E : Externals) (a : HostState) (h : withDevices E a = a) :
    Extends E a a := ⟨h, by rw [h], fun _ _ => rfl⟩

theorem extends_trans (E : Externals) (a b c : HostState) (hab : Extends E a b)
    (hbc : Extends E b c) : Extends E a c := by
  obtain ⟨hb, hbd, hbk⟩ := hab
  obtain ⟨hc, hcd, hck⟩ := hbc
  refine ⟨hc, ?_, fun k hk => ?_⟩
  · rw [hcd, hb, hbd]
  · have := hbk k hk
    rw [hck k (by rw [this]; exact hk), this]

/-- Effect of one PackedSplit call of `getNumActiveBlock` that returns. -/
theorem getNumActiveBlock_split_post (E : Externals) (sizeofType : Int) (lc : LaunchConfig)
    (deviceID : Int) (prop : DeviceProp) (st : HostState) (v : Int) (st1 : HostState)
    (h : getNumActiveBlock E Method.PackedSplit sizeofType lc deviceID prop st = some (v, st1)) :
    Extends E st st1 ∧
    Int.tdiv (lc.numthread.x * lc.numthread.y * lc.numthread.z) prop.warpSize - 1 < MAX_NUMWARP ∧
    (v ≠ -1 → st1.nabCache (cacheKey E st1.numDevices lc.shmemsize sizeofType deviceID
      lc.numRegStorage
      (Int.tdiv (lc.numthread.x * lc.numthread.y * lc.numthread.z) prop.warpSize - 1)) = v) := by
  simp only [getNumActiveBlock] at h
  split at h
  · exact absurd h (by simp)
  · next hkw =>
    have hkw' := not_le.mp hkw
    split at h
    · next hmiss =>
      simp only [Option.some.injEq, Prod.mk.injEq] at h
      obtain ⟨hv, hst⟩ := h
      have hdev : st1.numDevices = (withDevices E st).numDevices := by
        rw [← hst]
        simp only [occupancySwitch]
        split <;> rfl
      have hcache : st1.nabCache = Function.update (withDevices E st).nabCache
          (cacheKey E (withDevices E st).numDevices lc.shmemsize sizeofType deviceID
            lc.numRegStorage
            (Int.tdiv (lc.numthread.x * lc.numthread.y * lc.numthread.z) prop.warpSize - 1))
          v := by
        rw [← hst, ← hv]
        simp only [occupancySwitch]
        split <;> rfl
      refine ⟨⟨?_, hdev, ?_⟩, hkw', ?_⟩
      · exact normal_of_numDevices E st st1 hdev
      · intro k hk
        rw [hcache]
        rw [Function.update_noteq]
        · rw [withDevices_cache]
        · intro hkeq
          rw [hkeq, ← withDevices_cache E st] at hk
          exact hk hmiss
      · intro _
        rw [hcache, hdev, Function.update_same]
    · next hhit =>
      simp only [Option.some.injEq, Prod.mk.injEq] at h
      obtain ⟨hv, hst⟩ := h
      subst hst
      refine ⟨⟨withDevices_idem E st, rfl, ?_⟩, hkw', fun _ => hv⟩
      · intro k _
        rw [withDevices_cache]

/-- A PackedSplit call whose entry is in the cache returns it and leaves the
host state as it is. -/
theorem getNumActiveBlock_split_hit (E : Externals) (sizeofType : Int) (lc : LaunchConfig)
    (deviceID : Int) (prop : DeviceProp) (st : HostState) (v : Int)
    (hn : withDevices E st = st)
    (hkw : Int.tdiv (lc.numthread.x * lc.numthread.y * lc.numthread.z) prop.warpSize - 1
      < MAX_NUMWARP)
    (hv : v ≠ -1)
    (hc : st.nabCache (cacheKey E st.numDevices lc.shmemsize sizeofType deviceID
      lc.numRegStorage
      (Int.tdiv (lc.numthread.x * lc.numthread.y * lc.numthread.z) prop.warpSize - 1)) = v) :
    getNumActiveBlock E Method.PackedSplit sizeofType lc deviceID prop st = some (v, st) := by
  simp only [getNumActiveBlock, hn, ge_iff_le, not_le.mpr hkw, if_false, hc, hv]

theorem getNumActiveBlock_split_replay (E : Externals) (sizeofType : Int) (lc : LaunchConfig)
    (deviceID : Int) (prop : DeviceProp) (st : HostState) (v : Int) (st1 stF : HostState)
    (h : getNumActiveBlock E Method.PackedSplit sizeofType lc deviceID prop st = some (v, st1))
    (hv : v ≠ -1) (hext : Extends E st1 stF) :
    getNumActiveBlock E Method.PackedSplit sizeofType lc deviceID prop stF = some (v, stF) := by
  obtain ⟨⟨hn1, _, _⟩, hkw, hval⟩ := getNumActiveBlock_split_post E _ _ _ _ _ _ _ h
  obtain ⟨hnF, hdF, hkF⟩ := hext
  rw [hn1] at hdF
  apply getNumActiveBlock_split_hit E _ _ _ _ _ _ hnF hkw hv
  rw [hdF, hkF _ (by rw [hval hv]; exact hv), hval hv]

theorem scanLoop_extends (E : Externals) (sizeofType : Int) (ts : TensorSplit) (deviceID : Int)
    (prop : DeviceProp) (V : Int) (hm : ts.method = Method.PackedSplit) :
    ∀ (n : Nat) (r : Int) (lc : LaunchConfig) (best : Best) (st : HostState)
      (lc2 : LaunchConfig) (best2 : Best) (st2 : HostState) (tr : List Candidate),
      scanLoop E sizeofType ts deviceID prop V n r lc best st = some (lc2, best2, st2, tr) →
      (n = 0 ∧ st2 = st) ∨ Extends E st st2 := by
  intro n
  induction n with
  | zero =>
    intro r lc best st lc2 best2 st2 tr h
    simp only [scanLoop, Option.some.injEq, Prod.mk.injEq] at h
    exact Or.inl ⟨rfl, h.2.2.1.symm⟩
  | succ n ih =>
    intro r lc best st lc2 best2 st2 tr h
    simp only [scanLoop] at h
    split at h
    · exact absurd h (by simp)
    · next nab st1 hcall =>
      split at h
      · exact absurd h (by simp)
      · next lc3 best3 st3 tr3 hrec =>
        simp only [Option.some.injEq, Prod.mk.injEq] at h
        obtain ⟨_, _, hst, _⟩ := h
        subst hst
        rw [hm] at hcall
        have h1 := (getNumActiveBlock_split_post E _ _ _ _ _ _ _ hcall).1
        right
        rcases ih _ _ _ _ _ _ _ _ hrec with ⟨_, h2⟩ | h2
        · rw [h2]; exact h1
        · exact extends_trans E _ _ _ h1 h2

theorem scanLoop_replay (E : Externals) (sizeofType : Int) (ts : TensorSplit) (deviceID : Int)
    (prop : DeviceProp) (V : Int) (hm : ts.method = Method.PackedSplit) :
    ∀ (n : Nat) (r : Int) (lc : LaunchConfig) (best : Best) (st : HostState)
      (lc2 : LaunchConfig) (best2 : Best) (st2 : HostState) (tr : List Candidate),
      scanLoop E sizeofType ts deviceID prop V n r lc best st = some (lc2, best2, st2, tr) →
      (∀ c ∈ tr, c.numActiveBlock ≠ -1) →
      ∀ stF : HostState, (n ≠ 0 → Extends E st2 stF) →
      scanLoop E sizeofType ts deviceID prop V n r lc best stF = some (lc2, best2, stF, tr) := by
  intro n
  induction n with
  | zero =>
    intro r lc best st lc2 best2 st2 tr h _ stF _
    simp only [scanLoop, Option.some.injEq, Prod.mk.injEq] at h ⊢
    exact ⟨h.1, h.2.1, trivial, h.2.2.2⟩
  | succ n ih =>
    intro r lc best st lc2 best2 st2 tr h hnab stF hext
    simp only [scanLoop] at h ⊢
    split at h
    · exact absurd h (by simp)
    · next nab st1 hcall =>
      split at h
      · exact absurd h (by simp)
      · next lc3 best3 st3 tr3 hrec =>
        simp only [Option.some.injEq, Prod.mk.injEq] at h
        obtain ⟨hlc, hb, hst, htr⟩ := h
        subst hlc hb hst htr
        have hextF := hext (by omega)
        have hv : nab ≠ -1 := hnab ⟨r, threadsFor prop V r, nab⟩ (List.mem_cons_self _ _)
        have h1F : Extends E st1 stF := by
          rcases scanLoop_extends E sizeofType ts deviceID prop V hm _ _ _ _ _ _ _ _ _ hrec
            with ⟨_, h2⟩ | h2
          · rw [← h2]; exact hextF
          · exact extends_trans E _ _ _ h2 hextF
        rw [hm] at hcall ⊢
        rw [getNumActiveBlock_split_replay E _ _ _ _ _ _ _ _ hcall hv h1F]
        simp only
        have hrec' := ih _ _ _ _ _ _ _ _ hrec
          (fun c hc => hnab c (List.mem_cons_of_mem _ hc)) stF (fun _ => hextF)
        rw [hrec']

theorem planPacked_replay (E : Externals) (sizeofType : Int) (ts : TensorSplit)
    (deviceID : Int) (prop : DeviceProp) (lc : LaunchConfig) (st : HostState)
    (hm : ts.method = Method.PackedSplit)
    (ret : Int) (lc' : LaunchConfig) (st' : HostState) (tr : List Candidate)
    (h : planPacked E sizeofType ts deviceID prop lc st = some (ret, lc', st', tr))
    (hnab : ∀ c ∈ tr, 0 ≤ c.numActiveBlock) :
    planPacked E sizeofType ts deviceID prop lc st' = some (ret, lc', st', tr) := by
  unfold planPacked at h ⊢
  simp only at h ⊢
  split at h
  · next hsh =>
    simp only [Option.some.injEq, Prod.mk.injEq] at h
    obtain ⟨h1, h2, h3, h4⟩ := h
    subst h1 h2 h3 h4
    simp only [hsh, if_true]
  · next hsh =>
    simp only [hsh, if_false]
    split at h
    · next hth =>
      simp only [Option.some.injEq, Prod.mk.injEq] at h
      obtain ⟨h1, h2, h3, h4⟩ := h
      subst h1 h2 h3 h4
      simp only [hth, if_true]
    · next hth =>
      simp only [hth, if_false]
      split at h
      · exact absurd h (by simp)
      · next lc2 best st2 tr2 hscan =>
        have hspec := (scanLoop_spec _ _ _ _ _ _ _ _ _ _ _ _ _ _ _ hscan).2.2
        have hst2 : st' = st2 ∧ tr = tr2 ∧
            (best.bestNumRegStorage ≠ 0 → best.bestNumActiveBlock ≠ -1) := by
          split at h
          · simp only [Option.some.injEq, Prod.mk.injEq] at h
            exact ⟨h.2.2.1.symm, h.2.2.2.symm, fun hne => absurd ‹_› hne⟩
          · next hne =>
            have hb : best.bestNumActiveBlock ≠ -1 := by
              rcases hspec with ⟨hb, _⟩ | ⟨c, hc, hb, hpos, _⟩
              · rw [hb] at hne; exact absurd rfl hne
              · rw [hb]
                simp only [score] at hpos
                intro hc1
                simp only at hc1
                rw [hc1] at hpos
                have : (0 : Int) ≤ (E.volMmkUsed ts : Int) := Int.ofNat_nonneg _
                omega
            unfold finishPlan at h
            split at h
            · simp only [Option.some.injEq, Prod.mk.injEq] at h
              exact ⟨h.2.2.1.symm, h.2.2.2.symm, fun _ => hb⟩
            · simp only [hb, if_false, Option.some.injEq, Prod.mk.injEq] at h
              exact ⟨h.2.2.1.symm, h.2.2.2.symm, fun _ => hb⟩
        obtain ⟨hs, ht, hbne⟩ := hst2
        subst hs ht
        have hrep := scanLoop_replay E sizeofType ts deviceID prop (planVolume ts) hm _ _ _ _ _
          _ _ _ _ hscan (fun c hc => by have := hnab c hc; omega) st' (by
            intro hn
            rcases scanLoop_extends E sizeofType ts deviceID prop (planVolume ts) hm _ _ _ _ _
              _ _ _ _ hscan with ⟨h0, _⟩ | hx
            · exact absurd h0 hn
            · exact extends_refl E _ hx.1)
        rw [hrep]
        simp only
        split at h
        · next h0 =>
          simp only [h0, if_true]
          exact h
        · next h0 =>
          simp only [h0, if_false]
          unfold finishPlan at h ⊢
          split at h
          · next hg =>
            simp only [hg, if_true]
            exact h
          · next hg =>
            simp only [hg, if_false, hbne h0] at h ⊢
            exact h

/-- C10 (get-or-compute).  With the cache a key-to-value map with absent
sentinel -1 and the occupancy query counted in the host state: a PackedSplit
call of `getNumActiveBlock` that returned a non-negative value, repeated with
the same arguments, returns the same value and leaves the host state as it
is, so it issues no occupancy query; and a PackedSplit call of
`cuttKernelLaunchConfiguration` whose occupancies were all non-negative,
repeated with the same arguments, returns the same value and the same launch
configuration and leaves the host state as it is. -/
theorem get_or_compute (E : Externals) (sizeofType deviceID : Int) (prop : DeviceProp)
    (lc : LaunchConfig) (st : HostState) :
    (∀ (v : Int) (st1 : HostState),
      getNumActiveBlock E Method.PackedSplit sizeofType lc deviceID prop st = some (v, st1) →
      0 ≤ v →
      getNumActiveBlock E Method.PackedSplit sizeofType lc deviceID prop st1 = some (v, st1)) ∧
    (∀ (ts : TensorSplit) (ret : Int) (lc' : LaunchConfig) (st' : HostState)
      (tr : List Candidate),
      ts.method = Method.PackedSplit →
      cuttKernelLaunchConfiguration E sizeofType ts deviceID prop lc st
        = some (ret, lc', st', tr) →
      (∀ c ∈ tr, 0 ≤ c.numActiveBlock) →
      cuttKernelLaunchConfiguration E sizeofType ts deviceID prop lc st'
        = some (ret, lc', st', tr)) := by
  constructor
  · intro v st1 h hv
    have hx := (getNumActiveBlock_split_post E _ _ _ _ _ _ _ h).1
    exact getNumActiveBlock_split_replay E _ _ _ _ _ _ _ _ h (by omega)
      (extends_refl E _ hx.1)
  · intro ts ret lc' st' tr hm h hnab
    unfold cuttKernelLaunchConfiguration at h ⊢
    rw [hm] at h ⊢
    simp only at h ⊢
    exact planPacked_replay E _ _ _ _ _ _ hm _ _ _ _ h hnab

/-- Witness for C7: Packed with a minor volume of 256 on the example device
returns 16 with 1024 bytes of shared memory and a grid of 10 blocks. -/
theorem launch_config_within_budget_witness :
    (cuttKernelLaunchConfiguration exE 4 (exTs Method.Packed) 0 exProp lcZero
        HostState.init).map (fun r => (r.1, r.2.1))
      = some (16, ⟨⟨128, 1, 1⟩, ⟨10, 1, 1⟩, 1024, 2⟩) ∧
    ∃ ret lc' st' tr,
      cuttKernelLaunchConfiguration exE 4 (exTs Method.Packed) 0 exProp lcZero HostState.init
        = some (ret, lc', st', tr) ∧ ret ≠ 0 ∧
      lc'.shmemsize ≤ exProp.sharedMemPerBlock ∧ lc'.numblock.x ≤ exProp.maxGridSize0 ∧
      lc'.numblock.y ≤ exProp.maxGridSize1 ∧ lc'.numblock.z ≤ exProp.maxGridSize2 := by
  have hval : (cuttKernelLaunchConfiguration exE 4 (exTs Method.Packed) 0 exProp lcZero
      HostState.init).map (fun r => (r.1, r.2.1))
      = some (16, ⟨⟨128, 1, 1⟩, ⟨10, 1, 1⟩, 1024, 2⟩) := by decide
  refine ⟨hval, ?_⟩
  cases h : cuttKernelLaunchConfiguration exE 4 (exTs Method.Packed) 0 exProp lcZero
      HostState.init with
  | none => rw [h] at hval; exact absurd hval (by simp)
  | some res =>
    obtain ⟨ret, lc', st', tr⟩ := res
    rw [h] at hval
    simp only [Option.map_some', Option.some.injEq, Prod.mk.injEq] at hval
    have hret : ret ≠ 0 := by rw [hval.1]; decide
    exact ⟨ret, lc', st', tr, rfl, hret,
      (launch_config_within_budget exE 4 (exTs Method.Packed) 0 exProp lcZero
        HostState.init).1 ret lc' st' tr h hret⟩

/-- Witness for C10: on the example device the first PackedSplit query for
`exLc` misses the cache, issues one occupancy query and returns 16; the
second returns 16 from the cache with still one query issued.  The first
planner call issues four queries and returns 16; the second issues none. -/
theorem get_or_compute_witness :
    ((getNumActiveBlock exE Method.PackedSplit 4 exLc 0 exProp HostState.init).bind
        (fun r => (getNumActiveBlock exE Method.PackedSplit 4 exLc 0 exProp r.2).map
          (fun r2 => (r.1, r.2.queries, r2.1, r2.2.queries)))) = some (16, 1, 16, 1) ∧
    ((cuttKernelLaunchConfiguration exE 4 (exTs Method.PackedSplit) 0 exProp lcZero
          HostState.init).bind
        (fun r => (cuttKernelLaunchConfiguration exE 4 (exTs Method.PackedSplit) 0 exProp lcZero
            r.2.2.1).map
          (fun r2 => (r.1, r.2.2.1.queries, r2.1, r2.2.2.1.queries, r2.2.1))))
      = some (16, 4, 16, 4, ⟨⟨128, 1, 1⟩, ⟨2, 10, 1⟩, 1024, 2⟩) ∧
    (∃ v st1,
      getNumActiveBlock exE Method.PackedSplit 4 exLc 0 exProp HostState.init = some (v, st1) ∧
      0 ≤ v ∧
      getNumActiveBlock exE Method.PackedSplit 4 exLc 0 exProp st1 = some (v, st1)) := by
  refine ⟨by decide, by decide, ?_⟩
  have hval : (getNumActiveBlock exE Method.PackedSplit 4 exLc 0 exProp HostState.init).map
      (fun r => r.1) = some 16 := by decide
  cases h : getNumActiveBlock exE Method.PackedSplit 4 exLc 0 exProp HostState.init with
  | none => rw [h] at hval; exact absurd hval (by simp)
  | some res =>
    obtain ⟨v, st1⟩ := res
    rw [h] at hval
    simp only [Option.map_some', Option.some.injEq] at hval
    have hv : 0 ≤ v := by rw [hval]; decide
    exact ⟨v, st1, rfl, hv, (get_or_compute exE 4 0 exProp exLc HostState.init).1 v st1 h hv⟩

theorem applyWrites_nil {α : Type} (m : Nat → α) : applyWrites [] m = m := rfl

theorem applyWrites_cons {α : Type} (w : Nat × α) (l : List (Nat × α)) (m : Nat → α) :
    applyWrites (w :: l) m = applyWrites l (Function.update m w.1 w.2) := rfl

/-- An offset all of whose stores carry the value `v`, and which either is
stored to or holds `v` already, holds `v` afterwards, in whatever order the
stores are applied. -/
theorem applyWrites_eq_of_forall {α : Type} (l : List (Nat × α)) (a : Nat) (v : α) :
    ∀ m : Nat → α, (∀ w ∈ l, w.1 = a → w.2 = v) → (m a = v ∨ ∃ w ∈ l, w.1 = a) →
      applyWrites l m a = v := by
  induction l with
  | nil =>
    intro m _ h
    rcases h with h | ⟨w, hw, _⟩
    · exact h
    · exact absurd hw (List.not_mem_nil _)
  | cons w l ih =>
    intro m hall h
    rw [applyWrites_cons]
    apply ih
    · intro w' hw' ha
      exact hall w' (List.mem_cons_of_mem _ hw') ha
    · by_cases hwa : w.1 = a
      · left
        rw [← hwa, Function.update_same]
        exact hall w (List.mem_cons_self _ _) hwa
      · rcases h with h | ⟨w', hw', ha⟩
        · left
          rw [Function.update_noteq (Ne.symm hwa)]
          exact h
        · rcases List.mem_cons.mp hw' with rfl | hw'
          · exact absurd ha hwa
          · exact Or.inr ⟨w', hw', ha⟩

/-- An offset no store goes to is left as it was. -/
theorem applyWrites_of_not_mem {α : Type} (l : List (Nat × α)) (a : Nat) :
    ∀ m : Nat → α, (∀ w ∈ l, w.1 ≠ a) → applyWrites l m a = m a := by
  induction l with
  | nil => intro m _; rfl
  | cons w l ih =>
    intro m hall
    rw [applyWrites_cons, ih _ (fun w' hw' => hall w' (List.mem_cons_of_mem _ hw'))]
    exact Function.update_noteq (Ne.symm (hall w (List.mem_cons_self _ _))) _ _

theorem optConcat_map_some {β γ : Type} (xs : List γ) (f : γ → Option (List β))
    (g : γ → List β) (h : ∀ x ∈ xs, f x = some (g x)) :
    optConcat (xs.map f) = some (xs.flatMap g) := by
  induction xs with
  | nil => rfl
  | cons x xs ih =>
    rw [List.map_cons, h x (List.mem_cons_self _ _)]
    simp only [optConcat]
    rw [ih (fun y hy => h y (List.mem_cons_of_mem _ hy))]
    rfl

theorem optConcat_eq_none {β γ : Type} (xs : List γ) (f : γ → Option (List β))
    (x : γ) (hx : x ∈ xs) (h : f x = none) : optConcat (xs.map f) = none := by
  induction xs with
  | nil => exact absurd hx (List.not_mem_nil _)
  | cons y ys ih =>
    rw [List.map_cons]
    rcases List.mem_cons.mp hx with rfl | hx
    · rw [h]; rfl
    · cases hy : f y with
      | none => rfl
      | some l =>
        simp only [optConcat]
        rw [ih hx]

/-- With a positive step and enough fuel the loop ends, and visits exactly
the values `start + i * step` below the bound. -/
theorem strideLoop_spec (step bound : Nat) (hstep : 1 ≤ step) :
    ∀ (fuel start : Nat), bound ≤ start + fuel →
      ∃ l, strideLoop step bound fuel start = some l ∧
        ∀ b, b ∈ l ↔ (b < bound ∧ start ≤ b ∧ (b - start) % step = 0) := by
  intro fuel
  induction fuel with
  | zero =>
    intro start h
    refine ⟨[], ?_, ?_⟩
    · simp only [strideLoop]
      rw [if_neg (by omega)]
    · intro b
      simp only [List.not_mem_nil, false_iff, not_and]
      intro h1 h2
      omega
  | succ fuel ih =>
    intro start h
    simp only [strideLoop]
    by_cases hlt : start < bound
    · rw [if_pos hlt]
      obtain ⟨l, hl, hmem⟩ := ih (start + step) (by omega)
      rw [hl]
      refine ⟨start :: l, rfl, ?_⟩
      intro b
      rw [List.mem_cons, hmem]
      constructor
      · rintro (rfl | ⟨h1, h2, h3⟩)
        · exact ⟨hlt, le_refl _, by simp⟩
        · refine ⟨h1, by omega, ?_⟩
          have e : b - start = (b - (start + step)) + step := by omega
          rw [e, Nat.add_mod_right]
          exact h3
      · rintro ⟨h1, h2, h3⟩
        by_cases hb : b = start
        · exact Or.inl hb
        · right
          have hge : step ≤ b - start := by
            have hd := Nat.div_add_mod (b - start) step
            rw [h3, Nat.add_zero] at hd
            have hq : 1 ≤ (b - start) / step := by
              rcases Nat.eq_zero_or_pos ((b - start) / step) with h0 | h0
              · rw [h0, Nat.mul_zero] at hd; omega
              · exact h0
            calc step = step * 1 := (Nat.mul_one _).symm
              _ ≤ step * ((b - start) / step) := Nat.mul_le_mul_left _ hq
              _ = b - start := hd
          refine ⟨h1, by omega, ?_⟩
          have e : b - start = (b - (start + step)) + step := by omega
          rw [e, Nat.add_mod_right] at h3
          exact h3
    · rw [if_neg hlt]
      refine ⟨[], rfl, ?_⟩
      intro b
      simp only [List.not_mem_nil, false_iff, not_and]
      intro h1 h2
      omega

theorem warp_lane_lt (k nw tid i : Nat) (ht : tid < nw * 2 ^ k) (hi : i < 2 ^ k) :
    tid / 2 ^ k * 2 ^ k + i < nw * 2 ^ k := by
  have hq : tid / 2 ^ k < nw := Nat.div_lt_of_lt_mul (by rw [Nat.mul_comm]; exact ht)
  calc tid / 2 ^ k * 2 ^ k + i < tid / 2 ^ k * 2 ^ k + 2 ^ k := by omega
    _ = (tid / 2 ^ k + 1) * 2 ^ k := by ring
    _ ≤ nw * 2 ^ k := Nat.mul_le_mul_right _ hq

theorem shfl_full (k nw : Nat) (f : Nat → Nat) (tid i : Nat) (ht : tid < nw * 2 ^ k)
    (hi : i < 2 ^ k) :
    shfl (2 ^ k) (blockRegs (nw * 2 ^ k) f) tid i = some (f (tid / 2 ^ k * 2 ^ k + i)) := by
  unfold shfl blockRegs
  rw [Nat.mod_eq_of_lt hi, if_pos (warp_lane_lt k nw tid i ht hi)]

theorem shflDigit_full (k nw size : Nat) (hsz : size ≤ 2 ^ k) (tbl reg : Nat → TensorConv)
    (hreg : ∀ t, warpLane (2 ^ k) t < size → reg t = tbl (warpLane (2 ^ k) t))
    (tid i pos : Nat) (ht : tid < nw * 2 ^ k) (hi : i < size) :
    shflDigit (2 ^ k) (nw * 2 ^ k) reg tid i pos = some (digit (tbl i) pos) := by
  have hi' : i < 2 ^ k := by omega
  have hl : warpLane (2 ^ k) (tid / 2 ^ k * 2 ^ k + i) = i := warpLane_block k _ i hi'
  have hr : reg (tid / 2 ^ k * 2 ^ k + i) = tbl i := by
    rw [hreg _ (by rw [hl]; exact hi), hl]
  unfold shflDigit
  rw [shfl_full k nw _ tid i ht hi', shfl_full k nw _ tid i ht hi',
    shfl_full k nw _ tid i ht hi']
  simp only [hr]
  rfl

theorem shflDecode_full (k nw size : Nat) (hsz : size ≤ 2 ^ k) (tbl reg : Nat → TensorConv)
    (hreg : ∀ t, warpLane (2 ^ k) t < size → reg t = tbl (warpLane (2 ^ k) t))
    (tid pos init : Nat) (ht : tid < nw * 2 ^ k) :
    ∀ n, n ≤ size →
      shflDecode (2 ^ k) (nw * 2 ^ k) reg tid pos init n = some (init + decode tbl pos n) := by
  intro n
  induction n with
  | zero => intro _; rfl
  | succ n ih =>
    intro hn
    simp only [shflDecode, decode]
    rw [ih (by omega), shflDigit_full k nw size hsz tbl reg hreg tid n pos ht (by omega)]
    simp only [Nat.add_assoc]

theorem PackedWork.posMmkIn_full {α : Type} (w : PackedWork) (k nw : Nat) (hf : w.Full k nw)
    (g : Garbage α) (tid j : Nat) (ht : tid < w.blockDim) :
    w.posMmkIn g tid j
      = some (w.posMmkIn0 + decode (fun i => (w.Mmk i).inPart) (tid + j * w.blockDim) w.sizeMmk) := by
  unfold PackedWork.posMmkIn
  rw [hf.ws, hf.bd] at *
  apply shflDecode_full k nw w.sizeMmk hf.smmk _ _ _ _ _ _ ht _ (le_refl _)
  intro t hlt
  simp only [loadInOut, hlt, if_true]

theorem PackedWork.posMmkOut_full {α : Type} (w : PackedWork) (k nw : Nat) (hf : w.Full k nw)
    (g : Garbage α) (tid j : Nat) (ht : tid < w.blockDim) :
    w.posMmkOut g tid j
      = some (w.posMmkOut0
          + decode (fun i => (w.Mmk i).outPart) (tid + j * w.blockDim) w.sizeMmk) := by
  unfold PackedWork.posMmkOut
  rw [hf.ws, hf.bd] at *
  apply shflDecode_full k nw w.sizeMmk hf.smmk _ _ _ _ _ _ ht _ (le_refl _)
  intro t hlt
  simp only [loadInOut, hlt, if_true]

theorem PackedWork.posSh_full {α : Type} (w : PackedWork) (k nw : Nat) (hf : w.Full k nw)
    (g : Garbage α) (tid j : Nat) (ht : tid < w.blockDim) :
    w.posSh g tid j = some (w.shOff (tid + j * w.blockDim)) := by
  unfold PackedWork.posSh PackedWork.shOff
  rw [hf.ws, hf.bd] at *
  apply shflDecode_full k nw w.sizeMmk hf.smmk _ _ _ _ _ _ ht _ (le_refl _)
  intro t hlt
  simp only [loadConv, hlt, if_true]

theorem optConcat_mem {β γ : Type} (xs : List γ) (f : γ → Option (List β))
    (h : ∀ x ∈ xs, ∃ l, f x = some l) :
    ∃ L, optConcat (xs.map f) = some L ∧
      ∀ y, y ∈ L ↔ ∃ x ∈ xs, ∃ l, f x = some l ∧ y ∈ l := by
  induction xs with
  | nil => exact ⟨[], rfl, fun y => by simp⟩
  | cons x xs ih =>
    obtain ⟨l, hl⟩ := h x (List.mem_cons_self _ _)
    obtain ⟨L, hL, hmem⟩ := ih (fun y hy => h y (List.mem_cons_of_mem _ hy))
    refine ⟨l ++ L, ?_, ?_⟩
    · rw [List.map_cons, hl]
      simp only [optConcat, hL]
    · intro y
      rw [List.mem_append, hmem]
      constructor
      · rintro (hy | ⟨x', hx', l', hl', hy⟩)
        · exact ⟨x, List.mem_cons_self _ _, l, hl, hy⟩
        · exact ⟨x', List.mem_cons_of_mem _ hx', l', hl', hy⟩
      · rintro ⟨x', hx', l', hl', hy⟩
        rcases List.mem_cons.mp hx' with rfl | hx'
        · rw [hl] at hl'
          cases hl'
          exact Or.inl hy
        · exact Or.inr ⟨x', hx', l', hl', hy⟩

/-- The threads of a block and their register slots cover the indices below
`vol` when `vol ≤ blockDim * numRegStorage`. -/
theorem mem_cover {β : Type} (B nReg vol : Nat) (hcov : vol ≤ B * nReg) (F : Nat → β) (x : β) :
    x ∈ (List.range B).flatMap (fun tid => (List.range nReg).flatMap fun j =>
        if tid + j * B < vol then [F (tid + j * B)] else [])
      ↔ ∃ p, p < vol ∧ x = F p := by
  simp only [List.mem_flatMap, List.mem_range]
  constructor
  · rintro ⟨tid, _, j, _, hx⟩
    split at hx
    · next hlt =>
      rw [List.mem_singleton] at hx
      exact ⟨_, hlt, hx⟩
    · exact absurd hx (List.not_mem_nil _)
  · rintro ⟨p, hp, rfl⟩
    have hB : 0 < B := by
      rcases Nat.eq_zero_or_pos B with h | h
      · rw [h, Nat.zero_mul] at hcov; omega
      · exact h
    have hpe : p % B + p / B * B = p := by
      rw [Nat.mul_comm]; exact Nat.mod_add_div p B
    refine ⟨p % B, Nat.mod_lt _ hB, p / B, ?_, ?_⟩
    · exact Nat.div_lt_of_lt_mul (by omega)
    · rw [hpe, if_pos hp]
      exact List.mem_singleton.mpr rfl

theorem PackedWork.loads_full {α : Type} (w : PackedWork) (k nw : Nat) (hf : w.Full k nw)
    (g : Garbage α) (dataIn : Nat → α) (posMbar : Nat) :
    w.loads g dataIn posMbar
      = some ((List.range w.blockDim).flatMap fun tid =>
          (List.range w.numRegStorage).flatMap fun j =>
            if tid + j * w.blockDim < w.vol then
              [(tid + j * w.blockDim, dataIn (w.inOff posMbar (tid + j * w.blockDim)))]
            else []) := by
  unfold PackedWork.loads
  apply optConcat_map_some
  intro tid htid
  have ht : tid < w.blockDim := List.mem_range.mp htid
  apply optConcat_map_some
  intro j _
  have h1 : posMajorIn w.warpSize w.blockDim w.sizeMbar w.Mbar g.mbar posMbar tid
      = some (decode (fun i => (w.Mbar i).inPart) posMbar w.sizeMbar) := by
    have ht' := ht
    rw [hf.ws, hf.bd] at *
    exact posMajorIn_full k nw w.sizeMbar hf.smbar w.Mbar g.mbar posMbar tid ht'
  simp only [h1, w.posMmkIn_full k nw hf g tid j ht]
  split <;> rfl

theorem PackedWork.stores_full {α : Type} (w : PackedWork) (k nw : Nat) (hf : w.Full k nw)
    (g : Garbage α) (sh : Nat → α) (posMbar : Nat) :
    w.stores g sh posMbar
      = some ((List.range w.blockDim).flatMap fun tid =>
          (List.range w.numRegStorage).flatMap fun j =>
            if tid + j * w.blockDim < w.vol then
              [(w.outOff posMbar (tid + j * w.blockDim), sh (w.shOff (tid + j * w.blockDim)))]
            else []) := by
  unfold PackedWork.stores
  apply optConcat_map_some
  intro tid htid
  have ht : tid < w.blockDim := List.mem_range.mp htid
  apply optConcat_map_some
  intro j _
  have h1 : posMajorOut w.warpSize w.blockDim w.sizeMbar w.Mbar g.mbar posMbar tid
      = some (decode (fun i => (w.Mbar i).outPart) posMbar w.sizeMbar) := by
    have ht' := ht
    rw [hf.ws, hf.bd] at *
    exact posMajorOut_full k nw w.sizeMbar hf.smbar w.Mbar g.mbar posMbar tid ht'
  simp only [h1, w.posMmkOut_full k nw hf g tid j ht, w.posSh_full k nw hf g tid j ht]
  split <;> rfl

/-- One batch iteration of a block of full warps that covers its volume and
whose shared-slot decode stays inside it: the iteration is defined and
stores `dataIn[in(b, sh(p))]` at `out(b, p)` for every `p` below the volume,
and nothing else. -/
theorem PackedWork.iter_full {α : Type} (w : PackedWork) (k nw : Nat) (hf : w.Full k nw)
    (hcov : w.vol ≤ w.blockDim * w.numRegStorage)
    (hsh : ∀ p, p < w.vol → w.shOff p < w.vol)
    (g : Garbage α) (dataIn : Nat → α) (posMbar : Nat) (sh : Nat → α) :
    ∃ sh1 st, w.iter g dataIn posMbar sh = some (sh1, st) ∧
      ∀ x, x ∈ st ↔ ∃ p, p < w.vol ∧
        x = (w.outOff posMbar p, dataIn (w.inOff posMbar (w.shOff p))) := by
  unfold PackedWork.iter
  rw [w.loads_full k nw hf g dataIn posMbar]
  simp only
  rw [w.stores_full k nw hf g _ posMbar]
  refine ⟨_, _, rfl, ?_⟩
  intro x
  rw [mem_cover w.blockDim w.numRegStorage w.vol hcov
    (fun p => (w.outOff posMbar p, applyWrites _ sh (w.shOff p))) x]
  have hslot : ∀ q, q < w.vol →
      applyWrites ((List.range w.blockDim).flatMap fun tid =>
          (List.range w.numRegStorage).flatMap fun j =>
            if tid + j * w.blockDim < w.vol then
              [(tid + j * w.blockDim, dataIn (w.inOff posMbar (tid + j * w.blockDim)))]
            else []) sh q = dataIn (w.inOff posMbar q) := by
    intro q hq
    apply applyWrites_eq_of_forall
    · intro y hy hyq
      rw [mem_cover w.blockDim w.numRegStorage w.vol hcov
        (fun p => (p, dataIn (w.inOff posMbar p))) y] at hy
      obtain ⟨p, _, rfl⟩ := hy
      simp only at hyq
      rw [hyq]
    · right
      refine ⟨(q, dataIn (w.inOff posMbar q)), ?_, rfl⟩
      rw [mem_cover w.blockDim w.numRegStorage w.vol hcov
        (fun p => (p, dataIn (w.inOff posMbar p)))]
      exact ⟨q, hq, rfl⟩
  constructor
  · rintro ⟨p, hp, rfl⟩
    exact ⟨p, hp, by simp only [hslot _ (hsh p hp)]⟩
  · rintro ⟨p, hp, rfl⟩
    exact ⟨p, hp, by simp only [hslot _ (hsh p hp)]⟩

theorem PackedWork.run_full {α : Type} (w : PackedWork) (k nw : Nat) (hf : w.Full k nw)
    (hcov : w.vol ≤ w.blockDim * w.numRegStorage)
    (hsh : ∀ p, p < w.vol → w.shOff p < w.vol)
    (g : Garbage α) (dataIn : Nat → α) :
    ∀ (batches : List Nat) (sh : Nat → α),
      ∃ st, w.run g dataIn batches sh = some st ∧
        ∀ x, x ∈ st ↔ ∃ b, b ∈ batches ∧ ∃ p, p < w.vol ∧
          x = (w.outOff b p, dataIn (w.inOff b (w.shOff p))) := by
  intro batches
  induction batches with
  | nil => intro sh; exact ⟨[], rfl, fun x => by simp⟩
  | cons b bs ih =>
    intro sh
    obtain ⟨sh1, st, hit, hmem⟩ := w.iter_full k nw hf hcov hsh g dataIn b sh
    obtain ⟨sts, hrun, hmems⟩ := ih sh1
    refine ⟨st ++ sts, ?_, ?_⟩
    · simp only [PackedWork.run, hit, hrun]
    · intro x
      rw [List.mem_append, hmem, hmems]
      constructor
      · rintro (⟨p, hp, rfl⟩ | ⟨b', hb', p, hp, rfl⟩)
        · exact ⟨b, List.mem_cons_self _ _, p, hp, rfl⟩
        · exact ⟨b', List.mem_cons_of_mem _ hb', p, hp, rfl⟩
      · rintro ⟨b', hb', p, hp, rfl⟩
        rcases List.mem_cons.mp hb' with rfl | hb'
        · exact Or.inl ⟨p, hp, rfl⟩
        · exact Or.inr ⟨b', hb', p, hp, rfl⟩

/-- The stores of a launch of `transposePacked` with full warps. -/
theorem transposePacked_stores {α : Type} (k nw gridDim numRegStorage : Nat)
    (volMmk volMbar sizeMmk sizeMbar : Nat)
    (gl_Mmk gl_Mbar : Nat → TensorConvInOut) (gl_Msh : Nat → TensorConv)
    (garbage : Nat → Garbage α) (dataIn : Nat → α)
    (hsmmk : sizeMmk ≤ 2 ^ k) (hsmbar : sizeMbar ≤ 2 ^ k) (hgrid : 1 ≤ gridDim)
    (hcov : volMmk ≤ nw * 2 ^ k * numRegStorage)
    (hsh : ∀ p, p < volMmk → decode gl_Msh p sizeMmk < volMmk) :
    ∃ stores,
      transposePacked (2 ^ k) gridDim (nw * 2 ^ k) numRegStorage volMmk volMbar sizeMmk sizeMbar
        gl_Mmk gl_Mbar gl_Msh garbage dataIn = some stores ∧
      ∀ x, x ∈ stores ↔ ∃ b, b < volMbar ∧ ∃ p, p < volMmk ∧
        x = (decode (fun i => (gl_Mbar i).outPart) b sizeMbar
              + decode (fun i => (gl_Mmk i).outPart) p sizeMmk,
            dataIn (decode (fun i => (gl_Mbar i).inPart) b sizeMbar
              + decode (fun i => (gl_Mmk i).inPart) (decode gl_Msh p sizeMmk) sizeMmk)) := by
  let w : PackedWork :=
    { warpSize := 2 ^ k, blockDim := nw * 2 ^ k, numRegStorage := numRegStorage,
      sizeMmk := sizeMmk, sizeMbar := sizeMbar, vol := volMmk,
      posMmkIn0 := 0, posMmkOut0 := 0, Mmk := gl_Mmk, Msh := gl_Msh, Mbar := gl_Mbar }
  have hf : w.Full k nw := ⟨rfl, rfl, hsmmk, hsmbar⟩
  have hsh' : ∀ p, p < w.vol → w.shOff p < w.vol := by
    intro p hp
    simp only [PackedWork.shOff, Nat.zero_add]
    exact hsh p hp
  have hblock : ∀ blockIdx, ∃ batches, strideLoop gridDim volMbar volMbar blockIdx = some batches ∧
      (∀ b, b ∈ batches ↔ (b < volMbar ∧ blockIdx ≤ b ∧ (b - blockIdx) % gridDim = 0)) ∧
      ∃ st, w.run (garbage blockIdx) dataIn batches (garbage blockIdx).shared = some st ∧
        ∀ x, x ∈ st ↔ ∃ b, b ∈ batches ∧ ∃ p, p < w.vol ∧
          x = (w.outOff b p, dataIn (w.inOff b (w.shOff p))) := by
    intro blockIdx
    obtain ⟨l, hl, hmem⟩ := strideLoop_spec gridDim volMbar hgrid volMbar blockIdx (by omega)
    exact ⟨l, hl, hmem, w.run_full k nw hf hcov hsh' (garbage blockIdx) dataIn l _⟩
  obtain ⟨L, hL, hLmem⟩ := optConcat_mem (List.range gridDim)
    (fun blockIdx =>
      match strideLoop gridDim volMbar volMbar blockIdx with
      | none => none
      | some batches => w.run (garbage blockIdx) dataIn batches (garbage blockIdx).shared)
    (by
      intro blockIdx _
      obtain ⟨l, hl, _, st, hst, _⟩ := hblock blockIdx
      exact ⟨st, by simp only [hl, hst]⟩)
  refine ⟨L, hL, ?_⟩
  intro x
  rw [hLmem]
  constructor
  · rintro ⟨blockIdx, _, l, hl, hx⟩
    obtain ⟨bl, hbl, hbmem, st, hst, hstmem⟩ := hblock blockIdx
    simp only [hbl, hst, Option.some.injEq] at hl
    subst hl
    obtain ⟨b, hb, p, hp, rfl⟩ := (hstmem x).mp hx
    refine ⟨b, ((hbmem b).mp hb).1, p, hp, ?_⟩
    simp only [PackedWork.outOff, PackedWork.inOff, PackedWork.shOff, Nat.zero_add, w]
  · rintro ⟨b, hb, p, hp, rfl⟩
    have hG : 0 < gridDim := hgrid
    obtain ⟨bl, hbl, hbmem, st, hst, hstmem⟩ := hblock (b % gridDim)
    refine ⟨b % gridDim, List.mem_range.mpr (Nat.mod_lt _ hG), st, by simp only [hbl, hst], ?_⟩
    rw [hstmem]
    refine ⟨b, (hbmem b).mpr ⟨hb, Nat.mod_le _ _, ?_⟩, p, hp, ?_⟩
    · have := Nat.mod_add_div b gridDim
      have e : b - b % gridDim = gridDim * (b / gridDim) := by omega
      rw [e, Nat.mul_mod_right]
    · simp only [PackedWork.outOff, PackedWork.inOff, PackedWork.shOff, Nat.zero_add, w]

/-- C1 as amended (`transposePacked` over all threads of all blocks).  For a
warp size that is a power of two, a block of full warps
(`blockDim.x` a multiple of `warpSize`), `sizeMmk, sizeMbar ≤ warpSize`,
`c, d ≥ 1` in the three tables, `gridDim.x ≥ 1`,
`blockDim.x * numRegStorage ≥ volMmk`, a shared-slot decode that stays below
`volMmk` and pairwise distinct output offsets: the kernel is defined, and
after it, in whatever order its stores are applied,
`dataOut[outBar(b) + outMmk(p)] = dataIn[inBar(b) + inMmk(sh(p))]` for every
`b < volMbar` and `p < volMmk`, and every other element of `dataOut` is as
before. -/
theorem transposePacked_correct {α : Type} (warpSize k nw gridDim blockDim numRegStorage : Nat)
    (volMmk volMbar sizeMmk sizeMbar : Nat)
    (gl_Mmk gl_Mbar : Nat → TensorConvInOut) (gl_Msh : Nat → TensorConv)
    (garbage : Nat → Garbage α) (dataIn dataOut : Nat → α)
    (hws : warpSize = 2 ^ k) (hbd : blockDim = nw * warpSize)
    (hsmmk : sizeMmk ≤ warpSize) (hsmbar : sizeMbar ≤ warpSize)
    (hcd : (∀ i, i < sizeMmk → 1 ≤ (gl_Mmk i).c_in ∧ 1 ≤ (gl_Mmk i).d_in ∧
        1 ≤ (gl_Mmk i).c_out ∧ 1 ≤ (gl_Mmk i).d_out ∧
        1 ≤ (gl_Msh i).c ∧ 1 ≤ (gl_Msh i).d) ∧
      ∀ i, i < sizeMbar → 1 ≤ (gl_Mbar i).c_in ∧ 1 ≤ (gl_Mbar i).d_in ∧
        1 ≤ (gl_Mbar i).c_out ∧ 1 ≤ (gl_Mbar i).d_out)
    (hgrid : 1 ≤ gridDim)
    (hcov : volMmk ≤ blockDim * numRegStorage)
    (hsh : ∀ p, p < volMmk → decode gl_Msh p sizeMmk < volMmk)
    (hinj : ∀ b, b < volMbar → ∀ p, p < volMmk → ∀ b', b' < volMbar → ∀ p', p' < volMmk →
      decode (fun i => (gl_Mbar i).outPart) b sizeMbar
          + decode (fun i => (gl_Mmk i).outPart) p sizeMmk
        = decode (fun i => (gl_Mbar i).outPart) b' sizeMbar
          + decode (fun i => (gl_Mmk i).outPart) p' sizeMmk →
      b = b' ∧ p = p') :
    ∃ stores,
      transposePacked warpSize gridDim blockDim numRegStorage volMmk volMbar sizeMmk sizeMbar
        gl_Mmk gl_Mbar gl_Msh garbage dataIn = some stores ∧
      ∀ sched, List.Perm sched stores →
        (∀ b, b < volMbar → ∀ p, p < volMmk →
          applyWrites sched dataOut
              (decode (fun i => (gl_Mbar i).outPart) b sizeMbar
                + decode (fun i => (gl_Mmk i).outPart) p sizeMmk)
            = dataIn (decode (fun i => (gl_Mbar i).inPart) b sizeMbar
                + decode (fun i => (gl_Mmk i).inPart) (decode gl_Msh p sizeMmk) sizeMmk)) ∧
        (∀ a, (∀ b, b < volMbar → ∀ p, p < volMmk →
            a ≠ decode (fun i => (gl_Mbar i).outPart) b sizeMbar
              + decode (fun i => (gl_Mmk i).outPart) p sizeMmk) →
          applyWrites sched dataOut a = dataOut a) := by
  subst hws hbd
  obtain ⟨stores, hst, hmem⟩ := transposePacked_stores k nw gridDim numRegStorage volMmk volMbar
    sizeMmk sizeMbar gl_Mmk gl_Mbar gl_Msh garbage dataIn hsmmk hsmbar hgrid hcov hsh
  refine ⟨stores, hst, ?_⟩
  intro sched hperm
  have hmem' : ∀ x, x ∈ sched ↔ x ∈ stores := fun x => hperm.mem_iff
  constructor
  · intro b hb p hp
    apply applyWrites_eq_of_forall
    · intro x hx hxa
      obtain ⟨b', hb', p', hp', rfl⟩ := (hmem x).mp ((hmem' x).mp hx)
      simp only at hxa
      obtain ⟨rfl, rfl⟩ := hinj b' hb' p' hp' b hb p hp hxa
      rfl
    · right
      exact ⟨_, (hmem' _).mpr ((hmem _).mpr ⟨b, hb, p, hp, rfl⟩), rfl⟩
  · intro a ha
    apply applyWrites_of_not_mem
    intro x hx hxa
    obtain ⟨b, hb, p, hp, rfl⟩ := (hmem x).mp ((hmem' x).mp hx)
    exact ha b hb p hp hxa.symm

set_option synthInstance.maxSize 1000 in
/-- Counterexample to C1 as stated: a block of one thread with
`numRegStorage = 4` on a warp size of 2, for a 2 x 2 transposition of one
batch.  Every assumption of the claim holds, but the thread needs the
records of lane 1, which holds no thread: the kernel is undefined. -/
theorem transposePacked_counterexample :
    (2 = 2 ^ 1 ∧ 2 ≤ 2 ∧ 1 ≤ 2) ∧
    ((∀ i, i < 2 → 1 ≤ (exMmk2 i).c_in ∧ 1 ≤ (exMmk2 i).d_in ∧
        1 ≤ (exMmk2 i).c_out ∧ 1 ≤ (exMmk2 i).d_out ∧
        1 ≤ (exMsh2 i).c ∧ 1 ≤ (exMsh2 i).d) ∧
      ∀ i, i < 1 → 1 ≤ (exMbar2 i).c_in ∧ 1 ≤ (exMbar2 i).d_in ∧
        1 ≤ (exMbar2 i).c_out ∧ 1 ≤ (exMbar2 i).d_out) ∧
    (1 ≤ 1 ∧ 4 ≤ 1 * 4) ∧
    (∀ p, p < 4 → decode exMsh2 p 2 < 4) ∧
    (∀ b, b < 1 → ∀ p, p < 4 → ∀ b', b' < 1 → ∀ p', p' < 4 →
      decode (fun i => (exMbar2 i).outPart) b 1 + decode (fun i => (exMmk2 i).outPart) p 2
        = decode (fun i => (exMbar2 i).outPart) b' 1
          + decode (fun i => (exMmk2 i).outPart) p' 2 →
      b = b' ∧ p = p') ∧
    transposePacked 2 1 1 4 4 1 2 1 exMmk2 exMbar2 exMsh2 exGarbage exIn = none := by
  decide

set_option synthInstance.maxSize 1000 in
/-- Witness for C1: two batches of a 2 x 2 transposition, two blocks of one
warp of two threads with two register slots each.  The output is
`0 2 1 3 4 6 5 7`. -/
theorem transposePacked_correct_witness :
    (transposePacked 2 2 2 2 4 2 2 1 exMmk2 exMbar2 exMsh2 exGarbage exIn).map
        (fun st => (List.range 9).map (applyWrites st exOut))
      = some [0, 2, 1, 3, 4, 6, 5, 7, 0] ∧
    ∃ stores,
      transposePacked 2 2 2 2 4 2 2 1 exMmk2 exMbar2 exMsh2 exGarbage exIn = some stores ∧
      ∀ sched, List.Perm sched stores →
        (∀ b, b < 2 → ∀ p, p < 4 →
          applyWrites sched exOut
              (decode (fun i => (exMbar2 i).outPart) b 1
                + decode (fun i => (exMmk2 i).outPart) p 2)
            = exIn (decode (fun i => (exMbar2 i).inPart) b 1
                + decode (fun i => (exMmk2 i).inPart) (decode exMsh2 p 2) 2)) ∧
        (∀ a, (∀ b, b < 2 → ∀ p, p < 4 →
            a ≠ decode (fun i => (exMbar2 i).outPart) b 1
              + decode (fun i => (exMmk2 i).outPart) p 2) →
          applyWrites sched exOut a = exOut a) :=
  ⟨by decide,
    transposePacked_correct 2 1 1 2 2 2 4 2 2 1 exMmk2 exMbar2 exMsh2 exGarbage exIn exOut
      (by decide) (by decide) (by decide) (by decide) (by decide) (by decide) (by decide)
      (by decide) (by decide)⟩

theorem ballotBits_lt (act : Nat → Bool) (n : Nat) : ballotBits act n < 2 ^ n := by
  induction n with
  | zero => simp [ballotBits]
  | succ n ih =>
    simp only [ballotBits, pow_succ]
    split <;> omega

theorem testBit_ballotBits (act : Nat → Bool) (n j : Nat) :
    (ballotBits act n).testBit j = (decide (j < n) && act j) := by
  induction n with
  | zero => simp [ballotBits]
  | succ n ih =>
    have hlt := ballotBits_lt act n
    simp only [ballotBits]
    by_cases ha : act n = true
    · simp only [ha, if_true]
      rw [Nat.add_comm]
      rcases Nat.lt_trichotomy j n with h | h | h
      · rw [Nat.testBit_two_pow_add_gt h, ih]
        simp [h, Nat.lt_succ_of_lt h]
      · subst h
        rw [Nat.testBit_two_pow_add_eq, Nat.testBit_lt_two_pow hlt]
        simp [ha]
      · have h1 : 2 ^ n + ballotBits act n < 2 ^ j := by
          calc 2 ^ n + ballotBits act n < 2 ^ n + 2 ^ n := by omega
            _ = 2 ^ (n + 1) := by rw [pow_succ]; ring
            _ ≤ 2 ^ j := Nat.pow_le_pow_right (by norm_num) h
        rw [Nat.testBit_lt_two_pow h1]
        have : ¬ j < n + 1 := by omega
        simp [this]
    · have ha' : act n = false := by simpa using ha
      simp only [ha', Bool.false_eq_true, if_false, Nat.add_zero, ih]
      rcases Nat.lt_trichotomy j n with h | h | h
      · simp [h, Nat.lt_succ_of_lt h]
      · subst h; simp [ha']
      · have h1 : ¬ j < n := by omega
        have h2 : ¬ j < n + 1 := by omega
        simp [h1, h2]

theorem maskBit_eq_testBit (m j : Nat) (hj : j < 64) : maskBit m j = m.testBit j := by
  unfold maskBit
  have h1 : (1 <<< j) % 18446744073709551616 = 2 ^ j := by
    rw [Nat.one_shiftLeft]
    apply Nat.mod_eq_of_lt
    calc 2 ^ j < 2 ^ 64 := Nat.pow_lt_pow_right (by norm_num) hj
      _ = 18446744073709551616 := by norm_num
  rw [h1, Nat.and_two_pow]
  cases h : m.testBit j
  · simp
  · simp [Nat.pos_iff_ne_zero.mp (Nat.two_pow_pos j)]

/-- The mask test of a `ballot * (cond)` product, for a warp of at most 64
lanes. -/
theorem maskBit_ballot (k B : Nat) (hk : k ≤ 6) (pred : Nat → Bool) (tid j : Nat) (c : Prop)
    [Decidable c] (hj : j < 2 ^ k) :
    maskBit ((ballot (2 ^ k) B pred tid * (if c then 1 else 0)) % 18446744073709551616) j
      = (decide c && (decide (tid / 2 ^ k * 2 ^ k + j < B) && pred (tid / 2 ^ k * 2 ^ k + j))) := by
  have h64 : (2 : Nat) ^ k ≤ 64 := by
    calc (2 : Nat) ^ k ≤ 2 ^ 6 := Nat.pow_le_pow_right (by norm_num) hk
      _ = 64 := by norm_num
  have hj64 : j < 64 := by omega
  have hb : ballot (2 ^ k) B pred tid < 18446744073709551616 := by
    unfold ballot
    calc ballotBits _ (2 ^ k) < 2 ^ (2 ^ k) := ballotBits_lt _ _
      _ ≤ 2 ^ 64 := Nat.pow_le_pow_right (by norm_num) h64
      _ = 18446744073709551616 := by norm_num
  rw [maskBit_eq_testBit _ _ hj64]
  by_cases hc : c
  · simp only [hc, if_true, Nat.mul_one, Nat.mod_eq_of_lt hb, decide_True, Bool.true_and]
    unfold ballot
    rw [testBit_ballotBits]
    simp [hj]
  · simp [hc]

theorem TiledLaunch.Good.tdpos {L : TiledLaunch} {k : Nat} (h : L.Good k) : 0 < L.TILEDIM := by
  rw [h.td]; positivity

theorem TiledLaunch.Good.trpos {L : TiledLaunch} {k : Nat} (h : L.Good k) :
    0 < L.TILEROWS := by
  rcases Nat.eq_zero_or_pos L.TILEROWS with h0 | h0
  · have := h.tr
    rw [h0, Nat.zero_dvd] at this
    have := h.tdpos
    omega
  · exact h0

theorem TiledLaunch.Good.tx_lt {L : TiledLaunch} {k : Nat} (h : L.Good k) (t : Nat) :
    L.tx t < L.TILEDIM := Nat.mod_lt _ (h.tdpos)

theorem TiledLaunch.Good.ty_lt {L : TiledLaunch} {k : Nat} (h : L.Good k) (t : Nat)
    (ht : t < L.blockSize) : L.ty t < L.TILEROWS := by
  unfold TiledLaunch.ty
  exact Nat.div_lt_of_lt_mul ht

theorem TiledLaunch.Good.lane {L : TiledLaunch} {k : Nat} (h : L.Good k) (t : Nat) :
    warpLane L.warpSize (L.tx t) = L.tx t := by
  rw [h.ws, warpLane_eq_mod]
  apply Nat.mod_eq_of_lt
  have := h.tx_lt t
  rw [h.td] at this
  exact this

theorem TiledLaunch.Good.lane_thread {L : TiledLaunch} {k : Nat} (h : L.Good k) (t j : Nat)
    (ht : t < L.blockSize) (hj : j < L.TILEDIM) :
    t / 2 ^ k * 2 ^ k + j < L.blockSize ∧ L.tx (t / 2 ^ k * 2 ^ k + j) = j ∧
      L.ty (t / 2 ^ k * 2 ^ k + j) = L.ty t := by
  have hty := h.ty_lt t ht
  unfold TiledLaunch.tx TiledLaunch.ty TiledLaunch.blockSize at *
  rw [h.td] at *
  have hpos : 0 < 2 ^ k := by positivity
  refine ⟨?_, ?_, ?_⟩
  · calc t / 2 ^ k * 2 ^ k + j < t / 2 ^ k * 2 ^ k + 2 ^ k := by omega
      _ = (t / 2 ^ k + 1) * 2 ^ k := by ring
      _ ≤ L.TILEROWS * 2 ^ k := Nat.mul_le_mul_right _ hty
      _ = 2 ^ k * L.TILEROWS := Nat.mul_comm _ _
  · rw [Nat.mul_comm, Nat.mul_add_mod, Nat.mod_eq_of_lt hj]
  · rw [Nat.mul_comm, Nat.mul_add_div hpos, Nat.div_eq_of_lt hj, Nat.add_zero]

/-- The mask test equals the direct bounds test (loads). -/
theorem TiledLaunch.Good.maskIny_bit {L : TiledLaunch} {k : Nat} (h : L.Good k)
    (blockX t j : Nat) (ht : t < L.blockSize) (hj : j < L.TILEDIM) :
    maskBit (L.maskIny blockX t) j
      = decide (L.bx blockX + L.tx t < L.tiledVolX ∧ L.by blockX + L.ty t + j < L.tiledVolY) := by
  obtain ⟨h1, h2, h3⟩ := h.lane_thread t j ht hj
  unfold TiledLaunch.maskIny
  rw [h.ws]
  rw [maskBit_ballot k L.blockSize h.k6 _ t j _ (by rw [← h.td]; exact hj)]
  have hl : warpLane (2 ^ k) j = j := by
    rw [warpLane_eq_mod]
    exact Nat.mod_eq_of_lt (by rw [← h.td]; exact hj)
  simp only [h1, h2, h3, hl, decide_True, Bool.true_and, Bool.decide_and]

/-- The mask test equals the direct bounds test (stores). -/
theorem TiledLaunch.Good.maskOutx_bit {L : TiledLaunch} {k : Nat} (h : L.Good k)
    (blockX t j : Nat) (ht : t < L.blockSize) (hj : j < L.TILEDIM) :
    maskBit (L.maskOutx blockX t) j
      = decide (L.by blockX + L.tx t < L.tiledVolY ∧ L.bx blockX + L.ty t + j < L.tiledVolX) := by
  obtain ⟨h1, h2, h3⟩ := h.lane_thread t j ht hj
  unfold TiledLaunch.maskOutx
  rw [h.ws]
  rw [maskBit_ballot k L.blockSize h.k6 _ t j _ (by rw [← h.td]; exact hj)]
  have hl : warpLane (2 ^ k) j = j := by
    rw [warpLane_eq_mod]
    exact Nat.mod_eq_of_lt (by rw [← h.td]; exact hj)
  simp only [h1, h2, h3, hl, decide_True, Bool.true_and, Bool.decide_and]

theorem TiledLaunch.Good.digitIn_eq {L : TiledLaunch} {k : Nat} (h : L.Good k)
    (junk : Nat → TensorConvInOut) (posMbar : Nat) :
    L.digitIn junk posMbar = majorDigitIn (2 ^ k) L.sizeMbar L.glMbar junk posMbar := by
  funext t
  unfold TiledLaunch.digitIn majorDigitIn
  have : warpLane L.warpSize (L.tx t) = warpLane (2 ^ k) t := by
    rw [h.lane, warpLane_eq_mod]
    unfold TiledLaunch.tx
    rw [h.td]
  rw [this]

theorem TiledLaunch.Good.digitOut_eq {L : TiledLaunch} {k : Nat} (h : L.Good k)
    (junk : Nat → TensorConvInOut) (posMbar : Nat) :
    L.digitOut junk posMbar = majorDigitOut (2 ^ k) L.sizeMbar L.glMbar junk posMbar := by
  funext t
  unfold TiledLaunch.digitOut majorDigitOut
  have : warpLane L.warpSize (L.tx t) = warpLane (2 ^ k) t := by
    rw [h.lane, warpLane_eq_mod]
    unfold TiledLaunch.tx
    rw [h.td]
  rw [this]

theorem TiledLaunch.Good.posMajorIn_eq {L : TiledLaunch} {k : Nat} (h : L.Good k)
    (junk : Nat → TensorConvInOut) (posMbar t : Nat) (ht : t < L.blockSize) :
    L.posMajorIn junk posMbar t = some (L.inBar posMbar) := by
  unfold TiledLaunch.posMajorIn TiledLaunch.inBar
  have hB : L.blockSize = L.TILEROWS * 2 ^ k := by
    unfold TiledLaunch.blockSize; rw [h.td, Nat.mul_comm]
  rw [h.digitIn_eq, h.ws, hB]
  rw [hB] at ht
  exact posMajorIn_full k L.TILEROWS L.sizeMbar h.smbar L.glMbar junk posMbar t ht

theorem TiledLaunch.Good.posMajorOut_eq {L : TiledLaunch} {k : Nat} (h : L.Good k)
    (junk : Nat → TensorConvInOut) (posMbar t : Nat) (ht : t < L.blockSize) :
    L.posMajorOut junk posMbar t = some (L.outBar posMbar) := by
  unfold TiledLaunch.posMajorOut TiledLaunch.outBar
  have hB : L.blockSize = L.TILEROWS * 2 ^ k := by
    unfold TiledLaunch.blockSize; rw [h.td, Nat.mul_comm]
  rw [h.digitOut_eq, h.ws, hB]
  rw [hB] at ht
  exact posMajorOut_full k L.TILEROWS L.sizeMbar h.smbar L.glMbar junk posMbar t ht

theorem strideLoop_ge (step bound : Nat) :
    ∀ (fuel start : Nat) (l : List Nat), strideLoop step bound fuel start = some l →
      ∀ j, j ∈ l → start ≤ j := by
  intro fuel
  induction fuel with
  | zero =>
    intro start l h j hj
    simp only [strideLoop] at h
    split at h
    · exact absurd h (by simp)
    · simp only [Option.some.injEq] at h
      subst h
      exact absurd hj (List.not_mem_nil _)
  | succ fuel ih =>
    intro start l h j hj
    simp only [strideLoop] at h
    split at h
    · split at h
      · exact absurd h (by simp)
      · next l' hl' =>
        simp only [Option.some.injEq] at h
        subst h
        rcases List.mem_cons.mp hj with rfl | hj
        · exact le_refl _
        · have := ih _ _ hl' j hj
          omega
    · simp only [Option.some.injEq] at h
      subst h
      exact absurd hj (List.not_mem_nil _)

/-- The accesses of the row-step loop of one thread. -/
theorem tileLoop_spec {β : Type} (mask add : Nat) (mk : Nat → Nat → β) (step bound : Nat)
    (hstep : 1 ≤ step) :
    ∀ (fuel start : Nat) (steps : List Nat) (pos : Nat),
      strideLoop step bound fuel start = some steps →
      ∃ l, tileLoop mask add mk steps (some pos) = some l ∧
        ∀ e, e ∈ l ↔ ∃ j, j ∈ steps ∧ maskBit mask j = true ∧
          e = mk j (pos + (j - start) / step * add) := by
  intro fuel
  induction fuel with
  | zero =>
    intro start steps pos h
    simp only [strideLoop] at h
    split at h
    · exact absurd h (by simp)
    · simp only [Option.some.injEq] at h
      subst h
      exact ⟨[], rfl, fun e => by simp⟩
  | succ fuel ih =>
    intro start steps pos h
    simp only [strideLoop] at h
    split at h
    · next hlt =>
      split at h
      · exact absurd h (by simp)
      · next l' hl' =>
        simp only [Option.some.injEq] at h
        subst h
        obtain ⟨rest, hrest, hmem⟩ := ih (start + step) l' (pos + add) hl'
        have hge := strideLoop_ge step bound fuel (start + step) l' hl'
        have hpos : ∀ j, j ∈ l' →
            pos + add + (j - (start + step)) / step * add = pos + (j - start) / step * add := by
          intro j hj
          have h1 := hge j hj
          have e : j - start = (j - (start + step)) + step := by omega
          rw [e, Nat.add_div_right _ (by omega : 0 < step)]
          ring
        simp only [tileLoop, Option.map_some', hrest]
        by_cases hb : maskBit mask start = true
        · simp only [hb, if_true]
          refine ⟨_, rfl, ?_⟩
          intro e
          rw [List.mem_cons, hmem]
          constructor
          · rintro (rfl | ⟨j, hj, hbj, rfl⟩)
            · exact ⟨start, List.mem_cons_self _ _, hb, by simp⟩
            · exact ⟨j, List.mem_cons_of_mem _ hj, hbj, by rw [hpos j hj]⟩
          · rintro ⟨j, hj, hbj, rfl⟩
            rcases List.mem_cons.mp hj with rfl | hj
            · left; simp
            · right; exact ⟨j, hj, hbj, by rw [hpos j hj]⟩
        · simp only [hb, if_false]
          refine ⟨_, rfl, ?_⟩
          intro e
          rw [hmem]
          constructor
          · rintro ⟨j, hj, hbj, rfl⟩
            exact ⟨j, List.mem_cons_of_mem _ hj, hbj, by rw [hpos j hj]⟩
          · rintro ⟨j, hj, hbj, rfl⟩
            rcases List.mem_cons.mp hj with rfl | hj
            · exact absurd hbj hb
            · exact ⟨j, hj, hbj, by rw [hpos j hj]⟩
    · simp only [Option.some.injEq] at h
      subst h
      exact ⟨[], rfl, fun e => by simp⟩

theorem TiledLaunch.Good.steps_mem {L : TiledLaunch} {k : Nat} (h : L.Good k)
    (steps : List Nat) (hsteps : strideLoop L.TILEROWS L.TILEDIM L.TILEDIM 0 = some steps)
    (j : Nat) : j ∈ steps ↔ (j < L.TILEDIM ∧ j % L.TILEROWS = 0) := by
  obtain ⟨l, hl, hmem⟩ := strideLoop_spec L.TILEROWS L.TILEDIM h.trpos L.TILEDIM 0 (by omega)
  rw [hsteps] at hl
  cases hl
  rw [hmem]
  simp

theorem TiledLaunch.Good.step_row {L : TiledLaunch} {k : Nat} (h : L.Good k) (t j : Nat)
    (ht : t < L.blockSize) (hj : j < L.TILEDIM) (hjr : j % L.TILEROWS = 0) :
    L.ty t + j < L.TILEDIM := by
  have hty := h.ty_lt t ht
  obtain ⟨c, hc⟩ := h.tr
  obtain ⟨a, ha⟩ := Nat.dvd_of_mod_eq_zero hjr
  have hac : a < c := by
    by_contra hcon
    have : L.TILEROWS * c ≤ L.TILEROWS * a := Nat.mul_le_mul_left _ (by omega)
    omega
  have : L.TILEROWS * (a + 1) ≤ L.TILEROWS * c := Nat.mul_le_mul_left _ hac
  rw [hc, ha]
  calc L.ty t + L.TILEROWS * a < L.TILEROWS + L.TILEROWS * a := by omega
    _ = L.TILEROWS * (a + 1) := by ring
    _ ≤ L.TILEROWS * c := this

theorem step_offset (TR j c : Nat) (hjr : j % TR = 0) :
    (j - 0) / TR * (TR * c) = j * c := by
  rw [Nat.sub_zero, ← Nat.mul_assoc, Nat.div_mul_cancel (Nat.dvd_of_mod_eq_zero hjr)]

/-- The loads of one batch iteration of a block of `transposeTiled`. -/
theorem TiledLaunch.Good.loads_spec {α : Type} {L : TiledLaunch} {k : Nat} (h : L.Good k)
    (g : TiledGarbage α) (dataIn : Nat → α) (steps : List Nat)
    (hsteps : strideLoop L.TILEROWS L.TILEDIM L.TILEDIM 0 = some steps)
    (blockX blockZ posMbar : Nat) :
    ∃ ld, L.loads g dataIn steps blockX blockZ posMbar = some ld ∧
      ∀ e, e ∈ ld ↔ ∃ t, t < L.blockSize ∧ ∃ j, (j < L.TILEDIM ∧ j % L.TILEROWS = 0) ∧
        (L.bx blockX + L.tx t < L.tiledVolX ∧ L.by blockX + L.ty t + j < L.tiledVolY) ∧
        e = L.loadEvent dataIn blockX blockZ posMbar t j := by
  have hthread : ∀ t, t < L.blockSize →
      ∃ l, tileLoop (L.maskIny blockX t) (L.TILEROWS * L.cuDimMk)
          (L.mkLoad dataIn blockX blockZ posMbar t) steps (L.posIn g blockX posMbar t)
          = some l ∧
        ∀ e, e ∈ l ↔ ∃ j, (j < L.TILEDIM ∧ j % L.TILEROWS = 0) ∧
          (L.bx blockX + L.tx t < L.tiledVolX ∧ L.by blockX + L.ty t + j < L.tiledVolY) ∧
          e = L.loadEvent dataIn blockX blockZ posMbar t j := by
    intro t ht
    unfold TiledLaunch.posIn
    rw [h.posMajorIn_eq g.mbar posMbar t ht, Option.map_some']
    obtain ⟨l, hl, hmem⟩ := tileLoop_spec (L.maskIny blockX t) (L.TILEROWS * L.cuDimMk)
      (L.mkLoad dataIn blockX blockZ posMbar t)
      L.TILEROWS L.TILEDIM h.trpos L.TILEDIM 0 steps
      (L.inBar posMbar + (L.bx blockX + L.tx t + (L.by blockX + L.ty t) * L.cuDimMk)) hsteps
    refine ⟨l, hl, ?_⟩
    intro e
    rw [hmem]
    constructor
    · rintro ⟨j, hj, hb, rfl⟩
      have hj' := (h.steps_mem steps hsteps j).mp hj
      rw [h.maskIny_bit blockX t j ht hj'.1, decide_eq_true_eq] at hb
      refine ⟨j, hj', hb, ?_⟩
      simp only [TiledLaunch.loadEvent, TiledLaunch.mkLoad, step_offset _ _ _ hj'.2]
    · rintro ⟨j, hj, hb, rfl⟩
      refine ⟨j, (h.steps_mem steps hsteps j).mpr hj, ?_, ?_⟩
      · rw [h.maskIny_bit blockX t j ht hj.1, decide_eq_true_eq]
        exact hb
      · simp only [TiledLaunch.loadEvent, TiledLaunch.mkLoad, step_offset _ _ _ hj.2]
  obtain ⟨ld, hld, hmem⟩ := optConcat_mem (List.range L.blockSize) _
    (fun t ht => (hthread t (List.mem_range.mp ht)).imp fun l hl => hl.1)
  refine ⟨ld, hld, ?_⟩
  intro e
  rw [hmem]
  constructor
  · rintro ⟨t, ht, l, hl, he⟩
    have ht' := List.mem_range.mp ht
    obtain ⟨l', hl', hmem'⟩ := hthread t ht'
    rw [hl'] at hl
    cases hl
    exact ⟨t, ht', (hmem' e).mp he⟩
  · rintro ⟨t, ht, hrest⟩
    obtain ⟨l', hl', hmem'⟩ := hthread t ht
    exact ⟨t, List.mem_range.mpr ht, l', hl', (hmem' e).mpr hrest⟩

/-- The stores of one batch iteration of a block of `transposeTiled`, reading
the tile `sh`. -/
theorem TiledLaunch.Good.stores_spec {α : Type} {L : TiledLaunch} {k : Nat} (h : L.Good k)
    (g : TiledGarbage α) (sh : Nat → α) (steps : List Nat)
    (hsteps : strideLoop L.TILEROWS L.TILEDIM L.TILEDIM 0 = some steps)
    (blockX blockZ posMbar : Nat) :
    ∃ st, L.stores g sh steps blockX blockZ posMbar = some st ∧
      ∀ e, e ∈ st ↔ ∃ t, t < L.blockSize ∧ ∃ j, (j < L.TILEDIM ∧ j % L.TILEROWS = 0) ∧
        (L.by blockX + L.tx t < L.tiledVolY ∧ L.bx blockX + L.ty t + j < L.tiledVolX) ∧
        e = L.storeEvent (sh (L.slot (L.tx t) (L.ty t + j))) blockX blockZ posMbar t j := by
  have hthread : ∀ t, t < L.blockSize →
      ∃ l, tileLoop (L.maskOutx blockX t) (L.TILEROWS * L.cuDimMm)
          (L.mkStore sh blockX blockZ posMbar t) steps (L.posOut g blockX posMbar t)
          = some l ∧
        ∀ e, e ∈ l ↔ ∃ j, (j < L.TILEDIM ∧ j % L.TILEROWS = 0) ∧
          (L.by blockX + L.tx t < L.tiledVolY ∧ L.bx blockX + L.ty t + j < L.tiledVolX) ∧
          e = L.storeEvent (sh (L.slot (L.tx t) (L.ty t + j))) blockX blockZ posMbar t j := by
    intro t ht
    unfold TiledLaunch.posOut
    rw [h.posMajorOut_eq g.mbar posMbar t ht, Option.map_some']
    obtain ⟨l, hl, hmem⟩ := tileLoop_spec (L.maskOutx blockX t) (L.TILEROWS * L.cuDimMm)
      (L.mkStore sh blockX blockZ posMbar t)
      L.TILEROWS L.TILEDIM h.trpos L.TILEDIM 0 steps
      (L.outBar posMbar + (L.by blockX + L.tx t + (L.bx blockX + L.ty t) * L.cuDimMm)) hsteps
    refine ⟨l, hl, ?_⟩
    intro e
    rw [hmem]
    constructor
    · rintro ⟨j, hj, hb, rfl⟩
      have hj' := (h.steps_mem steps hsteps j).mp hj
      rw [h.maskOutx_bit blockX t j ht hj'.1, decide_eq_true_eq] at hb
      refine ⟨j, hj', hb, ?_⟩
      simp only [TiledLaunch.storeEvent, TiledLaunch.mkStore, step_offset _ _ _ hj'.2]
    · rintro ⟨j, hj, hb, rfl⟩
      refine ⟨j, (h.steps_mem steps hsteps j).mpr hj, ?_, ?_⟩
      · rw [h.maskOutx_bit blockX t j ht hj.1, decide_eq_true_eq]
        exact hb
      · simp only [TiledLaunch.storeEvent, TiledLaunch.mkStore, step_offset _ _ _ hj.2]
  obtain ⟨st, hst, hmem⟩ := optConcat_mem (List.range L.blockSize) _
    (fun t ht => (hthread t (List.mem_range.mp ht)).imp fun l hl => hl.1)
  refine ⟨st, hst, ?_⟩
  intro e
  rw [hmem]
  constructor
  · rintro ⟨t, ht, l, hl, he⟩
    have ht' := List.mem_range.mp ht
    obtain ⟨l', hl', hmem'⟩ := hthread t ht'
    rw [hl'] at hl
    cases hl
    exact ⟨t, ht', (hmem' e).mp he⟩
  · rintro ⟨t, ht, hrest⟩
    obtain ⟨l', hl', hmem'⟩ := hthread t ht
    exact ⟨t, List.mem_range.mpr ht, l', hl', (hmem' e).mpr hrest⟩

theorem TiledLaunch.slot_inj (L : TiledLaunch) (r c r' c' : Nat) (hc : c < L.TILEDIM)
    (hc' : c' < L.TILEDIM) (h : L.slot r c = L.slot r' c') : r = r' ∧ c = c' := by
  unfold TiledLaunch.slot at h
  have hW : 0 < L.TILEDIM + padding L.sizeofT := by omega
  have hcW : c < L.TILEDIM + padding L.sizeofT := by omega
  have hcW' : c' < L.TILEDIM + padding L.sizeofT := by omega
  have h1 := congrArg (· / (L.TILEDIM + padding L.sizeofT)) h
  have h2 := congrArg (· % (L.TILEDIM + padding L.sizeofT)) h
  simp only [Nat.mul_comm _ (L.TILEDIM + padding L.sizeofT), Nat.mul_add_div hW,
    Nat.div_eq_of_lt hcW, Nat.div_eq_of_lt hcW', Nat.add_zero, Nat.mul_add_mod,
    Nat.mod_eq_of_lt hcW, Nat.mod_eq_of_lt hcW'] at h1 h2
  exact ⟨h1, h2⟩

/-- After the loads of a batch iteration, the tile slot `[tx][ty + j]` that a
store reads holds the input element of the position the store is about. -/
theorem TiledLaunch.Good.tile_value {α : Type} {L : TiledLaunch} {k : Nat} (h : L.Good k)
    (dataIn : Nat → α) (blockX blockZ b : Nat) (ld : List (TileAccess α))
    (hld : ∀ e, e ∈ ld ↔ ∃ t, t < L.blockSize ∧ ∃ j, (j < L.TILEDIM ∧ j % L.TILEROWS = 0) ∧
        (L.bx blockX + L.tx t < L.tiledVolX ∧ L.by blockX + L.ty t + j < L.tiledVolY) ∧
        e = L.loadEvent dataIn blockX blockZ b t j)
    (sh : Nat → α) (t j : Nat) (ht : t < L.blockSize) (hj : j < L.TILEDIM)
    (hjr : j % L.TILEROWS = 0)
    (hout : L.by blockX + L.tx t < L.tiledVolY ∧ L.bx blockX + L.ty t + j < L.tiledVolX) :
    (applyWrites (ld.map fun e => (e.slot, e.val)) sh (L.slot (L.tx t) (L.ty t + j))
        = dataIn (L.inBar b + (L.bx blockX + L.ty t + j) + (L.by blockX + L.tx t) * L.cuDimMk)) ∧
      ∃ e, e ∈ ld ∧ e.slot = L.slot (L.tx t) (L.ty t + j) := by
  have hcol := h.step_row t j ht hj hjr
  have htx := h.tx_lt t
  have hTD := h.tdpos
  have hTR := h.trpos
  -- the thread and step that load the slot
  have hex : L.loadEvent dataIn blockX blockZ b
      ((L.ty t + j) + (L.tx t % L.TILEROWS) * L.TILEDIM) (L.tx t - L.tx t % L.TILEROWS) ∈ ld ∧
      (L.loadEvent dataIn blockX blockZ b
        ((L.ty t + j) + (L.tx t % L.TILEROWS) * L.TILEDIM)
        (L.tx t - L.tx t % L.TILEROWS)).slot = L.slot (L.tx t) (L.ty t + j) := by
    have htx' : L.tx ((L.ty t + j) + (L.tx t % L.TILEROWS) * L.TILEDIM) = L.ty t + j := by
      have e : ∀ x, L.tx x = x % L.TILEDIM := fun _ => rfl
      rw [e ((L.ty t + j) + (L.tx t % L.TILEROWS) * L.TILEDIM),
        Nat.add_mul_mod_self_right, Nat.mod_eq_of_lt hcol]
    have hty' : L.ty ((L.ty t + j) + (L.tx t % L.TILEROWS) * L.TILEDIM)
        = L.tx t % L.TILEROWS := by
      have e : ∀ x, L.ty x = x / L.TILEDIM := fun _ => rfl
      rw [e ((L.ty t + j) + (L.tx t % L.TILEROWS) * L.TILEDIM),
        Nat.add_mul_div_right _ _ hTD, Nat.div_eq_of_lt hcol, Nat.zero_add]
    have hmod := Nat.mod_lt (L.tx t) hTR
    have hle := Nat.mod_le (L.tx t) L.TILEROWS
    have hsum : L.tx t % L.TILEROWS + (L.tx t - L.tx t % L.TILEROWS) = L.tx t := by omega
    constructor
    · rw [hld]
      refine ⟨_, ?_, _, ⟨by omega, ?_⟩, ⟨?_, ?_⟩, rfl⟩
      · unfold TiledLaunch.blockSize
        calc (L.ty t + j) + (L.tx t % L.TILEROWS) * L.TILEDIM
            < L.TILEDIM + (L.tx t % L.TILEROWS) * L.TILEDIM := by omega
          _ = (L.tx t % L.TILEROWS + 1) * L.TILEDIM := by ring
          _ ≤ L.TILEROWS * L.TILEDIM := Nat.mul_le_mul_right _ hmod
          _ = L.TILEDIM * L.TILEROWS := Nat.mul_comm _ _
      · have := Nat.mod_add_div (L.tx t) L.TILEROWS
        have e : L.tx t - L.tx t % L.TILEROWS = L.TILEROWS * (L.tx t / L.TILEROWS) := by omega
        rw [e, Nat.mul_mod_right]
      · rw [htx']
        have := hout.2
        omega
      · rw [hty']
        have := hout.1
        omega
    · simp only [TiledLaunch.loadEvent, htx', hty', hsum]
  refine ⟨?_, _, hex.1, hex.2⟩
  apply applyWrites_eq_of_forall
  · intro w hw hslot
    obtain ⟨e, he, rfl⟩ := List.mem_map.mp hw
    obtain ⟨t', ht', j', ⟨hj', hjr'⟩, _, rfl⟩ := (hld e).mp he
    simp only [TiledLaunch.loadEvent] at hslot ⊢
    obtain ⟨hr, hc⟩ := L.slot_inj _ _ _ _ (h.tx_lt t') hcol hslot
    congr 1
    rw [hc, ← hr]
    ring
  · right
    exact ⟨_, List.mem_map.mpr ⟨_, hex.1, rfl⟩, hex.2⟩

/-- The batch loop of one block of `transposeTiled`. -/
theorem TiledLaunch.Good.run_spec {α : Type} {L : TiledLaunch} {k : Nat} (h : L.Good k)
    (g : TiledGarbage α) (dataIn : Nat → α) (steps : List Nat)
    (hsteps : strideLoop L.TILEROWS L.TILEDIM L.TILEDIM 0 = some steps)
    (blockX blockZ : Nat) :
    ∀ (batches : List Nat) (sh : Nat → α),
      ∃ r, L.run g dataIn steps blockX blockZ batches sh = some r ∧
        (∀ e, e ∈ r.1 ↔ ∃ b, b ∈ batches ∧ ∃ t, t < L.blockSize ∧
          ∃ j, (j < L.TILEDIM ∧ j % L.TILEROWS = 0) ∧
          (L.bx blockX + L.tx t < L.tiledVolX ∧ L.by blockX + L.ty t + j < L.tiledVolY) ∧
          e = L.loadEvent dataIn blockX blockZ b t j) ∧
        (∀ e, e ∈ r.2 ↔ ∃ b, b ∈ batches ∧ ∃ t, t < L.blockSize ∧
          ∃ j, (j < L.TILEDIM ∧ j % L.TILEROWS = 0) ∧
          (L.by blockX + L.tx t < L.tiledVolY ∧ L.bx blockX + L.ty t + j < L.tiledVolX) ∧
          e = L.storeEvent
            (dataIn (L.inBar b + (L.bx blockX + L.ty t + j)
              + (L.by blockX + L.tx t) * L.cuDimMk)) blockX blockZ b t j) := by
  intro batches
  induction batches with
  | nil => intro sh; exact ⟨([], []), rfl, fun e => by simp, fun e => by simp⟩
  | cons b bs ih =>
    intro sh
    obtain ⟨ld, hld, hldmem⟩ := h.loads_spec g dataIn steps hsteps blockX blockZ b
    obtain ⟨st, hst, hstmem⟩ := h.stores_spec g
      (applyWrites (ld.map fun e => (e.slot, e.val)) sh) steps hsteps blockX blockZ b
    obtain ⟨⟨lds, sts⟩, hrun, hlds, hsts⟩ := ih (applyWrites (ld.map fun e => (e.slot, e.val)) sh)
    refine ⟨(ld ++ lds, st ++ sts), ?_, ?_, ?_⟩
    · simp only [TiledLaunch.run, hld, hst, hrun]
    · intro e
      simp only [List.mem_append, hldmem, hlds, List.mem_cons]
      constructor
      · rintro (⟨t, ht, j, hj, hc, rfl⟩ | ⟨b', hb', hrest⟩)
        · exact ⟨b, Or.inl rfl, t, ht, j, hj, hc, rfl⟩
        · exact ⟨b', Or.inr hb', hrest⟩
      · rintro ⟨b', hb' | hb', hrest⟩
        · subst hb'; exact Or.inl hrest
        · exact Or.inr ⟨b', hb', hrest⟩
    · intro e
      simp only [List.mem_append, hstmem, hsts, List.mem_cons]
      constructor
      · rintro (⟨t, ht, j, hj, hc, rfl⟩ | ⟨b', hb', hrest⟩)
        · refine ⟨b, Or.inl rfl, t, ht, j, hj, hc, ?_⟩
          rw [(h.tile_value dataIn blockX blockZ b ld hldmem sh t j ht hj.1 hj.2 hc).1]
        · exact ⟨b', Or.inr hb', hrest⟩
      · rintro ⟨b', hb' | hb', t, ht, j, hj, hc, rfl⟩
        · subst hb'
          left
          refine ⟨t, ht, j, hj, hc, ?_⟩
          rw [(h.tile_value dataIn blockX blockZ b' ld hldmem sh t j ht hj.1 hj.2 hc).1]
        · exact Or.inr ⟨b', hb', t, ht, j, hj, hc, rfl⟩

/-- The accesses of all blocks of a tiled kernel, from those of the batch
loop of one block. -/
theorem TiledLaunch.Good.grid_spec {β : Type} {L : TiledLaunch} {k : Nat} (h : L.Good k)
    (block : List Nat → Nat → Nat → List Nat → Option (List β × List β))
    (P Q : Nat → Nat → Nat → β → Prop)
    (hblock : ∀ steps, strideLoop L.TILEROWS L.TILEDIM L.TILEDIM 0 = some steps →
      ∀ blockX blockZ batches, ∃ r, block steps blockX blockZ batches = some r ∧
        (∀ e, e ∈ r.1 ↔ ∃ b, b ∈ batches ∧ P blockX blockZ b e) ∧
        (∀ e, e ∈ r.2 ↔ ∃ b, b ∈ batches ∧ Q blockX blockZ b e)) :
    ∃ r, L.grid block = some r ∧
      (∀ e, e ∈ r.1 ↔ ∃ blockZ, blockZ < L.gridDimZ ∧ ∃ blockX, blockX < L.gridDimX ∧
        ∃ b, (b < L.volMbar ∧ blockZ ≤ b ∧ (b - blockZ) % L.gridDimZ = 0) ∧
          P blockX blockZ b e) ∧
      (∀ e, e ∈ r.2 ↔ ∃ blockZ, blockZ < L.gridDimZ ∧ ∃ blockX, blockX < L.gridDimX ∧
        ∃ b, (b < L.volMbar ∧ blockZ ≤ b ∧ (b - blockZ) % L.gridDimZ = 0) ∧
          Q blockX blockZ b e) := by
  obtain ⟨steps, hsteps, -⟩ :=
    strideLoop_spec L.TILEROWS L.TILEDIM h.trpos L.TILEDIM 0 (by omega)
  have hinner : ∀ blockZ blockX, ∃ r,
      L.gridBlock block steps blockZ blockX = some [r] ∧
      (∀ e, e ∈ r.1 ↔ ∃ b, (b < L.volMbar ∧ blockZ ≤ b ∧ (b - blockZ) % L.gridDimZ = 0) ∧
          P blockX blockZ b e) ∧
      (∀ e, e ∈ r.2 ↔ ∃ b, (b < L.volMbar ∧ blockZ ≤ b ∧ (b - blockZ) % L.gridDimZ = 0) ∧
          Q blockX blockZ b e) := by
    intro blockZ blockX
    obtain ⟨batches, hb, hbmem⟩ :=
      strideLoop_spec L.gridDimZ L.volMbar h.gz L.volMbar blockZ (by omega)
    obtain ⟨r, hr, h1, h2⟩ := hblock steps hsteps blockX blockZ batches
    refine ⟨r, ?_, ?_, ?_⟩
    · simp only [TiledLaunch.gridBlock, hb, hr]
    · intro e
      rw [h1]
      simp only [hbmem]
    · intro e
      rw [h2]
      simp only [hbmem]
  obtain ⟨rs, hrs, hrsmem⟩ := optConcat_mem (List.range L.gridDimZ)
    (fun blockZ => optConcat ((List.range L.gridDimX).map (L.gridBlock block steps blockZ)))
    (fun blockZ _ => by
      obtain ⟨l, hl, -⟩ := optConcat_mem (List.range L.gridDimX)
        (L.gridBlock block steps blockZ)
        (fun blockX _ => by
          obtain ⟨r, hr, -⟩ := hinner blockZ blockX
          exact ⟨[r], hr⟩)
      exact ⟨l, hl⟩)
  have hrs' : ∀ r, r ∈ rs ↔ ∃ blockZ, blockZ < L.gridDimZ ∧ ∃ blockX, blockX < L.gridDimX ∧
      L.gridBlock block steps blockZ blockX = some [r] := by
    intro r
    rw [hrsmem]
    constructor
    · rintro ⟨blockZ, hz, l, hl, hr⟩
      obtain ⟨l', hl', hmem'⟩ := optConcat_mem (List.range L.gridDimX)
        (L.gridBlock block steps blockZ)
        (fun blockX _ => by
          obtain ⟨r, hr, -⟩ := hinner blockZ blockX
          exact ⟨[r], hr⟩)
      rw [hl] at hl'
      cases hl'
      obtain ⟨blockX, hx, l2, hl2, hr2⟩ := (hmem' r).mp hr
      obtain ⟨r0, hr0, -⟩ := hinner blockZ blockX
      have hl2' := hl2
      simp only at hl2'
      rw [hr0] at hl2'
      cases hl2'
      rw [List.mem_singleton] at hr2
      subst hr2
      exact ⟨blockZ, List.mem_range.mp hz, blockX, List.mem_range.mp hx, hr0⟩
    · rintro ⟨blockZ, hz, blockX, hx, hr⟩
      obtain ⟨l', hl', hmem'⟩ := optConcat_mem (List.range L.gridDimX)
        (L.gridBlock block steps blockZ)
        (fun blockX _ => by
          obtain ⟨r, hr, -⟩ := hinner blockZ blockX
          exact ⟨[r], hr⟩)
      refine ⟨blockZ, List.mem_range.mpr hz, l', hl', ?_⟩
      rw [hmem']
      exact ⟨blockX, List.mem_range.mpr hx, [r], hr, List.mem_singleton.mpr rfl⟩
  refine ⟨unzipConcat rs, ?_, ?_, ?_⟩
  · unfold TiledLaunch.grid
    rw [hsteps]
    dsimp only
    rw [hrs]
  · intro e
    simp only [unzipConcat, List.mem_flatMap]
    constructor
    · rintro ⟨r, hr, he⟩
      obtain ⟨blockZ, hz, blockX, hx, hr'⟩ := (hrs' r).mp hr
      obtain ⟨r0, hr0, h1, -⟩ := hinner blockZ blockX
      rw [hr0] at hr'
      cases hr'
      exact ⟨blockZ, hz, blockX, hx, (h1 e).mp he⟩
    · rintro ⟨blockZ, hz, blockX, hx, hP⟩
      obtain ⟨r0, hr0, h1, -⟩ := hinner blockZ blockX
      exact ⟨r0, (hrs' r0).mpr ⟨blockZ, hz, blockX, hx, hr0⟩, (h1 e).mpr hP⟩
  · intro e
    simp only [unzipConcat, List.mem_flatMap]
    constructor
    · rintro ⟨r, hr, he⟩
      obtain ⟨blockZ, hz, blockX, hx, hr'⟩ := (hrs' r).mp hr
      obtain ⟨r0, hr0, -, h2⟩ := hinner blockZ blockX
      rw [hr0] at hr'
      cases hr'
      exact ⟨blockZ, hz, blockX, hx, (h2 e).mp he⟩
    · rintro ⟨blockZ, hz, blockX, hx, hQ⟩
      obtain ⟨r0, hr0, -, h2⟩ := hinner blockZ blockX
      exact ⟨r0, (hrs' r0).mpr ⟨blockZ, hz, blockX, hx, hr0⟩, (h2 e).mpr hQ⟩

/-- The values of a loop with a positive step are increasing. -/
theorem strideLoop_sorted (step bound : Nat) (hstep : 1 ≤ step) :
    ∀ (fuel start : Nat) (l : List Nat), strideLoop step bound fuel start = some l →
      l.Pairwise (· < ·) := by
  intro fuel
  induction fuel with
  | zero =>
    intro start l h
    simp only [strideLoop] at h
    split at h
    · exact absurd h (by simp)
    · simp only [Option.some.injEq] at h
      subst h
      exact List.Pairwise.nil
  | succ fuel ih =>
    intro start l h
    simp only [strideLoop] at h
    split at h
    · split at h
      · exact absurd h (by simp)
      · next l' hl' =>
        simp only [Option.some.injEq] at h
        subst h
        refine List.Pairwise.cons ?_ (ih _ _ hl')
        intro j hj
        have := strideLoop_ge step bound fuel (start + step) l' hl' j hj
        omega
    · simp only [Option.some.injEq] at h
      subst h
      exact List.Pairwise.nil

/-- A list whose elements have pairwise distinct keys, and in which the
elements with property `p` exist and all have the key `c`, has exactly one
element with property `p`. -/
theorem countP_eq_one_of_pairwise {β γ : Type} (f : β → γ) (p : β → Bool) (c : γ) :
    ∀ (l : List β), l.Pairwise (fun a b => f a ≠ f b) →
      (∀ e, e ∈ l → p e = true → f e = c) → (∃ e, e ∈ l ∧ p e = true) →
      l.countP p = 1 := by
  intro l
  induction l with
  | nil =>
    rintro _ _ ⟨e, he, _⟩
    exact absurd he (List.not_mem_nil _)
  | cons a l ih =>
    intro hl hall hex
    rw [List.pairwise_cons] at hl
    by_cases hpa : p a = true
    · rw [List.countP_cons_of_pos _ _ hpa]
      have hz : l.countP p = 0 := by
        rw [List.countP_eq_zero]
        intro e he hpe
        have h1 := hall e (List.mem_cons_of_mem _ he) hpe
        have h2 := hall a (List.mem_cons_self _ _) hpa
        exact hl.1 e he (h2.trans h1.symm)
      rw [hz]
    · rw [List.countP_cons_of_neg _ _ hpa]
      apply ih hl.2 (fun e he => hall e (List.mem_cons_of_mem _ he))
      obtain ⟨e, he, hpe⟩ := hex
      rcases List.mem_cons.mp he with rfl | he
      · exact absurd hpe hpa
      · exact ⟨e, he, hpe⟩

/-- The accesses of the row-step loop of one thread are those of increasing
row steps. -/
theorem tileLoop_pairwise {β : Type} (mask add : Nat) (mk : Nat → Nat → β)
    (R : β → β → Prop) (hR : ∀ j j' p p', j < j' → R (mk j p) (mk j' p')) :
    ∀ (steps : List Nat) (pos : Option Nat) (l : List β), steps.Pairwise (· < ·) →
      tileLoop mask add mk steps pos = some l →
      l.Pairwise R ∧ ∀ e, e ∈ l → ∃ j, j ∈ steps ∧ ∃ p, e = mk j p := by
  intro steps
  induction steps with
  | nil =>
    intro pos l _ h
    simp only [tileLoop, Option.some.injEq] at h
    subst h
    exact ⟨List.Pairwise.nil, fun e he => absurd he (List.not_mem_nil _)⟩
  | cons j js ih =>
    intro pos l hs h
    rw [List.pairwise_cons] at hs
    simp only [tileLoop] at h
    split at h
    · exact absurd h (by simp)
    · next rest hrest =>
      obtain ⟨hp, hm⟩ := ih _ rest hs.2 hrest
      split at h
      · split at h
        · next p =>
          simp only [Option.some.injEq] at h
          subst h
          refine ⟨List.Pairwise.cons ?_ hp, ?_⟩
          · intro e he
            obtain ⟨j', hj', p', rfl⟩ := hm e he
            exact hR j j' p p' (hs.1 j' hj')
          · intro e he
            rcases List.mem_cons.mp he with rfl | he
            · exact ⟨j, List.mem_cons_self _ _, p, rfl⟩
            · obtain ⟨j', hj', p', rfl⟩ := hm e he
              exact ⟨j', List.mem_cons_of_mem _ hj', p', rfl⟩
        · exact absurd h (by simp)
      · simp only [Option.some.injEq] at h
        subst h
        refine ⟨hp, ?_⟩
        intro e he
        obtain ⟨j', hj', p', rfl⟩ := hm e he
        exact ⟨j', List.mem_cons_of_mem _ hj', p', rfl⟩

/-- Pieces that are pairwise related inside, and across pieces by their
tags, concatenate to a pairwise related list. -/
theorem optConcat_pairwise {β γ : Type} (R : β → β → Prop) (S : γ → β → Prop)
    (f : γ → Option (List β)) :
    ∀ (xs : List γ), xs.Pairwise (fun x x' => ∀ y y', S x y → S x' y' → R y y') →
      (∀ x, x ∈ xs → ∀ l, f x = some l → l.Pairwise R ∧ ∀ y, y ∈ l → S x y) →
      ∀ L, optConcat (xs.map f) = some L →
        L.Pairwise R ∧ ∀ y, y ∈ L → ∃ x, x ∈ xs ∧ S x y := by
  intro xs
  induction xs with
  | nil =>
    intro _ _ L h
    simp only [List.map_nil, optConcat, Option.some.injEq] at h
    subst h
    exact ⟨List.Pairwise.nil, fun y hy => absurd hy (List.not_mem_nil _)⟩
  | cons x xs ih =>
    intro hxs hf L h
    rw [List.pairwise_cons] at hxs
    rw [List.map_cons] at h
    cases hfx : f x with
    | none =>
      rw [hfx] at h
      simp only [optConcat] at h
      exact absurd h (by simp)
    | some l =>
      rw [hfx] at h
      simp only [optConcat] at h
      split at h
      · exact absurd h (by simp)
      · next ls hls =>
        simp only [Option.some.injEq] at h
        subst h
        obtain ⟨hl, hlS⟩ := hf x (List.mem_cons_self _ _) l hfx
        obtain ⟨hp, hm⟩ := ih hxs.2 (fun x' hx' => hf x' (List.mem_cons_of_mem _ hx')) ls hls
        refine ⟨List.pairwise_append.mpr ⟨hl, hp, ?_⟩, ?_⟩
        · intro a ha b hb
          obtain ⟨x', hx', hS'⟩ := hm b hb
          exact hxs.1 x' hx' a b (hlS a ha) hS'
        · intro y hy
          rcases List.mem_append.mp hy with hy | hy
          · exact ⟨x, List.mem_cons_self _ _, hlS y hy⟩
          · obtain ⟨x', hx', hS'⟩ := hm y hy
            exact ⟨x', List.mem_cons_of_mem _ hx', hS'⟩

theorem range_pairwise_ne (n : Nat) : (List.range n).Pairwise (· ≠ ·) :=
  List.nodup_range n

/-- The accesses of the threads of a block in one phase of one batch
iteration have pairwise distinct handlers. -/
theorem threads_pairwise {α : Type} (n add : Nat) (mask : Nat → Nat)
    (mk : Nat → Nat → Nat → TileAccess α) (pos : Nat → Option Nat) (bX bZ b : Nat)
    (hmk : ∀ t j p, (mk t j p).handler = (bX, bZ, b, t, j))
    (steps : List Nat) (hs : steps.Pairwise (· < ·)) (l : List (TileAccess α))
    (h : optConcat ((List.range n).map fun t =>
      tileLoop (mask t) add (mk t) steps (pos t)) = some l) :
    l.Pairwise (fun a b => a.handler ≠ b.handler) ∧
      ∀ e, e ∈ l → e.blockX = bX ∧ e.blockZ = bZ ∧ e.posMbar = b := by
  obtain ⟨hp, hm⟩ := optConcat_pairwise (fun a b : TileAccess α => a.handler ≠ b.handler)
    (fun t e => e.handler.2.2.2.1 = t ∧ e.blockX = bX ∧ e.blockZ = bZ ∧ e.posMbar = b)
    (fun t => tileLoop (mask t) add (mk t) steps (pos t)) (List.range n)
    ((range_pairwise_ne n).imp fun hne y y' hS hS' heq => hne (by
      rw [← hS.1, ← hS'.1, heq]))
    (fun t _ l' hl' => by
      obtain ⟨hp, hm⟩ := tileLoop_pairwise (mask t) add (mk t)
        (fun a b : TileAccess α => a.handler ≠ b.handler)
        (fun j j' p p' hlt heq => by
          rw [hmk, hmk] at heq
          simp only [Prod.mk.injEq] at heq
          omega)
        steps (pos t) l' hs hl'
      refine ⟨hp, ?_⟩
      intro e he
      obtain ⟨j, _, p, rfl⟩ := hm e he
      have := hmk t j p
      simp only [TileAccess.handler, Prod.mk.injEq] at this ⊢
      exact ⟨this.2.2.2.1, this.1, this.2.1, this.2.2.1⟩)
    l h
  refine ⟨hp, ?_⟩
  intro e he
  obtain ⟨t, _, hS⟩ := hm e he
  exact hS.2

/-- The loads, and the stores, of the batch loop of one block of
`transposeTiled` have pairwise distinct handlers. -/
theorem TiledLaunch.run_pairwise {α : Type} (L : TiledLaunch) (g : TiledGarbage α)
    (dataIn : Nat → α) (steps : List Nat) (hs : steps.Pairwise (· < ·))
    (blockX blockZ : Nat) :
    ∀ (batches : List Nat) (sh : Nat → α) (r : List (TileAccess α) × List (TileAccess α)),
      batches.Pairwise (· < ·) →
      L.run g dataIn steps blockX blockZ batches sh = some r →
      (r.1.Pairwise (fun a b => a.handler ≠ b.handler) ∧
        ∀ e, e ∈ r.1 → e.blockX = blockX ∧ e.blockZ = blockZ ∧ e.posMbar ∈ batches) ∧
      (r.2.Pairwise (fun a b => a.handler ≠ b.handler) ∧
        ∀ e, e ∈ r.2 → e.blockX = blockX ∧ e.blockZ = blockZ ∧ e.posMbar ∈ batches) := by
  intro batches
  induction batches with
  | nil =>
    intro sh r _ h
    simp only [TiledLaunch.run, Option.some.injEq] at h
    subst h
    exact ⟨⟨List.Pairwise.nil, fun e he => absurd he (List.not_mem_nil _)⟩,
      ⟨List.Pairwise.nil, fun e he => absurd he (List.not_mem_nil _)⟩⟩
  | cons b bs ih =>
    intro sh r hb h
    rw [List.pairwise_cons] at hb
    simp only [TiledLaunch.run] at h
    split at h
    · exact absurd h (by simp)
    · next ld hld =>
      split at h
      · exact absurd h (by simp)
      · next st hst =>
        split at h
        · exact absurd h (by simp)
        · next lds sts hrun =>
          simp only [Option.some.injEq] at h
          subst h
          obtain ⟨⟨hp1, hm1⟩, ⟨hp2, hm2⟩⟩ := ih _ _ hb.2 hrun
          obtain ⟨hpl, hml⟩ := threads_pairwise L.blockSize (L.TILEROWS * L.cuDimMk)
            (L.maskIny blockX) (L.mkLoad dataIn blockX blockZ b) (L.posIn g blockX b)
            blockX blockZ b (fun _ _ _ => rfl) steps hs ld hld
          obtain ⟨hps, hms⟩ := threads_pairwise L.blockSize (L.TILEROWS * L.cuDimMm)
            (L.maskOutx blockX) (L.mkStore _ blockX blockZ b) (L.posOut g blockX b)
            blockX blockZ b (fun _ _ _ => rfl) steps hs st hst
          have hcross : ∀ (l l' : List (TileAccess α)),
              (∀ e, e ∈ l → e.blockX = blockX ∧ e.blockZ = blockZ ∧ e.posMbar = b) →
              (∀ e, e ∈ l' → e.blockX = blockX ∧ e.blockZ = blockZ ∧ e.posMbar ∈ bs) →
              ∀ a, a ∈ l → ∀ c, c ∈ l' → a.handler ≠ c.handler := by
            intro l l' hl hl' a ha c hc heq
            have h1 := (hl a ha).2.2
            have h2 := (hl' c hc).2.2
            have h3 : a.posMbar = c.posMbar := congrArg (fun x => x.2.2.1) heq
            rw [← h3, h1] at h2
            exact absurd (hb.1 b h2) (lt_irrefl _)
          have hmemb : ∀ (l l' : List (TileAccess α)),
              (∀ e, e ∈ l → e.blockX = blockX ∧ e.blockZ = blockZ ∧ e.posMbar = b) →
              (∀ e, e ∈ l' → e.blockX = blockX ∧ e.blockZ = blockZ ∧ e.posMbar ∈ bs) →
              ∀ e, e ∈ l ++ l' →
                e.blockX = blockX ∧ e.blockZ = blockZ ∧ e.posMbar ∈ b :: bs := by
            intro l l' hl hl' e he
            rcases List.mem_append.mp he with he | he
            · obtain ⟨h1, h2, h3⟩ := hl e he
              exact ⟨h1, h2, by rw [h3]; exact List.mem_cons_self _ _⟩
            · obtain ⟨h1, h2, h3⟩ := hl' e he
              exact ⟨h1, h2, List.mem_cons_of_mem _ h3⟩
          exact ⟨⟨List.pairwise_append.mpr ⟨hpl, hp1, hcross ld lds hml hm1⟩,
              hmemb ld lds hml hm1⟩,
            ⟨List.pairwise_append.mpr ⟨hps, hp2, hcross st sts hms hm2⟩,
              hmemb st sts hms hm2⟩⟩

/-- The accesses of all blocks of a tiled kernel have pairwise distinct
handlers when those of each block have and carry the block indices. -/
theorem TiledLaunch.Good.grid_pairwise {α : Type} {L : TiledLaunch} {k : Nat} (h : L.Good k)
    (block : List Nat → Nat → Nat → List Nat →
      Option (List (TileAccess α) × List (TileAccess α)))
    (hblock : ∀ steps, steps.Pairwise (· < ·) → ∀ blockX blockZ batches,
      batches.Pairwise (· < ·) → ∀ r, block steps blockX blockZ batches = some r →
      (r.1.Pairwise (fun a b => a.handler ≠ b.handler) ∧
        ∀ e, e ∈ r.1 → e.blockX = blockX ∧ e.blockZ = blockZ) ∧
      (r.2.Pairwise (fun a b => a.handler ≠ b.handler) ∧
        ∀ e, e ∈ r.2 → e.blockX = blockX ∧ e.blockZ = blockZ)) :
    ∀ r, L.grid block = some r →
      r.1.Pairwise (fun a b => a.handler ≠ b.handler) ∧
      r.2.Pairwise (fun a b => a.handler ≠ b.handler) := by
  intro r hr
  unfold TiledLaunch.grid at hr
  split at hr
  · exact absurd hr (by simp)
  · next steps hsteps =>
    have hs := strideLoop_sorted L.TILEROWS L.TILEDIM h.trpos _ _ _ hsteps
    split at hr
    · exact absurd hr (by simp)
    · next rs hrs =>
      simp only [Option.some.injEq] at hr
      subst hr
      -- one block
      have hone : ∀ blockZ blockX l, L.gridBlock block steps blockZ blockX = some l →
          ∃ r, l = [r] ∧
            (r.1.Pairwise (fun a b => a.handler ≠ b.handler) ∧
              ∀ e, e ∈ r.1 → e.blockX = blockX ∧ e.blockZ = blockZ) ∧
            (r.2.Pairwise (fun a b => a.handler ≠ b.handler) ∧
              ∀ e, e ∈ r.2 → e.blockX = blockX ∧ e.blockZ = blockZ) := by
        intro blockZ blockX l hl
        unfold TiledLaunch.gridBlock at hl
        split at hl
        · exact absurd hl (by simp)
        · next batches hbat =>
          have hb := strideLoop_sorted L.gridDimZ L.volMbar h.gz _ _ _ hbat
          split at hl
          · exact absurd hl (by simp)
          · next r hr =>
            simp only [Option.some.injEq] at hl
            exact ⟨r, hl.symm, hblock steps hs blockX blockZ batches hb r hr⟩
      have hrow : ∀ blockZ l,
          optConcat ((List.range L.gridDimX).map (L.gridBlock block steps blockZ)) = some l →
          l.Pairwise (fun r r' : List (TileAccess α) × List (TileAccess α) =>
              (∀ a, a ∈ r.1 → ∀ c, c ∈ r'.1 → a.handler ≠ c.handler) ∧
              (∀ a, a ∈ r.2 → ∀ c, c ∈ r'.2 → a.handler ≠ c.handler)) ∧
            ∀ r, r ∈ l →
              (r.1.Pairwise (fun a b => a.handler ≠ b.handler) ∧
                ∀ e, e ∈ r.1 → e.blockZ = blockZ) ∧
              (r.2.Pairwise (fun a b => a.handler ≠ b.handler) ∧
                ∀ e, e ∈ r.2 → e.blockZ = blockZ) := by
        intro blockZ l hl
        obtain ⟨hp, hm⟩ := optConcat_pairwise
          (fun r r' : List (TileAccess α) × List (TileAccess α) =>
              (∀ a, a ∈ r.1 → ∀ c, c ∈ r'.1 → a.handler ≠ c.handler) ∧
              (∀ a, a ∈ r.2 → ∀ c, c ∈ r'.2 → a.handler ≠ c.handler))
          (fun blockX r =>
            (r.1.Pairwise (fun a b => a.handler ≠ b.handler) ∧
              ∀ e, e ∈ r.1 → e.blockX = blockX ∧ e.blockZ = blockZ) ∧
            (r.2.Pairwise (fun a b => a.handler ≠ b.handler) ∧
              ∀ e, e ∈ r.2 → e.blockX = blockX ∧ e.blockZ = blockZ))
          (L.gridBlock block steps blockZ) (List.range L.gridDimX)
          ((range_pairwise_ne _).imp fun {x x'} hne y y' hS hS' =>
            ⟨fun a ha c hc heq => hne (by
                have h3 : a.blockX = c.blockX := congrArg (fun x => x.1) heq
                rw [← (hS.1.2 a ha).1, ← (hS'.1.2 c hc).1, h3]),
              fun a ha c hc heq => hne (by
                have h3 : a.blockX = c.blockX := congrArg (fun x => x.1) heq
                rw [← (hS.2.2 a ha).1, ← (hS'.2.2 c hc).1, h3])⟩)
          (fun blockX _ l' hl' => by
            obtain ⟨r, rfl, hr⟩ := hone blockZ blockX l' hl'
            refine ⟨List.pairwise_singleton _ _, ?_⟩
            intro y hy
            rw [List.mem_singleton] at hy
            subst hy
            exact hr)
          l hl
        refine ⟨hp, ?_⟩
        intro r hr
        obtain ⟨blockX, _, hS⟩ := hm r hr
        exact ⟨⟨hS.1.1, fun e he => (hS.1.2 e he).2⟩, ⟨hS.2.1, fun e he => (hS.2.2 e he).2⟩⟩
      obtain ⟨hp, hm⟩ := optConcat_pairwise
        (fun r r' : List (TileAccess α) × List (TileAccess α) =>
            (∀ a, a ∈ r.1 → ∀ c, c ∈ r'.1 → a.handler ≠ c.handler) ∧
            (∀ a, a ∈ r.2 → ∀ c, c ∈ r'.2 → a.handler ≠ c.handler))
        (fun blockZ r =>
          (r.1.Pairwise (fun a b => a.handler ≠ b.handler) ∧
            ∀ e, e ∈ r.1 → e.blockZ = blockZ) ∧
          (r.2.Pairwise (fun a b => a.handler ≠ b.handler) ∧
            ∀ e, e ∈ r.2 → e.blockZ = blockZ))
        (fun blockZ =>
          optConcat ((List.range L.gridDimX).map (L.gridBlock block steps blockZ)))
        (List.range L.gridDimZ)
        ((range_pairwise_ne _).imp fun {x x'} hne y y' hS hS' =>
          ⟨fun a ha c hc heq => hne (by
              have h3 : a.blockZ = c.blockZ := congrArg (fun x => x.2.1) heq
              rw [← hS.1.2 a ha, ← hS'.1.2 c hc, h3]),
            fun a ha c hc heq => hne (by
              have h3 : a.blockZ = c.blockZ := congrArg (fun x => x.2.1) heq
              rw [← hS.2.2 a ha, ← hS'.2.2 c hc, h3])⟩)
        (fun blockZ _ l hl => hrow blockZ l hl)
        rs hrs
      simp only [unzipConcat, List.pairwise_flatMap]
      exact ⟨⟨fun r hr => by
            obtain ⟨z, _, hS⟩ := hm r hr
            exact hS.1.1,
          hp.imp fun hR => hR.1⟩,
        ⟨fun r hr => by
            obtain ⟨z, _, hS⟩ := hm r hr
            exact hS.2.1,
          hp.imp fun hR => hR.2⟩⟩

/-- The thread and row step of a tile that reach column `u` and row `v`:
they exist and are unique. -/
theorem tile_split (TD TR : Nat) (hTR : 0 < TR) (u v : Nat)
    (hu : u < TD) (hv : v < TD) :
    (u + (v % TR) * TD < TD * TR ∧ (v - v % TR < TD ∧ (v - v % TR) % TR = 0) ∧
      (u + (v % TR) * TD) % TD = u ∧ (u + (v % TR) * TD) / TD + (v - v % TR) = v) ∧
    ∀ t j, t < TD * TR → j % TR = 0 → t % TD = u → t / TD + j = v →
      t = u + (v % TR) * TD ∧ j = v - v % TR := by
  have hTD : 0 < TD := by omega
  have hmod := Nat.mod_lt v hTR
  have hle := Nat.mod_le v TR
  refine ⟨⟨?_, ⟨by omega, ?_⟩, ?_, ?_⟩, ?_⟩
  · calc u + (v % TR) * TD < TD + (v % TR) * TD := by omega
      _ = (v % TR + 1) * TD := by ring
      _ ≤ TR * TD := Nat.mul_le_mul_right _ hmod
      _ = TD * TR := Nat.mul_comm _ _
  · have := Nat.mod_add_div v TR
    have e : v - v % TR = TR * (v / TR) := by omega
    rw [e, Nat.mul_mod_right]
  · rw [Nat.add_mul_mod_self_right, Nat.mod_eq_of_lt hu]
  · rw [Nat.add_mul_div_right _ _ hTD, Nat.div_eq_of_lt hu]
    omega
  · intro t j ht hj htu htv
    have hty : t / TD < TR := Nat.div_lt_of_lt_mul ht
    have hvm : v % TR = t / TD := by
      rw [← htv, Nat.add_mod, hj, Nat.add_zero, Nat.mod_mod, Nat.mod_eq_of_lt hty]
    have := Nat.mod_add_div t TD
    rw [hvm]
    constructor
    · rw [← htu, Nat.mul_comm]
      omega
    · omega

theorem div_lt_ceil (X V D : Nat) (hD : 0 < D) (hX : X < V) : X / D < (V + D - 1) / D := by
  rw [Nat.div_lt_iff_lt_mul hD]
  have h1 := Nat.div_add_mod (V + D - 1) D
  have h2 := Nat.mod_lt (V + D - 1) hD
  have h3 : D * ((V + D - 1) / D) = (V + D - 1) / D * D := Nat.mul_comm _ _
  omega

/-- The block of the grid that holds position `(X, Y)`: it exists and is
unique. -/
theorem TiledLaunch.Good.block_split {L : TiledLaunch} {k : Nat} (h : L.Good k) (X Y : Nat)
    (hX : X < L.tiledVolX) (hY : Y < L.tiledVolY) :
    (X / L.TILEDIM + (Y / L.TILEDIM) * L.numMm < L.gridDimX ∧
      L.bx (X / L.TILEDIM + (Y / L.TILEDIM) * L.numMm) + X % L.TILEDIM = X ∧
      L.by (X / L.TILEDIM + (Y / L.TILEDIM) * L.numMm) + Y % L.TILEDIM = Y) ∧
    ∀ blockX c r, c < L.TILEDIM → r < L.TILEDIM → L.bx blockX + c = X → L.by blockX + r = Y →
      blockX = X / L.TILEDIM + (Y / L.TILEDIM) * L.numMm ∧ c = X % L.TILEDIM ∧
        r = Y % L.TILEDIM := by
  have hTD := h.tdpos
  have hxq : X / L.TILEDIM < L.numMm := by
    rw [h.nmm]
    exact div_lt_ceil X L.tiledVolX L.TILEDIM hTD hX
  have hyq : Y / L.TILEDIM < (L.tiledVolY + L.TILEDIM - 1) / L.TILEDIM :=
    div_lt_ceil Y L.tiledVolY L.TILEDIM hTD hY
  have hnm : 0 < L.numMm := Nat.lt_of_le_of_lt (Nat.zero_le _) hxq
  have hbx : (X / L.TILEDIM + (Y / L.TILEDIM) * L.numMm) % L.numMm = X / L.TILEDIM := by
    rw [Nat.add_mul_mod_self_right, Nat.mod_eq_of_lt hxq]
  have hby : (X / L.TILEDIM + (Y / L.TILEDIM) * L.numMm) / L.numMm = Y / L.TILEDIM := by
    rw [Nat.add_mul_div_right _ _ hnm, Nat.div_eq_of_lt hxq, Nat.zero_add]
  refine ⟨⟨?_, ?_, ?_⟩, ?_⟩
  · rw [h.gx]
    calc X / L.TILEDIM + (Y / L.TILEDIM) * L.numMm
        < L.numMm + (Y / L.TILEDIM) * L.numMm := by omega
      _ = (Y / L.TILEDIM + 1) * L.numMm := by ring
      _ ≤ ((L.tiledVolY + L.TILEDIM - 1) / L.TILEDIM) * L.numMm :=
          Nat.mul_le_mul_right _ hyq
      _ = L.numMm * ((L.tiledVolY + L.TILEDIM - 1) / L.TILEDIM) := Nat.mul_comm _ _
  · unfold TiledLaunch.bx
    rw [hbx]
    exact Nat.div_add_mod' X L.TILEDIM
  · unfold TiledLaunch.by
    rw [hby]
    exact Nat.div_add_mod' Y L.TILEDIM
  · intro blockX c r hc hr hx hy
    unfold TiledLaunch.bx at hx
    unfold TiledLaunch.by at hy
    have h1 : X / L.TILEDIM = blockX % L.numMm := by
      rw [← hx, Nat.mul_comm, Nat.mul_add_div hTD, Nat.div_eq_of_lt hc, Nat.add_zero]
    have h2 : Y / L.TILEDIM = blockX / L.numMm := by
      rw [← hy, Nat.mul_comm, Nat.mul_add_div hTD, Nat.div_eq_of_lt hr, Nat.add_zero]
    have h3 : X % L.TILEDIM = c := by
      rw [← hx, Nat.mul_comm, Nat.mul_add_mod, Nat.mod_eq_of_lt hc]
    have h4 : Y % L.TILEDIM = r := by
      rw [← hy, Nat.mul_comm, Nat.mul_add_mod, Nat.mod_eq_of_lt hr]
    refine ⟨?_, h3.symm, h4.symm⟩
    rw [h1, h2]
    exact (Nat.mod_add_div' blockX L.numMm).symm

/-- The block of the batch loop that handles batch `b`: it exists and is
unique. -/
theorem batch_split (gz b : Nat) (hgz : 1 ≤ gz) :
    (b % gz < gz ∧ b % gz ≤ b ∧ (b - b % gz) % gz = 0) ∧
    ∀ z, z < gz → z ≤ b → (b - z) % gz = 0 → z = b % gz := by
  have hmod := Nat.mod_lt b hgz
  have hle := Nat.mod_le b gz
  refine ⟨⟨hmod, hle, ?_⟩, ?_⟩
  · have := Nat.mod_add_div b gz
    have e : b - b % gz = gz * (b / gz) := by omega
    rw [e, Nat.mul_mod_right]
  · intro z hz hzb hm
    obtain ⟨q, hq⟩ := Nat.dvd_of_mod_eq_zero hm
    have e : b = z + gz * q := by omega
    rw [e, Nat.add_mul_mod_self_left, Nat.mod_eq_of_lt hz]

/-- The loads and stores of `transposeTiled`: the kernel is defined, its
loads are those of the positions `(xin, yin + j)` inside the volume, and its
stores those of the positions `(xout + j, yout)` inside the volume, each
carrying the input element of its position. -/
theorem TiledLaunch.Good.transposeTiled_events {α : Type} {L : TiledLaunch} {k : Nat}
    (h : L.Good k) (garbage : Nat → Nat → TiledGarbage α) (dataIn : Nat → α) :
    ∃ r, transposeTiled L garbage dataIn = some r ∧
      (∀ e, e ∈ r.1 ↔ ∃ blockZ, blockZ < L.gridDimZ ∧ ∃ blockX, blockX < L.gridDimX ∧
        ∃ b, (b < L.volMbar ∧ blockZ ≤ b ∧ (b - blockZ) % L.gridDimZ = 0) ∧
        ∃ t, t < L.blockSize ∧ ∃ j, (j < L.TILEDIM ∧ j % L.TILEROWS = 0) ∧
          (L.bx blockX + L.tx t < L.tiledVolX ∧ L.by blockX + L.ty t + j < L.tiledVolY) ∧
          e = L.loadEvent dataIn blockX blockZ b t j) ∧
      (∀ e, e ∈ r.2 ↔ ∃ blockZ, blockZ < L.gridDimZ ∧ ∃ blockX, blockX < L.gridDimX ∧
        ∃ b, (b < L.volMbar ∧ blockZ ≤ b ∧ (b - blockZ) % L.gridDimZ = 0) ∧
        ∃ t, t < L.blockSize ∧ ∃ j, (j < L.TILEDIM ∧ j % L.TILEROWS = 0) ∧
          (L.by blockX + L.tx t < L.tiledVolY ∧ L.bx blockX + L.ty t + j < L.tiledVolX) ∧
          e = L.storeEvent
            (dataIn (L.inBar b + (L.bx blockX + L.ty t + j)
              + (L.by blockX + L.tx t) * L.cuDimMk)) blockX blockZ b t j) :=
  h.grid_spec _
    (fun blockX blockZ b e => ∃ t, t < L.blockSize ∧
      ∃ j, (j < L.TILEDIM ∧ j % L.TILEROWS = 0) ∧
      (L.bx blockX + L.tx t < L.tiledVolX ∧ L.by blockX + L.ty t + j < L.tiledVolY) ∧
      e = L.loadEvent dataIn blockX blockZ b t j)
    (fun blockX blockZ b e => ∃ t, t < L.blockSize ∧
      ∃ j, (j < L.TILEDIM ∧ j % L.TILEROWS = 0) ∧
      (L.by blockX + L.tx t < L.tiledVolY ∧ L.bx blockX + L.ty t + j < L.tiledVolX) ∧
      e = L.storeEvent
        (dataIn (L.inBar b + (L.bx blockX + L.ty t + j)
          + (L.by blockX + L.tx t) * L.cuDimMk)) blockX blockZ b t j)
    (fun steps hsteps blockX blockZ batches =>
      h.run_spec (garbage blockX blockZ) dataIn steps hsteps blockX blockZ batches _)

/-- The loads, and the stores, of `transposeTiled` have pairwise distinct
handlers. -/
theorem TiledLaunch.Good.transposeTiled_pairwise {α : Type} {L : TiledLaunch} {k : Nat}
    (h : L.Good k) (garbage : Nat → Nat → TiledGarbage α) (dataIn : Nat → α)
    (r : List (TileAccess α) × List (TileAccess α))
    (hr : transposeTiled L garbage dataIn = some r) :
    r.1.Pairwise (fun a b => a.handler ≠ b.handler) ∧
    r.2.Pairwise (fun a b => a.handler ≠ b.handler) :=
  h.grid_pairwise _
    (fun steps hs blockX blockZ batches hb r hrun => by
      obtain ⟨⟨h1, h2⟩, ⟨h3, h4⟩⟩ := L.run_pairwise (garbage blockX blockZ) dataIn steps hs
        blockX blockZ batches _ r hb hrun
      exact ⟨⟨h1, fun e he => ⟨(h2 e he).1, (h2 e he).2.1⟩⟩,
        ⟨h3, fun e he => ⟨(h4 e he).1, (h4 e he).2.1⟩⟩⟩)
    r hr

/-- The block, thread and row step whose store is about position `(X, Y)` of
batch `b` in `transposeTiled`: they exist and are unique. -/
theorem TiledLaunch.Good.store_handler {L : TiledLaunch} {k : Nat} (h : L.Good k)
    (b X Y : Nat) (hX : X < L.tiledVolX) (hY : Y < L.tiledVolY) :
    ∃ t j, (b % L.gridDimZ < L.gridDimZ ∧
        X / L.TILEDIM + (Y / L.TILEDIM) * L.numMm < L.gridDimX ∧
        (b % L.gridDimZ ≤ b ∧ (b - b % L.gridDimZ) % L.gridDimZ = 0) ∧
        t < L.blockSize ∧ (j < L.TILEDIM ∧ j % L.TILEROWS = 0) ∧
        L.by (X / L.TILEDIM + (Y / L.TILEDIM) * L.numMm) + L.tx t = Y ∧
        L.bx (X / L.TILEDIM + (Y / L.TILEDIM) * L.numMm) + L.ty t + j = X) ∧
      ∀ blockZ blockX t' j', blockZ < L.gridDimZ → blockZ ≤ b →
        (b - blockZ) % L.gridDimZ = 0 → t' < L.blockSize → j' < L.TILEDIM →
        j' % L.TILEROWS = 0 → L.by blockX + L.tx t' = Y → L.bx blockX + L.ty t' + j' = X →
        blockZ = b % L.gridDimZ ∧ blockX = X / L.TILEDIM + (Y / L.TILEDIM) * L.numMm ∧
          t' = t ∧ j' = j := by
  have hTD := h.tdpos
  obtain ⟨⟨hz1, hz2, hz3⟩, hzu⟩ := batch_split L.gridDimZ b h.gz
  obtain ⟨⟨hb1, hb2, hb3⟩, hbu⟩ := h.block_split X Y hX hY
  obtain ⟨⟨ht1, ht2, ht3, ht4⟩, htu⟩ := tile_split L.TILEDIM L.TILEROWS h.trpos
    (Y % L.TILEDIM) (X % L.TILEDIM) (Nat.mod_lt _ hTD) (Nat.mod_lt _ hTD)
  refine ⟨_, _, ⟨hz1, hb1, ⟨hz2, hz3⟩, ht1, ht2, ?_, ?_⟩, ?_⟩
  · unfold TiledLaunch.tx
    rw [ht3]
    exact hb3
  · unfold TiledLaunch.ty
    rw [Nat.add_assoc, ht4]
    exact hb2
  · intro blockZ blockX t' j' hz hzb hzm ht' hj' hjr' hy hx
    have hrow := h.step_row t' j' ht' hj' hjr'
    rw [Nat.add_assoc] at hx
    obtain ⟨e1, e2, e3⟩ := hbu blockX _ _ hrow (h.tx_lt t') hx hy
    obtain ⟨e4, e5⟩ := htu t' j' ht' hjr' e3 e2
    exact ⟨hzu blockZ hz hzb hzm, e1, e4, e5⟩

/-- The block, thread and row step whose load is about position `(X, Y)` of
batch `b` in `transposeTiled`: they exist and are unique. -/
theorem TiledLaunch.Good.load_handler {L : TiledLaunch} {k : Nat} (h : L.Good k)
    (b X Y : Nat) (hX : X < L.tiledVolX) (hY : Y < L.tiledVolY) :
    ∃ t j, (b % L.gridDimZ < L.gridDimZ ∧
        X / L.TILEDIM + (Y / L.TILEDIM) * L.numMm < L.gridDimX ∧
        (b % L.gridDimZ ≤ b ∧ (b - b % L.gridDimZ) % L.gridDimZ = 0) ∧
        t < L.blockSize ∧ (j < L.TILEDIM ∧ j % L.TILEROWS = 0) ∧
        L.bx (X / L.TILEDIM + (Y / L.TILEDIM) * L.numMm) + L.tx t = X ∧
        L.by (X / L.TILEDIM + (Y / L.TILEDIM) * L.numMm) + L.ty t + j = Y) ∧
      ∀ blockZ blockX t' j', blockZ < L.gridDimZ → blockZ ≤ b →
        (b - blockZ) % L.gridDimZ = 0 → t' < L.blockSize → j' < L.TILEDIM →
        j' % L.TILEROWS = 0 → L.bx blockX + L.tx t' = X → L.by blockX + L.ty t' + j' = Y →
        blockZ = b % L.gridDimZ ∧ blockX = X / L.TILEDIM + (Y / L.TILEDIM) * L.numMm ∧
          t' = t ∧ j' = j := by
  have hTD := h.tdpos
  obtain ⟨⟨hz1, hz2, hz3⟩, hzu⟩ := batch_split L.gridDimZ b h.gz
  obtain ⟨⟨hb1, hb2, hb3⟩, hbu⟩ := h.block_split X Y hX hY
  obtain ⟨⟨ht1, ht2, ht3, ht4⟩, htu⟩ := tile_split L.TILEDIM L.TILEROWS h.trpos
    (X % L.TILEDIM) (Y % L.TILEDIM) (Nat.mod_lt _ hTD) (Nat.mod_lt _ hTD)
  refine ⟨_, _, ⟨hz1, hb1, ⟨hz2, hz3⟩, ht1, ht2, ?_, ?_⟩, ?_⟩
  · unfold TiledLaunch.tx
    rw [ht3]
    exact hb2
  · unfold TiledLaunch.ty
    rw [Nat.add_assoc, ht4]
    exact hb3
  · intro blockZ blockX t' j' hz hzb hzm ht' hj' hjr' hx hy
    have hrow := h.step_row t' j' ht' hj' hjr'
    rw [Nat.add_assoc] at hy
    obtain ⟨e1, e2, e3⟩ := hbu blockX _ _ (h.tx_lt t') hrow hx hy
    obtain ⟨e4, e5⟩ := htu t' j' ht' hjr' e2 e3
    exact ⟨hzu blockZ hz hzb hzm, e1, e4, e5⟩

/-- C2 as amended (`transposeTiled`).  For a warp size that is a power of
two, `TILEDIM = warpSize ≤ 64`, `TILEROWS` dividing `TILEDIM`, blocks of
`TILEDIM` by `TILEROWS` threads, `sizeMbar ≤ warpSize`, `c, d ≥ 1`,
`numMm = ceil(tiledVol.x / TILEDIM)`,
`gridDim.x = numMm * ceil(tiledVol.y / TILEDIM)`, `gridDim.z ≥ 1` and pairwise
distinct output offsets: the kernel is defined, and
(1) after it, in whatever order its stores are applied,
`dataOut[outBar(b) + Y + X*cuDimMm] = dataIn[inBar(b) + X + Y*cuDimMk]` for
every `b < volMbar`, `X < tiledVol.x`, `Y < tiledVol.y`;
(2) exactly one load and exactly one store is about each such `(X, Y, b)`;
(3) the tile slot a store reads was written by a load of the same block in
the same batch iteration;
(4) every load and every store is about a position inside the volume and at
the offset of that position. -/
theorem transposeTiled_correct {α : Type} (L : TiledLaunch) (k : Nat)
    (garbage : Nat → Nat → TiledGarbage α) (dataIn dataOut : Nat → α)
    (h : L.Good k)
    (hcd : ∀ i, i < L.sizeMbar → 1 ≤ (L.glMbar i).c_in ∧ 1 ≤ (L.glMbar i).d_in ∧
      1 ≤ (L.glMbar i).c_out ∧ 1 ≤ (L.glMbar i).d_out)
    (hinj : ∀ b, b < L.volMbar → ∀ X, X < L.tiledVolX → ∀ Y, Y < L.tiledVolY →
      ∀ b', b' < L.volMbar → ∀ X', X' < L.tiledVolX → ∀ Y', Y' < L.tiledVolY →
      L.outBar b + Y + X * L.cuDimMm = L.outBar b' + Y' + X' * L.cuDimMm →
      b = b' ∧ X = X' ∧ Y = Y') :
    ∃ lds sts, transposeTiled L garbage dataIn = some (lds, sts) ∧
      (∀ sched, List.Perm sched (storesOf sts) →
        ∀ b, b < L.volMbar → ∀ X, X < L.tiledVolX → ∀ Y, Y < L.tiledVolY →
          applyWrites sched dataOut (L.outBar b + Y + X * L.cuDimMm)
            = dataIn (L.inBar b + X + Y * L.cuDimMk)) ∧
      (∀ b, b < L.volMbar → ∀ X, X < L.tiledVolX → ∀ Y, Y < L.tiledVolY →
        lds.countP (fun e => e.about b X Y) = 1 ∧
        sts.countP (fun e => e.about b X Y) = 1) ∧
      (∀ e, e ∈ sts → ∃ e', e' ∈ lds ∧ e'.blockX = e.blockX ∧ e'.blockZ = e.blockZ ∧
        e'.posMbar = e.posMbar ∧ e'.slot = e.slot) ∧
      (∀ e, e ∈ lds → e.posMbar < L.volMbar ∧ e.X < L.tiledVolX ∧ e.Y < L.tiledVolY ∧
        e.addr = L.inBar e.posMbar + e.X + e.Y * L.cuDimMk) ∧
      (∀ e, e ∈ sts → e.posMbar < L.volMbar ∧ e.X < L.tiledVolX ∧ e.Y < L.tiledVolY ∧
        e.addr = L.outBar e.posMbar + e.Y + e.X * L.cuDimMm) := by
  obtain ⟨⟨lds, sts⟩, hk, hlds, hsts⟩ := h.transposeTiled_events garbage dataIn
  obtain ⟨hpl, hps⟩ := h.transposeTiled_pairwise garbage dataIn _ hk
  simp only at hlds hsts hpl hps
  -- the offsets of the events
  have hladdr : ∀ bX bZ b t j,
      (L.loadEvent dataIn bX bZ b t j).addr
        = L.inBar b + (L.bx bX + L.tx t) + (L.by bX + L.ty t + j) * L.cuDimMk := by
    intro bX bZ b t j
    simp only [TiledLaunch.loadEvent]
    ring
  have hsaddr : ∀ (v : α) bX bZ b t j,
      (L.storeEvent v bX bZ b t j).addr
        = L.outBar b + (L.by bX + L.tx t) + (L.bx bX + L.ty t + j) * L.cuDimMm := by
    intro v bX bZ b t j
    simp only [TiledLaunch.storeEvent]
    ring
  refine ⟨lds, sts, hk, ?_, ?_, ?_, ?_, ?_⟩
  · -- (1) the final memory
    intro sched hperm b hb X hX Y hY
    obtain ⟨t0, j0, ⟨hz, hbx, hbz, ht0, hj0, hy0, hx0⟩, -⟩ := h.store_handler b X Y hX hY
    apply applyWrites_eq_of_forall
    · intro w hw ha
      rw [hperm.mem_iff] at hw
      obtain ⟨e, he, rfl⟩ := List.mem_map.mp hw
      obtain ⟨bZ, _, bX, _, b', ⟨hb', _, _⟩, t, _, j, _, ⟨hcy, hcx⟩, rfl⟩ := (hsts e).mp he
      simp only at ha
      rw [hsaddr] at ha
      obtain ⟨e1, e2, e3⟩ := hinj b' hb' _ hcx _ hcy b hb X hX Y hY ha
      simp only [TiledLaunch.storeEvent]
      rw [e1, e2, e3]
    · right
      refine ⟨_, hperm.mem_iff.mpr (List.mem_map.mpr ⟨_, (hsts _).mpr
        ⟨b % L.gridDimZ, hz, _, hbx, b, ⟨hb, hbz⟩, t0, ht0, j0, hj0,
          ⟨by rw [hy0]; exact hY, by rw [hx0]; exact hX⟩, rfl⟩, rfl⟩), ?_⟩
      simp only
      rw [hsaddr, hy0, hx0]
  · -- (2) exactly one load and one store for each position
    intro b hb X hX Y hY
    constructor
    · obtain ⟨t0, j0, ⟨hz, hbx, hbz, ht0, hj0, hx0, hy0⟩, huniq⟩ := h.load_handler b X Y hX hY
      apply countP_eq_one_of_pairwise TileAccess.handler _
        (X / L.TILEDIM + (Y / L.TILEDIM) * L.numMm, b % L.gridDimZ, b, t0, j0) lds hpl
      · intro e he hab
        obtain ⟨bZ, hbZ, bX, _, b', ⟨_, hzb, hzm⟩, t, ht, j, hj, _, rfl⟩ := (hlds e).mp he
        simp only [TileAccess.about, TiledLaunch.loadEvent, Bool.and_eq_true,
          beq_iff_eq] at hab
        obtain ⟨⟨rfl, hx⟩, hy⟩ := hab
        obtain ⟨e1, e2, e3, e4⟩ := huniq bZ bX t j hbZ hzb hzm ht hj.1 hj.2 hx hy
        simp only [TileAccess.handler, TiledLaunch.loadEvent, e1, e2, e3, e4]
      · refine ⟨_, (hlds _).mpr ⟨b % L.gridDimZ, hz, _, hbx, b, ⟨hb, hbz⟩, t0, ht0, j0, hj0,
          ⟨by rw [hx0]; exact hX, by rw [hy0]; exact hY⟩, rfl⟩, ?_⟩
        simp only [TileAccess.about, TiledLaunch.loadEvent, Bool.and_eq_true, beq_iff_eq]
        exact ⟨⟨trivial, hx0⟩, hy0⟩
    · obtain ⟨t0, j0, ⟨hz, hbx, hbz, ht0, hj0, hy0, hx0⟩, huniq⟩ := h.store_handler b X Y hX hY
      apply countP_eq_one_of_pairwise TileAccess.handler _
        (X / L.TILEDIM + (Y / L.TILEDIM) * L.numMm, b % L.gridDimZ, b, t0, j0) sts hps
      · intro e he hab
        obtain ⟨bZ, hbZ, bX, _, b', ⟨_, hzb, hzm⟩, t, ht, j, hj, _, rfl⟩ := (hsts e).mp he
        simp only [TileAccess.about, TiledLaunch.storeEvent, Bool.and_eq_true,
          beq_iff_eq] at hab
        obtain ⟨⟨rfl, hx⟩, hy⟩ := hab
        obtain ⟨e1, e2, e3, e4⟩ := huniq bZ bX t j hbZ hzb hzm ht hj.1 hj.2 hy hx
        simp only [TileAccess.handler, TiledLaunch.storeEvent, e1, e2, e3, e4]
      · refine ⟨_, (hsts _).mpr ⟨b % L.gridDimZ, hz, _, hbx, b, ⟨hb, hbz⟩, t0, ht0, j0, hj0,
          ⟨by rw [hy0]; exact hY, by rw [hx0]; exact hX⟩, rfl⟩, ?_⟩
        simp only [TileAccess.about, TiledLaunch.storeEvent, Bool.and_eq_true, beq_iff_eq]
        exact ⟨⟨trivial, hx0⟩, hy0⟩
  · -- (3) the slot read was written in the same iteration
    intro e he
    obtain ⟨bZ, hbZ, bX, hbX, b, ⟨hb, hzb, hzm⟩, t, ht, j, hj, ⟨hcy, hcx⟩, rfl⟩ := (hsts e).mp he
    obtain ⟨ts, js, -, hsu⟩ := h.store_handler b _ _ hcx hcy
    obtain ⟨e1, e2, -, -⟩ := hsu bZ bX t j hbZ hzb hzm ht hj.1 hj.2 rfl rfl
    obtain ⟨t', j', ⟨hz, hbx, hbz, ht', hj', hx', hy'⟩, -⟩ := h.load_handler b _ _ hcx hcy
    rw [← e1] at hz hbz
    rw [← e2] at hbx hx' hy'
    refine ⟨L.loadEvent dataIn bX bZ b t' j', (hlds _).mpr ⟨bZ, hz, bX, hbx, b, ⟨hb, hbz⟩,
      t', ht', j', hj', ⟨by rw [hx']; exact hcx, by rw [hy']; exact hcy⟩, rfl⟩,
      rfl, rfl, rfl, ?_⟩
    simp only [TiledLaunch.loadEvent, TiledLaunch.storeEvent]
    have e3 : L.tx t' = L.ty t + j := by omega
    have e4 : L.ty t' + j' = L.tx t := by omega
    rw [e3, e4]
  · -- (4) loads
    intro e he
    obtain ⟨bZ, _, bX, _, b, ⟨hb, _, _⟩, t, _, j, _, ⟨hcx, hcy⟩, rfl⟩ := (hlds e).mp he
    exact ⟨hb, hcx, hcy, hladdr bX bZ b t j⟩
  · -- (4) stores
    intro e he
    obtain ⟨bZ, _, bX, _, b, ⟨hb, _, _⟩, t, _, j, _, ⟨hcy, hcx⟩, rfl⟩ := (hsts e).mp he
    exact ⟨hb, hcx, hcy, hsaddr _ bX bZ b t j⟩

/-- Counterexample to C2 as stated: one batch of a 2 x 2 volume whose output
row stride `cuDimMm` is 1, handled by one block of 2 x 2 threads on a warp of
two lanes.  Every assumption of the claim holds, but the claimed equations
for `(X, Y) = (0, 1)` and `(1, 0)` are about the same element `dataOut[1]` and
ask for `dataIn[2] = 2` and `dataIn[1] = 1`; after the kernel it holds 1, not
the 2 claimed for `(0, 1)`. -/
theorem transposeTiled_counterexample :
    (exTiledFlat.TILEDIM = exTiledFlat.warpSize ∧ exTiledFlat.warpSize ≤ 64 ∧
      exTiledFlat.TILEROWS ∣ exTiledFlat.TILEDIM ∧
      exTiledFlat.blockSize = exTiledFlat.TILEDIM * exTiledFlat.TILEROWS ∧
      exTiledFlat.numMm
        = (exTiledFlat.tiledVolX + exTiledFlat.TILEDIM - 1) / exTiledFlat.TILEDIM ∧
      exTiledFlat.gridDimX = exTiledFlat.numMm *
        ((exTiledFlat.tiledVolY + exTiledFlat.TILEDIM - 1) / exTiledFlat.TILEDIM) ∧
      1 ≤ exTiledFlat.gridDimZ) ∧
    (0 < exTiledFlat.volMbar ∧ 0 < exTiledFlat.tiledVolX ∧ 1 < exTiledFlat.tiledVolY) ∧
    exTiledFlat.outBar 0 + 1 + 0 * exTiledFlat.cuDimMm = 1 ∧
    exIn (exTiledFlat.inBar 0 + 0 + 1 * exTiledFlat.cuDimMk) = 2 ∧
    exTiledFlat.outBar 0 + 0 + 1 * exTiledFlat.cuDimMm = 1 ∧
    exIn (exTiledFlat.inBar 0 + 1 + 0 * exTiledFlat.cuDimMk) = 1 ∧
    (transposeTiled exTiledFlat exTiledGarbage exIn).map
      (fun r => applyWrites (storesOf r.2) exOut 1) = some 1 := by
  decide

set_option synthInstance.maxSize 2000 in
/-- Witness for C2: three batches of a 3 x 2 volume in tiles of 2 x 2, on a
grid of 2 x 1 x 2 blocks of 2 x 1 threads.  The output is
`0 3 1 4 2 5 6 9 7 10 8 11 12 15 13 16 14 17`. -/
theorem transposeTiled_correct_witness :
    (transposeTiled exTiled exTiledGarbage exIn).map
        (fun r => (List.range 19).map (applyWrites (storesOf r.2) exOut))
      = some [0, 3, 1, 4, 2, 5, 6, 9, 7, 10, 8, 11, 12, 15, 13, 16, 14, 17, 0] ∧
    ∃ lds sts, transposeTiled exTiled exTiledGarbage exIn = some (lds, sts) ∧
      (∀ sched, List.Perm sched (storesOf sts) →
        ∀ b, b < exTiled.volMbar → ∀ X, X < exTiled.tiledVolX → ∀ Y, Y < exTiled.tiledVolY →
          applyWrites sched exOut (exTiled.outBar b + Y + X * exTiled.cuDimMm)
            = exIn (exTiled.inBar b + X + Y * exTiled.cuDimMk)) ∧
      (∀ b, b < exTiled.volMbar → ∀ X, X < exTiled.tiledVolX → ∀ Y, Y < exTiled.tiledVolY →
        lds.countP (fun e => e.about b X Y) = 1 ∧
        sts.countP (fun e => e.about b X Y) = 1) ∧
      (∀ e, e ∈ sts → ∃ e', e' ∈ lds ∧ e'.blockX = e.blockX ∧ e'.blockZ = e.blockZ ∧
        e'.posMbar = e.posMbar ∧ e'.slot = e.slot) ∧
      (∀ e, e ∈ lds → e.posMbar < exTiled.volMbar ∧ e.X < exTiled.tiledVolX ∧
        e.Y < exTiled.tiledVolY ∧
        e.addr = exTiled.inBar e.posMbar + e.X + e.Y * exTiled.cuDimMk) ∧
      (∀ e, e ∈ sts → e.posMbar < exTiled.volMbar ∧ e.X < exTiled.tiledVolX ∧
        e.Y < exTiled.tiledVolY ∧
        e.addr = exTiled.outBar e.posMbar + e.Y + e.X * exTiled.cuDimMm) :=
  ⟨by decide,
    transposeTiled_correct exTiled 1 exTiledGarbage exIn exOut
      ⟨by decide, by decide, by decide, by decide, by decide, by decide, by decide, by decide⟩
      (by decide) (by decide)⟩

/-- One batch iteration of one thread of `transposeTiledCopy`: its loads are
those of the positions `(x, y + j)` inside the volume, and its stores carry
what it loaded from the same position. -/
theorem TiledLaunch.Good.copyThread_spec {α : Type} {L : TiledLaunch} {k : Nat}
    (h : L.Good k) (g : TiledGarbage α) (dataIn : Nat → α) (steps : List Nat)
    (hsteps : strideLoop L.TILEROWS L.TILEDIM L.TILEDIM 0 = some steps)
    (blockX blockZ posMbar t : Nat) (ht : t < L.blockSize) :
    ∃ r, L.copyThread g dataIn steps blockX blockZ posMbar t = some r ∧
      (∀ e, e ∈ r.1 ↔ ∃ j, (j < L.TILEDIM ∧ j % L.TILEROWS = 0) ∧
        (L.bx blockX + L.tx t < L.tiledVolX ∧ L.by blockX + L.ty t + j < L.tiledVolY) ∧
        e = L.copyLoadEvent dataIn blockX blockZ posMbar t j) ∧
      (∀ e, e ∈ r.2 ↔ ∃ j, (j < L.TILEDIM ∧ j % L.TILEROWS = 0) ∧
        (L.bx blockX + L.tx t < L.tiledVolX ∧ L.by blockX + L.ty t + j < L.tiledVolY) ∧
        e = L.copyStoreEvent (dataIn (L.inBar posMbar
          + (L.bx blockX + L.tx t + (L.by blockX + L.ty t) * L.cuDimMk) + j * L.cuDimMk))
          blockX blockZ posMbar t j) := by
  have hTR := h.trpos
  -- the loads
  obtain ⟨ld, hld, hldmem⟩ := tileLoop_spec (L.maskIny blockX t) (L.TILEROWS * L.cuDimMk)
    (L.mkCopyLoad dataIn blockX blockZ posMbar t)
    L.TILEROWS L.TILEDIM h.trpos L.TILEDIM 0 steps
    (L.inBar posMbar + (L.bx blockX + L.tx t + (L.by blockX + L.ty t) * L.cuDimMk)) hsteps
  have hldmem' : ∀ e, e ∈ ld ↔ ∃ j, (j < L.TILEDIM ∧ j % L.TILEROWS = 0) ∧
      (L.bx blockX + L.tx t < L.tiledVolX ∧ L.by blockX + L.ty t + j < L.tiledVolY) ∧
      e = L.copyLoadEvent dataIn blockX blockZ posMbar t j := by
    intro e
    rw [hldmem]
    constructor
    · rintro ⟨j, hj, hb, rfl⟩
      have hj' := (h.steps_mem steps hsteps j).mp hj
      rw [h.maskIny_bit blockX t j ht hj'.1, decide_eq_true_eq] at hb
      refine ⟨j, hj', hb, ?_⟩
      simp only [TiledLaunch.copyLoadEvent, TiledLaunch.mkCopyLoad, step_offset _ _ _ hj'.2]
    · rintro ⟨j, hj, hb, rfl⟩
      refine ⟨j, (h.steps_mem steps hsteps j).mpr hj, ?_, ?_⟩
      · rw [h.maskIny_bit blockX t j ht hj.1, decide_eq_true_eq]
        exact hb
      · simp only [TiledLaunch.copyLoadEvent, TiledLaunch.mkCopyLoad, step_offset _ _ _ hj.2]
  -- the private array after the loads
  have hval : ∀ j, (j < L.TILEDIM ∧ j % L.TILEROWS = 0) →
      (L.bx blockX + L.tx t < L.tiledVolX ∧ L.by blockX + L.ty t + j < L.tiledVolY) →
      applyWrites (ld.map fun e => (e.slot, e.val)) (g.priv t) (j / L.TILEROWS)
        = dataIn (L.inBar posMbar
          + (L.bx blockX + L.tx t + (L.by blockX + L.ty t) * L.cuDimMk) + j * L.cuDimMk) := by
    intro j hj hc
    apply applyWrites_eq_of_forall
    · intro w hw hslot
      obtain ⟨e, he, rfl⟩ := List.mem_map.mp hw
      obtain ⟨j', hj', _, rfl⟩ := (hldmem' e).mp he
      simp only [TiledLaunch.copyLoadEvent] at hslot ⊢
      have e1 := Nat.div_add_mod j L.TILEROWS
      have e2 := Nat.div_add_mod j' L.TILEROWS
      rw [hslot, hj'.2] at e2
      rw [hj.2] at e1
      have : j' = j := by omega
      rw [this]
    · right
      exact ⟨_, List.mem_map.mpr ⟨_, (hldmem' _).mpr ⟨j, hj, hc, rfl⟩, rfl⟩, rfl⟩
  -- the stores
  obtain ⟨st, hst, hstmem⟩ := tileLoop_spec (L.maskIny blockX t) (L.TILEROWS * L.cuDimMm)
    (L.mkCopyStore (applyWrites (ld.map fun e => (e.slot, e.val)) (g.priv t))
      blockX blockZ posMbar t)
    L.TILEROWS L.TILEDIM h.trpos L.TILEDIM 0 steps
    (L.outBar posMbar + (L.bx blockX + L.tx t + (L.by blockX + L.ty t) * L.cuDimMm)) hsteps
  refine ⟨(ld, st), ?_, hldmem', ?_⟩
  · unfold TiledLaunch.copyThread TiledLaunch.posIn TiledLaunch.copyPosOut
    rw [h.posMajorIn_eq g.mbar posMbar t ht, h.posMajorOut_eq g.mbar posMbar t ht]
    simp only [Option.map_some', hld, hst]
  · intro e
    simp only
    rw [hstmem]
    constructor
    · rintro ⟨j, hj, hb, rfl⟩
      have hj' := (h.steps_mem steps hsteps j).mp hj
      rw [h.maskIny_bit blockX t j ht hj'.1, decide_eq_true_eq] at hb
      refine ⟨j, hj', hb, ?_⟩
      simp only [TiledLaunch.copyStoreEvent, TiledLaunch.mkCopyStore,
        step_offset _ _ _ hj'.2, hval j hj' hb]
    · rintro ⟨j, hj, hb, rfl⟩
      refine ⟨j, (h.steps_mem steps hsteps j).mpr hj, ?_, ?_⟩
      · rw [h.maskIny_bit blockX t j ht hj.1, decide_eq_true_eq]
        exact hb
      · simp only [TiledLaunch.copyStoreEvent, TiledLaunch.mkCopyStore,
          step_offset _ _ _ hj.2, hval j hj hb]

/-- The loads, and the stores, of one batch iteration of one thread of
`transposeTiledCopy` have pairwise distinct handlers. -/
theorem TiledLaunch.copyThread_pairwise {α : Type} (L : TiledLaunch) (g : TiledGarbage α)
    (dataIn : Nat → α) (steps : List Nat) (hs : steps.Pairwise (· < ·))
    (blockX blockZ posMbar t : Nat) (r : List (TileAccess α) × List (TileAccess α))
    (hr : L.copyThread g dataIn steps blockX blockZ posMbar t = some r) :
    (r.1.Pairwise (fun a b => a.handler ≠ b.handler) ∧
      ∀ e, e ∈ r.1 → e.tid = t ∧ e.blockX = blockX ∧ e.blockZ = blockZ ∧
        e.posMbar = posMbar) ∧
    (r.2.Pairwise (fun a b => a.handler ≠ b.handler) ∧
      ∀ e, e ∈ r.2 → e.tid = t ∧ e.blockX = blockX ∧ e.blockZ = blockZ ∧
        e.posMbar = posMbar) := by
  unfold TiledLaunch.copyThread at hr
  split at hr
  · exact absurd hr (by simp)
  · next ld hld =>
    split at hr
    · exact absurd hr (by simp)
    · next st hst =>
      simp only [Option.some.injEq] at hr
      subst hr
      obtain ⟨hp1, hm1⟩ := tileLoop_pairwise _ _ _
        (fun a b : TileAccess α => a.handler ≠ b.handler)
        (fun j j' p p' hlt heq => by
          simp only [TileAccess.handler, TiledLaunch.mkCopyLoad, Prod.mk.injEq] at heq
          omega)
        steps _ ld hs hld
      obtain ⟨hp2, hm2⟩ := tileLoop_pairwise _ _ _
        (fun a b : TileAccess α => a.handler ≠ b.handler)
        (fun j j' p p' hlt heq => by
          simp only [TileAccess.handler, TiledLaunch.mkCopyStore, Prod.mk.injEq] at heq
          omega)
        steps _ st hs hst
      refine ⟨⟨hp1, ?_⟩, ⟨hp2, ?_⟩⟩
      · intro e he
        obtain ⟨j, _, p, rfl⟩ := hm1 e he
        exact ⟨rfl, rfl, rfl, rfl⟩
      · intro e he
        obtain ⟨j, _, p, rfl⟩ := hm2 e he
        exact ⟨rfl, rfl, rfl, rfl⟩

/-- The accesses of the threads of a block, each thread's being pairwise
distinct and carrying its index, have pairwise distinct handlers. -/
theorem pieces_pairwise {α : Type} (n : Nat) (f : Nat → Option (List (TileAccess α)))
    (bX bZ b : Nat)
    (hf : ∀ t l, f t = some l → l.Pairwise (fun a b => a.handler ≠ b.handler) ∧
      ∀ e, e ∈ l → e.tid = t ∧ e.blockX = bX ∧ e.blockZ = bZ ∧ e.posMbar = b)
    (l : List (TileAccess α)) (h : optConcat ((List.range n).map f) = some l) :
    l.Pairwise (fun a b => a.handler ≠ b.handler) ∧
      ∀ e, e ∈ l → e.blockX = bX ∧ e.blockZ = bZ ∧ e.posMbar = b := by
  obtain ⟨hp, hm⟩ := optConcat_pairwise (fun a b : TileAccess α => a.handler ≠ b.handler)
    (fun t e => e.tid = t ∧ e.blockX = bX ∧ e.blockZ = bZ ∧ e.posMbar = b)
    f (List.range n)
    ((range_pairwise_ne n).imp fun hne y y' hS hS' heq => hne (by
      have h3 : y.tid = y'.tid := congrArg (fun x => x.2.2.2.1) heq
      rw [← hS.1, ← hS'.1, h3]))
    (fun t _ l' hl' => hf t l' hl')
    l h
  refine ⟨hp, ?_⟩
  intro e he
  obtain ⟨t, _, hS⟩ := hm e he
  exact hS.2

/-- The batch loop of one block of `transposeTiledCopy`. -/
theorem TiledLaunch.Good.copyRun_spec {α : Type} {L : TiledLaunch} {k : Nat} (h : L.Good k)
    (g : TiledGarbage α) (dataIn : Nat → α) (steps : List Nat)
    (hsteps : strideLoop L.TILEROWS L.TILEDIM L.TILEDIM 0 = some steps)
    (blockX blockZ : Nat) :
    ∀ (batches : List Nat),
      ∃ r, L.copyRun g dataIn steps blockX blockZ batches = some r ∧
        (∀ e, e ∈ r.1 ↔ ∃ b, b ∈ batches ∧ ∃ t, t < L.blockSize ∧
          ∃ j, (j < L.TILEDIM ∧ j % L.TILEROWS = 0) ∧
          (L.bx blockX + L.tx t < L.tiledVolX ∧ L.by blockX + L.ty t + j < L.tiledVolY) ∧
          e = L.copyLoadEvent dataIn blockX blockZ b t j) ∧
        (∀ e, e ∈ r.2 ↔ ∃ b, b ∈ batches ∧ ∃ t, t < L.blockSize ∧
          ∃ j, (j < L.TILEDIM ∧ j % L.TILEROWS = 0) ∧
          (L.bx blockX + L.tx t < L.tiledVolX ∧ L.by blockX + L.ty t + j < L.tiledVolY) ∧
          e = L.copyStoreEvent (dataIn (L.inBar b
            + (L.bx blockX + L.tx t + (L.by blockX + L.ty t) * L.cuDimMk) + j * L.cuDimMk))
            blockX blockZ b t j) := by
  intro batches
  induction batches with
  | nil => exact ⟨([], []), rfl, fun e => by simp, fun e => by simp⟩
  | cons b bs ih =>
    obtain ⟨ld, hld, hldmem⟩ := optConcat_mem (List.range L.blockSize)
      (fun t => (L.copyThread g dataIn steps blockX blockZ b t).map Prod.fst)
      (fun t ht => by
        obtain ⟨r, hr, -⟩ := h.copyThread_spec g dataIn steps hsteps blockX blockZ b t
          (List.mem_range.mp ht)
        exact ⟨r.1, by simp only [hr, Option.map_some']⟩)
    obtain ⟨st, hst, hstmem⟩ := optConcat_mem (List.range L.blockSize)
      (fun t => (L.copyThread g dataIn steps blockX blockZ b t).map Prod.snd)
      (fun t ht => by
        obtain ⟨r, hr, -⟩ := h.copyThread_spec g dataIn steps hsteps blockX blockZ b t
          (List.mem_range.mp ht)
        exact ⟨r.2, by simp only [hr, Option.map_some']⟩)
    obtain ⟨⟨lds, sts⟩, hrun, hlds, hsts⟩ := ih
    refine ⟨(ld ++ lds, st ++ sts), ?_, ?_, ?_⟩
    · simp only [TiledLaunch.copyRun, hld, hst, hrun]
    · intro e
      simp only [List.mem_append, hldmem, hlds, List.mem_cons, List.mem_range]
      constructor
      · rintro (⟨t, ht, l, hl, he⟩ | ⟨b', hb', hrest⟩)
        · obtain ⟨r, hr, h1, -⟩ := h.copyThread_spec g dataIn steps hsteps blockX blockZ b t ht
          rw [hr, Option.map_some', Option.some.injEq] at hl
          subst hl
          exact ⟨b, Or.inl rfl, t, ht, (h1 e).mp he⟩
        · exact ⟨b', Or.inr hb', hrest⟩
      · rintro ⟨b', hb' | hb', t, ht, hrest⟩
        · subst hb'
          left
          obtain ⟨r, hr, h1, -⟩ := h.copyThread_spec g dataIn steps hsteps blockX blockZ b' t ht
          exact ⟨t, ht, r.1, by simp only [hr, Option.map_some'], (h1 e).mpr hrest⟩
        · exact Or.inr ⟨b', hb', t, ht, hrest⟩
    · intro e
      simp only [List.mem_append, hstmem, hsts, List.mem_cons, List.mem_range]
      constructor
      · rintro (⟨t, ht, l, hl, he⟩ | ⟨b', hb', hrest⟩)
        · obtain ⟨r, hr, -, h2⟩ := h.copyThread_spec g dataIn steps hsteps blockX blockZ b t ht
          rw [hr, Option.map_some', Option.some.injEq] at hl
          subst hl
          exact ⟨b, Or.inl rfl, t, ht, (h2 e).mp he⟩
        · exact ⟨b', Or.inr hb', hrest⟩
      · rintro ⟨b', hb' | hb', t, ht, hrest⟩
        · subst hb'
          left
          obtain ⟨r, hr, -, h2⟩ := h.copyThread_spec g dataIn steps hsteps blockX blockZ b' t ht
          exact ⟨t, ht, r.2, by simp only [hr, Option.map_some'], (h2 e).mpr hrest⟩
        · exact Or.inr ⟨b', hb', t, ht, hrest⟩

/-- The loads, and the stores, of the batch loop of one block of
`transposeTiledCopy` have pairwise distinct handlers. -/
theorem TiledLaunch.copyRun_pairwise {α : Type} (L : TiledLaunch) (g : TiledGarbage α)
    (dataIn : Nat → α) (steps : List Nat) (hs : steps.Pairwise (· < ·))
    (blockX blockZ : Nat) :
    ∀ (batches : List Nat) (r : List (TileAccess α) × List (TileAccess α)),
      batches.Pairwise (· < ·) →
      L.copyRun g dataIn steps blockX blockZ batches = some r →
      (r.1.Pairwise (fun a b => a.handler ≠ b.handler) ∧
        ∀ e, e ∈ r.1 → e.blockX = blockX ∧ e.blockZ = blockZ ∧ e.posMbar ∈ batches) ∧
      (r.2.Pairwise (fun a b => a.handler ≠ b.handler) ∧
        ∀ e, e ∈ r.2 → e.blockX = blockX ∧ e.blockZ = blockZ ∧ e.posMbar ∈ batches) := by
  intro batches
  induction batches with
  | nil =>
    intro r _ h
    simp only [TiledLaunch.copyRun, Option.some.injEq] at h
    subst h
    exact ⟨⟨List.Pairwise.nil, fun e he => absurd he (List.not_mem_nil _)⟩,
      ⟨List.Pairwise.nil, fun e he => absurd he (List.not_mem_nil _)⟩⟩
  | cons b bs ih =>
    intro r hb h
    rw [List.pairwise_cons] at hb
    simp only [TiledLaunch.copyRun] at h
    split at h
    · exact absurd h (by simp)
    · next ld hld =>
      split at h
      · exact absurd h (by simp)
      · next st hst =>
        split at h
        · exact absurd h (by simp)
        · next lds sts hrun =>
          simp only [Option.some.injEq] at h
          subst h
          obtain ⟨⟨hp1, hm1⟩, ⟨hp2, hm2⟩⟩ := ih _ hb.2 hrun
          obtain ⟨hpl, hml⟩ := pieces_pairwise L.blockSize
            (fun t => (L.copyThread g dataIn steps blockX blockZ b t).map Prod.fst)
            blockX blockZ b
            (fun t l hl => by
              have hl' : (L.copyThread g dataIn steps blockX blockZ b t).map Prod.fst
                  = some l := hl
              cases hr : L.copyThread g dataIn steps blockX blockZ b t with
              | none => rw [hr] at hl'; exact absurd hl' (by simp)
              | some r =>
                rw [hr, Option.map_some', Option.some.injEq] at hl'
                subst hl'
                exact (L.copyThread_pairwise g dataIn steps hs blockX blockZ b t r hr).1)
            ld hld
          obtain ⟨hps, hms⟩ := pieces_pairwise L.blockSize
            (fun t => (L.copyThread g dataIn steps blockX blockZ b t).map Prod.snd)
            blockX blockZ b
            (fun t l hl => by
              have hl' : (L.copyThread g dataIn steps blockX blockZ b t).map Prod.snd
                  = some l := hl
              cases hr : L.copyThread g dataIn steps blockX blockZ b t with
              | none => rw [hr] at hl'; exact absurd hl' (by simp)
              | some r =>
                rw [hr, Option.map_some', Option.some.injEq] at hl'
                subst hl'
                exact (L.copyThread_pairwise g dataIn steps hs blockX blockZ b t r hr).2)
            st hst
          have hcross : ∀ (l l' : List (TileAccess α)),
              (∀ e, e ∈ l → e.blockX = blockX ∧ e.blockZ = blockZ ∧ e.posMbar = b) →
              (∀ e, e ∈ l' → e.blockX = blockX ∧ e.blockZ = blockZ ∧ e.posMbar ∈ bs) →
              ∀ a, a ∈ l → ∀ c, c ∈ l' → a.handler ≠ c.handler := by
            intro l l' hl hl' a ha c hc heq
            have h1 := (hl a ha).2.2
            have h2 := (hl' c hc).2.2
            have h3 : a.posMbar = c.posMbar := congrArg (fun x => x.2.2.1) heq
            rw [← h3, h1] at h2
            exact absurd (hb.1 b h2) (lt_irrefl _)
          have hmemb : ∀ (l l' : List (TileAccess α)),
              (∀ e, e ∈ l → e.blockX = blockX ∧ e.blockZ = blockZ ∧ e.posMbar = b) →
              (∀ e, e ∈ l' → e.blockX = blockX ∧ e.blockZ = blockZ ∧ e.posMbar ∈ bs) →
              ∀ e, e ∈ l ++ l' →
                e.blockX = blockX ∧ e.blockZ = blockZ ∧ e.posMbar ∈ b :: bs := by
            intro l l' hl hl' e he
            rcases List.mem_append.mp he with he | he
            · obtain ⟨h1, h2, h3⟩ := hl e he
              exact ⟨h1, h2, by rw [h3]; exact List.mem_cons_self _ _⟩
            · obtain ⟨h1, h2, h3⟩ := hl' e he
              exact ⟨h1, h2, List.mem_cons_of_mem _ h3⟩
          exact ⟨⟨List.pairwise_append.mpr ⟨hpl, hp1, hcross ld lds hml hm1⟩,
              hmemb ld lds hml hm1⟩,
            ⟨List.pairwise_append.mpr ⟨hps, hp2, hcross st sts hms hm2⟩,
              hmemb st sts hms hm2⟩⟩

/-- The loads and stores of `transposeTiledCopy`: the kernel is defined, its
loads and its stores are those of the positions `(x, y + j)` inside the
volume, and each store carries the input element of its position. -/
theorem TiledLaunch.Good.transposeTiledCopy_events {α : Type} {L : TiledLaunch} {k : Nat}
    (h : L.Good k) (garbage : Nat → Nat → TiledGarbage α) (dataIn : Nat → α) :
    ∃ r, transposeTiledCopy L garbage dataIn = some r ∧
      (∀ e, e ∈ r.1 ↔ ∃ blockZ, blockZ < L.gridDimZ ∧ ∃ blockX, blockX < L.gridDimX ∧
        ∃ b, (b < L.volMbar ∧ blockZ ≤ b ∧ (b - blockZ) % L.gridDimZ = 0) ∧
        ∃ t, t < L.blockSize ∧ ∃ j, (j < L.TILEDIM ∧ j % L.TILEROWS = 0) ∧
          (L.bx blockX + L.tx t < L.tiledVolX ∧ L.by blockX + L.ty t + j < L.tiledVolY) ∧
          e = L.copyLoadEvent dataIn blockX blockZ b t j) ∧
      (∀ e, e ∈ r.2 ↔ ∃ blockZ, blockZ < L.gridDimZ ∧ ∃ blockX, blockX < L.gridDimX ∧
        ∃ b, (b < L.volMbar ∧ blockZ ≤ b ∧ (b - blockZ) % L.gridDimZ = 0) ∧
        ∃ t, t < L.blockSize ∧ ∃ j, (j < L.TILEDIM ∧ j % L.TILEROWS = 0) ∧
          (L.bx blockX + L.tx t < L.tiledVolX ∧ L.by blockX + L.ty t + j < L.tiledVolY) ∧
          e = L.copyStoreEvent (dataIn (L.inBar b
            + (L.bx blockX + L.tx t + (L.by blockX + L.ty t) * L.cuDimMk) + j * L.cuDimMk))
            blockX blockZ b t j) :=
  h.grid_spec _
    (fun blockX blockZ b e => ∃ t, t < L.blockSize ∧
      ∃ j, (j < L.TILEDIM ∧ j % L.TILEROWS = 0) ∧
      (L.bx blockX + L.tx t < L.tiledVolX ∧ L.by blockX + L.ty t + j < L.tiledVolY) ∧
      e = L.copyLoadEvent dataIn blockX blockZ b t j)
    (fun blockX blockZ b e => ∃ t, t < L.blockSize ∧
      ∃ j, (j < L.TILEDIM ∧ j % L.TILEROWS = 0) ∧
      (L.bx blockX + L.tx t < L.tiledVolX ∧ L.by blockX + L.ty t + j < L.tiledVolY) ∧
      e = L.copyStoreEvent (dataIn (L.inBar b
        + (L.bx blockX + L.tx t + (L.by blockX + L.ty t) * L.cuDimMk) + j * L.cuDimMk))
        blockX blockZ b t j)
    (fun steps hsteps blockX blockZ batches =>
      h.copyRun_spec (garbage blockX blockZ) dataIn steps hsteps blockX blockZ batches)

/-- The loads, and the stores, of `transposeTiledCopy` have pairwise distinct
handlers. -/
theorem TiledLaunch.Good.transposeTiledCopy_pairwise {α : Type} {L : TiledLaunch} {k : Nat}
    (h : L.Good k) (garbage : Nat → Nat → TiledGarbage α) (dataIn : Nat → α)
    (r : List (TileAccess α) × List (TileAccess α))
    (hr : transposeTiledCopy L garbage dataIn = some r) :
    r.1.Pairwise (fun a b => a.handler ≠ b.handler) ∧
    r.2.Pairwise (fun a b => a.handler ≠ b.handler) :=
  h.grid_pairwise _
    (fun steps hs blockX blockZ batches hb r hrun => by
      obtain ⟨⟨h1, h2⟩, ⟨h3, h4⟩⟩ := L.copyRun_pairwise (garbage blockX blockZ) dataIn steps hs
        blockX blockZ batches r hb hrun
      exact ⟨⟨h1, fun e he => ⟨(h2 e he).1, (h2 e he).2.1⟩⟩,
        ⟨h3, fun e he => ⟨(h4 e he).1, (h4 e he).2.1⟩⟩⟩)
    r hr

/-- C4 as amended (`transposeTiledCopy`).  For a warp size that is a power
of two, `TILEDIM = warpSize ≤ 64`, `TILEROWS` dividing `TILEDIM`, blocks of
`TILEDIM` by `TILEROWS` threads, `sizeMbar ≤ warpSize`, `c, d ≥ 1`,
`numMm = ceil(tiledVol.x / TILEDIM)`,
`gridDim.x = numMm * ceil(tiledVol.y / TILEDIM)`, `gridDim.z ≥ 1` and pairwise
distinct output offsets: the kernel is defined, and
(1) after it, in whatever order its stores are applied,
`dataOut[outBar(b) + X + Y*cuDimMm] = dataIn[inBar(b) + X + Y*cuDimMk]` for
every `b < volMbar`, `X < tiledVol.x`, `Y < tiledVol.y`;
(2) exactly one load and exactly one store is about each such `(X, Y, b)`;
(3) every load and every store is about a position inside the volume and at
the offset of that position. -/
theorem transposeTiledCopy_correct {α : Type} (L : TiledLaunch) (k : Nat)
    (garbage : Nat → Nat → TiledGarbage α) (dataIn dataOut : Nat → α)
    (h : L.Good k)
    (hcd : ∀ i, i < L.sizeMbar → 1 ≤ (L.glMbar i).c_in ∧ 1 ≤ (L.glMbar i).d_in ∧
      1 ≤ (L.glMbar i).c_out ∧ 1 ≤ (L.glMbar i).d_out)
    (hinj : ∀ b, b < L.volMbar → ∀ X, X < L.tiledVolX → ∀ Y, Y < L.tiledVolY →
      ∀ b', b' < L.volMbar → ∀ X', X' < L.tiledVolX → ∀ Y', Y' < L.tiledVolY →
      L.outBar b + X + Y * L.cuDimMm = L.outBar b' + X' + Y' * L.cuDimMm →
      b = b' ∧ X = X' ∧ Y = Y') :
    ∃ lds sts, transposeTiledCopy L garbage dataIn = some (lds, sts) ∧
      (∀ sched, List.Perm sched (storesOf sts) →
        ∀ b, b < L.volMbar → ∀ X, X < L.tiledVolX → ∀ Y, Y < L.tiledVolY →
          applyWrites sched dataOut (L.outBar b + X + Y * L.cuDimMm)
            = dataIn (L.inBar b + X + Y * L.cuDimMk)) ∧
      (∀ b, b < L.volMbar → ∀ X, X < L.tiledVolX → ∀ Y, Y < L.tiledVolY →
        lds.countP (fun e => e.about b X Y) = 1 ∧
        sts.countP (fun e => e.about b X Y) = 1) ∧
      (∀ e, e ∈ lds → e.posMbar < L.volMbar ∧ e.X < L.tiledVolX ∧ e.Y < L.tiledVolY ∧
        e.addr = L.inBar e.posMbar + e.X + e.Y * L.cuDimMk) ∧
      (∀ e, e ∈ sts → e.posMbar < L.volMbar ∧ e.X < L.tiledVolX ∧ e.Y < L.tiledVolY ∧
        e.addr = L.outBar e.posMbar + e.X + e.Y * L.cuDimMm) := by
  obtain ⟨⟨lds, sts⟩, hk, hlds, hsts⟩ := h.transposeTiledCopy_events garbage dataIn
  obtain ⟨hpl, hps⟩ := h.transposeTiledCopy_pairwise garbage dataIn _ hk
  simp only at hlds hsts hpl hps
  have hoff : ∀ (o c bX t j : Nat),
      o + (L.bx bX + L.tx t + (L.by bX + L.ty t) * c) + j * c
        = o + (L.bx bX + L.tx t) + (L.by bX + L.ty t + j) * c := by
    intro o c bX t j
    ring
  refine ⟨lds, sts, hk, ?_, ?_, ?_, ?_⟩
  · -- (1) the final memory
    intro sched hperm b hb X hX Y hY
    obtain ⟨t0, j0, ⟨hz, hbx, hbz, ht0, hj0, hx0, hy0⟩, -⟩ := h.load_handler b X Y hX hY
    apply applyWrites_eq_of_forall
    · intro w hw ha
      rw [hperm.mem_iff] at hw
      obtain ⟨e, he, rfl⟩ := List.mem_map.mp hw
      obtain ⟨bZ, _, bX, _, b', ⟨hb', _, _⟩, t, _, j, _, ⟨hcx, hcy⟩, rfl⟩ := (hsts e).mp he
      simp only [TiledLaunch.copyStoreEvent] at ha ⊢
      rw [hoff] at ha
      obtain ⟨e1, e2, e3⟩ := hinj b' hb' _ hcx _ hcy b hb X hX Y hY ha
      rw [hoff, e1, e2, e3]
    · right
      refine ⟨_, hperm.mem_iff.mpr (List.mem_map.mpr ⟨_, (hsts _).mpr
        ⟨b % L.gridDimZ, hz, _, hbx, b, ⟨hb, hbz⟩, t0, ht0, j0, hj0,
          ⟨by rw [hx0]; exact hX, by rw [hy0]; exact hY⟩, rfl⟩, rfl⟩), ?_⟩
      simp only [TiledLaunch.copyStoreEvent]
      rw [hoff, hx0, hy0]
  · -- (2) exactly one load and one store for each position
    intro b hb X hX Y hY
    obtain ⟨t0, j0, ⟨hz, hbx, hbz, ht0, hj0, hx0, hy0⟩, huniq⟩ := h.load_handler b X Y hX hY
    constructor
    · apply countP_eq_one_of_pairwise TileAccess.handler _
        (X / L.TILEDIM + (Y / L.TILEDIM) * L.numMm, b % L.gridDimZ, b, t0, j0) lds hpl
      · intro e he hab
        obtain ⟨bZ, hbZ, bX, _, b', ⟨_, hzb, hzm⟩, t, ht, j, hj, _, rfl⟩ := (hlds e).mp he
        simp only [TileAccess.about, TiledLaunch.copyLoadEvent, Bool.and_eq_true,
          beq_iff_eq] at hab
        obtain ⟨⟨rfl, hx⟩, hy⟩ := hab
        obtain ⟨e1, e2, e3, e4⟩ := huniq bZ bX t j hbZ hzb hzm ht hj.1 hj.2 hx hy
        simp only [TileAccess.handler, TiledLaunch.copyLoadEvent, e1, e2, e3, e4]
      · refine ⟨_, (hlds _).mpr ⟨b % L.gridDimZ, hz, _, hbx, b, ⟨hb, hbz⟩, t0, ht0, j0, hj0,
          ⟨by rw [hx0]; exact hX, by rw [hy0]; exact hY⟩, rfl⟩, ?_⟩
        simp only [TileAccess.about, TiledLaunch.copyLoadEvent, Bool.and_eq_true, beq_iff_eq]
        exact ⟨⟨trivial, hx0⟩, hy0⟩
    · apply countP_eq_one_of_pairwise TileAccess.handler _
        (X / L.TILEDIM + (Y / L.TILEDIM) * L.numMm, b % L.gridDimZ, b, t0, j0) sts hps
      · intro e he hab
        obtain ⟨bZ, hbZ, bX, _, b', ⟨_, hzb, hzm⟩, t, ht, j, hj, _, rfl⟩ := (hsts e).mp he
        simp only [TileAccess.about, TiledLaunch.copyStoreEvent, Bool.and_eq_true,
          beq_iff_eq] at hab
        obtain ⟨⟨rfl, hx⟩, hy⟩ := hab
        obtain ⟨e1, e2, e3, e4⟩ := huniq bZ bX t j hbZ hzb hzm ht hj.1 hj.2 hx hy
        simp only [TileAccess.handler, TiledLaunch.copyStoreEvent, e1, e2, e3, e4]
      · refine ⟨_, (hsts _).mpr ⟨b % L.gridDimZ, hz, _, hbx, b, ⟨hb, hbz⟩, t0, ht0, j0, hj0,
          ⟨by rw [hx0]; exact hX, by rw [hy0]; exact hY⟩, rfl⟩, ?_⟩
        simp only [TileAccess.about, TiledLaunch.copyStoreEvent, Bool.and_eq_true, beq_iff_eq]
        exact ⟨⟨trivial, hx0⟩, hy0⟩
  · -- (3) loads
    intro e he
    obtain ⟨bZ, _, bX, _, b, ⟨hb, _, _⟩, t, _, j, _, ⟨hcx, hcy⟩, rfl⟩ := (hlds e).mp he
    exact ⟨hb, hcx, hcy, hoff _ _ bX t j⟩
  · -- (3) stores
    intro e he
    obtain ⟨bZ, _, bX, _, b, ⟨hb, _, _⟩, t, _, j, _, ⟨hcx, hcy⟩, rfl⟩ := (hsts e).mp he
    exact ⟨hb, hcx, hcy, hoff _ _ bX t j⟩

/-- Counterexample to C4 as stated: one batch of a 2 x 2 volume whose output
row stride `cuDimMm` is 1, handled by one block of 2 x 2 threads on a warp of
two lanes.  Every assumption of the claim holds, but the claimed equations
for `(X, Y) = (1, 0)` and `(0, 1)` are about the same element `dataOut[1]` and
ask for `dataIn[1] = 1` and `dataIn[2] = 2`, and that element is stored to
twice; after the kernel it holds 2, not the 1 claimed for `(1, 0)`. -/
theorem transposeTiledCopy_counterexample :
    (exTiledFlat.TILEDIM = exTiledFlat.warpSize ∧ exTiledFlat.warpSize ≤ 64 ∧
      exTiledFlat.TILEROWS ∣ exTiledFlat.TILEDIM ∧
      exTiledFlat.blockSize = exTiledFlat.TILEDIM * exTiledFlat.TILEROWS ∧
      exTiledFlat.numMm
        = (exTiledFlat.tiledVolX + exTiledFlat.TILEDIM - 1) / exTiledFlat.TILEDIM ∧
      exTiledFlat.gridDimX = exTiledFlat.numMm *
        ((exTiledFlat.tiledVolY + exTiledFlat.TILEDIM - 1) / exTiledFlat.TILEDIM) ∧
      1 ≤ exTiledFlat.gridDimZ) ∧
    (0 < exTiledFlat.volMbar ∧ 1 < exTiledFlat.tiledVolX ∧ 1 < exTiledFlat.tiledVolY) ∧
    exTiledFlat.outBar 0 + 1 + 0 * exTiledFlat.cuDimMm = 1 ∧
    exIn (exTiledFlat.inBar 0 + 1 + 0 * exTiledFlat.cuDimMk) = 1 ∧
    exTiledFlat.outBar 0 + 0 + 1 * exTiledFlat.cuDimMm = 1 ∧
    exIn (exTiledFlat.inBar 0 + 0 + 1 * exTiledFlat.cuDimMk) = 2 ∧
    (transposeTiledCopy exTiledFlat exTiledGarbage exIn).map
      (fun r => (applyWrites (storesOf r.2) exOut 1,
        (storesOf r.2).countP (fun w => w.1 == 1))) = some (2, 2) := by
  decide

set_option synthInstance.maxSize 2000 in
/-- Witness for C4: two batches of a 3 x 2 volume copied from rows 3 apart to
rows 4 apart in tiles of 2 x 2, on a grid of 2 x 1 x 1 blocks of 2 x 1
threads.  The output is `0 1 2 _ 3 4 5 _ 6 7 8 _ 9 10 11 _`, the elements
shown as `_` being left as they were. -/
theorem transposeTiledCopy_correct_witness :
    (transposeTiledCopy exTiledCopy exTiledGarbage exIn).map
        (fun r => (List.range 17).map (applyWrites (storesOf r.2) exOut))
      = some [0, 1, 2, 0, 3, 4, 5, 0, 6, 7, 8, 0, 9, 10, 11, 0, 0] ∧
    ∃ lds sts, transposeTiledCopy exTiledCopy exTiledGarbage exIn = some (lds, sts) ∧
      (∀ sched, List.Perm sched (storesOf sts) →
        ∀ b, b < exTiledCopy.volMbar → ∀ X, X < exTiledCopy.tiledVolX →
        ∀ Y, Y < exTiledCopy.tiledVolY →
          applyWrites sched exOut (exTiledCopy.outBar b + X + Y * exTiledCopy.cuDimMm)
            = exIn (exTiledCopy.inBar b + X + Y * exTiledCopy.cuDimMk)) ∧
      (∀ b, b < exTiledCopy.volMbar → ∀ X, X < exTiledCopy.tiledVolX →
        ∀ Y, Y < exTiledCopy.tiledVolY →
        lds.countP (fun e => e.about b X Y) = 1 ∧
        sts.countP (fun e => e.about b X Y) = 1) ∧
      (∀ e, e ∈ lds → e.posMbar < exTiledCopy.volMbar ∧ e.X < exTiledCopy.tiledVolX ∧
        e.Y < exTiledCopy.tiledVolY ∧
        e.addr = exTiledCopy.inBar e.posMbar + e.X + e.Y * exTiledCopy.cuDimMk) ∧
      (∀ e, e ∈ sts → e.posMbar < exTiledCopy.volMbar ∧ e.X < exTiledCopy.tiledVolX ∧
        e.Y < exTiledCopy.tiledVolY ∧
        e.addr = exTiledCopy.outBar e.posMbar + e.X + e.Y * exTiledCopy.cuDimMm) :=
  ⟨by decide,
    transposeTiledCopy_correct exTiledCopy 1 exTiledGarbage exIn exOut
      ⟨by decide, by decide, by decide, by decide, by decide, by decide, by decide, by decide⟩
      (by decide) (by decide)⟩

/-- Truncating and floor division agree on whether the quotient reaches a
positive bound. -/
theorem tdiv_ge_iff_fdiv_ge (c : Int) (hc : 0 < c) :
    ∀ a b : Int, c ≤ Int.tdiv a b ↔ c ≤ Int.fdiv a b
  | Int.ofNat m, Int.ofNat n => by
    have e : Int.fdiv (Int.ofNat m) (Int.ofNat n) = Int.tdiv (Int.ofNat m) (Int.ofNat n) :=
      Int.fdiv_eq_tdiv (Int.ofNat_nonneg m) (Int.ofNat_nonneg n)
    rw [e]
  | Int.ofNat 0, Int.negSucc n => by
    simp [Int.tdiv, Int.fdiv]
  | Int.ofNat (m + 1), Int.negSucc n => by
    have h1 : Int.tdiv (Int.ofNat (m + 1)) (Int.negSucc n) ≤ 0 := by
      simp only [Int.tdiv]
      exact Int.neg_nonpos_of_nonneg (Int.ofNat_nonneg _)
    have h2 : Int.fdiv (Int.ofNat (m + 1)) (Int.negSucc n) < 0 := by
      simp only [Int.fdiv]
      exact Int.negSucc_lt_zero _
    constructor <;> intro h <;> omega
  | Int.negSucc m, Int.ofNat 0 => by
    have h1 : Int.tdiv (Int.negSucc m) (Int.ofNat 0) = 0 := Int.tdiv_zero _
    have h2 : Int.fdiv (Int.negSucc m) (Int.ofNat 0) = 0 := Int.fdiv_zero _
    rw [h1, h2]
  | Int.negSucc m, Int.ofNat (n + 1) => by
    have h1 : Int.tdiv (Int.negSucc m) (Int.ofNat (n + 1)) ≤ 0 := by
      simp only [Int.tdiv]
      exact Int.neg_nonpos_of_nonneg (Int.ofNat_nonneg _)
    have h2 : Int.fdiv (Int.negSucc m) (Int.ofNat (n + 1)) < 0 := by
      simp only [Int.fdiv]
      exact Int.negSucc_lt_zero _
    constructor <;> intro h <;> omega
  | Int.negSucc m, Int.negSucc n => by
    simp only [Int.tdiv, Int.fdiv]

/-- The traced `getNumActiveBlock` returns what `getNumActiveBlock` returns. -/
theorem getNumActiveBlockTraced_result (E : Externals) (method : Method) (sizeofType : Int)
    (lc : LaunchConfig) (deviceID : Int) (prop : DeviceProp) (st : HostState) :
    (getNumActiveBlockTraced E method sizeofType lc deviceID prop st).2
      = getNumActiveBlock E method sizeofType lc deviceID prop st := by
  cases method <;> simp only [getNumActiveBlockTraced, getNumActiveBlock]
  split
  · rfl
  · split <;> rfl

/-- The number of occupancy queries in the trace is the increase of the
query counter of the host state. -/
theorem getNumActiveBlockTraced_queries (E : Externals) (method : Method) (sizeofType : Int)
    (lc : LaunchConfig) (deviceID : Int) (prop : DeviceProp) (st : HostState)
    (v : Int) (st' : HostState)
    (h : getNumActiveBlock E method sizeofType lc deviceID prop st = some (v, st')) :
    st'.queries = st.queries
      + ((getNumActiveBlockTraced E method sizeofType lc deviceID prop st).1.filter
          fun e => match e with
            | HostEvent.occupancyQuery _ _ _ _ _ => true
            | _ => false).length := by
  cases method <;> simp only [getNumActiveBlockTraced, getNumActiveBlock] at h ⊢
  · simp only [Option.some.injEq, Prod.mk.injEq] at h
    rw [← h.2]; rfl
  · simp only [Option.some.injEq] at h
    simp only [occupancySwitch, occupancySwitchEvents] at h ⊢
    split at h <;> rename_i hc <;> simp only [Prod.mk.injEq] at h <;> rw [← h.2]
    · simp [hc]
    · simp [hc]
  · split at h
    · exact absurd h (by simp)
    · rename_i hk
      simp only [hk, if_false]
      split at h <;> rename_i hm
      · simp only [Option.some.injEq, Prod.mk.injEq] at h
        rw [← h.2]
        simp only [hm, if_true, occupancySwitch, occupancySwitchEvents, withDevicesEvents]
        by_cases hc : lc.numRegStorage ∈ E.calls ∧ (sizeofType = 2 ∨ sizeofType = 4 ∨ sizeofType = 8)
        · simp only [hc, and_self, if_true]
          by_cases hd : st.numDevices = -1 <;> simp [hd, withDevices]
        · simp only [hc, if_false]
          by_cases hd : st.numDevices = -1 <;> simp [hd, withDevices]
      · simp only [Option.some.injEq, Prod.mk.injEq] at h
        rw [← h.2]
        simp only [hm, if_false, withDevicesEvents]
        by_cases hd : st.numDevices = -1 <;> simp [hd, withDevices]
  · simp only [Option.some.injEq] at h
    simp only [occupancyTiled, occupancyTiledEvents] at h ⊢
    split at h <;> rename_i hc <;> simp only [Prod.mk.injEq] at h <;> rw [← h.2]
    · simp [hc]
    · simp [hc]
  · simp only [Option.some.injEq] at h
    simp only [occupancyTiled, occupancyTiledEvents] at h ⊢
    split at h <;> rename_i hc <;> simp only [Prod.mk.injEq] at h <;> rw [← h.2]
    · simp [hc]
    · simp [hc]

/-- C11 (cache-key overflow is fatal).  `getNumActiveBlock` for PackedSplit
terminates the process exactly when
`key_warp = floor(numthread / prop.warpSize) - 1 ≥ MAX_NUMWARP = 16`, with
`numthread = lc.numthread.x * lc.numthread.y * lc.numthread.z` (the code's
truncating quotient reaches the bound exactly when the floor does); when it
terminates it has performed no cache lookup, no cache insertion and no
occupancy query; and for every other method it returns. -/
theorem cache_key_overflow_fatal (E : Externals) (sizeofType : Int) (lc : LaunchConfig)
    (deviceID : Int) (prop : DeviceProp) (st : HostState) :
    MAX_NUMWARP = 16 ∧
    (getNumActiveBlock E Method.PackedSplit sizeofType lc deviceID prop st = none ↔
      Int.fdiv (lc.numthread.x * lc.numthread.y * lc.numthread.z) prop.warpSize - 1
        ≥ MAX_NUMWARP) ∧
    (getNumActiveBlock E Method.PackedSplit sizeofType lc deviceID prop st = none ↔
      Int.tdiv (lc.numthread.x * lc.numthread.y * lc.numthread.z) prop.warpSize - 1
        ≥ MAX_NUMWARP) ∧
    ((getNumActiveBlockTraced E Method.PackedSplit sizeofType lc deviceID prop st).2 = none →
      ∀ e, e ∈ (getNumActiveBlockTraced E Method.PackedSplit sizeofType lc deviceID
        prop st).1 → e.touchesCache = false) ∧
    (∀ method, method ≠ Method.PackedSplit →
      ∃ r, getNumActiveBlock E method sizeofType lc deviceID prop st = some r) := by
  have h16 : MAX_NUMWARP = 16 := by decide
  have htd : getNumActiveBlock E Method.PackedSplit sizeofType lc deviceID prop st = none ↔
      Int.tdiv (lc.numthread.x * lc.numthread.y * lc.numthread.z) prop.warpSize - 1
        ≥ MAX_NUMWARP := by
    simp only [getNumActiveBlock]
    constructor
    · intro h
      split at h
      · assumption
      · split at h <;> exact absurd h (by simp)
    · intro h
      rw [if_pos h]
  refine ⟨h16, ?_, htd, ?_, ?_⟩
  · rw [htd, h16]
    have := tdiv_ge_iff_fdiv_ge 17 (by norm_num)
      (lc.numthread.x * lc.numthread.y * lc.numthread.z) prop.warpSize
    constructor <;> intro h <;> omega
  · intro hnone e he
    rw [getNumActiveBlockTraced_result, htd] at hnone
    simp only [getNumActiveBlockTraced, hnone, if_true, withDevicesEvents] at he
    split at he
    · rw [List.mem_singleton] at he
      rw [he]
      rfl
    · exact absurd he (List.not_mem_nil _)
  · intro method hm
    cases method <;> simp only [getNumActiveBlock] <;> first | exact ⟨_, rfl⟩ | exact absurd rfl hm

/-- Examples for C11 on a 64-wide device: 1088 threads (17 warps) terminate
the process after the device-count query only; 1024 threads (16 warps) do
not, and with an empty cache the call looks the key up, issues one occupancy
query and inserts its answer. -/
theorem cache_key_overflow_fatal_witness :
    (getNumActiveBlockTraced exE Method.PackedSplit 4 (exLcThreads 1088) 0 exProp
        HostState.init).1 = [HostEvent.deviceCount] ∧
    ((getNumActiveBlockTraced exE Method.PackedSplit 4 (exLcThreads 1088) 0 exProp
        HostState.init).2.map Prod.fst) = none ∧
    (getNumActiveBlockTraced exE Method.PackedSplit 4 (exLcThreads 1024) 0 exProp
        HostState.init).1.map HostEvent.touchesCache = [false, true, true, true] ∧
    ((getNumActiveBlockTraced exE Method.PackedSplit 4 (exLcThreads 1024) 0 exProp
        HostState.init).2.map Prod.fst) = some 2 := by
  decide

/-- C12 (failure exactly for an unimplemented register multiplicity).
`cuttKernel` returns false exactly when the method is Packed or PackedSplit
and `lc.numRegStorage` is not among the case values generated from `calls.h`;
it then submits nothing, so that `dataOut` is as it was whatever the
operations do; for every other plan, of any method and any element size, it
returns true. -/
theorem cuttKernel_failure_iff (E : Externals) (plan : Plan) :
    ((cuttKernel E plan).1 = false ↔
      (plan.tensorSplit.method = Method.Packed ∨ plan.tensorSplit.method = Method.PackedSplit) ∧
        plan.launchConfig.numRegStorage ∉ E.calls) ∧
    ((cuttKernel E plan).1 = false →
      (cuttKernel E plan).2 = [] ∧
      ∀ (α : Type) (effect : DeviceOp → (Nat → α) → (Nat → α)) (dataOut : Nat → α),
        deviceOut effect (cuttKernel E plan).2 dataOut = dataOut) ∧
    (¬ ((plan.tensorSplit.method = Method.Packed ∨
          plan.tensorSplit.method = Method.PackedSplit) ∧
        plan.launchConfig.numRegStorage ∉ E.calls) →
      (cuttKernel E plan).1 = true) := by
  have hiff : (cuttKernel E plan).1 = false ↔
      (plan.tensorSplit.method = Method.Packed ∨ plan.tensorSplit.method = Method.PackedSplit) ∧
        plan.launchConfig.numRegStorage ∉ E.calls := by
    cases hm : plan.tensorSplit.method <;> simp only [cuttKernel, hm] <;>
      by_cases hc : plan.launchConfig.numRegStorage ∈ E.calls <;> simp [hc]
  have hops : (cuttKernel E plan).1 = false → (cuttKernel E plan).2 = [] := by
    cases hm : plan.tensorSplit.method <;> simp only [cuttKernel, hm] <;>
      by_cases hc : plan.launchConfig.numRegStorage ∈ E.calls <;> simp [hc]
  refine ⟨hiff, ?_, ?_⟩
  · intro h
    refine ⟨hops h, ?_⟩
    intro α effect dataOut
    rw [hops h]
    rfl
  · intro h
    cases hb : (cuttKernel E plan).1
    · exact absurd (hiff.mp hb) h
    · rfl

/-- Examples for C12 with case values 1..8: a Packed plan with register
multiplicity 9 is refused and submits nothing; with multiplicity 8 it is
launched; with multiplicity 8 and an element size of 3 nothing is launched
and the call still returns true. -/
theorem cuttKernel_failure_iff_witness :
    cuttKernel exE (exPlan Method.Packed 4 9) = (false, []) ∧
    cuttKernel exE (exPlan Method.Packed 4 8)
      = (true, [DeviceOp.launch Method.Packed 4 8 ⟨2, 10, 1⟩ ⟨128, 1, 1⟩ 1024 [256, 10, 2, 1]]) ∧
    cuttKernel exE (exPlan Method.Packed 3 8) = (true, []) ∧
    cuttKernel exE (exPlan Method.Trivial 4 0) = (true, [DeviceOp.memcpy 10240]) := by
  decide

/-- C13 (unsupported element width is skipped silently).  For a Tiled or
TiledCopy plan whose element size is not 2, 4 or 8, `cuttKernel` submits no
launch, so that `dataOut` is as it was whatever the operations do, and
returns true. -/
theorem tiled_unsupported_width_skipped (E : Externals) (plan : Plan)
    (hm : plan.tensorSplit.method = Method.Tiled ∨ plan.tensorSplit.method = Method.TiledCopy)
    (hs : plan.sizeofType ≠ 2 ∧ plan.sizeofType ≠ 4 ∧ plan.sizeofType ≠ 8) :
    cuttKernel E plan = (true, []) ∧
    ∀ (α : Type) (effect : DeviceOp → (Nat → α) → (Nat → α)) (dataOut : Nat → α),
      deviceOut effect (cuttKernel E plan).2 dataOut = dataOut := by
  have h : cuttKernel E plan = (true, []) := by
    rcases hm with hm | hm <;> simp [cuttKernel, launchTyped, hm, hs.1, hs.2.1, hs.2.2]
  refine ⟨h, ?_⟩
  intro α effect dataOut
  rw [h]
  rfl

/-- Witness for C13: a Tiled plan with elements of 16 bytes and a TiledCopy
plan with elements of 1 byte submit nothing and return true, while the Tiled
plan with elements of 4 bytes is launched. -/
theorem tiled_unsupported_width_skipped_witness :
    (cuttKernel exE (exPlan Method.Tiled 16 0) = (true, []) ∧
      ∀ (effect : DeviceOp → (Nat → Nat) → (Nat → Nat)),
        deviceOut effect (cuttKernel exE (exPlan Method.Tiled 16 0)).2 exOut = exOut) ∧
    cuttKernel exE (exPlan Method.TiledCopy 1 0) = (true, []) ∧
    cuttKernel exE (exPlan Method.Tiled 4 0)
      = (true, [DeviceOp.launch Method.Tiled 4 0 ⟨2, 10, 1⟩ ⟨128, 1, 1⟩ 0
          [1, 10, 1, 16, 16, 16, 16]]) :=
  ⟨⟨(tiled_unsupported_width_skipped exE (exPlan Method.Tiled 16 0) (Or.inl rfl)
        (by decide)).1,
      fun effect => (tiled_unsupported_width_skipped exE (exPlan Method.Tiled 16 0)
        (Or.inl rfl) (by decide)).2 Nat effect exOut⟩,
    by decide, by decide⟩

/-- Membership in the range of split index `s`, without divisions. -/
theorem split_range_iff (D G s x : Nat) (hG : 1 ≤ G) :
    (exactP0 D G s ≤ x ∧ x < exactP0 D G (s + 1)) ↔ (s * D < (x + 1) * G ∧ (x + 1) * G ≤ (s + 1) * D) := by
  unfold exactP0
  rw [← Nat.lt_succ_iff, Nat.div_lt_iff_lt_mul hG, Nat.lt_iff_add_one_le (m := x),
    Nat.le_div_iff_mul_le hG]

/-- The start positions of the splits do not decrease. -/
theorem exactP0_mono (D G s : Nat) : exactP0 D G s ≤ exactP0 D G (s + 1) :=
  Nat.div_le_div_right (Nat.mul_le_mul_right D (Nat.le_succ s))

/-- A range starts where the one before it ends. -/
theorem exactP0_add_exactVol (D G s : Nat) :
    exactP0 D G s + exactVol D G s = exactP0 D G (s + 1) := by
  have h := exactP0_mono D G s
  unfold exactVol
  unfold exactP0 at h ⊢
  omega

/-- The size of a range is `floor(D/G)` or one more. -/
theorem exactVol_bounds (D G s : Nat) (hG : 1 ≤ G) :
    D / G ≤ exactVol D G s ∧ exactVol D G s ≤ D / G + 1 := by
  have hmono := exactP0_mono D G s
  have hD := Nat.div_add_mod D G
  have hr := Nat.mod_lt D hG
  -- s*D = G*(s*(D/G)) + s*(D%G)
  have e1 : s * D = s * (D % G) + G * (s * (D / G)) := by
    conv_lhs => rw [← hD]
    ring
  have e2 : (s + 1) * D = (s * (D % G) + D % G) + G * (s * (D / G) + D / G) := by
    conv_lhs => rw [← hD]
    ring
  have q1 : s * D / G = s * (D % G) / G + s * (D / G) := by
    rw [e1, Nat.add_mul_div_left _ _ hG]
  have q2 : (s + 1) * D / G = (s * (D % G) + D % G) / G + (s * (D / G) + D / G) := by
    rw [e2, Nat.add_mul_div_left _ _ hG]
  have l1 : s * (D % G) / G ≤ (s * (D % G) + D % G) / G :=
    Nat.div_le_div_right (Nat.le_add_right _ _)
  have l2 : (s * (D % G) + D % G) / G ≤ s * (D % G) / G + 1 := by
    calc (s * (D % G) + D % G) / G ≤ (s * (D % G) + G) / G :=
          Nat.div_le_div_right (by omega)
      _ = s * (D % G) / G + 1 := Nat.add_div_right _ hG
  unfold exactVol exactP0
  rw [q2, q1]
  clear hmono e1 e2 q1 q2 hD hr
  generalize s * (D % G) / G = a at l1 l2 ⊢
  generalize (s * (D % G) + D % G) / G = b at l1 l2 ⊢
  generalize D / G = q
  generalize s * q = c
  omega

/-- The range of the last split ends at `splitDim`. -/
theorem exactP0_last (D G : Nat) (hG : 1 ≤ G) : exactP0 D G G = D := by
  unfold exactP0
  exact Nat.mul_div_cancel_left D hG

/-- The split partition on unbounded integers.  For every `splitDim`
and `gridDim.x = G ≥ 1`, with `p0(s) = floor(s*splitDim/G)` and
`volSplit(s) = floor((s+1)*splitDim/G) - p0(s)`: the first range starts at 0,
each range starts where the one before it ends, and the last ends at
`splitDim`; every position below `splitDim` lies in the range of exactly one
split index `s < G`, and no range reaches beyond `splitDim`; neither
subtraction of the code goes below zero; `volSplit(s)` is `floor(splitDim/G)`
or that plus one, so `plusone` is 0 or 1 and the table index
`warpLane + plusone*sizeMmk` of a lane `warpLane < sizeMmk` is below
`2*sizeMmk`. -/
theorem exact_partition (splitDim G : Nat) (hG : 1 ≤ G) :
    exactP0 splitDim G 0 = 0 ∧
    (∀ s, s < G → exactP0 splitDim G s + exactVol splitDim G s = exactP0 splitDim G (s + 1)) ∧
    exactP0 splitDim G (G - 1) + exactVol splitDim G (G - 1) = splitDim ∧
    (∀ x, x < splitDim → ∃ s, (s < G ∧ exactP0 splitDim G s ≤ x ∧
        x < exactP0 splitDim G s + exactVol splitDim G s) ∧
      ∀ s', s' < G → exactP0 splitDim G s' ≤ x →
        x < exactP0 splitDim G s' + exactVol splitDim G s' → s' = s) ∧
    (∀ s, s < G → ∀ x, x < exactP0 splitDim G s + exactVol splitDim G s → x < splitDim) ∧
    (∀ s, s < G → s * splitDim / G ≤ (s + 1) * splitDim / G ∧
      splitDim / G ≤ exactVol splitDim G s) ∧
    (∀ s, s < G → exactVol splitDim G s = splitDim / G ∨
      exactVol splitDim G s = splitDim / G + 1) ∧
    (∀ s, s < G → exactPlusOne splitDim G s = 0 ∨ exactPlusOne splitDim G s = 1) ∧
    (∀ s, s < G → ∀ sizeMmk warpLane, warpLane < sizeMmk →
      warpLane + exactPlusOne splitDim G s * sizeMmk < 2 * sizeMmk) := by
  have hplus : ∀ s, exactPlusOne splitDim G s = 0 ∨ exactPlusOne splitDim G s = 1 := by
    intro s
    have := exactVol_bounds splitDim G s hG
    unfold exactPlusOne
    generalize splitDim / G = q at this ⊢
    omega
  refine ⟨by simp [exactP0], fun s _ => exactP0_add_exactVol splitDim G s, ?_, ?_, ?_, ?_, ?_,
    fun s _ => hplus s, ?_⟩
  · rw [exactP0_add_exactVol, Nat.sub_add_cancel hG, exactP0_last splitDim G hG]
  · intro x hx
    have hD : 0 < splitDim := by omega
    have hN : 1 ≤ (x + 1) * G := Nat.mul_pos (Nat.succ_pos x) hG
    have hlow : ((x + 1) * G - 1) / splitDim * splitDim ≤ (x + 1) * G - 1 :=
      Nat.div_mul_le_self _ _
    have hhigh : (x + 1) * G - 1 < splitDim * (((x + 1) * G - 1) / splitDim + 1) :=
      Nat.lt_mul_div_succ _ hD
    have hmem : ((x + 1) * G - 1) / splitDim * splitDim < (x + 1) * G ∧
        (x + 1) * G ≤ (((x + 1) * G - 1) / splitDim + 1) * splitDim := by
      rw [Nat.mul_comm splitDim (((x + 1) * G - 1) / splitDim + 1)] at hhigh
      omega
    have hsG : ((x + 1) * G - 1) / splitDim < G := by
      have h1 : (x + 1) * G ≤ splitDim * G := Nat.mul_le_mul_right G hx
      have h2 : ((x + 1) * G - 1) / splitDim * splitDim < G * splitDim := by
        rw [Nat.mul_comm G splitDim]
        omega
      exact Nat.lt_of_mul_lt_mul_right h2
    refine ⟨((x + 1) * G - 1) / splitDim, ⟨hsG, ?_⟩, ?_⟩
    · rw [exactP0_add_exactVol]
      exact (split_range_iff splitDim G _ x hG).mpr hmem
    · intro s' _ h1 h2
      rw [exactP0_add_exactVol] at h2
      have hm' := (split_range_iff splitDim G s' x hG).mp ⟨h1, h2⟩
      rcases Nat.lt_trichotomy s' (((x + 1) * G - 1) / splitDim) with hlt | heq | hgt
      · have : (s' + 1) * splitDim ≤ ((x + 1) * G - 1) / splitDim * splitDim :=
          Nat.mul_le_mul_right _ hlt
        omega
      · exact heq
      · have : (((x + 1) * G - 1) / splitDim + 1) * splitDim ≤ s' * splitDim :=
          Nat.mul_le_mul_right _ hgt
        omega
  · intro s hs x hx
    rw [exactP0_add_exactVol] at hx
    have h1 : exactP0 splitDim G (s + 1) ≤ exactP0 splitDim G G := by
      unfold exactP0
      exact Nat.div_le_div_right (Nat.mul_le_mul_right _ hs)
    rw [exactP0_last splitDim G hG] at h1
    omega
  · intro s _
    exact ⟨exactP0_mono splitDim G s, (exactVol_bounds splitDim G s hG).1⟩
  · intro s _
    have := exactVol_bounds splitDim G s hG
    generalize splitDim / G = q at this ⊢
    omega
  · intro s _ sizeMmk warpLane hw
    rcases hplus s with h | h <;> rw [h] <;> omega

/-- The accesses of a loop run by every thread of a grid: with positive
steps every loop ends, a thread visits the indices below the bound that its
start reaches in whole steps, and no access is listed twice. -/
theorem gridLoopExact_spec (G B : Nat) (start step : Nat → Nat → Nat) (bound : Nat)
    (hstep : ∀ b, b < G → ∀ t, t < B → 1 ≤ step b t) :
    ∃ ev, gridLoopExact G B start step bound = some ev ∧
      (∀ e, e ∈ ev ↔ e.block < G ∧ e.thread < B ∧ e.index < bound ∧
        start e.block e.thread ≤ e.index ∧
        (e.index - start e.block e.thread) % step e.block e.thread = 0) ∧
      ev.Pairwise (· ≠ ·) := by
  -- one thread
  have hthr : ∀ b, b < G → ∀ t, t < B →
      ∃ l, (strideLoop (step b t) bound bound (start b t)).map
          (fun l => l.map fun i => CopyAccess.mk b t i) = some l ∧
        (∀ e, e ∈ l ↔ e.block = b ∧ e.thread = t ∧ e.index < bound ∧
          start b t ≤ e.index ∧ (e.index - start b t) % step b t = 0) ∧
        l.Pairwise (· ≠ ·) := by
    intro b hb t ht
    obtain ⟨l, hl, hmem⟩ := strideLoop_spec (step b t) bound (hstep b hb t ht) bound
      (start b t) (Nat.le_add_left _ _)
    have hsort := strideLoop_sorted (step b t) bound (hstep b hb t ht) _ _ _ hl
    refine ⟨l.map fun i => CopyAccess.mk b t i, by rw [hl]; rfl, ?_, ?_⟩
    · intro e
      rw [List.mem_map]
      constructor
      · rintro ⟨i, hi, rfl⟩
        exact ⟨rfl, rfl, (hmem i).mp hi⟩
      · rintro ⟨h1, h2, h3⟩
        refine ⟨e.index, (hmem _).mpr h3, ?_⟩
        cases e
        simp only at h1 h2
        rw [h1, h2]
    · rw [List.pairwise_map]
      exact hsort.imp fun hlt heq => by
        simp only [CopyAccess.mk.injEq, true_and] at heq
        omega
  -- one block
  have hblk : ∀ b, b < G →
      ∃ l, optConcat ((List.range B).map fun t =>
          (strideLoop (step b t) bound bound (start b t)).map
            (fun l => l.map fun i => CopyAccess.mk b t i)) = some l ∧
        (∀ e, e ∈ l ↔ e.block = b ∧ e.thread < B ∧ e.index < bound ∧
          start b e.thread ≤ e.index ∧ (e.index - start b e.thread) % step b e.thread = 0) ∧
        l.Pairwise (· ≠ ·) := by
    intro b hb
    obtain ⟨l, hl, hmem⟩ := optConcat_mem (List.range B)
      (fun t => (strideLoop (step b t) bound bound (start b t)).map
        (fun l => l.map fun i => CopyAccess.mk b t i))
      (fun t ht => (hthr b hb t (List.mem_range.mp ht)).imp fun l h => h.1)
    refine ⟨l, hl, ?_, ?_⟩
    · intro e
      rw [hmem]
      constructor
      · rintro ⟨t, ht, l', hl', he⟩
        obtain ⟨l2, hl2, hm2, -⟩ := hthr b hb t (List.mem_range.mp ht)
        have e2 : l' = l2 := Option.some.inj (hl'.symm.trans hl2)
        rw [e2, hm2] at he
        obtain ⟨h1, h2, h3⟩ := he
        rw [h2]
        exact ⟨h1, List.mem_range.mp ht, h3⟩
      · rintro ⟨h1, h2, h3⟩
        obtain ⟨l2, hl2, hm2, -⟩ := hthr b hb e.thread h2
        exact ⟨e.thread, List.mem_range.mpr h2, l2, hl2, (hm2 e).mpr ⟨h1, rfl, h3⟩⟩
    · refine (optConcat_pairwise (fun a c : CopyAccess => a ≠ c)
        (fun t e => e.thread = t) _ (List.range B)
        ((range_pairwise_ne B).imp fun hne y y' hS hS' heq => hne (by rw [← hS, ← hS', heq]))
        (fun t ht l' hl' => ?_) l hl).1
      obtain ⟨l2, hl2, hm2, hp2⟩ := hthr b hb t (List.mem_range.mp ht)
      have e2 : l' = l2 := Option.some.inj (hl'.symm.trans hl2)
      rw [e2]
      exact ⟨hp2, fun y hy => ((hm2 y).mp hy).2.1⟩
  -- the grid
  obtain ⟨ev, hev, hmem⟩ := optConcat_mem (List.range G)
    (fun b => optConcat ((List.range B).map fun t =>
      (strideLoop (step b t) bound bound (start b t)).map
        (fun l => l.map fun i => CopyAccess.mk b t i)))
    (fun b hb => (hblk b (List.mem_range.mp hb)).imp fun l h => h.1)
  refine ⟨ev, hev, ?_, ?_⟩
  · intro e
    rw [hmem]
    constructor
    · rintro ⟨b, hb, l', hl', he⟩
      obtain ⟨l2, hl2, hm2, -⟩ := hblk b (List.mem_range.mp hb)
      have e2 : l' = l2 := Option.some.inj (hl'.symm.trans hl2)
      rw [e2, hm2] at he
      obtain ⟨h1, h2⟩ := he
      rw [h1]
      exact ⟨List.mem_range.mp hb, h2⟩
    · rintro ⟨h1, h2⟩
      obtain ⟨l2, hl2, hm2, -⟩ := hblk e.block h1
      exact ⟨e.block, List.mem_range.mpr h1, l2, hl2, (hm2 e).mpr ⟨rfl, h2⟩⟩
  · refine (optConcat_pairwise (fun a c : CopyAccess => a ≠ c)
      (fun b e => e.block = b) _ (List.range G)
      ((range_pairwise_ne G).imp fun hne y y' hS hS' heq => hne (by rw [← hS, ← hS', heq]))
      (fun b hb l' hl' => ?_) ev hev).1
    obtain ⟨l2, hl2, hm2, hp2⟩ := hblk b (List.mem_range.mp hb)
    have e2 : l' = l2 := Option.some.inj (hl'.symm.trans hl2)
    rw [e2]
    exact ⟨hp2, fun y hy => ((hm2 y).mp hy).1⟩

/-- A start below the step, reaching `i` in whole steps, is `i % step`. -/
theorem stride_start_unique (S s i : Nat) (hs : s < S) (hle : s ≤ i) (hmod : (i - s) % S = 0) :
    s = i % S := by
  obtain ⟨q, hq⟩ := Nat.dvd_of_mod_eq_zero hmod
  have e : i = s + S * q := by omega
  rw [e, Nat.add_mul_mod_self_left, Nat.mod_eq_of_lt hs]

/-- The thread of a grid with linear index `idx`: it exists and is unique. -/
theorem thread_of_index (G B idx : Nat) (hB : 1 ≤ B) (hidx : idx < B * G) :
    (idx / B < G ∧ idx % B < B ∧ idx % B + idx / B * B = idx) ∧
    ∀ b t, t < B → t + b * B = idx → b = idx / B ∧ t = idx % B := by
  refine ⟨⟨Nat.div_lt_of_lt_mul hidx, Nat.mod_lt _ hB, Nat.mod_add_div' idx B⟩, ?_⟩
  intro b t ht h
  rw [← h]
  constructor
  · rw [Nat.add_mul_div_right _ _ hB, Nat.div_eq_of_lt ht, Nat.zero_add]
  · rw [Nat.add_mul_mod_self_right, Nat.mod_eq_of_lt ht]

/-- A linear thread index is below the number of threads of the grid. -/
theorem thread_index_lt (G B b t : Nat) (hb : b < G) (ht : t < B) : t + b * B < B * G := by
  calc t + b * B < B + b * B := by omega
    _ = (b + 1) * B := by ring
    _ ≤ G * B := Nat.mul_le_mul_right B hb
    _ = B * G := Nat.mul_comm _ _

/-- A list of distinct accesses whose indices lie in `[lo, hi)`, each index
of the range having exactly one access among them, has `hi - lo` accesses,
and each index of the range is counted once. -/
theorem access_count (ev : List CopyAccess) (lo hi : Nat) (hp : ev.Pairwise (· ≠ ·))
    (hin : ∀ e, e ∈ ev → lo ≤ e.index ∧ e.index < hi)
    (hone : ∀ i, lo ≤ i → i < hi →
      ∃ e0, e0 ∈ ev ∧ e0.index = i ∧ ∀ e, e ∈ ev → e.index = i → e = e0) :
    ev.length = hi - lo ∧ ∀ i, lo ≤ i → i < hi → ev.countP (fun e => e.index == i) = 1 := by
  constructor
  · have hnd : (ev.map fun e => e.index).Nodup := by
      rw [List.Nodup, List.pairwise_map]
      refine hp.imp_of_mem ?_
      intro a b ha hb hne heq
      obtain ⟨e0, -, -, hu⟩ := hone b.index (hin b hb).1 (hin b hb).2
      exact hne ((hu a ha heq).trans (hu b hb rfl).symm)
    have hperm : List.Perm (ev.map fun e => e.index) (List.range' lo (hi - lo)) := by
      rw [List.perm_ext_iff_of_nodup hnd (List.nodup_range' lo (hi - lo))]
      intro i
      rw [List.mem_map, List.mem_range'_1]
      constructor
      · rintro ⟨e, he, rfl⟩
        have := hin e he
        omega
      · rintro ⟨h1, h2⟩
        obtain ⟨e0, he0, hi0, -⟩ := hone i h1 (by omega)
        exact ⟨e0, he0, hi0⟩
    have := hperm.length_eq
    rw [List.length_map, List.length_range'] at this
    exact this
  · intro i h1 h2
    obtain ⟨e0, he0, hi0, hu⟩ := hone i h1 h2
    apply countP_eq_one_of_pairwise (fun e : CopyAccess => e) _ e0 ev hp
    · intro e he hpe
      exact hu e he (by simpa using hpe)
    · exact ⟨e0, he0, by simpa using hi0⟩

/-- The grid-stride loop from `threadIdx.x + blockIdx.x*blockDim.x` in steps
of `blockDim.x*gridDim.x`: every index below the bound is visited by exactly
one thread, once, and no other index is visited. -/
theorem gridStride_spec (G B bound : Nat) (hG : 1 ≤ G) (hB : 1 ≤ B) :
    ∃ ev, gridLoopExact G B (fun b t => t + b * B) (fun _ _ => B * G) bound = some ev ∧
      ev.Pairwise (· ≠ ·) ∧
      (∀ e, e ∈ ev → e.block < G ∧ e.thread < B ∧ e.index < bound) ∧
      (∀ i, i < bound →
        ∃ e0, e0 ∈ ev ∧ e0.index = i ∧ ∀ e, e ∈ ev → e.index = i → e = e0) := by
  have hS : 1 ≤ B * G := Nat.mul_pos hB hG
  obtain ⟨ev, hev, hmem, hp⟩ := gridLoopExact_spec G B (fun b t => t + b * B) (fun _ _ => B * G)
    bound (fun _ _ _ _ => hS)
  refine ⟨ev, hev, hp, fun e he => ?_, ?_⟩
  · have := (hmem e).mp he
    exact ⟨this.1, this.2.1, this.2.2.1⟩
  · intro i hi
    have hlt : i % (B * G) < B * G := Nat.mod_lt _ hS
    obtain ⟨⟨h1, h2, h3⟩, hu⟩ := thread_of_index G B (i % (B * G)) hB hlt
    refine ⟨⟨i % (B * G) / B, i % (B * G) % B, i⟩, ?_, rfl, ?_⟩
    · rw [hmem]
      refine ⟨h1, h2, hi, ?_, ?_⟩
      · show i % (B * G) % B + i % (B * G) / B * B ≤ i
        rw [h3]
        exact Nat.mod_le _ _
      · show (i - (i % (B * G) % B + i % (B * G) / B * B)) % (B * G) = 0
        rw [h3]
        have := Nat.mod_add_div i (B * G)
        have e : i - i % (B * G) = B * G * (i / (B * G)) := by omega
        rw [e, Nat.mul_mod_right]
    · intro e he hei
      obtain ⟨hb, ht, -, hle, hmod⟩ := (hmem e).mp he
      rw [hei] at hle hmod
      have hs := stride_start_unique (B * G) _ i (thread_index_lt G B _ _ hb ht) hle hmod
      obtain ⟨e1, e2⟩ := hu e.block e.thread ht hs
      cases e
      simp only at e1 e2 hei
      rw [e1, e2, hei]

/-- The grids of the copies have at least one block. -/
theorem scalarCopyNumblock_pos (n : Nat) : 1 ≤ (scalarCopyNumblock (n : Int)).toNat := by
  unfold scalarCopyNumblock numthread
  have h : 0 ≤ Int.tdiv ((n : Int) - 1) 64 := by
    rcases Nat.eq_zero_or_pos n with h0 | h0
    · subst h0
      decide
    · exact Int.tdiv_nonneg (by omega) (by norm_num)
  omega

/-- The final content of an array after stores that carry the input
element of their offset: an offset stored to holds the input element, any
other is as it was, in whatever order the stores are applied. -/
theorem applyWrites_copy {α : Type} (dataIn dataOut : Nat → α) (stores sched : List (Nat × α))
    (hperm : List.Perm sched stores) (hval : ∀ w, w ∈ stores → w.2 = dataIn w.1) (i : Nat) :
    ((∃ w, w ∈ stores ∧ w.1 = i) → applyWrites sched dataOut i = dataIn i) ∧
    ((∀ w, w ∈ stores → w.1 ≠ i) → applyWrites sched dataOut i = dataOut i) := by
  constructor
  · rintro ⟨w, hw, hwi⟩
    apply applyWrites_eq_of_forall
    · intro w' hw' hi'
      rw [hval w' (hperm.mem_iff.mp hw'), hi']
    · exact Or.inr ⟨w, hperm.mem_iff.mpr hw, hwi⟩
  · intro h
    exact applyWrites_of_not_mem sched i dataOut fun w hw => h w (hperm.mem_iff.mp hw)

/-- The copy of `scalarCopy` on unbounded integers.  For every
`n ≥ 0`, on the grid of `numblock = (n - 1)/64 + 1` blocks of 64 threads that
`scalarCopy` computes: the kernel ends, after it `data_out[i] = data_in[i]`
for every `i < n` in whatever order its stores are applied, every `i < n` is
accessed exactly once (by one thread in one iteration), and no index at or
beyond `n` is accessed, so that the rest of `data_out` is as it was. -/
theorem scalarCopyExact_correct {α : Type} (n : Nat) (dataIn dataOut : Nat → α) :
    ∃ ev, scalarCopyExact (n : Int) = some ev ∧
      (∀ sched, List.Perm sched (copyStores dataIn ev) →
        (∀ i, i < n → applyWrites sched dataOut i = dataIn i) ∧
        (∀ i, n ≤ i → applyWrites sched dataOut i = dataOut i)) ∧
      (∀ i, i < n → ev.countP (fun e => e.index == i) = 1) ∧
      ev.length = n ∧
      (∀ e, e ∈ ev → e.index < n ∧ (e.block : Int) < scalarCopyNumblock n ∧ e.thread < 64) := by
  have hG := scalarCopyNumblock_pos n
  obtain ⟨ev, hev, hp, hin, hone⟩ :=
    gridStride_spec (scalarCopyNumblock (n : Int)).toNat 64 n hG (by norm_num)
  obtain ⟨hlen, hcount⟩ := access_count ev 0 n hp
    (fun e he => ⟨Nat.zero_le _, (hin e he).2.2⟩) (fun i _ hi => hone i hi)
  refine ⟨ev, ?_, ?_, fun i hi => hcount i (Nat.zero_le _) hi, by simpa using hlen, ?_⟩
  · unfold scalarCopyExact scalarCopyKernelExact
    simpa [numthread] using hev
  · intro sched hperm
    have hval : ∀ w, w ∈ copyStores dataIn ev → w.2 = dataIn w.1 := by
      intro w hw
      obtain ⟨e, -, rfl⟩ := List.mem_map.mp hw
      rfl
    constructor
    · intro i hi
      obtain ⟨e0, he0, hi0, -⟩ := hone i hi
      exact (applyWrites_copy dataIn dataOut _ sched hperm hval i).1
        ⟨_, List.mem_map.mpr ⟨e0, he0, rfl⟩, hi0⟩
    · intro i hi
      apply (applyWrites_copy dataIn dataOut _ sched hperm hval i).2
      intro w hw
      obtain ⟨e, he, rfl⟩ := List.mem_map.mp hw
      have := (hin e he).2.2
      simp only
      omega
  · intro e he
    obtain ⟨h1, h2, h3⟩ := hin e he
    refine ⟨h3, ?_, h2⟩
    omega

/-- The tail loop of `vectorCopyKernel`, from
`idx + (n/vectorLength)*vectorLength` in steps of
`blockDim.x*gridDim.x + threadIdx.x`: when the grid has at least
`vectorLength` threads, every index from `(n/vectorLength)*vectorLength` up to
`n` is visited by exactly one thread, once, and no other index is visited. -/
theorem tailLoop_spec (G B VL n : Nat) (hB : 1 ≤ B) (hVL1 : 1 ≤ VL) (hVL : VL ≤ B * G) :
    ∃ ev, gridLoopExact G B (fun b t => t + b * B + (n / VL) * VL) (fun _ t => B * G + t) n
        = some ev ∧
      ev.Pairwise (· ≠ ·) ∧
      (∀ e, e ∈ ev → e.block < G ∧ e.thread < B ∧ (n / VL) * VL ≤ e.index ∧ e.index < n) ∧
      (∀ i, (n / VL) * VL ≤ i → i < n →
        ∃ e0, e0 ∈ ev ∧ e0.index = i ∧ ∀ e, e ∈ ev → e.index = i → e = e0) := by
  have hS : 1 ≤ B * G := by omega
  have hrem : n - (n / VL) * VL < VL := by
    have h1 := Nat.div_add_mod' n VL
    have h2 := Nat.mod_lt n hVL1
    omega
  obtain ⟨ev, hev, hmem, hp⟩ := gridLoopExact_spec G B (fun b t => t + b * B + (n / VL) * VL)
    (fun _ t => B * G + t) n (fun _ _ t _ => Nat.le_trans hS (Nat.le_add_right _ t))
  refine ⟨ev, hev, hp, fun e he => ?_, ?_⟩
  · obtain ⟨h1, h2, h3, h4, -⟩ := (hmem e).mp he
    have h4' : e.thread + e.block * B + (n / VL) * VL ≤ e.index := h4
    exact ⟨h1, h2, by omega, h3⟩
  · intro i hlo hi
    have hidx : i - (n / VL) * VL < B * G := by omega
    obtain ⟨⟨h1, h2, h3⟩, hu⟩ := thread_of_index G B (i - (n / VL) * VL) hB hidx
    refine ⟨⟨(i - (n / VL) * VL) / B, (i - (n / VL) * VL) % B, i⟩, ?_, rfl, ?_⟩
    · rw [hmem]
      refine ⟨h1, h2, hi, ?_, ?_⟩
      · show (i - (n / VL) * VL) % B + (i - (n / VL) * VL) / B * B + (n / VL) * VL ≤ i
        rw [h3]
        omega
      · show (i - ((i - (n / VL) * VL) % B + (i - (n / VL) * VL) / B * B + (n / VL) * VL))
            % (B * G + (i - (n / VL) * VL) % B) = 0
        rw [h3]
        have e : i - (i - (n / VL) * VL + (n / VL) * VL) = 0 := by omega
        rw [e, Nat.zero_mod]
    · intro e he hei
      obtain ⟨hb, ht, -, hle, hmod⟩ := (hmem e).mp he
      have hle' : e.thread + e.block * B + (n / VL) * VL ≤ e.index := hle
      have hmod' : (e.index - (e.thread + e.block * B + (n / VL) * VL))
          % (B * G + e.thread) = 0 := hmod
      rw [hei] at hle' hmod'
      have hsmall : i - (e.thread + e.block * B + (n / VL) * VL) < B * G + e.thread := by omega
      rw [Nat.mod_eq_of_lt hsmall] at hmod'
      have hs : e.thread + e.block * B = i - (n / VL) * VL := by omega
      obtain ⟨e1, e2⟩ := hu e.block e.thread ht hs
      cases e
      simp only at e1 e2 hei
      rw [e1, e2, hei]

/-- The grid of `vectorCopy` has at least one block. -/
theorem vectorCopyNumblock_pos (sizeofT n : Nat) :
    1 ≤ (vectorCopyNumblock sizeofT (n : Int)).toNat := by
  unfold vectorCopyNumblock numthread
  have h0 : (0 : Int) ≤ Int.tdiv (n : Int) (vectorLength sizeofT) :=
    Int.tdiv_nonneg (Int.ofNat_nonneg _) (Int.ofNat_nonneg _)
  have h : 0 ≤ Int.tdiv (Int.tdiv (n : Int) (vectorLength sizeofT) - 1) 64 := by
    rcases Int.lt_or_le 0 (Int.tdiv (n : Int) (vectorLength sizeofT)) with h1 | h1
    · exact Int.tdiv_nonneg (by omega) (by norm_num)
    · have e : Int.tdiv (n : Int) (vectorLength sizeofT) = 0 := by omega
      rw [e]
      decide
  omega

/-- The vector loop and the tail loop of `vectorCopyKernel` on a grid of at
least `vectorLength` threads. -/
theorem vectorCopyKernelExact_spec (G B VL n : Nat) (hG : 1 ≤ G) (hB : 1 ≤ B) (hVL1 : 1 ≤ VL)
    (hVL : VL ≤ B * G) :
    ∃ vec tail, vectorCopyKernelExact G B VL n = some (vec, tail) ∧
      (vec.Pairwise (· ≠ ·) ∧
        (∀ e, e ∈ vec → e.block < G ∧ e.thread < B ∧ e.index < n / VL) ∧
        (∀ g, g < n / VL →
          ∃ e0, e0 ∈ vec ∧ e0.index = g ∧ ∀ e, e ∈ vec → e.index = g → e = e0)) ∧
      (tail.Pairwise (· ≠ ·) ∧
        (∀ e, e ∈ tail → e.block < G ∧ e.thread < B ∧ (n / VL) * VL ≤ e.index ∧ e.index < n) ∧
        (∀ i, (n / VL) * VL ≤ i → i < n →
          ∃ e0, e0 ∈ tail ∧ e0.index = i ∧ ∀ e, e ∈ tail → e.index = i → e = e0)) := by
  obtain ⟨vec, hvec, h1⟩ := gridStride_spec G B (n / VL) hG hB
  obtain ⟨tail, htail, h2⟩ := tailLoop_spec G B VL n hB hVL1 hVL
  refine ⟨vec, tail, ?_, h1, h2⟩
  unfold vectorCopyKernelExact
  rw [hvec, Option.some_bind, htail, Option.map_some']

/-- The stores of `vectorCopyKernel`: each carries the input element of its
offset, each goes to an offset below `n`, and every offset below `n` is
stored to. -/
theorem vectorCopy_stores {α : Type} (VL n : Nat) (hVL1 : 1 ≤ VL) (dataIn : Nat → α)
    (vec tail : List CopyAccess)
    (hvin : ∀ e, e ∈ vec → e.index < n / VL)
    (hvone : ∀ g, g < n / VL → ∃ e0, e0 ∈ vec ∧ e0.index = g)
    (htin : ∀ e, e ∈ tail → (n / VL) * VL ≤ e.index ∧ e.index < n)
    (htone : ∀ i, (n / VL) * VL ≤ i → i < n → ∃ e0, e0 ∈ tail ∧ e0.index = i) :
    (∀ w, w ∈ vectorStores VL dataIn vec ++ copyStores dataIn tail →
      w.2 = dataIn w.1 ∧ w.1 < n) ∧
    (∀ i, i < n → ∃ w, w ∈ vectorStores VL dataIn vec ++ copyStores dataIn tail ∧ w.1 = i) := by
  have hbase : (n / VL) * VL ≤ n := Nat.div_mul_le_self n VL
  constructor
  · intro w hw
    rcases List.mem_append.mp hw with hw | hw
    · simp only [vectorStores, List.mem_flatMap, List.mem_map, List.mem_range] at hw
      obtain ⟨e, he, j, hj, rfl⟩ := hw
      refine ⟨rfl, ?_⟩
      have h1 := hvin e he
      have h2 : VL * (e.index + 1) ≤ VL * (n / VL) := Nat.mul_le_mul_left VL h1
      have h3 : VL * (n / VL) = (n / VL) * VL := Nat.mul_comm _ _
      have h4 : VL * (e.index + 1) = VL * e.index + VL := by ring
      show VL * e.index + j < n
      omega
    · obtain ⟨e, he, rfl⟩ := List.mem_map.mp hw
      exact ⟨rfl, (htin e he).2⟩
  · intro i hi
    by_cases hlo : i < (n / VL) * VL
    · have hg : i / VL < n / VL := Nat.div_lt_of_lt_mul (by rw [Nat.mul_comm]; exact hlo)
      obtain ⟨e0, he0, hi0⟩ := hvone (i / VL) hg
      refine ⟨(VL * e0.index + i % VL, dataIn (VL * e0.index + i % VL)), ?_, ?_⟩
      · apply List.mem_append_left
        simp only [vectorStores, List.mem_flatMap, List.mem_map, List.mem_range]
        exact ⟨e0, he0, i % VL, Nat.mod_lt _ hVL1, rfl⟩
      · show VL * e0.index + i % VL = i
        rw [hi0]
        exact Nat.div_add_mod i VL
    · obtain ⟨e0, he0, hi0⟩ := htone i (by omega) hi
      exact ⟨(e0.index, dataIn e0.index), List.mem_append_right _
        (List.mem_map.mpr ⟨e0, he0, rfl⟩), hi0⟩

/-- The write set of `vectorCopy` on unbounded integers.  For every `n ≥ 0`
and elements of 2, 4 or 8 bytes, with `VL = 16/sizeof(T)`: the kernel ends; it performs exactly
`floor(n/VL)` vector stores, one for each vector index below `floor(n/VL)`,
and exactly `n mod VL` tail stores, one for each index from `VL*floor(n/VL)`
up to `n`; no store goes to an offset at or beyond `n`; and after it, in
whatever order the stores are applied, `data_out[i] = data_in[i]` for every
`i < n`, the rest of `data_out` being as it was. -/
theorem vectorCopyExact_write_set {α : Type} (sizeofT : Nat)
    (hT : sizeofT = 2 ∨ sizeofT = 4 ∨ sizeofT = 8) (n : Nat) (dataIn dataOut : Nat → α) :
    ∃ vec tail, vectorCopyExact sizeofT (n : Int) = some (vec, tail) ∧
      (vec.length = n / vectorLength sizeofT ∧
        ∀ g, g < n / vectorLength sizeofT → vec.countP (fun e => e.index == g) = 1) ∧
      (tail.length = n % vectorLength sizeofT ∧
        ∀ i, vectorLength sizeofT * (n / vectorLength sizeofT) ≤ i → i < n →
          tail.countP (fun e => e.index == i) = 1) ∧
      (∀ w, w ∈ vectorStores (vectorLength sizeofT) dataIn vec ++ copyStores dataIn tail →
        w.1 < n) ∧
      (∀ sched, List.Perm sched
          (vectorStores (vectorLength sizeofT) dataIn vec ++ copyStores dataIn tail) →
        (∀ i, i < n → applyWrites sched dataOut i = dataIn i) ∧
        (∀ i, n ≤ i → applyWrites sched dataOut i = dataOut i)) := by
  have hVL : 1 ≤ vectorLength sizeofT ∧ vectorLength sizeofT ≤ 64 := by
    rcases hT with h | h | h <;> rw [h] <;> decide
  have hG := vectorCopyNumblock_pos sizeofT n
  obtain ⟨vec, tail, hk, ⟨hvp, hvin, hvone⟩, ⟨htp, htin, htone⟩⟩ :=
    vectorCopyKernelExact_spec (vectorCopyNumblock sizeofT (n : Int)).toNat 64
      (vectorLength sizeofT) n hG (by norm_num) hVL.1
      (Nat.le_trans hVL.2 (Nat.le_mul_of_pos_right 64 hG))
  have hbase := Nat.div_add_mod' n (vectorLength sizeofT)
  obtain ⟨hvlen, hvcount⟩ := access_count vec 0 (n / vectorLength sizeofT) hvp
    (fun e he => ⟨Nat.zero_le _, (hvin e he).2.2⟩) (fun g _ hg => hvone g hg)
  obtain ⟨htlen, htcount⟩ := access_count tail
    ((n / vectorLength sizeofT) * vectorLength sizeofT) n htp
    (fun e he => (htin e he).2.2) htone
  obtain ⟨hst1, hst2⟩ := vectorCopy_stores (vectorLength sizeofT) n hVL.1 dataIn vec tail
    (fun e he => (hvin e he).2.2) (fun g hg => (hvone g hg).imp fun e0 h => ⟨h.1, h.2.1⟩)
    (fun e he => (htin e he).2.2)
    (fun i h1 h2 => (htone i h1 h2).imp fun e0 h => ⟨h.1, h.2.1⟩)
  refine ⟨vec, tail, ?_, ⟨by simpa using hvlen, fun g hg => hvcount g (Nat.zero_le _) hg⟩,
    ⟨by omega, ?_⟩, fun w hw => (hst1 w hw).2, ?_⟩
  · unfold vectorCopyExact
    simpa [numthread] using hk
  · intro i h1 h2
    exact htcount i (by rw [Nat.mul_comm]; exact h1) h2
  · intro sched hperm
    constructor
    · intro i hi
      exact (applyWrites_copy dataIn dataOut _ sched hperm (fun w hw => (hst1 w hw).1) i).1
        (hst2 i hi)
    · intro i hi
      apply (applyWrites_copy dataIn dataOut _ sched hperm (fun w hw => (hst1 w hw).1) i).2
      intro w hw
      have := (hst1 w hw).2
      omega

/-- One thread of `memcpyFloatKernel`: its loads and its stores are those of
the unroll steps that pass the test, and each store carries the value loaded
at the same step. -/
theorem memcpyFloatThread_spec {β : Type} (numElem B n : Nat) (a0 dataIn : Nat → β)
    (b t : Nat) (e : UnrollAccess β) :
    (e ∈ (memcpyFloatThread numElem B n a0 dataIn b t).1 ↔
      ∃ i, i < numElem ∧ t + numElem * b * B + i * B < n ∧
        e = UnrollAccess.mk b t i (t + numElem * b * B + i * B)
          (dataIn (t + numElem * b * B + i * B))) ∧
    (e ∈ (memcpyFloatThread numElem B n a0 dataIn b t).2 ↔
      ∃ i, i < numElem ∧ t + numElem * b * B + i * B < n ∧
        e = UnrollAccess.mk b t i (t + numElem * b * B + i * B)
          (dataIn (t + numElem * b * B + i * B))) := by
  have hload : ∀ e', e' ∈ (memcpyFloatThread numElem B n a0 dataIn b t).1 ↔
      ∃ i, i < numElem ∧ t + numElem * b * B + i * B < n ∧
        e' = UnrollAccess.mk b t i (t + numElem * b * B + i * B)
          (dataIn (t + numElem * b * B + i * B)) := by
    intro e'
    simp only [memcpyFloatThread, List.mem_map, List.mem_filter, List.mem_range,
      decide_eq_true_eq]
    constructor
    · rintro ⟨i, ⟨h1, h2⟩, rfl⟩
      exact ⟨i, h1, h2, rfl⟩
    · rintro ⟨i, h1, h2, rfl⟩
      exact ⟨i, ⟨h1, h2⟩, rfl⟩
  refine ⟨hload e, ?_⟩
  have hval : ∀ i, i < numElem → t + numElem * b * B + i * B < n →
      applyWrites (((memcpyFloatThread numElem B n a0 dataIn b t).1).map
        fun e => (e.step, e.val)) a0 i = dataIn (t + numElem * b * B + i * B) := by
    intro i h1 h2
    apply applyWrites_eq_of_forall
    · intro w hw hwi
      obtain ⟨e', he', rfl⟩ := List.mem_map.mp hw
      obtain ⟨i', -, -, rfl⟩ := (hload e').mp he'
      simp only at hwi ⊢
      rw [hwi]
    · right
      exact ⟨_, List.mem_map.mpr ⟨_, (hload _).mpr ⟨i, h1, h2, rfl⟩, rfl⟩, rfl⟩
  have hstore : (memcpyFloatThread numElem B n a0 dataIn b t).2
      = ((List.range numElem).filter
          fun i => decide (t + numElem * b * B + i * B < n)).map
        fun i => UnrollAccess.mk b t i (t + numElem * b * B + i * B)
          (applyWrites (((memcpyFloatThread numElem B n a0 dataIn b t).1).map
            fun e => (e.step, e.val)) a0 i) := rfl
  rw [hstore]
  simp only [List.mem_map, List.mem_filter, List.mem_range, decide_eq_true_eq]
  constructor
  · rintro ⟨i, ⟨h1, h2⟩, rfl⟩
    exact ⟨i, h1, h2, by rw [hval i h1 h2]⟩
  · rintro ⟨i, h1, h2, rfl⟩
    exact ⟨i, ⟨h1, h2⟩, by rw [hval i h1 h2]⟩

/-- The loads and the stores of `memcpyFloatKernel`: those of the threads of
the grid at the unroll steps that pass the test, each store carrying the
input value of its index. -/
theorem memcpyFloatKernel_spec {β : Type} (numElem G B n : Nat) (priv : Nat → Nat → Nat → β)
    (dataIn : Nat → β) (e : UnrollAccess β) :
    (e ∈ (memcpyFloatKernel numElem G B n priv dataIn).1 ↔
      ∃ b, b < G ∧ ∃ t, t < B ∧ ∃ i, i < numElem ∧ t + numElem * b * B + i * B < n ∧
        e = UnrollAccess.mk b t i (t + numElem * b * B + i * B)
          (dataIn (t + numElem * b * B + i * B))) ∧
    (e ∈ (memcpyFloatKernel numElem G B n priv dataIn).2 ↔
      ∃ b, b < G ∧ ∃ t, t < B ∧ ∃ i, i < numElem ∧ t + numElem * b * B + i * B < n ∧
        e = UnrollAccess.mk b t i (t + numElem * b * B + i * B)
          (dataIn (t + numElem * b * B + i * B))) := by
  simp only [memcpyFloatKernel, unzipConcat, List.mem_flatMap, List.mem_map, List.mem_range]
  constructor
  · constructor
    · rintro ⟨r, ⟨b, hb, t, ht, rfl⟩, he⟩
      exact ⟨b, hb, t, ht, (memcpyFloatThread_spec numElem B n (priv b t) dataIn b t e).1.mp he⟩
    · rintro ⟨b, hb, t, ht, h⟩
      exact ⟨_, ⟨b, hb, t, ht, rfl⟩,
        (memcpyFloatThread_spec numElem B n (priv b t) dataIn b t e).1.mpr h⟩
  · constructor
    · rintro ⟨r, ⟨b, hb, t, ht, rfl⟩, he⟩
      exact ⟨b, hb, t, ht, (memcpyFloatThread_spec numElem B n (priv b t) dataIn b t e).2.mp he⟩
    · rintro ⟨b, hb, t, ht, h⟩
      exact ⟨_, ⟨b, hb, t, ht, rfl⟩,
        (memcpyFloatThread_spec numElem B n (priv b t) dataIn b t e).2.mpr h⟩

/-- The block, thread and unroll step of `memcpyFloatKernel` with index `q`,
for `q` below the `numElem*blockDim*gridDim` indices the grid reaches. -/
theorem unroll_of_index (numElem G B q : Nat) (hB : 1 ≤ B) (hq : q < numElem * B * G) :
    q / (numElem * B) < G ∧ q % (numElem * B) % B < B ∧ q % (numElem * B) / B < numElem ∧
    q % (numElem * B) % B + numElem * (q / (numElem * B)) * B + q % (numElem * B) / B * B
      = q := by
  have hnB : 0 < numElem * B := by
    rcases Nat.eq_zero_or_pos (numElem * B) with h | h
    · rw [h, Nat.zero_mul] at hq
      omega
    · exact h
  refine ⟨Nat.div_lt_of_lt_mul hq, Nat.mod_lt _ hB, ?_, ?_⟩
  · apply Nat.div_lt_of_lt_mul
    rw [Nat.mul_comm B numElem]
    exact Nat.mod_lt _ hnB
  · have h1 := Nat.mod_add_div' (q % (numElem * B)) B
    have h2 := Nat.mod_add_div q (numElem * B)
    have h3 : numElem * (q / (numElem * B)) * B = numElem * B * (q / (numElem * B)) := by ring
    omega

/-- The grid of `memcpyFloat` as a natural number. -/
theorem memcpyFloatNumblock_eq (n : Nat) :
    memcpyFloatNumblock (n : Int) = (((n / 8 - 1) / 64 + 1 : Nat) : Int) := by
  unfold memcpyFloatNumblock numthread NUM_ELEM
  have h8 : Int.tdiv (n : Int) (4 * ((2 : Nat) : Int)) = ((n / 8 : Nat) : Int) := by
    rw [Int.tdiv_eq_ediv (Int.ofNat_nonneg _) (by norm_num)]
    push_cast
    omega
  rw [h8]
  rcases Nat.eq_zero_or_pos (n / 8) with h0 | h0
  · rw [h0]
    decide
  · rw [Int.tdiv_eq_ediv (by omega) (by norm_num)]
    push_cast
    omega

/-- The `float4` count that `memcpyFloat` passes to its kernel. -/
theorem memcpyFloat_count (n : Nat) : (Int.tdiv (n : Int) 4).toNat = n / 4 := by
  rw [Int.tdiv_eq_ediv (Int.ofNat_nonneg _) (by norm_num)]
  omega

/-- The grid of `memcpyFloat` reaches all `n/4` values unless `n/4` is
`128k + 1` with `k ≥ 1`. -/
theorem memcpyFloat_covered_iff (n : Nat) :
    n / 4 ≤ 128 * (memcpyFloatNumblock (n : Int)).toNat ↔ ¬ (n / 4 % 128 = 1 ∧ 1 < n / 4) := by
  rw [memcpyFloatNumblock_eq, Int.toNat_ofNat]
  omega

/-- The float stores of `memcpyFloat`: each carries the input float of its
offset and goes to an offset below `4*(n/4)`, the `float4` stores have
indices below `128*numblock`, and every offset below `4*(n/4)` and below
`4*128*numblock` is stored to. -/
theorem memcpyFloat_stores {α : Type} (n : Nat) (priv : Nat → Nat → Nat → α × α × α × α)
    (dataIn : Nat → α) :
    (∀ e, e ∈ (memcpyFloat (n : Int) priv dataIn).2 →
      e.index < n / 4 ∧ e.index < 128 * (memcpyFloatNumblock (n : Int)).toNat) ∧
    (∀ w, w ∈ float4Stores (memcpyFloat (n : Int) priv dataIn).2 →
      w.2 = dataIn w.1 ∧ w.1 < 4 * (n / 4) ∧
        w.1 < 4 * (128 * (memcpyFloatNumblock (n : Int)).toNat)) ∧
    (∀ i, i < 4 * (n / 4) → i < 4 * (128 * (memcpyFloatNumblock (n : Int)).toNat) →
      ∃ w, w ∈ float4Stores (memcpyFloat (n : Int) priv dataIn).2 ∧ w.1 = i) := by
  have hmem := fun e => (memcpyFloatKernel_spec NUM_ELEM (memcpyFloatNumblock (n : Int)).toNat
    64 (n / 4) priv (asFloat4 dataIn) e).2
  have hdef : memcpyFloat (n : Int) priv dataIn
      = memcpyFloatKernel NUM_ELEM (memcpyFloatNumblock (n : Int)).toNat 64 (n / 4) priv
        (asFloat4 dataIn) := by
    unfold memcpyFloat
    rw [memcpyFloat_count]
    rfl
  rw [hdef]
  generalize (memcpyFloatNumblock (n : Int)).toNat = G at hmem ⊢
  have hidx : ∀ e, e ∈ (memcpyFloatKernel NUM_ELEM G 64 (n / 4) priv (asFloat4 dataIn)).2 →
      e.index < n / 4 ∧ e.index < 128 * G ∧ e.val = asFloat4 dataIn e.index := by
    intro e he
    obtain ⟨b, hb, t, ht, i, hi, hlt, rfl⟩ := (hmem e).mp he
    refine ⟨hlt, ?_, rfl⟩
    show t + NUM_ELEM * b * 64 + i * 64 < 128 * G
    unfold NUM_ELEM at hi ⊢
    omega
  refine ⟨fun e he => ⟨(hidx e he).1, (hidx e he).2.1⟩, ?_, ?_⟩
  · intro w hw
    simp only [float4Stores, List.mem_flatMap] at hw
    obtain ⟨e, he, hw⟩ := hw
    obtain ⟨h1, h2, h3⟩ := hidx e he
    simp only [List.mem_cons, List.mem_singleton, List.not_mem_nil, or_false] at hw
    rw [h3] at hw
    rcases hw with rfl | rfl | rfl | rfl <;> refine ⟨rfl, ?_, ?_⟩ <;> simp only <;> omega
  · intro i hi hG
    have hq : i / 4 < NUM_ELEM * 64 * G := by
      unfold NUM_ELEM
      omega
    obtain ⟨h1, h2, h3, h4⟩ := unroll_of_index NUM_ELEM G 64 (i / 4) (by norm_num) hq
    have he0 := (hmem (UnrollAccess.mk (i / 4 / (NUM_ELEM * 64)) (i / 4 % (NUM_ELEM * 64) % 64)
      (i / 4 % (NUM_ELEM * 64) / 64)
      (i / 4 % (NUM_ELEM * 64) % 64 + NUM_ELEM * (i / 4 / (NUM_ELEM * 64)) * 64
        + i / 4 % (NUM_ELEM * 64) / 64 * 64)
      (asFloat4 dataIn (i / 4 % (NUM_ELEM * 64) % 64
        + NUM_ELEM * (i / 4 / (NUM_ELEM * 64)) * 64
        + i / 4 % (NUM_ELEM * 64) / 64 * 64)))).mpr
      ⟨_, h1, _, h2, _, h3, by rw [h4]; omega, rfl⟩
    rw [h4] at he0
    have hcases : i % 4 = 0 ∨ i % 4 = 1 ∨ i % 4 = 2 ∨ i % 4 = 3 := by omega
    simp only [float4Stores, List.mem_flatMap]
    rcases hcases with h | h | h | h
    · exact ⟨(4 * (i / 4), dataIn (4 * (i / 4))), ⟨_, he0, by simp [asFloat4]⟩,
        by simp only; omega⟩
    · exact ⟨(4 * (i / 4) + 1, dataIn (4 * (i / 4) + 1)), ⟨_, he0, by simp [asFloat4]⟩,
        by simp only; omega⟩
    · exact ⟨(4 * (i / 4) + 2, dataIn (4 * (i / 4) + 2)), ⟨_, he0, by simp [asFloat4]⟩,
        by simp only; omega⟩
    · exact ⟨(4 * (i / 4) + 3, dataIn (4 * (i / 4) + 3)), ⟨_, he0, by simp [asFloat4]⟩,
        by simp only; omega⟩

/-- C19 (`memcpyFloat` on whole `float4` groups), at the lengths where the
code misses the claim.  For every `k ≥ 1` and `n = 4*(128k + 1)`, a multiple
of 4 with `n/4 = 128k + 1` values: `numblock = (n/8 - 1)/64 + 1` is `k`, the
`k` blocks of 64 threads with two unroll steps reach the `float4` indices
below `128k` only, so no store has the index `128k`, and after the kernel, in
whatever order its stores are applied, the floats `512k .. 512k + 3` of
`data_out` are as they were before. -/
theorem memcpyFloat_misses_group {α : Type} (k : Nat) (hk : 1 ≤ k)
    (priv : Nat → Nat → Nat → α × α × α × α) (dataIn dataOut : Nat → α) :
    4 * (128 * k + 1) % 4 = 0 ∧
    memcpyFloatNumblock ((4 * (128 * k + 1) : Nat) : Int) = (k : Int) ∧
    128 * k < 4 * (128 * k + 1) / 4 ∧
    (∀ e, e ∈ (memcpyFloat ((4 * (128 * k + 1) : Nat) : Int) priv dataIn).2 →
      e.index ≠ 128 * k) ∧
    ∀ sched, List.Perm sched
        (float4Stores (memcpyFloat ((4 * (128 * k + 1) : Nat) : Int) priv dataIn).2) →
      ∀ j, j < 4 → applyWrites sched dataOut (512 * k + j) = dataOut (512 * k + j) := by
  have hnb : memcpyFloatNumblock ((4 * (128 * k + 1) : Nat) : Int) = (k : Int) := by
    rw [memcpyFloatNumblock_eq]
    congr 1
    omega
  have hG : (memcpyFloatNumblock ((4 * (128 * k + 1) : Nat) : Int)).toNat = k := by
    rw [hnb, Int.toNat_ofNat]
  obtain ⟨hidx, hst, -⟩ := memcpyFloat_stores (4 * (128 * k + 1)) priv dataIn
  rw [hG] at hidx hst
  refine ⟨by omega, hnb, by omega, ?_, ?_⟩
  · intro e he
    have := (hidx e he).2
    omega
  · intro sched hperm j hj
    apply applyWrites_of_not_mem
    intro w hw
    have := (hst w (hperm.mem_iff.mp hw)).2.2
    omega

set_option maxRecDepth 100000 in
/-- The failing input of C19: `n = 516` floats, i.e. 129 `float4` values,
with the input `0, 1, .., 515` and an output of zeros.  The grid is one block,
the `float4` indices below 130 that it stores to are `0 .. 127`, and the floats
`512 .. 515` of the output are still 0. -/
theorem memcpyFloat_misses_group_witness :
    memcpyFloatNumblock 516 = 1 ∧
    (List.range 130).filter
        (fun q => decide (q ∈ (memcpyFloat 516 exPriv exIn).2.map fun e => e.index))
      = List.range 128 ∧
    (List.range' 508 8).map (applyWrites (float4Stores (memcpyFloat 516 exPriv exIn).2) exOut)
      = [508, 509, 510, 511, 0, 0, 0, 0] ∧
    ∀ sched, List.Perm sched
        (float4Stores (memcpyFloat ((4 * (128 * 1 + 1) : Nat) : Int) exPriv exIn).2) →
      ∀ j, j < 4 → applyWrites sched exOut (512 * 1 + j) = exOut (512 * 1 + j) :=
  ⟨by decide, by decide, by decide,
    (memcpyFloat_misses_group 1 (by decide) exPriv exIn exOut).2.2.2.2⟩

/-- With a bound of 0 no thread visits an index. -/
theorem gridLoopExact_bound_zero (G B : Nat) (start step : Nat → Nat → Nat) :
    gridLoopExact G B start step 0 = some [] := by
  have hblk : ∀ b, optConcat ((List.range B).map fun t =>
      (strideLoop (step b t) 0 0 (start b t)).map fun l => l.map fun i => CopyAccess.mk b t i)
      = some [] := by
    intro b
    rw [optConcat_map_some (List.range B) _ (fun _ => []) (fun t _ => by simp [strideLoop])]
    simp
  unfold gridLoopExact
  rw [optConcat_map_some (List.range G) _ (fun _ => []) (fun b _ => hblk b)]
  simp

/-- The grid of `memcpyFloat` has at least one block. -/
theorem memcpyFloatNumblock_pos (n : Nat) : 1 ≤ memcpyFloatNumblock (n : Int) := by
  rw [memcpyFloatNumblock_eq]
  omega

/-- The three bulk copies on unbounded integers agree on whole `float4`
groups that the grid of `memcpyFloat` reaches.  For every `n ≥ 0` that is a multiple of 4
and whose `float4` count `n/4` is not `128k + 1` with `k ≥ 1`, and every input
of `n` 4-byte elements: the kernels of `scalarCopy` and of `vectorCopy` end,
and after each of `scalarCopy`, `vectorCopy` and `memcpyFloat`, in whatever
order its stores are applied, `data_out[i] = data_in[i]` for every `i < n`
and the rest of `data_out` is as it was: the three leave the same output. -/
theorem bulk_copies_agree_exact {α : Type} (n : Nat) (h4 : n % 4 = 0)
    (hcov : ¬ (n / 4 % 128 = 1 ∧ 1 < n / 4))
    (priv : Nat → Nat → Nat → α × α × α × α) (dataIn dataOut : Nat → α) :
    ∃ ev vec tail, scalarCopyExact (n : Int) = some ev ∧ vectorCopyExact 4 (n : Int) = some (vec, tail) ∧
      ∀ s1 s2 s3, List.Perm s1 (copyStores dataIn ev) →
        List.Perm s2 (vectorStores (vectorLength 4) dataIn vec ++ copyStores dataIn tail) →
        List.Perm s3 (float4Stores (memcpyFloat (n : Int) priv dataIn).2) →
        (∀ i, i < n → applyWrites s1 dataOut i = dataIn i ∧
          applyWrites s2 dataOut i = dataIn i ∧ applyWrites s3 dataOut i = dataIn i) ∧
        (∀ i, n ≤ i → applyWrites s1 dataOut i = dataOut i ∧
          applyWrites s2 dataOut i = dataOut i ∧ applyWrites s3 dataOut i = dataOut i) := by
  -- scalarCopy
  obtain ⟨ev, hev, -, hsin, hsone⟩ :=
    gridStride_spec (scalarCopyNumblock (n : Int)).toNat 64 n (scalarCopyNumblock_pos n)
      (by norm_num)
  have hsval : ∀ w, w ∈ copyStores dataIn ev → w.2 = dataIn w.1 ∧ w.1 < n := by
    intro w hw
    obtain ⟨e, he, rfl⟩ := List.mem_map.mp hw
    exact ⟨rfl, (hsin e he).2.2⟩
  -- vectorCopy
  have hG := vectorCopyNumblock_pos 4 n
  obtain ⟨vec, tail, hk, ⟨-, hvin, hvone⟩, ⟨-, htin, htone⟩⟩ :=
    vectorCopyKernelExact_spec (vectorCopyNumblock 4 (n : Int)).toNat 64 (vectorLength 4) n hG
      (by norm_num) (by decide)
      (Nat.le_trans (by decide : vectorLength 4 ≤ 64) (Nat.le_mul_of_pos_right 64 hG))
  obtain ⟨hv1, hv2⟩ := vectorCopy_stores (vectorLength 4) n (by decide) dataIn vec tail
    (fun e he => (hvin e he).2.2) (fun g hg => (hvone g hg).imp fun e0 h => ⟨h.1, h.2.1⟩)
    (fun e he => (htin e he).2.2)
    (fun i h1 h2 => (htone i h1 h2).imp fun e0 h => ⟨h.1, h.2.1⟩)
  -- memcpyFloat
  obtain ⟨-, hm1, hm2⟩ := memcpyFloat_stores n priv dataIn
  have hcov' := (memcpyFloat_covered_iff n).mpr hcov
  have hn4 : 4 * (n / 4) = n := by omega
  refine ⟨ev, vec, tail, ?_, ?_, ?_⟩
  · unfold scalarCopyExact scalarCopyKernelExact
    simpa [numthread] using hev
  · unfold vectorCopyExact
    simpa [numthread] using hk
  · intro s1 s2 s3 hp1 hp2 hp3
    constructor
    · intro i hi
      refine ⟨?_, ?_, ?_⟩
      · obtain ⟨e0, he0, hi0, -⟩ := hsone i hi
        exact (applyWrites_copy dataIn dataOut _ s1 hp1 (fun w hw => (hsval w hw).1) i).1
          ⟨_, List.mem_map.mpr ⟨e0, he0, rfl⟩, hi0⟩
      · exact (applyWrites_copy dataIn dataOut _ s2 hp2 (fun w hw => (hv1 w hw).1) i).1
          (hv2 i hi)
      · exact (applyWrites_copy dataIn dataOut _ s3 hp3 (fun w hw => (hm1 w hw).1) i).1
          (hm2 i (by omega) (by omega))
    · intro i hi
      refine ⟨?_, ?_, ?_⟩
      · apply (applyWrites_copy dataIn dataOut _ s1 hp1 (fun w hw => (hsval w hw).1) i).2
        intro w hw
        have := (hsval w hw).2
        omega
      · apply (applyWrites_copy dataIn dataOut _ s2 hp2 (fun w hw => (hv1 w hw).1) i).2
        intro w hw
        have := (hv1 w hw).2
        omega
      · apply (applyWrites_copy dataIn dataOut _ s3 hp3 (fun w hw => (hm1 w hw).1) i).2
        intro w hw
        have := (hm1 w hw).2.1
        omega

/-- The cumulative product depends on the shape below the index only. -/
theorem cumProd_congr (a b : Nat → Nat) (i : Nat) (h : ∀ m, m < i → a m = b m) :
    cumProd a i = cumProd b i := by
  induction i with
  | zero => rfl
  | succ i ih =>
    simp only [cumProd]
    rw [ih (fun m hm => h m (by omega)), h i (by omega)]

theorem cumProd_eq_prod (d : Nat → Nat) (k : Nat) :
    cumProd d k = ∏ i ∈ Finset.range k, d i := by
  induction k with
  | zero => simp [cumProd]
  | succ k ih => rw [cumProd, ih, Finset.prod_range_succ]

/-- A shape and its permutation have the same volume. -/
theorem cumProd_perm (k : Nat) (d σ : Nat → Nat) (hσ : ∀ j < k, σ j < k)
    (hinj : ∀ i < k, ∀ j < k, σ i = σ j → i = j) :
    cumProd (fun m => d (σ m)) k = cumProd d k := by
  rw [cumProd_eq_prod, cumProd_eq_prod]
  have hInj : Set.InjOn σ (Finset.range k : Set Nat) := by
    intro a ha b hb hab
    simp only [Finset.coe_range, Set.mem_Iio] at ha hb
    exact hinj a ha b hb hab
  have himg : (Finset.range k).image σ = Finset.range k := by
    apply Finset.eq_of_subset_of_card_le
    · intro x hx
      simp only [Finset.mem_image, Finset.mem_range] at hx ⊢
      obtain ⟨j, hj, rfl⟩ := hx
      exact hσ j hj
    · rw [Finset.card_image_of_injOn hInj]
  conv_rhs => rw [← himg]
  rw [Finset.prod_image]
  intro a ha b hb hab
  simp only [Finset.mem_range] at ha hb
  exact hinj a ha b hb hab

/-- The codec with the strides of a permuted layout: the output offset is the
flattened permuted coordinate, it is below the volume, and its digits in the
permuted shape are the permuted input digits. -/
theorem codec_image (k : Nat) (d σ ct : Nat → Nat) (hd : ∀ i < k, 1 ≤ d i)
    (hσ : ∀ j < k, σ j < k) (hinj : ∀ i < k, ∀ j < k, σ i = σ j → i = j)
    (hct : ∀ j < k, ct (σ j) = cumProd (fun m => d (σ m)) j) (p : Nat) :
    decode (shapeTable d ct) p k
        = ∑ j ∈ Finset.range k, coord d p (σ j) * cumProd (fun m => d (σ m)) j ∧
    decode (shapeTable d ct) p k < cumProd (fun m => d (σ m)) k ∧
    ∀ j < k, coord (fun m => d (σ m)) (decode (shapeTable d ct) p k) j = coord d p (σ j) := by
  have hx : ∀ i < k, coord d p i < d i := fun i hi =>
    Nat.mod_lt _ (by have := hd i hi; omega)
  have hsum : decode (shapeTable d ct) p k
      = ∑ j ∈ Finset.range k, coord d p (σ j) * cumProd (fun m => d (σ m)) j := by
    rw [decode_shapeTable, sum_reindex k σ hσ hinj]
    apply Finset.sum_congr rfl
    intro j hj
    rw [hct j (Finset.mem_range.mp hj)]
  refine ⟨hsum, ?_, ?_⟩
  · rw [hsum]
    exact flat_lt_cumProd' (fun m => d (σ m)) (fun j => coord d p (σ j)) k
      (fun i hi => hx (σ i) (hσ i hi))
  · intro j hj
    rw [hsum]
    exact coord_flat (fun m => d (σ m)) (fun j => coord d p (σ j)) k
      (fun i hi => hx (σ i) (hσ i hi)) j hj

/-- Decoding with the inverse permutation on the permuted shape undoes the
codec. -/
theorem codec_left_inverse (k : Nat) (d σ τ ct ct' : Nat → Nat) (hd : ∀ i < k, 1 ≤ d i)
    (hσ : ∀ j < k, σ j < k) (hτ : ∀ i < k, τ i < k)
    (hστ : ∀ i < k, σ (τ i) = i) (hτσ : ∀ j < k, τ (σ j) = j)
    (hct : ∀ j < k, ct (σ j) = cumProd (fun m => d (σ m)) j)
    (hct' : ∀ i < k, ct' (τ i) = cumProd (fun m => d (σ (τ m))) i)
    (p : Nat) (hp : p < cumProd d k) :
    decode (shapeTable (fun m => d (σ m)) ct') (decode (shapeTable d ct) p k) k = p := by
  have hinjσ : ∀ i < k, ∀ j < k, σ i = σ j → i = j := by
    intro i hi j hj h
    rw [← hτσ i hi, ← hτσ j hj, h]
  have hinjτ : ∀ i < k, ∀ j < k, τ i = τ j → i = j := by
    intro i hi j hj h
    rw [← hστ i hi, ← hστ j hj, h]
  obtain ⟨-, -, hdig⟩ := codec_image k d σ ct hd hσ hinjσ hct p
  obtain ⟨hsum, -, -⟩ := codec_image k (fun m => d (σ m)) τ ct'
    (fun i hi => hd (σ i) (hσ i hi)) hτ hinjτ hct' (decode (shapeTable d ct) p k)
  rw [hsum]
  have e : ∑ j ∈ Finset.range k,
        coord (fun m => d (σ m)) (decode (shapeTable d ct) p k) (τ j)
          * cumProd (fun m => d (σ (τ m))) j
      = ∑ j ∈ Finset.range k, coord d p j * cumProd d j := by
    apply Finset.sum_congr rfl
    intro j hj
    have hj' := Finset.mem_range.mp hj
    rw [hdig (τ j) (hτ j hj'), hστ j hj',
      cumProd_congr (fun m => d (σ (τ m))) d j (fun m hm => by
        show d (σ (τ m)) = d m
        rw [hστ m (by omega)])]
  rw [e, sum_coord_mul_cumProd, Nat.mod_eq_of_lt hp]

/-- C20 (codec round trip).  For a shape `d_0 .. d_{k-1}` with all `d_i ≥ 1`
(of any rank `k`, so also 2..8) and a permutation `σ` of its axes with inverse
`τ`, let `f` map a linear input offset `p` to `Σ ((p / c_i) % d_i) * ct_i`,
`ct_i` being the stride of axis `i` in the permuted layout, and let `g` be the
same for the permuted shape and `τ`.  The two shapes have the same volume
`V`, `f` maps `[0, V)` into itself, is one-to-one and onto, and `g (f p) = p`
and `f (g q) = q` below `V`: moving every element `p` to `f p` and then every
element `q` to `g q` gives back the original buffer. -/
theorem codec_round_trip (k : Nat) (d σ τ ct ct' : Nat → Nat) (hd : ∀ i < k, 1 ≤ d i)
    (hσ : ∀ j < k, σ j < k) (hτ : ∀ i < k, τ i < k)
    (hστ : ∀ i < k, σ (τ i) = i) (hτσ : ∀ j < k, τ (σ j) = j)
    (hct : ∀ j < k, ct (σ j) = cumProd (fun m => d (σ m)) j)
    (hct' : ∀ i < k, ct' (τ i) = cumProd (fun m => d (σ (τ m))) i) :
    cumProd (fun m => d (σ m)) k = cumProd d k ∧
    (∀ p, p < cumProd d k → decode (shapeTable d ct) p k < cumProd d k) ∧
    (∀ p, p < cumProd d k → ∀ p', p' < cumProd d k →
      decode (shapeTable d ct) p k = decode (shapeTable d ct) p' k → p = p') ∧
    (∀ q, q < cumProd d k → ∃ p, p < cumProd d k ∧ decode (shapeTable d ct) p k = q) ∧
    (∀ p, p < cumProd d k →
      decode (shapeTable (fun m => d (σ m)) ct') (decode (shapeTable d ct) p k) k = p) ∧
    (∀ q, q < cumProd d k →
      decode (shapeTable d ct) (decode (shapeTable (fun m => d (σ m)) ct') q k) k = q) ∧
    (∀ (α : Type) (buf : Nat → α) (p : Nat), p < cumProd d k →
      ∀ (moved back : Nat → α),
        (∀ x, x < cumProd d k → moved (decode (shapeTable d ct) x k) = buf x) →
        (∀ y, y < cumProd d k →
          back (decode (shapeTable (fun m => d (σ m)) ct') y k) = moved y) →
        back p = buf p) := by
  have hinjσ : ∀ i < k, ∀ j < k, σ i = σ j → i = j := by
    intro i hi j hj h
    rw [← hτσ i hi, ← hτσ j hj, h]
  have hV := cumProd_perm k d σ hσ hinjσ
  have hlt : ∀ p, decode (shapeTable d ct) p k < cumProd d k := by
    intro p
    rw [← hV]
    exact (codec_image k d σ ct hd hσ hinjσ hct p).2.1
  have hleft := codec_left_inverse k d σ τ ct ct' hd hσ hτ hστ hτσ hct hct'
  have hinj : ∀ p, p < cumProd d k → ∀ p', p' < cumProd d k →
      decode (shapeTable d ct) p k = decode (shapeTable d ct) p' k → p = p' := by
    intro p hp p' hp' h
    rw [← hleft p hp, ← hleft p' hp', h]
  have hsurj : ∀ q, q < cumProd d k →
      ∃ p, p < cumProd d k ∧ decode (shapeTable d ct) p k = q := by
    have himg : (Finset.range (cumProd d k)).image (fun p => decode (shapeTable d ct) p k)
        = Finset.range (cumProd d k) := by
      apply Finset.eq_of_subset_of_card_le
      · intro x hx
        simp only [Finset.mem_image, Finset.mem_range] at hx ⊢
        obtain ⟨p, -, rfl⟩ := hx
        exact hlt p
      · rw [Finset.card_image_of_injOn]
        intro a ha b hb hab
        simp only [Finset.coe_range, Set.mem_Iio] at ha hb
        exact hinj a ha b hb hab
    intro q hq
    have : q ∈ (Finset.range (cumProd d k)).image (fun p => decode (shapeTable d ct) p k) := by
      rw [himg]
      exact Finset.mem_range.mpr hq
    simp only [Finset.mem_image, Finset.mem_range] at this
    exact this
  refine ⟨hV, fun p _ => hlt p, hinj, hsurj, hleft, ?_, ?_⟩
  · intro q hq
    obtain ⟨p, hp, rfl⟩ := hsurj q hq
    rw [hleft p hp]
  · intro α buf p hp moved back h1 h2
    have e := h2 _ (hlt p)
    rw [hleft p hp] at e
    rw [e, h1 p hp]

/-- Witness for C20: shape `(4, 6, 8)` with the permutation `(2, 0, 1)` and its
inverse `(1, 2, 0)`: every one of the 192 offsets comes back, and offset 1
goes to 8 and back. -/
theorem codec_round_trip_witness :
    cumProd shape468 3 = 192 ∧
    decode (shapeTable shape468 stride468) 1 3 = 8 ∧
    decode (shapeTable (fun m => shape468 (perm201 m)) stride846) 8 3 = 1 ∧
    (∀ p, p < cumProd shape468 3 →
      decode (shapeTable (fun m => shape468 (perm201 m)) stride846)
        (decode (shapeTable shape468 stride468) p 3) 3 = p) ∧
    (∀ q, q < cumProd shape468 3 →
      ∃ p, p < cumProd shape468 3 ∧ decode (shapeTable shape468 stride468) p 3 = q) :=
  ⟨by decide, by decide, by decide,
    (codec_round_trip 3 shape468 perm201 perm120 stride468 stride846 (by decide) (by decide)
      (by decide) (by decide) (by decide) (by decide) (by decide)).2.2.2.2.1,
    (codec_round_trip 3 shape468 perm201 perm120 stride468 stride846 (by decide) (by decide)
      (by decide) (by decide) (by decide) (by decide) (by decide)).2.2.2.1⟩

/-- When a row of the block is one warp, the thread in lane `j` of the warp
of thread `t` is in the block, has `threadIdx.x = j` and is in the row of
`t`. -/
theorem TiledLaunch.row_thread (L : TiledLaunch) (k : Nat) (htd : L.TILEDIM = 2 ^ k)
    (t j : Nat) (ht : t < L.blockSize) (hj : j < L.TILEDIM) :
    t / 2 ^ k * 2 ^ k + j < L.blockSize ∧ L.tx (t / 2 ^ k * 2 ^ k + j) = j ∧
      L.ty (t / 2 ^ k * 2 ^ k + j) = L.ty t := by
  have hty : t / 2 ^ k < L.TILEROWS := by
    apply Nat.div_lt_of_lt_mul
    unfold TiledLaunch.blockSize at ht
    rw [htd] at ht
    exact ht
  unfold TiledLaunch.tx TiledLaunch.ty TiledLaunch.blockSize
  rw [htd] at hj ⊢
  have hpos : 0 < 2 ^ k := by positivity
  refine ⟨?_, ?_, ?_⟩
  · calc t / 2 ^ k * 2 ^ k + j < t / 2 ^ k * 2 ^ k + 2 ^ k := by omega
      _ = (t / 2 ^ k + 1) * 2 ^ k := by ring
      _ ≤ L.TILEROWS * 2 ^ k := Nat.mul_le_mul_right _ hty
      _ = 2 ^ k * L.TILEROWS := Nat.mul_comm _ _
  · rw [Nat.mul_comm, Nat.mul_add_mod, Nat.mod_eq_of_lt hj]
  · rw [Nat.mul_comm, Nat.mul_add_div hpos, Nat.div_eq_of_lt hj, Nat.add_zero]

/-- The two loops agree when the mask test and the per-element test agree on
every row step. -/
theorem tileLoop_eq_checked {β : Type} (mask : Nat) (test : Nat → Bool) (add : Nat)
    (mk : Nat → Nat → β) :
    ∀ (steps : List Nat) (pos : Option Nat), (∀ j, j ∈ steps → maskBit mask j = test j) →
      tileLoop mask add mk steps pos = tileLoopChecked test add mk steps pos := by
  intro steps
  induction steps with
  | nil => intro pos _; rfl
  | cons j js ih =>
    intro pos h
    simp only [tileLoop, tileLoopChecked]
    rw [ih (pos.map (· + add)) (fun i hi => h i (List.mem_cons_of_mem _ hi)),
      h j (List.mem_cons_self _ _)]

/-- C21 (the boundary mask equals the direct bounds test).  In the tiled
kernels, when a row of the `TILEDIM` by `TILEROWS` block is exactly one warp
(`TILEDIM = warpSize = 2^k ≤ 64`), for every thread `t` of the block:
its `warpLane` is its `threadIdx.x`; the loop
`for (j = 0; j < TILEDIM; j += TILEROWS)` ends and visits the multiples of
`TILEROWS` below `TILEDIM`; for every `j` below `TILEDIM` (so for each of
them) the test `(maskIny & (1 << j)) != 0` is `xin < tiledVol.x` and
`yin + j < tiledVol.y`, the test `(maskOutx & (1 << j)) != 0` is
`xout + j < tiledVol.x` and `yout < tiledVol.y`, and the test on the `mask`
of `transposeTiledCopy` (the same expression as `maskIny`) is
`x < tiledVol.x` and `y + j < tiledVol.y`; hence each masked loop performs
the accesses of the loop with the per-element bounds check. -/
theorem boundary_mask_eq_bounds_test (L : TiledLaunch) (k : Nat) (hws : L.warpSize = 2 ^ k)
    (htd : L.TILEDIM = 2 ^ k) (hk : k ≤ 6) (blockX t : Nat) (ht : t < L.blockSize) :
    warpLane L.warpSize (L.tx t) = L.tx t ∧
    (∃ steps, strideLoop L.TILEROWS L.TILEDIM L.TILEDIM 0 = some steps ∧
      (∀ j, j ∈ steps ↔ j < L.TILEDIM ∧ j % L.TILEROWS = 0) ∧
      ∀ (β : Type) (add : Nat) (mk : Nat → Nat → β) (pos : Option Nat),
        tileLoop (L.maskIny blockX t) add mk steps pos
          = tileLoopChecked (L.boundsIn blockX t) add mk steps pos ∧
        tileLoop (L.maskOutx blockX t) add mk steps pos
          = tileLoopChecked (L.boundsOut blockX t) add mk steps pos ∧
        tileLoop (L.maskIny blockX t) add mk steps pos
          = tileLoopChecked (L.boundsCopy blockX t) add mk steps pos) ∧
    ∀ j, j < L.TILEDIM →
      (maskBit (L.maskIny blockX t) j = true ↔
        (L.bx blockX + L.tx t < L.tiledVolX ∧ L.by blockX + L.ty t + j < L.tiledVolY)) ∧
      (maskBit (L.maskOutx blockX t) j = true ↔
        (L.bx blockX + L.ty t + j < L.tiledVolX ∧ L.by blockX + L.tx t < L.tiledVolY)) ∧
      maskBit (L.maskIny blockX t) j = L.boundsIn blockX t j ∧
      maskBit (L.maskOutx blockX t) j = L.boundsOut blockX t j ∧
      maskBit (L.maskIny blockX t) j = L.boundsCopy blockX t j := by
  have hpos : 0 < 2 ^ k := by positivity
  have htx : L.tx t < 2 ^ k := by
    unfold TiledLaunch.tx
    rw [htd]
    exact Nat.mod_lt _ hpos
  have hrows : 1 ≤ L.TILEROWS := by
    unfold TiledLaunch.blockSize at ht
    rcases Nat.eq_zero_or_pos L.TILEROWS with h0 | h0
    · rw [h0, Nat.mul_zero] at ht
      omega
    · exact h0
  have hin : ∀ j, j < L.TILEDIM → maskBit (L.maskIny blockX t) j = L.boundsIn blockX t j := by
    intro j hj
    obtain ⟨h1, h2, h3⟩ := L.row_thread k htd t j ht hj
    have hj' : j < 2 ^ k := by rw [← htd]; exact hj
    unfold TiledLaunch.maskIny TiledLaunch.boundsIn
    rw [hws, maskBit_ballot k L.blockSize hk _ t j _ hj']
    have hl : warpLane (2 ^ k) j = j := by
      rw [warpLane_eq_mod]
      exact Nat.mod_eq_of_lt hj'
    simp only [h1, h2, h3, hl, decide_True, Bool.true_and]
  have hout : ∀ j, j < L.TILEDIM →
      maskBit (L.maskOutx blockX t) j = L.boundsOut blockX t j := by
    intro j hj
    obtain ⟨h1, h2, h3⟩ := L.row_thread k htd t j ht hj
    have hj' : j < 2 ^ k := by rw [← htd]; exact hj
    unfold TiledLaunch.maskOutx TiledLaunch.boundsOut
    rw [hws, maskBit_ballot k L.blockSize hk _ t j _ hj']
    have hl : warpLane (2 ^ k) j = j := by
      rw [warpLane_eq_mod]
      exact Nat.mod_eq_of_lt hj'
    simp only [h1, h2, h3, hl, decide_True, Bool.true_and]
    exact Bool.and_comm _ _
  refine ⟨?_, ?_, ?_⟩
  · rw [hws, warpLane_eq_mod]
    exact Nat.mod_eq_of_lt htx
  · obtain ⟨steps, hsteps, hmem⟩ :=
      strideLoop_spec L.TILEROWS L.TILEDIM hrows L.TILEDIM 0 (by omega)
    refine ⟨steps, hsteps, ?_, ?_⟩
    · intro j
      rw [hmem j]
      simp
    · intro β add mk pos
      have hlt : ∀ j, j ∈ steps → j < L.TILEDIM := fun j hj => ((hmem j).mp hj).1
      exact ⟨tileLoop_eq_checked _ _ add mk steps pos (fun j hj => hin j (hlt j hj)),
        tileLoop_eq_checked _ _ add mk steps pos (fun j hj => hout j (hlt j hj)),
        tileLoop_eq_checked _ _ add mk steps pos (fun j hj => hin j (hlt j hj))⟩
  · intro j hj
    refine ⟨?_, ?_, hin j hj, hout j hj, hin j hj⟩
    · rw [hin j hj]
      simp [TiledLaunch.boundsIn]
    · rw [hout j hj]
      simp [TiledLaunch.boundsOut]

/-- Witness for C21: the block 3 (tile origin `(4, 4)`) of a launch with
4-wide warps and 4 by 2 threads on the tiled volume 6 by 5, thread 1
(`threadIdx = (1, 0)`).  Its `maskIny` is 1 (only row `yin + 0 = 4` is below
5), its `maskOutx` is 0 (`yout = 5` is outside), and the tests at the row
steps 0 and 2 are the bounds tests. -/
theorem boundary_mask_eq_bounds_test_witness :
    exTiledMask.maskIny 3 1 = 1 ∧ exTiledMask.maskOutx 3 1 = 0 ∧
    exTiledMask.maskOutx 3 0 = 3 ∧
    strideLoop exTiledMask.TILEROWS exTiledMask.TILEDIM exTiledMask.TILEDIM 0 = some [0, 2] ∧
    (maskBit (exTiledMask.maskIny 3 1) 0 = true ∧ maskBit (exTiledMask.maskIny 3 1) 2 = false) ∧
    ∀ j, j < exTiledMask.TILEDIM →
      (maskBit (exTiledMask.maskIny 3 1) j = true ↔
        (exTiledMask.bx 3 + exTiledMask.tx 1 < exTiledMask.tiledVolX ∧
          exTiledMask.by 3 + exTiledMask.ty 1 + j < exTiledMask.tiledVolY)) ∧
      (maskBit (exTiledMask.maskOutx 3 1) j = true ↔
        (exTiledMask.bx 3 + exTiledMask.ty 1 + j < exTiledMask.tiledVolX ∧
          exTiledMask.by 3 + exTiledMask.tx 1 < exTiledMask.tiledVolY)) :=
  ⟨by decide, by decide, by decide, by decide, by decide, fun j hj =>
    ⟨((boundary_mask_eq_bounds_test exTiledMask 2 rfl rfl (by decide) 3 1
        (by decide)).2.2 j hj).1,
      ((boundary_mask_eq_bounds_test exTiledMask 2 rfl rfl (by decide) 3 1
        (by decide)).2.2 j hj).2.1⟩⟩

/-- The loop `for (pos = lo; pos < hi; pos++)` ends and visits `lo, .., hi - 1`. -/
theorem strideLoop_one (hi : Nat) :
    ∀ (fuel lo : Nat), hi ≤ lo + fuel →
      strideLoop 1 hi fuel lo = some (List.range' lo (hi - lo)) := by
  intro fuel
  induction fuel with
  | zero =>
    intro lo h
    have e : hi - lo = 0 := by omega
    simp only [strideLoop, e, List.range'_zero]
    rw [if_neg (by omega)]
  | succ fuel ih =>
    intro lo h
    simp only [strideLoop]
    by_cases hlt : lo < hi
    · rw [if_pos hlt, ih (lo + 1) (by omega)]
      have e : hi - lo = (hi - (lo + 1)) + 1 := by omega
      rw [e, List.range'_succ]
    · have e : hi - lo = 0 := by omega
      rw [if_neg hlt, e, List.range'_zero]

/-- The C++ quotient of a non-negative number by a positive one: it is not
negative and it is the floor quotient. -/
theorem tdiv_bounds (a d : Int) (ha : 0 ≤ a) (hd : 0 < d) :
    0 ≤ Int.tdiv a d ∧ d * Int.tdiv a d ≤ a ∧ a < d * (Int.tdiv a d + 1) ∧
      Int.tdiv a d = a / d := by
  have e : Int.tdiv a d = a / d := Int.tdiv_eq_ediv ha (le_of_lt hd)
  have h1 := Int.emod_add_ediv a d
  have h2 := Int.emod_nonneg a (ne_of_gt hd)
  have h3 := Int.emod_lt_of_pos a hd
  have h4 : 0 ≤ a / d := Int.ediv_nonneg ha (le_of_lt hd)
  rw [e]
  refine ⟨h4, by linarith, by linarith, rfl⟩

/-- A quotient is below `k` when the dividend is below `d * k`. -/
theorem tdiv_lt_of_lt_mul (a d k : Int) (ha : 0 ≤ a) (hd : 0 < d) (h : a < d * k) :
    Int.tdiv a d < k := by
  obtain ⟨_, h2, _, _⟩ := tdiv_bounds a d ha hd
  have : d * Int.tdiv a d < d * k := lt_of_le_of_lt h2 h
  exact lt_of_mul_lt_mul_left this (le_of_lt hd)

/-- A larger divisor gives a quotient that is not larger. -/
theorem tdiv_le_of_divisor_le (a d d' : Int) (ha : 0 ≤ a) (hd : 0 < d) (hdd : d ≤ d') :
    Int.tdiv a d' ≤ Int.tdiv a d := by
  obtain ⟨h1, _, h3, _⟩ := tdiv_bounds a d ha hd
  have hlt : Int.tdiv a d' < Int.tdiv a d + 1 := by
    apply tdiv_lt_of_lt_mul a d' _ ha (lt_of_lt_of_le hd hdd)
    have : d * (Int.tdiv a d + 1) ≤ d' * (Int.tdiv a d + 1) :=
      mul_le_mul_of_nonneg_right hdd (by omega)
    omega
  omega

/-- The thread count derived from a register multiplicity `r ≥ 1`: at least
one warp, a multiple of the warp size, enough threads for the volume with `r`
registers each, and computed with a floor quotient. -/
theorem threadsFor_bounds (prop : DeviceProp) (V r : Int) (hV : 1 ≤ V)
    (hws : 1 ≤ prop.warpSize) (hr : 1 ≤ r) :
    prop.warpSize ≤ threadsFor prop V r ∧ V ≤ threadsFor prop V r * r ∧
      0 ≤ Int.tdiv (V - 1) (prop.warpSize * r) ∧
      threadsFor prop V r = ((V - 1) / (prop.warpSize * r) + 1) * prop.warpSize := by
  have hd : 0 < prop.warpSize * r := by positivity
  obtain ⟨h1, _, h3, h4⟩ := tdiv_bounds (V - 1) (prop.warpSize * r) (by omega) hd
  unfold threadsFor
  refine ⟨?_, ?_, h1, by rw [h4]⟩
  · nlinarith
  · have e : (Int.tdiv (V - 1) (prop.warpSize * r) + 1) * prop.warpSize * r
        = prop.warpSize * r * (Int.tdiv (V - 1) (prop.warpSize * r) + 1) := by ring
    rw [e]
    omega

/-- `minNumthread` is the thread count at `r = MAX_REG_STORAGE`. -/
theorem minNumthread_eq (E : Externals) (prop : DeviceProp) (V : Int) :
    minNumthread E prop V = threadsFor prop V E.MAX_REG_STORAGE := rfl

/-- `maxNumthread` is at least `minNumthread` once the thread-count check has
passed. -/
theorem minNumthread_le_max (E : Externals) (prop : DeviceProp) (V : Int) (hV : 1 ≤ V)
    (hws : 1 ≤ prop.warpSize) (hR : 1 ≤ E.MAX_REG_STORAGE)
    (hth : minNumthread E prop V ≤ prop.maxThreadsPerBlock) :
    prop.warpSize ≤ minNumthread E prop V ∧ minNumthread E prop V ≤ maxNumthread prop V := by
  have hb := threadsFor_bounds prop V E.MAX_REG_STORAGE hV hws hR
  rw [← minNumthread_eq] at hb
  refine ⟨hb.1, ?_⟩
  unfold maxNumthread
  apply le_min hth
  unfold minNumthread
  apply mul_le_mul_of_nonneg_right _ (by omega)
  have := tdiv_le_of_divisor_le (V - 1) prop.warpSize (prop.warpSize * E.MAX_REG_STORAGE)
    (by omega) (by omega) (by nlinarith)
  omega

/-- The scanned range of register multiplicities: it starts at 1 or above,
is not empty and ends at `MAX_REG_STORAGE` or below. -/
theorem regStorage_range (E : Externals) (prop : DeviceProp) (V : Int) (hV : 1 ≤ V)
    (hws : 1 ≤ prop.warpSize) (hR : 1 ≤ E.MAX_REG_STORAGE)
    (hth : minNumthread E prop V ≤ prop.maxThreadsPerBlock) :
    1 ≤ minNumRegStorage prop V ∧ minNumRegStorage prop V ≤ maxNumRegStorage E prop V ∧
      maxNumRegStorage E prop V ≤ E.MAX_REG_STORAGE := by
  obtain ⟨hmin, hle⟩ := minNumthread_le_max E prop V hV hws hR hth
  have hminpos : 0 < minNumthread E prop V := by omega
  refine ⟨minNumRegStorage_pos E prop V hV hws hR hth, ?_, ?_⟩
  · unfold minNumRegStorage maxNumRegStorage
    have := tdiv_le_of_divisor_le (V - 1) (minNumthread E prop V) (maxNumthread prop V)
      (by omega) hminpos hle
    omega
  · unfold maxNumRegStorage
    have hb := threadsFor_bounds prop V E.MAX_REG_STORAGE hV hws hR
    rw [← minNumthread_eq] at hb
    have := tdiv_lt_of_lt_mul (V - 1) (minNumthread E prop V) E.MAX_REG_STORAGE (by omega)
      hminpos (by omega)
    omega

/-- With `maxThreadsPerBlock` a positive multiple of the warp size, every
register multiplicity from `minNumRegStorage` on gives a thread count within
`maxNumthread`, so within `maxThreadsPerBlock`. -/
theorem threadsFor_le_max (prop : DeviceProp) (V r m : Int) (hV : 1 ≤ V)
    (hws : 1 ≤ prop.warpSize) (hm : 1 ≤ m)
    (hmul : prop.maxThreadsPerBlock = m * prop.warpSize)
    (hr : minNumRegStorage prop V ≤ r) :
    1 ≤ r ∧ threadsFor prop V r ≤ maxNumthread prop V ∧
      maxNumthread prop V ≤ prop.maxThreadsPerBlock := by
  obtain ⟨hq2, _, _, _⟩ := tdiv_bounds (V - 1) prop.warpSize (by omega) (by omega)
  -- maxNumthread is M warps
  have hM : ∃ M : Int, 1 ≤ M ∧ maxNumthread prop V = M * prop.warpSize := by
    unfold maxNumthread
    rw [hmul]
    by_cases hc : m ≤ Int.tdiv (V - 1) prop.warpSize + 1
    · exact ⟨m, hm, min_eq_left (mul_le_mul_of_nonneg_right hc (by omega))⟩
    · exact ⟨Int.tdiv (V - 1) prop.warpSize + 1, by omega,
        min_eq_right (mul_le_mul_of_nonneg_right (by omega) (by omega))⟩
  obtain ⟨M, hM1, hMeq⟩ := hM
  have hmaxpos : 0 < maxNumthread prop V := by rw [hMeq]; positivity
  obtain ⟨hq3, _, hq3', _⟩ := tdiv_bounds (V - 1) (maxNumthread prop V) (by omega) hmaxpos
  have hr1 : 1 ≤ r := by
    unfold minNumRegStorage at hr
    omega
  have hlt : V - 1 < prop.warpSize * r * M := by
    have h1 : maxNumthread prop V * (Int.tdiv (V - 1) (maxNumthread prop V) + 1)
        ≤ maxNumthread prop V * r := by
      apply mul_le_mul_of_nonneg_left _ (le_of_lt hmaxpos)
      unfold minNumRegStorage at hr
      exact hr
    have e : prop.warpSize * r * M = maxNumthread prop V * r := by rw [hMeq]; ring
    rw [e]
    omega
  have hq := tdiv_lt_of_lt_mul (V - 1) (prop.warpSize * r) M (by omega) (by positivity) hlt
  refine ⟨hr1, ?_, ?_⟩
  · unfold threadsFor
    rw [hMeq]
    exact mul_le_mul_of_nonneg_right (by omega) (by omega)
  · unfold maxNumthread
    exact min_le_left _ _

/-- What the Packed / PackedSplit planner leaves.  Every candidate it visited
has a register multiplicity of the scanned range and the thread count
derived from it, the candidates being those of the range in increasing
order; and when it returns a nonzero value, the shared-memory and
thread-count checks have passed and the launch configuration holds the
register multiplicity of one of the candidates with the thread count derived
from it, in a block of `numthread.x` by 1 by 1 threads. -/
theorem planPacked_result (E : Externals) (sizeofType : Int) (ts : TensorSplit)
    (deviceID : Int) (prop : DeviceProp) (lc : LaunchConfig) (st : HostState)
    (ret : Int) (lc' : LaunchConfig) (st' : HostState) (tr : List Candidate)
    (h : planPacked E sizeofType ts deviceID prop lc st = some (ret, lc', st', tr)) :
    (∀ c, c ∈ tr → minNumRegStorage prop (planVolume ts) ≤ c.numRegStorage ∧
      c.numRegStorage ≤ maxNumRegStorage E prop (planVolume ts) ∧
      c.numthreadX = threadsFor prop (planVolume ts) c.numRegStorage) ∧
    (ret ≠ 0 →
      E.shmemAlloc ts sizeofType ≤ prop.sharedMemPerBlock ∧
      minNumthread E prop (planVolume ts) ≤ prop.maxThreadsPerBlock ∧
      tr.map Candidate.numRegStorage
        = (List.range (maxNumRegStorage E prop (planVolume ts) + 1
              - minNumRegStorage prop (planVolume ts)).toNat).map
            (fun (i : Nat) => minNumRegStorage prop (planVolume ts) + (i : Int)) ∧
      ∃ c, c ∈ tr ∧ lc'.numRegStorage = c.numRegStorage ∧
        lc'.numthread.x = threadsFor prop (planVolume ts) c.numRegStorage ∧
        lc'.numthread.y = 1 ∧ lc'.numthread.z = 1) := by
  unfold planPacked at h
  simp only at h
  split at h
  · simp only [Option.some.injEq, Prod.mk.injEq] at h
    obtain ⟨h1, _, _, h4⟩ := h
    subst h4
    exact ⟨fun c hc => absurd hc (List.not_mem_nil c), fun hret => absurd h1.symm hret⟩
  · next hsh =>
    split at h
    · simp only [Option.some.injEq, Prod.mk.injEq] at h
      obtain ⟨h1, _, _, h4⟩ := h
      subst h4
      exact ⟨fun c hc => absurd hc (List.not_mem_nil c), fun hret => absurd h1.symm hret⟩
    · next hth =>
      split at h
      · exact absurd h (by simp)
      · next lc2 best st2 tr2 hscan =>
        obtain ⟨hmap, hthr, hbest⟩ := scanLoop_spec _ _ _ _ _ _ _ _ _ _ _ _ _ _ _ hscan
        have hfr := scanLoop_frame _ _ _ _ _ _ _ _ _ _ _ _ _ _ _ hscan
        have hg := packedGrid_numthread ts prop { lc with shmemsize := E.shmemAlloc ts sizeofType }
        have hrange : ∀ c, c ∈ tr2 →
            minNumRegStorage prop (planVolume ts) ≤ c.numRegStorage ∧
            c.numRegStorage ≤ maxNumRegStorage E prop (planVolume ts) ∧
            c.numthreadX = threadsFor prop (planVolume ts) c.numRegStorage := by
          intro c hc
          have hm : c.numRegStorage ∈ tr2.map Candidate.numRegStorage :=
            List.mem_map_of_mem _ hc
          rw [hmap] at hm
          have := mem_range_map_add _ _ _ hm
          refine ⟨this.1, ?_, hthr c hc⟩
          omega
        split at h
        · simp only [Option.some.injEq, Prod.mk.injEq] at h
          obtain ⟨h1, _, _, h4⟩ := h
          subst h4
          exact ⟨hrange, fun hret => absurd h1.symm hret⟩
        · next hbz =>
          obtain ⟨hlc, htr, _⟩ := finishPlan_spec _ _ _ _ _ _ _ _ _ _ _ _ _ h
          subst hlc htr
          refine ⟨hrange, fun _ => ⟨Nat.le_of_not_lt hsh, le_of_not_lt hth, hmap, ?_⟩⟩
          rcases hbest with ⟨hb, _⟩ | ⟨c, hc, hb, _⟩
          · rw [hb] at hbz
            exact absurd rfl hbz
          · refine ⟨c, hc, ?_, ?_, ?_, ?_⟩
            · rw [hb]
            · rw [hb]
            · show lc2.numthread.y = 1
              rw [hfr.2.2.1]
              exact hg.1
            · show lc2.numthread.z = 1
              rw [hfr.2.2.2]
              exact hg.2

/-- The planner is `planPacked` for the two packed methods. -/
theorem planner_eq_planPacked (E : Externals) (sizeofType : Int) (ts : TensorSplit)
    (deviceID : Int) (prop : DeviceProp) (lc : LaunchConfig) (st : HostState)
    (hm : ts.method = Method.Packed ∨ ts.method = Method.PackedSplit) :
    cuttKernelLaunchConfiguration E sizeofType ts deviceID prop lc st
      = planPacked E sizeofType ts deviceID prop lc st := by
  unfold cuttKernelLaunchConfiguration
  rcases hm with h | h <;> rw [h]

/-- C23 (the planner's register range is valid).  For Packed
(`V = ts.volMmk`) and PackedSplit (`V = volMmkWithSplit`), with `V ≥ 1`,
`warpSize ≥ 1`, `MAX_REG_STORAGE ≥ 1` and
`minNumthread ≤ prop.maxThreadsPerBlock`:
`1 ≤ minNumRegStorage ≤ maxNumRegStorage ≤ MAX_REG_STORAGE`; hence the scan
has at least one candidate, every candidate the planner visits has a
register multiplicity in `[1, MAX_REG_STORAGE]`, and so has the launch
configuration whenever the planner returns a nonzero value. -/
theorem register_range_valid (E : Externals) (sizeofType : Int) (ts : TensorSplit)
    (deviceID : Int) (prop : DeviceProp) (lc : LaunchConfig) (st : HostState)
    (hm : ts.method = Method.Packed ∨ ts.method = Method.PackedSplit)
    (hV : 1 ≤ planVolume ts) (hws : 1 ≤ prop.warpSize) (hR : 1 ≤ E.MAX_REG_STORAGE)
    (hth : minNumthread E prop (planVolume ts) ≤ prop.maxThreadsPerBlock) :
    (1 ≤ minNumRegStorage prop (planVolume ts) ∧
      minNumRegStorage prop (planVolume ts) ≤ maxNumRegStorage E prop (planVolume ts) ∧
      maxNumRegStorage E prop (planVolume ts) ≤ E.MAX_REG_STORAGE) ∧
    1 ≤ (maxNumRegStorage E prop (planVolume ts) + 1
          - minNumRegStorage prop (planVolume ts)).toNat ∧
    ∀ (ret : Int) (lc' : LaunchConfig) (st' : HostState) (tr : List Candidate),
      cuttKernelLaunchConfiguration E sizeofType ts deviceID prop lc st
        = some (ret, lc', st', tr) →
      (∀ c, c ∈ tr → 1 ≤ c.numRegStorage ∧ c.numRegStorage ≤ E.MAX_REG_STORAGE) ∧
      (ret ≠ 0 →
        tr ≠ [] ∧
        minNumRegStorage prop (planVolume ts) ≤ lc'.numRegStorage ∧
        lc'.numRegStorage ≤ maxNumRegStorage E prop (planVolume ts) ∧
        1 ≤ lc'.numRegStorage ∧ lc'.numRegStorage ≤ E.MAX_REG_STORAGE) := by
  have hr := regStorage_range E prop (planVolume ts) hV hws hR hth
  refine ⟨hr, by omega, ?_⟩
  intro ret lc' st' tr h
  rw [planner_eq_planPacked E sizeofType ts deviceID prop lc st hm] at h
  obtain ⟨hc, hsel⟩ := planPacked_result _ _ _ _ _ _ _ _ _ _ _ h
  constructor
  · intro c hcm
    have := hc c hcm
    omega
  · intro hret
    obtain ⟨_, _, _, c, hcm, hrc, _⟩ := hsel hret
    have := hc c hcm
    refine ⟨List.ne_nil_of_mem hcm, ?_, ?_, ?_, ?_⟩ <;> omega

/-- Witness for C23: Packed with a minor volume of 256 on the 64-wide example
device with `MAX_REG_STORAGE = 8`: `minNumthread = 64`, the range is
`1 .. 4`, and the planner keeps `r = 2`. -/
theorem register_range_valid_witness :
    minNumthread exE exProp (planVolume (exTs Method.Packed)) = 64 ∧
    minNumRegStorage exProp (planVolume (exTs Method.Packed)) = 1 ∧
    maxNumRegStorage exE exProp (planVolume (exTs Method.Packed)) = 4 ∧
    (1 ≤ minNumRegStorage exProp (planVolume (exTs Method.Packed)) ∧
      minNumRegStorage exProp (planVolume (exTs Method.Packed))
        ≤ maxNumRegStorage exE exProp (planVolume (exTs Method.Packed)) ∧
      maxNumRegStorage exE exProp (planVolume (exTs Method.Packed)) ≤ exE.MAX_REG_STORAGE) :=
  ⟨by decide, by decide, by decide,
    (register_range_valid exE 4 (exTs Method.Packed) 0 exProp lcZero HostState.init
      (Or.inl rfl) (by decide) (by decide) (by decide) (by decide)).1⟩

/-- When `minNumthread` exceeds `prop.maxThreadsPerBlock` the Packed /
PackedSplit planner returns 0 before the scan, the host state untouched. -/
theorem planPacked_too_many_threads (E : Externals) (sizeofType : Int) (ts : TensorSplit)
    (deviceID : Int) (prop : DeviceProp) (lc : LaunchConfig) (st : HostState)
    (h : minNumthread E prop (planVolume ts) > prop.maxThreadsPerBlock) :
    planPacked E sizeofType ts deviceID prop lc st
      = some (0, { lc with shmemsize := E.shmemAlloc ts sizeofType }, st, []) := by
  unfold planPacked
  simp only [h, if_true]
  split <;> rfl

/-- C24 (the planner's thread count respects the device limit).  For Packed
and PackedSplit with `V ≥ 1` and `warpSize ≥ 1`, if
`prop.maxThreadsPerBlock` is a positive multiple of `prop.warpSize`: for
every `r` of `[minNumRegStorage, maxNumRegStorage]` the thread count
`(floor((V-1)/(warpSize*r)) + 1)*warpSize` is at least `warpSize` and at most
`prop.maxThreadsPerBlock`; so is the thread count of every candidate the
planner visits and the one it leaves in `lc` with a nonzero return value;
`minNumthread` is the thread count at `r = MAX_REG_STORAGE`, and when it
exceeds `prop.maxThreadsPerBlock` the planner returns 0, with no candidate
visited and the host state untouched. -/
theorem thread_count_within_limit (E : Externals) (sizeofType : Int) (ts : TensorSplit)
    (deviceID : Int) (prop : DeviceProp) (lc : LaunchConfig) (st : HostState)
    (hm : ts.method = Method.Packed ∨ ts.method = Method.PackedSplit)
    (hV : 1 ≤ planVolume ts) (hws : 1 ≤ prop.warpSize)
    (m : Int) (hm1 : 1 ≤ m) (hmul : prop.maxThreadsPerBlock = m * prop.warpSize) :
    (∀ r, minNumRegStorage prop (planVolume ts) ≤ r →
      r ≤ maxNumRegStorage E prop (planVolume ts) →
      threadsFor prop (planVolume ts) r
        = ((planVolume ts - 1) / (prop.warpSize * r) + 1) * prop.warpSize ∧
      prop.warpSize ≤ threadsFor prop (planVolume ts) r ∧
      threadsFor prop (planVolume ts) r ≤ prop.maxThreadsPerBlock) ∧
    (∀ (ret : Int) (lc' : LaunchConfig) (st' : HostState) (tr : List Candidate),
      cuttKernelLaunchConfiguration E sizeofType ts deviceID prop lc st
        = some (ret, lc', st', tr) →
      (∀ c, c ∈ tr → prop.warpSize ≤ c.numthreadX ∧
        c.numthreadX ≤ prop.maxThreadsPerBlock) ∧
      (ret ≠ 0 → prop.warpSize ≤ lc'.numthread.x ∧
        lc'.numthread.x ≤ prop.maxThreadsPerBlock)) ∧
    minNumthread E prop (planVolume ts) = threadsFor prop (planVolume ts) E.MAX_REG_STORAGE ∧
    (minNumthread E prop (planVolume ts) > prop.maxThreadsPerBlock →
      ∃ lc', cuttKernelLaunchConfiguration E sizeofType ts deviceID prop lc st
        = some (0, lc', st, [])) := by
  have hall : ∀ r, minNumRegStorage prop (planVolume ts) ≤ r →
      threadsFor prop (planVolume ts) r
        = ((planVolume ts - 1) / (prop.warpSize * r) + 1) * prop.warpSize ∧
      prop.warpSize ≤ threadsFor prop (planVolume ts) r ∧
      threadsFor prop (planVolume ts) r ≤ prop.maxThreadsPerBlock := by
    intro r hr
    obtain ⟨hr1, h1, h2⟩ := threadsFor_le_max prop (planVolume ts) r m hV hws hm1 hmul hr
    obtain ⟨h3, _, _, h4⟩ := threadsFor_bounds prop (planVolume ts) r hV hws hr1
    exact ⟨h4, h3, le_trans h1 h2⟩
  refine ⟨fun r hr _ => hall r hr, ?_, rfl, ?_⟩
  · intro ret lc' st' tr h
    rw [planner_eq_planPacked E sizeofType ts deviceID prop lc st hm] at h
    obtain ⟨hc, hsel⟩ := planPacked_result _ _ _ _ _ _ _ _ _ _ _ h
    constructor
    · intro c hcm
      obtain ⟨h1, _, h3⟩ := hc c hcm
      rw [h3]
      exact (hall c.numRegStorage h1).2
    · intro hret
      obtain ⟨_, _, _, c, hcm, _, hx, _⟩ := hsel hret
      rw [hx]
      exact (hall c.numRegStorage (hc c hcm).1).2
  · intro hgt
    rw [planner_eq_planPacked E sizeofType ts deviceID prop lc st hm]
    exact ⟨_, planPacked_too_many_threads E sizeofType ts deviceID prop lc st hgt⟩

/-- Witness for C24: the example volume of 256 on the 64-wide example device
with 1024 = 16 * 64 threads per block: the candidates 1..4 have 256, 128,
128 and 64 threads. -/
theorem thread_count_within_limit_witness :
    (List.range 4).map (fun (i : Nat) => threadsFor exProp (planVolume (exTs Method.Packed)) (1 + i))
      = [256, 128, 128, 64] ∧
    (∀ r, minNumRegStorage exProp (planVolume (exTs Method.Packed)) ≤ r →
      r ≤ maxNumRegStorage exE exProp (planVolume (exTs Method.Packed)) →
      threadsFor exProp (planVolume (exTs Method.Packed)) r
        = ((planVolume (exTs Method.Packed) - 1) / (exProp.warpSize * r) + 1)
            * exProp.warpSize ∧
      exProp.warpSize ≤ threadsFor exProp (planVolume (exTs Method.Packed)) r ∧
      threadsFor exProp (planVolume (exTs Method.Packed)) r ≤ exProp.maxThreadsPerBlock) :=
  ⟨by decide,
    (thread_count_within_limit exE 4 (exTs Method.Packed) 0 exProp lcZero HostState.init
      (Or.inl rfl) (by decide) (by decide) 16 (by decide) (by decide)).1⟩

/-- A split volume is at most `ceil(splitDim / numSplit)`. -/
theorem exactVol_le_ceil (D G s : Nat) (hG : 1 ≤ G) :
    exactVol D G s ≤ D / G + (if D % G > 0 then 1 else 0) := by
  by_cases h : D % G > 0
  · rw [if_pos h]
    exact (exactVol_bounds D G s hG).2
  · rw [if_neg h, Nat.add_zero]
    have h0 : D % G = 0 := by omega
    have hD : D = G * (D / G) := by
      have := Nat.div_add_mod D G
      omega
    have e1 : (s + 1) * D / G = (s + 1) * (D / G) := by
      conv_lhs => rw [hD]
      rw [Nat.mul_left_comm, Nat.mul_div_cancel_left _ hG]
    have e2 : s * D / G = s * (D / G) := by
      conv_lhs => rw [hD]
      rw [Nat.mul_left_comm, Nat.mul_div_cancel_left _ hG]
    unfold exactVol exactP0
    have e3 : (s + 1) * (D / G) = s * (D / G) + D / G := by ring
    rw [e1, e2, e3, Nat.add_sub_cancel_left]

/-- The volume `volMmkWithSplit` in natural numbers. -/
theorem planVolume_split (ts : TensorSplit) (D G : Nat) (hm : ts.method = Method.PackedSplit)
    (hD : ts.splitDim = (D : Int)) (hG : ts.numSplit = (G : Int)) :
    planVolume ts = ((D / G + (if D % G > 0 then 1 else 0) : Nat) : Int) * ts.volMmkUnsplit := by
  unfold planVolume
  rw [hm]
  simp only [hD, hG]
  rw [Int.tdiv_eq_ediv (Int.ofNat_nonneg _) (Int.ofNat_nonneg _),
    Int.tmod_eq_emod (Int.ofNat_nonneg _) (Int.ofNat_nonneg _)]
  by_cases h : D % G > 0
  · have h' : ((D : Int) % (G : Int)) > 0 := by
      have : ((D % G : Nat) : Int) > 0 := by exact_mod_cast h
      simpa using this
    rw [if_pos h, if_pos h']
    push_cast
    rfl
  · have h' : ¬ ((D : Int) % (G : Int)) > 0 := by
      intro hc
      apply h
      have : ((D % G : Nat) : Int) > 0 := by simpa using hc
      exact_mod_cast this
    rw [if_neg h, if_neg h']
    push_cast
    rfl

/-- The ceiling `ceil(d / G)` as the planner forms it. -/
theorem ceil_eq_div (d G : Nat) (hG : 1 ≤ G) :
    d / G + (if d % G > 0 then 1 else 0) = (d + (G - 1)) / G := by
  have h1 := Nat.div_add_mod d G
  have h2 := Nat.mod_lt d hG
  have h3 : G * (d / G + 1) = G * (d / G) + G := Nat.mul_succ _ _
  generalize d / G = q at h1 h3 ⊢
  generalize d % G = r at h1 h2 ⊢
  by_cases h : r > 0
  · rw [if_pos h]
    have e : d + (G - 1) = (r - 1) + G * (q + 1) := by omega
    rw [e, Nat.add_mul_div_left _ _ hG, Nat.div_eq_of_lt (by omega)]
    omega
  · rw [if_neg h, Nat.add_zero]
    have e : d + (G - 1) = (G - 1) + G * q := by omega
    rw [e, Nat.add_mul_div_left _ _ hG, Nat.div_eq_of_lt (by omega)]
    omega

/-- The split volume that a block computes is at most
`ceil(splitDim / numSplit)`, also when a product `blockIdx.x*splitDim` is
reduced modulo 2^32. -/
theorem splitVol_le_ceil (D G s : Nat) (hG : 1 ≤ G) :
    splitVol D G s ≤ ((D / G + (if D % G > 0 then 1 else 0) : Nat) : Int) := by
  have hstep : ∀ a d, (a + d) / G ≤ a / G + (d + (G - 1)) / G := by
    intro a d
    have h1 := Nat.div_add_mod a G
    have h2 := Nat.mod_lt a hG
    have h3 : a + d ≤ (d + (G - 1)) + G * (a / G) := by
      generalize G * (a / G) = x at h1 ⊢
      omega
    calc (a + d) / G ≤ ((d + (G - 1)) + G * (a / G)) / G := Nat.div_le_div_right h3
      _ = (d + (G - 1)) / G + a / G := Nat.add_mul_div_left _ _ hG
      _ = a / G + (d + (G - 1)) / G := Nat.add_comm _ _
  have hmono : (D % 4294967296 + (G - 1)) / G ≤ (D + (G - 1)) / G :=
    Nat.div_le_div_right (Nat.add_le_add_right (Nat.mod_le _ _) _)
  have hb : (s + 1) * D % 4294967296 = (s * D % 4294967296 + D % 4294967296) % 4294967296 := by
    have e : (s + 1) * D = s * D + D := by ring
    rw [e, Nat.add_mod]
  have ha := Nat.mod_lt (s * D) (show 0 < 4294967296 by decide)
  have hd := Nat.mod_lt D (show 0 < 4294967296 by decide)
  unfold splitVol splitP0
  rw [hb, ceil_eq_div D G hG]
  clear hb
  generalize s * D % 4294967296 = a at ha ⊢
  generalize D % 4294967296 = d at hd hmono ⊢
  rcases Nat.lt_or_ge (a + d) 4294967296 with h | h
  · rw [Nat.mod_eq_of_lt h]
    have h1 := hstep a d
    generalize (a + d) / G = x at h1 ⊢
    generalize a / G = y at h1 ⊢
    generalize (d + (G - 1)) / G = z at h1 hmono ⊢
    generalize (D + (G - 1)) / G = w at hmono ⊢
    omega
  · have e : (a + d) % 4294967296 = a + d - 4294967296 := by omega
    rw [e]
    have h1 : (a + d - 4294967296) / G ≤ a / G := Nat.div_le_div_right (by omega)
    generalize (a + d - 4294967296) / G = x at h1 ⊢
    generalize a / G = y at h1 ⊢
    generalize (D + (G - 1)) / G = w
    omega

/-- C25 (the planner's output covers the minor volume).  For Packed and
PackedSplit with `V ≥ 1`, `warpSize ≥ 1` and `MAX_REG_STORAGE ≥ 1`, whenever
`cuttKernelLaunchConfiguration` returns a nonzero value: `lc.numthread.x` is
a positive multiple of `prop.warpSize` and `lc.numRegStorage ≥ 1`; for
Packed `lc.numthread.x * lc.numRegStorage ≥ ts.volMmk`; for PackedSplit
`lc.numthread.x * lc.numRegStorage ≥ volSplit(s) * ts.volMmkUnsplit` for
every split index `s < ts.numSplit`, `volSplit(s)` being the split volume
`floor((s+1)*splitDim/numSplit) - floor(s*splitDim/numSplit)`, and also the
value that the kernel computes for it in 32-bit arithmetic; and every minor
index `p` below the volume of a block is
`t + j*lc.numthread.x` for a thread `t < lc.numthread.x` and a register slot
`j < lc.numRegStorage`. -/
theorem planner_covers_minor_volume (E : Externals) (sizeofType : Int) (ts : TensorSplit)
    (deviceID : Int) (prop : DeviceProp) (lc : LaunchConfig) (st : HostState)
    (ret : Int) (lc' : LaunchConfig) (st' : HostState) (tr : List Candidate)
    (hm : ts.method = Method.Packed ∨ ts.method = Method.PackedSplit)
    (hV : 1 ≤ planVolume ts) (hws : 1 ≤ prop.warpSize) (hR : 1 ≤ E.MAX_REG_STORAGE)
    (h : cuttKernelLaunchConfiguration E sizeofType ts deviceID prop lc st
      = some (ret, lc', st', tr))
    (hret : ret ≠ 0) :
    (∃ q : Int, 1 ≤ q ∧ lc'.numthread.x = q * prop.warpSize) ∧
    1 ≤ lc'.numRegStorage ∧
    (ts.method = Method.Packed → ts.volMmk ≤ lc'.numthread.x * lc'.numRegStorage) ∧
    (ts.method = Method.PackedSplit → 0 ≤ ts.splitDim → 1 ≤ ts.numSplit →
      ∀ s : Nat, (s : Int) < ts.numSplit →
        (exactVol ts.splitDim.toNat ts.numSplit.toNat s : Int) * ts.volMmkUnsplit
            ≤ lc'.numthread.x * lc'.numRegStorage ∧
          splitVol ts.splitDim.toNat ts.numSplit.toNat s * ts.volMmkUnsplit
            ≤ lc'.numthread.x * lc'.numRegStorage) ∧
    (∀ p : Int, 0 ≤ p → p < planVolume ts →
      ∃ t j : Int, 0 ≤ t ∧ t < lc'.numthread.x ∧ 0 ≤ j ∧ j < lc'.numRegStorage ∧
        p = t + j * lc'.numthread.x) := by
  rw [planner_eq_planPacked E sizeofType ts deviceID prop lc st hm] at h
  obtain ⟨hc, hsel⟩ := planPacked_result _ _ _ _ _ _ _ _ _ _ _ h
  obtain ⟨_, hth, _, c, hcm, hrc, hx, _⟩ := hsel hret
  have hrange := regStorage_range E prop (planVolume ts) hV hws hR hth
  have hr1 : 1 ≤ c.numRegStorage := by
    have := (hc c hcm).1
    omega
  obtain ⟨hb1, hb2, hb3, _⟩ := threadsFor_bounds prop (planVolume ts) c.numRegStorage hV hws hr1
  have hcover : planVolume ts ≤ lc'.numthread.x * lc'.numRegStorage := by
    rw [hx, hrc]
    exact hb2
  have hxpos : 1 ≤ lc'.numthread.x := by
    rw [hx]
    omega
  refine ⟨⟨Int.tdiv (planVolume ts - 1) (prop.warpSize * c.numRegStorage) + 1, by omega, ?_⟩,
    by rw [hrc]; exact hr1, ?_, ?_, ?_⟩
  · rw [hx]
    rfl
  · intro hp
    have e : planVolume ts = ts.volMmk := by
      unfold planVolume
      rw [hp]
    rw [← e]
    exact hcover
  · intro hp hD hG s hs
    obtain ⟨D, hDe⟩ := Int.eq_ofNat_of_zero_le hD
    obtain ⟨G, hGe⟩ := Int.eq_ofNat_of_zero_le (show 0 ≤ ts.numSplit by omega)
    have hG1 : 1 ≤ G := by omega
    have hvol := planVolume_split ts D G hp hDe hGe
    have hle := exactVol_le_ceil D G s hG1
    have hle' : (exactVol D G s : Int) ≤ ((D / G + (if D % G > 0 then 1 else 0) : Nat) : Int) := by
      exact_mod_cast hle
    have hu : 0 ≤ ts.volMmkUnsplit := by
      by_contra hneg
      have h1 : (0 : Int) ≤ ((D / G + (if D % G > 0 then 1 else 0) : Nat) : Int) :=
        Int.ofNat_nonneg _
      have : ((D / G + (if D % G > 0 then 1 else 0) : Nat) : Int) * ts.volMmkUnsplit ≤ 0 :=
        mul_nonpos_of_nonneg_of_nonpos h1 (by omega)
      omega
    rw [hDe, hGe, Int.toNat_ofNat, Int.toNat_ofNat]
    constructor
    · calc (exactVol D G s : Int) * ts.volMmkUnsplit
          ≤ ((D / G + (if D % G > 0 then 1 else 0) : Nat) : Int) * ts.volMmkUnsplit :=
            mul_le_mul_of_nonneg_right hle' hu
        _ = planVolume ts := hvol.symm
        _ ≤ lc'.numthread.x * lc'.numRegStorage := hcover
    · calc splitVol D G s * ts.volMmkUnsplit
          ≤ ((D / G + (if D % G > 0 then 1 else 0) : Nat) : Int) * ts.volMmkUnsplit :=
            mul_le_mul_of_nonneg_right (splitVol_le_ceil D G s hG1) hu
        _ = planVolume ts := hvol.symm
        _ ≤ lc'.numthread.x * lc'.numRegStorage := hcover
  · intro p hp0 hpV
    have hn : 0 < lc'.numthread.x := by omega
    refine ⟨p % lc'.numthread.x, p / lc'.numthread.x, Int.emod_nonneg p (ne_of_gt hn),
      Int.emod_lt_of_pos p hn, Int.ediv_nonneg hp0 (le_of_lt hn), ?_, ?_⟩
    · apply Int.ediv_lt_of_lt_mul hn
      rw [Int.mul_comm]
      omega
    · have := Int.emod_add_ediv p lc'.numthread.x
      rw [Int.mul_comm] at this
      exact this.symm

/-- Witness for C25: Packed with a minor volume of 256 on the 64-wide example
device.  The planner returns 16 with 128 threads and 2 registers each:
`128 = 2 * 64` and `128 * 2 ≥ 256`. -/
theorem planner_covers_minor_volume_witness :
    (∃ q : Int, 1 ≤ q ∧ exLcPacked.numthread.x = q * exProp.warpSize) ∧
    1 ≤ exLcPacked.numRegStorage ∧
    ((exTs Method.Packed).method = Method.Packed →
      (exTs Method.Packed).volMmk ≤ exLcPacked.numthread.x * exLcPacked.numRegStorage) ∧
    (exTs Method.Packed).volMmk = 256 ∧ exLcPacked.numthread.x * exLcPacked.numRegStorage = 256 :=
  have h := planner_covers_minor_volume exE 4 (exTs Method.Packed) 0 exProp lcZero
    HostState.init 16 exLcPacked ⟨-1, fun _ => -1, 4⟩
    [⟨1, 256, 8⟩, ⟨2, 128, 16⟩, ⟨3, 128, 16⟩, ⟨4, 64, 16⟩]
    (Or.inl rfl) (by decide) (by decide) (by decide) rfl (by decide)
  ⟨h.1, h.2.1, h.2.2.1, by decide, by decide⟩

/-- The Packed / PackedSplit planner returns when no thread count of the
scanned range reaches `MAX_NUMWARP` warps. -/
theorem planPacked_some (E : Externals) (sizeofType : Int) (ts : TensorSplit)
    (deviceID : Int) (prop : DeviceProp) (lc : LaunchConfig) (st : HostState)
    (hkw : ts.method = Method.PackedSplit →
      minNumthread E prop (planVolume ts) ≤ prop.maxThreadsPerBlock →
      ∀ r, minNumRegStorage prop (planVolume ts) ≤ r →
        r ≤ maxNumRegStorage E prop (planVolume ts) →
        keyWarpFor prop (planVolume ts) r < MAX_NUMWARP) :
    ∃ res, planPacked E sizeofType ts deviceID prop lc st = some res := by
  unfold planPacked
  simp only
  split
  · exact ⟨_, rfl⟩
  · split
    · exact ⟨_, rfl⟩
    · next hth =>
      have hth' := le_of_not_lt hth
      have hg := packedGrid_numthread ts prop { lc with shmemsize := E.shmemAlloc ts sizeofType }
      obtain ⟨⟨lc2, best, st2, tr⟩, hscan⟩ := scanLoop_some E sizeofType ts deviceID prop
        (planVolume ts) (maxNumRegStorage E prop (planVolume ts) + 1
          - minNumRegStorage prop (planVolume ts)).toNat (minNumRegStorage prop (planVolume ts))
        (packedGrid ts prop { lc with shmemsize := E.shmemAlloc ts sizeofType }) ⟨0, 0, 0⟩ st
        hg.1 hg.2 (fun hm i hi => hkw hm hth' _ (by omega) (by omega))
      obtain ⟨hmap, _, hbest⟩ := scanLoop_spec _ _ _ _ _ _ _ _ _ _ _ _ _ _ _ hscan
      have hfr := scanLoop_frame _ _ _ _ _ _ _ _ _ _ _ _ _ _ _ hscan
      simp only [hscan]
      split
      · exact ⟨_, rfl⟩
      · next hbz =>
        unfold finishPlan
        split
        · exact ⟨_, rfl⟩
        · split
          · have hkey : ts.method = Method.PackedSplit →
                Int.tdiv (threadsFor prop (planVolume ts) best.bestNumRegStorage
                  * lc2.numthread.y * lc2.numthread.z) prop.warpSize - 1 < MAX_NUMWARP := by
              intro hm
              rw [hfr.2.2.1, hfr.2.2.2, hg.1, hg.2]
              rcases hbest with ⟨hb, _⟩ | ⟨c, hc, hb, _⟩
              · rw [hb] at hbz
                exact absurd rfl hbz
              · rw [hb]
                have hcm : c.numRegStorage ∈ tr.map Candidate.numRegStorage :=
                  List.mem_map_of_mem _ hc
                rw [hmap] at hcm
                have := mem_range_map_add _ _ _ hcm
                have hhi : c.numRegStorage ≤ maxNumRegStorage E prop (planVolume ts) := by
                  omega
                exact hkw hm hth' c.numRegStorage this.1 hhi
            obtain ⟨⟨v, st1⟩, hcall⟩ := getNumActiveBlock_some E ts.method sizeofType
              { lc2 with
                numRegStorage := best.bestNumRegStorage,
                numthread := { lc2.numthread with
                  x := threadsFor prop (planVolume ts) best.bestNumRegStorage } }
              deviceID prop st2 hkey
            simp only [hcall]
            exact ⟨_, rfl⟩
          · exact ⟨_, rfl⟩

/-- C26 (no fatal cache-key overflow on a 64-wide device).  For PackedSplit
with `V ≥ 1` and `MAX_REG_STORAGE ≥ 1`, if `prop.warpSize = 64` and
`prop.maxThreadsPerBlock` is a multiple of 64 not exceeding 1024: once the
thread-count check has passed, every `r` of the scanned range has
`key_warp = numthread/warpSize - 1` in `[0, 15]`, below `MAX_NUMWARP = 16`;
the planner returns (the `exit(1)` of `getNumActiveBlock` is not reached);
and every candidate it passed to `getNumActiveBlock`, as a block of
`numthread.x` by 1 by 1 threads, has `key_warp` in `[0, 15]`, so that
`getNumActiveBlock` returns on it in whatever host state. -/
theorem no_cache_key_overflow_on_64_wide (E : Externals) (sizeofType : Int) (ts : TensorSplit)
    (deviceID : Int) (prop : DeviceProp) (lc : LaunchConfig) (st : HostState)
    (hm : ts.method = Method.PackedSplit) (hV : 1 ≤ planVolume ts)
    (hR : 1 ≤ E.MAX_REG_STORAGE) (hws : prop.warpSize = 64)
    (m : Int) (hmul : prop.maxThreadsPerBlock = 64 * m)
    (hmax : prop.maxThreadsPerBlock ≤ 1024) :
    MAX_NUMWARP = 16 ∧
    (minNumthread E prop (planVolume ts) ≤ prop.maxThreadsPerBlock →
      ∀ r, minNumRegStorage prop (planVolume ts) ≤ r →
        r ≤ maxNumRegStorage E prop (planVolume ts) →
        0 ≤ keyWarpFor prop (planVolume ts) r ∧ keyWarpFor prop (planVolume ts) r ≤ 15 ∧
          keyWarpFor prop (planVolume ts) r < MAX_NUMWARP) ∧
    ∃ ret lc' st' tr,
      cuttKernelLaunchConfiguration E sizeofType ts deviceID prop lc st
        = some (ret, lc', st', tr) ∧
      (∀ c, c ∈ tr →
        0 ≤ Int.tdiv (c.numthreadX * 1 * 1) prop.warpSize - 1 ∧
        Int.tdiv (c.numthreadX * 1 * 1) prop.warpSize - 1 ≤ 15 ∧
        ∀ (lcCall : LaunchConfig) (stCall : HostState),
          lcCall.numthread = ⟨c.numthreadX, 1, 1⟩ →
          ∃ res, getNumActiveBlock E ts.method sizeofType lcCall deviceID prop stCall
            = some res) := by
  have h16 : MAX_NUMWARP = 16 := by decide
  have hws1 : 1 ≤ prop.warpSize := by omega
  have hall : minNumthread E prop (planVolume ts) ≤ prop.maxThreadsPerBlock →
      ∀ r, minNumRegStorage prop (planVolume ts) ≤ r →
        0 ≤ keyWarpFor prop (planVolume ts) r ∧ keyWarpFor prop (planVolume ts) r ≤ 15 ∧
          keyWarpFor prop (planVolume ts) r < MAX_NUMWARP := by
    intro hth r hr
    have hmin := (minNumthread_le_max E prop (planVolume ts) hV hws1 hR hth).1
    have hm1 : 1 ≤ m := by omega
    obtain ⟨hr1, h1, h2⟩ := threadsFor_le_max prop (planVolume ts) r m hV hws1 hm1
      (by rw [hmul, hws]; ring) hr
    obtain ⟨h3, _, _, _⟩ := threadsFor_bounds prop (planVolume ts) r hV hws1 hr1
    have hT : 64 ≤ threadsFor prop (planVolume ts) r ∧
        threadsFor prop (planVolume ts) r ≤ 1024 := by
      constructor <;> omega
    unfold keyWarpFor
    rw [h16, hws, mul_one, mul_one, Int.tdiv_eq_ediv (by omega) (by norm_num)]
    omega
  refine ⟨h16, fun hth r hr _ => hall hth r hr, ?_⟩
  rw [planner_eq_planPacked E sizeofType ts deviceID prop lc st (Or.inr hm)]
  obtain ⟨⟨ret, lc', st', tr⟩, hres⟩ := planPacked_some E sizeofType ts deviceID prop lc st
    (fun _ hth r hr _ => (hall hth r hr).2.2)
  refine ⟨ret, lc', st', tr, hres, ?_⟩
  obtain ⟨hc, _⟩ := planPacked_result _ _ _ _ _ _ _ _ _ _ _ hres
  intro c hcm
  obtain ⟨hlo, _, hx⟩ := hc c hcm
  have hth : minNumthread E prop (planVolume ts) ≤ prop.maxThreadsPerBlock := by
    by_contra hgt
    have := planPacked_too_many_threads E sizeofType ts deviceID prop lc st (lt_of_not_le hgt)
    rw [this] at hres
    simp only [Option.some.injEq, Prod.mk.injEq] at hres
    rw [← hres.2.2.2] at hcm
    exact absurd hcm (List.not_mem_nil c)
  have hk := hall hth c.numRegStorage hlo
  unfold keyWarpFor at hk
  rw [← hx] at hk
  refine ⟨hk.1, hk.2.1, ?_⟩
  intro lcCall stCall hnt
  apply getNumActiveBlock_some
  intro _
  rw [hnt]
  exact hk.2.2

/-- Witness for C26: PackedSplit with 1024 elements per block on the 64-wide
example device with 1024 = 64 * 16 threads per block.  The candidates 1..8
have 1024, 512, 384, 256, 256, 192, 192 and 128 threads, so `key_warp` is
15, 7, 5, 3, 3, 2, 2 and 1, and the planner returns 16. -/
theorem no_cache_key_overflow_on_64_wide_witness :
    (cuttKernelLaunchConfiguration exE 4 exTsBig 0 exProp lcZero HostState.init).map
        (fun r => (r.1, r.2.2.2.map fun c => c.numthreadX))
      = some (16, [1024, 512, 384, 256, 256, 192, 192, 128]) ∧
    (List.range 8).map (fun (i : Nat) => keyWarpFor exProp (planVolume exTsBig) (1 + i))
      = [15, 7, 5, 3, 3, 2, 2, 1] ∧
    ∃ ret lc' st' tr,
      cuttKernelLaunchConfiguration exE 4 exTsBig 0 exProp lcZero HostState.init
        = some (ret, lc', st', tr) ∧
      ∀ c, c ∈ tr →
        0 ≤ Int.tdiv (c.numthreadX * 1 * 1) exProp.warpSize - 1 ∧
        Int.tdiv (c.numthreadX * 1 * 1) exProp.warpSize - 1 ≤ 15 := by
  refine ⟨by decide, by decide, ?_⟩
  obtain ⟨ret, lc', st', tr, h, hk⟩ :=
    (no_cache_key_overflow_on_64_wide exE 4 exTsBig 0 exProp lcZero HostState.init rfl
      (by decide) (by decide) rfl 16 (by decide) (by decide)).2.2
  exact ⟨ret, lc', st', tr, h, fun c hc => ⟨(hk c hc).1, (hk c hc).2.1⟩⟩

/-- The C++ expression `(a - 1)/d + 1` is `ceil(a/d)`, and at least 1, for
`a ≥ 1` and `d ≥ 1`. -/
theorem tdiv_pred_add_one_eq_ceil (a d : Int) (ha : 1 ≤ a) (hd : 1 ≤ d) :
    Int.tdiv (a - 1) d + 1 = Int.ceil ((a : ℚ) / (d : ℚ)) ∧ 1 ≤ Int.tdiv (a - 1) d + 1 := by
  obtain ⟨h1, h2, h3, _⟩ := tdiv_bounds (a - 1) d (by omega) (by omega)
  refine ⟨?_, by omega⟩
  symm
  rw [Int.ceil_eq_iff]
  have hdq : (0 : ℚ) < (d : ℚ) := by exact_mod_cast (show (0 : Int) < d by omega)
  constructor
  · rw [lt_div_iff₀ hdq]
    have h : Int.tdiv (a - 1) d * d < a := by
      rw [Int.mul_comm]
      omega
    have h' : ((Int.tdiv (a - 1) d * d : Int) : ℚ) < (a : ℚ) := by exact_mod_cast h
    push_cast at h' ⊢
    linarith
  · rw [div_le_iff₀ hdq]
    have h : a ≤ (Int.tdiv (a - 1) d + 1) * d := by
      rw [Int.mul_comm]
      omega
    exact_mod_cast h

/-- The tail of the planner returns for the tiled methods, leaving the launch
configuration as it is. -/
theorem finishPlan_tiled (E : Externals) (sizeofType : Int) (ts : TensorSplit) (deviceID : Int)
    (prop : DeviceProp) (lc : LaunchConfig) (nab : Int) (st : HostState) (tr : List Candidate)
    (hm : ts.method = Method.Tiled ∨ ts.method = Method.TiledCopy) :
    ∃ ret st', finishPlan E sizeofType ts deviceID prop lc nab st tr = some (ret, lc, st', tr) := by
  unfold finishPlan
  split
  · exact ⟨_, _, rfl⟩
  · split
    · rcases hm with h | h <;> simp only [h, getNumActiveBlock] <;> exact ⟨_, _, rfl⟩
    · exact ⟨_, _, rfl⟩

/-- C27 (launch geometry of Tiled and TiledCopy).  For volumes `≥ 1` and
`TILEDIM ≥ 1` the planner returns with `lc.numthread = (TILEDIM, TILEROWS, 1)`,
`lc.shmemsize = 0`, `lc.numRegStorage = 0`,
`lc.numblock.x = ceil(volMm/TILEDIM) * ceil(volMk/TILEDIM)` (`volMkBar`
instead of `volMk` for TiledCopy), `lc.numblock.y = 1` and
`lc.numblock.z = max(1, min((multiProcessorCount*8)/(numblock.x*numblock.y), volMbar))`,
the quotient being `floor(8*multiProcessorCount/numblock.x)` for a
multiprocessor count that is not negative; hence `lc.numblock.x ≥ 1`,
`1 ≤ lc.numblock.z ≤ max(1, volMbar)`; and the two methods give the same
`numblock.z` on the same `numblock.x` and `volMbar`. -/
theorem tiled_launch_geometry (E : Externals) (sizeofType : Int) (ts : TensorSplit)
    (deviceID : Int) (prop : DeviceProp) (lc : LaunchConfig) (st : HostState)
    (hm : ts.method = Method.Tiled ∨ ts.method = Method.TiledCopy)
    (hT : 1 ≤ E.TILEDIM) (hMm : 1 ≤ ts.volMm) (hMk : 1 ≤ ts.volMk) (hMkBar : 1 ≤ ts.volMkBar) :
    ∃ ret lc' st',
      cuttKernelLaunchConfiguration E sizeofType ts deviceID prop lc st
        = some (ret, lc', st', []) ∧
      lc'.numthread = ⟨E.TILEDIM, E.TILEROWS, 1⟩ ∧ lc'.shmemsize = 0 ∧ lc'.numRegStorage = 0 ∧
      (ts.method = Method.Tiled → lc'.numblock.x
        = Int.ceil ((ts.volMm : ℚ) / (E.TILEDIM : ℚ))
          * Int.ceil ((ts.volMk : ℚ) / (E.TILEDIM : ℚ))) ∧
      (ts.method = Method.TiledCopy → lc'.numblock.x
        = Int.ceil ((ts.volMm : ℚ) / (E.TILEDIM : ℚ))
          * Int.ceil ((ts.volMkBar : ℚ) / (E.TILEDIM : ℚ))) ∧
      lc'.numblock.y = 1 ∧
      lc'.numblock.z = max 1 (min (Int.tdiv (prop.multiProcessorCount * 8)
        (lc'.numblock.x * lc'.numblock.y)) ts.volMbar) ∧
      (0 ≤ prop.multiProcessorCount →
        lc'.numblock.z
          = max 1 (min (8 * prop.multiProcessorCount / lc'.numblock.x) ts.volMbar)) ∧
      1 ≤ lc'.numblock.x ∧ 1 ≤ lc'.numblock.z ∧ lc'.numblock.z ≤ max 1 ts.volMbar ∧
      ∀ (ts2 : TensorSplit) (ret2 : Int) (lc2 : LaunchConfig) (st2 : HostState)
        (tr2 : List Candidate),
        (ts2.method = Method.Tiled ∨ ts2.method = Method.TiledCopy) →
        ts2.volMbar = ts.volMbar →
        cuttKernelLaunchConfiguration E sizeofType ts2 deviceID prop lc st
          = some (ret2, lc2, st2, tr2) →
        lc2.numblock.x = lc'.numblock.x → lc2.numblock.z = lc'.numblock.z := by
  obtain ⟨cm, hcm1⟩ := tdiv_pred_add_one_eq_ceil ts.volMm E.TILEDIM hMm hT
  obtain ⟨ck, hck1⟩ := tdiv_pred_add_one_eq_ceil ts.volMk E.TILEDIM hMk hT
  obtain ⟨cb, hcb1⟩ := tdiv_pred_add_one_eq_ceil ts.volMkBar E.TILEDIM hMkBar hT
  -- the shape of the configuration either method leaves
  have hshape : ∀ (t : TensorSplit) (r : Int) (l : LaunchConfig) (s : HostState)
      (tr : List Candidate),
      (t.method = Method.Tiled ∨ t.method = Method.TiledCopy) →
      cuttKernelLaunchConfiguration E sizeofType t deviceID prop lc st = some (r, l, s, tr) →
      l.numthread = ⟨E.TILEDIM, E.TILEROWS, 1⟩ ∧ l.shmemsize = 0 ∧ l.numRegStorage = 0 ∧
      (t.method = Method.Tiled → l.numblock.x
        = (Int.tdiv (t.volMm - 1) E.TILEDIM + 1) * (Int.tdiv (t.volMk - 1) E.TILEDIM + 1)) ∧
      (t.method = Method.TiledCopy → l.numblock.x
        = (Int.tdiv (t.volMm - 1) E.TILEDIM + 1) * (Int.tdiv (t.volMkBar - 1) E.TILEDIM + 1)) ∧
      l.numblock.y = 1 ∧
      l.numblock.z = max 1 (min (Int.tdiv (prop.multiProcessorCount * 8)
        (l.numblock.x * l.numblock.y)) t.volMbar) := by
    intro t r l s tr htm h
    unfold cuttKernelLaunchConfiguration at h
    rcases htm with h' | h'
    · rw [h'] at h
      simp only at h
      obtain ⟨hl, _, _⟩ := finishPlan_spec _ _ _ _ _ _ _ _ _ _ _ _ _ h
      subst hl
      exact ⟨rfl, rfl, rfl, fun _ => rfl,
        fun hc => absurd (h'.symm.trans hc) (by decide), rfl, rfl⟩
    · rw [h'] at h
      simp only at h
      obtain ⟨hl, _, _⟩ := finishPlan_spec _ _ _ _ _ _ _ _ _ _ _ _ _ h
      subst hl
      exact ⟨rfl, rfl, rfl, fun hc => absurd (h'.symm.trans hc) (by decide),
        fun _ => rfl, rfl, rfl⟩
  have hex : ∃ ret lc' st', cuttKernelLaunchConfiguration E sizeofType ts deviceID prop lc st
      = some (ret, lc', st', []) := by
    unfold cuttKernelLaunchConfiguration
    rcases hm with h' | h' <;> rw [h'] <;> simp only
    · obtain ⟨ret, st', hf⟩ := finishPlan_tiled E sizeofType ts deviceID prop _ (-1) st []
        (Or.inl h')
      exact ⟨ret, _, st', hf⟩
    · obtain ⟨ret, st', hf⟩ := finishPlan_tiled E sizeofType ts deviceID prop _ (-1) st []
        (Or.inr h')
      exact ⟨ret, _, st', hf⟩
  obtain ⟨ret, lc', st', hres⟩ := hex
  obtain ⟨h1, h2, h3, h4, h5, h6, h7⟩ := hshape ts ret lc' st' [] hm hres
  have hx1 : 1 ≤ lc'.numblock.x := by
    rcases hm with h' | h'
    · rw [h4 h']
      nlinarith
    · rw [h5 h']
      nlinarith
  refine ⟨ret, lc', st', hres, h1, h2, h3, ?_, ?_, h6, h7, ?_, hx1, ?_, ?_, ?_⟩
  · intro h'
    rw [h4 h', cm, ck]
  · intro h'
    rw [h5 h', cm, cb]
  · intro hmp
    rw [h7, h6, mul_one, Int.tdiv_eq_ediv (by omega) (by omega), Int.mul_comm]
  · rw [h7]
    exact le_max_left _ _
  · rw [h7]
    exact max_le_max (le_refl 1) (min_le_right _ _)
  · intro ts2 ret2 lc2 st2 tr2 hm2 hbar h2res hxeq
    obtain ⟨_, _, _, _, _, k6, k7⟩ := hshape ts2 ret2 lc2 st2 tr2 hm2 h2res
    rw [k7, h7, k6, h6, hxeq, hbar]

/-- Witness for C27: a minor volume of 100 by 130 with 1000 batches, tiles of
64 and 60 multiprocessors: `numblock.x = 2 * 3 = 6` and
`numblock.z = max(1, min(480/6, 1000)) = 80`, for both methods. -/
theorem tiled_launch_geometry_witness :
    (cuttKernelLaunchConfiguration exE 4 (exTsTiled Method.Tiled) 0 exProp lcZero
        HostState.init).map (fun r => (r.1, r.2.1))
      = some (4, ⟨⟨64, 8, 1⟩, ⟨6, 1, 80⟩, 0, 0⟩) ∧
    (cuttKernelLaunchConfiguration exE 4 (exTsTiled Method.TiledCopy) 0 exProp lcZero
        HostState.init).map (fun r => (r.1, r.2.1))
      = some (4, ⟨⟨64, 8, 1⟩, ⟨6, 1, 80⟩, 0, 0⟩) ∧
    ∃ ret lc' st',
      cuttKernelLaunchConfiguration exE 4 (exTsTiled Method.Tiled) 0 exProp lcZero
        HostState.init = some (ret, lc', st', []) ∧
      lc'.numblock.x = Int.ceil (((exTsTiled Method.Tiled).volMm : ℚ) / (exE.TILEDIM : ℚ))
          * Int.ceil (((exTsTiled Method.Tiled).volMk : ℚ) / (exE.TILEDIM : ℚ)) ∧
      1 ≤ lc'.numblock.z ∧ lc'.numblock.z ≤ max 1 (exTsTiled Method.Tiled).volMbar := by
  refine ⟨by decide, by decide, ?_⟩
  obtain ⟨ret, lc', st', h, _, _, _, hx, _, _, _, _, _, hz1, hz2, _⟩ :=
    tiled_launch_geometry exE 4 (exTsTiled Method.Tiled) 0 exProp lcZero HostState.init
      (Or.inl rfl) (by decide) (by decide) (by decide) (by decide)
  exact ⟨ret, lc', st', h, hx rfl, hz1, hz2⟩

/-- The kernel that `memcpyFloat` launches, with the grid and the count as
natural numbers. -/
theorem memcpyFloat_eq_kernel {α : Type} (n : Nat) (priv : Nat → Nat → Nat → α × α × α × α)
    (dataIn : Nat → α) :
    memcpyFloat (n : Int) priv dataIn
      = memcpyFloatKernel NUM_ELEM (memcpyFloatNumblock (n : Int)).toNat 64 (n / 4) priv
        (asFloat4 dataIn) := by
  unfold memcpyFloat
  rw [memcpyFloat_count]
  rfl

/-- The loads, and the stores, of `memcpyFloatKernel` come from pairwise
different (block, thread, unroll step) triples. -/
theorem memcpyFloatKernel_pairwise {β : Type} (numElem G B n : Nat)
    (priv : Nat → Nat → Nat → β) (dataIn : Nat → β) :
    ((memcpyFloatKernel numElem G B n priv dataIn).1).Pairwise
        (fun a b => (a.block, a.thread, a.step) ≠ (b.block, b.thread, b.step)) ∧
    ((memcpyFloatKernel numElem G B n priv dataIn).2).Pairwise
        (fun a b => (a.block, a.thread, a.step) ≠ (b.block, b.thread, b.step)) := by
  have hsteps : ∀ (b t : Nat) (f : Nat → UnrollAccess β),
      (∀ i, (f i).block = b ∧ (f i).thread = t ∧ (f i).step = i) →
      ∀ (p : Nat → Bool), (((List.range numElem).filter p).map f).Pairwise
        (fun a b => (a.block, a.thread, a.step) ≠ (b.block, b.thread, b.step)) := by
    intro b t f hf p
    rw [List.pairwise_map]
    apply ((List.nodup_range numElem).filter p).imp
    intro i j hij hc
    simp only [Prod.mk.injEq] at hc
    rw [(hf i).2.2, (hf j).2.2] at hc
    exact hij hc.2.2
  have hthread : ∀ b t e, (e ∈ (memcpyFloatThread numElem B n (priv b t) dataIn b t).1 ∨
      e ∈ (memcpyFloatThread numElem B n (priv b t) dataIn b t).2) →
      e.block = b ∧ e.thread = t := by
    intro b t e he
    rcases he with he | he
    · obtain ⟨i, _, _, rfl⟩ :=
        (memcpyFloatThread_spec numElem B n (priv b t) dataIn b t e).1.mp he
      exact ⟨rfl, rfl⟩
    · obtain ⟨i, _, _, rfl⟩ :=
        (memcpyFloatThread_spec numElem B n (priv b t) dataIn b t e).2.mp he
      exact ⟨rfl, rfl⟩
  -- the list of the per-thread results has pairwise different (block, thread)
  have hgrid : ∀ (S : (List (UnrollAccess β) × List (UnrollAccess β)) →
        (List (UnrollAccess β) × List (UnrollAccess β)) → Prop),
      (∀ b t b' t', (b, t) ≠ (b', t') →
        S (memcpyFloatThread numElem B n (priv b t) dataIn b t)
          (memcpyFloatThread numElem B n (priv b' t') dataIn b' t')) →
      ((List.range G).flatMap fun b => (List.range B).map fun t =>
        memcpyFloatThread numElem B n (priv b t) dataIn b t).Pairwise S := by
    intro S hS
    rw [List.pairwise_flatMap]
    constructor
    · intro b _
      rw [List.pairwise_map]
      apply (List.nodup_range B).imp
      intro t t' htt
      exact hS b t b t' (fun hc => htt (Prod.mk.inj hc).2)
    · apply (List.nodup_range G).imp
      intro b b' hbb x hx y hy
      obtain ⟨t, _, rfl⟩ := List.mem_map.mp hx
      obtain ⟨t', _, rfl⟩ := List.mem_map.mp hy
      exact hS b t b' t' (fun hc => hbb (Prod.mk.inj hc).1)
  unfold memcpyFloatKernel unzipConcat
  constructor
  · dsimp only
    rw [List.pairwise_flatMap]
    constructor
    · intro r hr
      simp only [List.mem_flatMap, List.mem_map, List.mem_range] at hr
      obtain ⟨b, _, t, _, rfl⟩ := hr
      exact hsteps b t _ (fun i => ⟨rfl, rfl, rfl⟩) _
    · apply hgrid
      intro b t b' t' hne x hx y hy hc
      obtain ⟨h1, h2⟩ := hthread b t x (Or.inl hx)
      obtain ⟨h3, h4⟩ := hthread b' t' y (Or.inl hy)
      simp only [Prod.mk.injEq] at hc
      apply hne
      rw [← h1, ← h2, ← h3, ← h4, hc.1, hc.2.1]
  · dsimp only
    rw [List.pairwise_flatMap]
    constructor
    · intro r hr
      simp only [List.mem_flatMap, List.mem_map, List.mem_range] at hr
      obtain ⟨b, _, t, _, rfl⟩ := hr
      exact hsteps b t _ (fun i => ⟨rfl, rfl, rfl⟩) _
    · apply hgrid
      intro b t b' t' hne x hx y hy hc
      obtain ⟨h1, h2⟩ := hthread b t x (Or.inr hx)
      obtain ⟨h3, h4⟩ := hthread b' t' y (Or.inr hy)
      simp only [Prod.mk.injEq] at hc
      apply hne
      rw [← h1, ← h2, ← h3, ← h4, hc.1, hc.2.1]

/-- In a list of accesses of `memcpyFloatKernel<2>` on blocks of 64 threads
with pairwise different (block, thread, unroll step) triples, an index that
is accessed is accessed exactly once. -/
theorem unroll_count_one {β : Type} (l : List (UnrollAccess β)) (q : Nat)
    (hp : l.Pairwise (fun a b => (a.block, a.thread, a.step) ≠ (b.block, b.thread, b.step)))
    (hidx : ∀ e, e ∈ l → e.thread < 64 ∧ e.step < 2 ∧
      e.index = e.thread + 128 * e.block + 64 * e.step)
    (hex : ∃ e, e ∈ l ∧ e.index = q) :
    l.countP (fun e => e.index == q) = 1 := by
  apply countP_eq_one_of_pairwise (fun e : UnrollAccess β => (e.block, e.thread, e.step))
    (fun e => e.index == q) (q / 128, q % 64, q % 128 / 64) l hp
  · intro e he hq
    have hq' : e.index = q := by simpa using hq
    obtain ⟨h1, h2, h3⟩ := hidx e he
    simp only [Prod.mk.injEq]
    omega
  · obtain ⟨e, he, hq⟩ := hex
    exact ⟨e, he, by simpa using hq⟩

/-- C28 (`memcpyFloat` on whole 8-float chunks).  For every `n` divisible by
8: the grid is `numblock = (n/8 - 1)/64 + 1` blocks of 64 threads; every
load and every store is by a thread `t < 64` of a block `b < numblock` at
an unroll step `i < 2`, at the `float4` index `t + 128*b + 64*i`, which is
below `n/4`; every `float4` index below `n/4` is loaded exactly once and
stored exactly once; and after the kernel, in whatever order its stores are
applied, `data_out[i] = data_in[i]` for every `i < n`, the rest of
`data_out` being as it was. -/
theorem memcpyFloat_whole_chunks {α : Type} (n : Nat) (h8 : n % 8 = 0)
    (priv : Nat → Nat → Nat → α × α × α × α) (dataIn dataOut : Nat → α) :
    memcpyFloatNumblock (n : Int) = (((n / 8 - 1) / 64 + 1 : Nat) : Int) ∧
    (∀ e, e ∈ (memcpyFloat (n : Int) priv dataIn).1 ∨ e ∈ (memcpyFloat (n : Int) priv dataIn).2 →
      (e.block : Int) < memcpyFloatNumblock (n : Int) ∧ e.thread < 64 ∧ e.step < 2 ∧
      e.index = e.thread + 128 * e.block + 64 * e.step ∧ e.index < n / 4 ∧
      e.val = asFloat4 dataIn e.index) ∧
    (∀ q, q < n / 4 →
      ((memcpyFloat (n : Int) priv dataIn).1).countP (fun e => e.index == q) = 1 ∧
      ((memcpyFloat (n : Int) priv dataIn).2).countP (fun e => e.index == q) = 1) ∧
    (∀ sched, List.Perm sched (float4Stores (memcpyFloat (n : Int) priv dataIn).2) →
      (∀ i, i < n → applyWrites sched dataOut i = dataIn i) ∧
      (∀ i, n ≤ i → applyWrites sched dataOut i = dataOut i)) := by
  have hnb := memcpyFloatNumblock_eq n
  have hcov : n / 4 ≤ 128 * (memcpyFloatNumblock (n : Int)).toNat := by
    rw [memcpyFloat_covered_iff]
    omega
  have h4 : 4 * (n / 4) = n := by omega
  have hdef := memcpyFloat_eq_kernel n priv dataIn
  have hspec := memcpyFloatKernel_spec NUM_ELEM (memcpyFloatNumblock (n : Int)).toNat 64 (n / 4)
    priv (asFloat4 dataIn)
  have hpw := memcpyFloatKernel_pairwise NUM_ELEM (memcpyFloatNumblock (n : Int)).toNat 64
    (n / 4) priv (asFloat4 dataIn)
  rw [← hdef] at hspec hpw
  have hev : ∀ e, e ∈ (memcpyFloat (n : Int) priv dataIn).1 ∨
      e ∈ (memcpyFloat (n : Int) priv dataIn).2 →
      (e.block : Int) < memcpyFloatNumblock (n : Int) ∧ e.thread < 64 ∧ e.step < 2 ∧
      e.index = e.thread + 128 * e.block + 64 * e.step ∧ e.index < n / 4 ∧
      e.val = asFloat4 dataIn e.index := by
    intro e he
    have hmem : ∃ b, b < (memcpyFloatNumblock (n : Int)).toNat ∧ ∃ t, t < 64 ∧ ∃ i,
        i < NUM_ELEM ∧ t + NUM_ELEM * b * 64 + i * 64 < n / 4 ∧
        e = UnrollAccess.mk b t i (t + NUM_ELEM * b * 64 + i * 64)
          (asFloat4 dataIn (t + NUM_ELEM * b * 64 + i * 64)) := by
      rcases he with he | he
      · exact (hspec e).1.mp he
      · exact (hspec e).2.mp he
    obtain ⟨b, hb, t, ht, i, hi, hlt, rfl⟩ := hmem
    unfold NUM_ELEM at hi hlt ⊢
    refine ⟨?_, ht, hi, ?_, hlt, rfl⟩
    · show (b : Int) < memcpyFloatNumblock (n : Int)
      omega
    · show t + 2 * b * 64 + i * 64 = t + 128 * b + 64 * i
      omega
  have hex : ∀ q, q < n / 4 →
      (∃ e, e ∈ (memcpyFloat (n : Int) priv dataIn).1 ∧ e.index = q) ∧
      (∃ e, e ∈ (memcpyFloat (n : Int) priv dataIn).2 ∧ e.index = q) := by
    intro q hq
    have hq' : q < NUM_ELEM * 64 * (memcpyFloatNumblock (n : Int)).toNat := by
      unfold NUM_ELEM
      omega
    obtain ⟨h1, h2, h3, h4'⟩ := unroll_of_index NUM_ELEM
      (memcpyFloatNumblock (n : Int)).toNat 64 q (by norm_num) hq'
    have hwit : ∃ b, b < (memcpyFloatNumblock (n : Int)).toNat ∧ ∃ t, t < 64 ∧ ∃ i,
        i < NUM_ELEM ∧ t + NUM_ELEM * b * 64 + i * 64 < n / 4 ∧
        UnrollAccess.mk (q / (NUM_ELEM * 64)) (q % (NUM_ELEM * 64) % 64)
            (q % (NUM_ELEM * 64) / 64) q (asFloat4 dataIn q)
          = UnrollAccess.mk b t i (t + NUM_ELEM * b * 64 + i * 64)
            (asFloat4 dataIn (t + NUM_ELEM * b * 64 + i * 64)) :=
      ⟨_, h1, _, h2, _, h3, by rw [h4']; exact hq, by rw [h4']⟩
    exact ⟨⟨_, (hspec _).1.mpr hwit, rfl⟩, ⟨_, (hspec _).2.mpr hwit, rfl⟩⟩
  obtain ⟨_, hst, hall⟩ := memcpyFloat_stores n priv dataIn
  refine ⟨hnb, hev, ?_, ?_⟩
  · intro q hq
    exact ⟨unroll_count_one _ q hpw.1
        (fun e he => ⟨(hev e (Or.inl he)).2.1, (hev e (Or.inl he)).2.2.1,
          (hev e (Or.inl he)).2.2.2.1⟩) (hex q hq).1,
      unroll_count_one _ q hpw.2
        (fun e he => ⟨(hev e (Or.inr he)).2.1, (hev e (Or.inr he)).2.2.1,
          (hev e (Or.inr he)).2.2.2.1⟩) (hex q hq).2⟩
  · intro sched hperm
    constructor
    · intro i hi
      exact (applyWrites_copy dataIn dataOut _ sched hperm (fun w hw => (hst w hw).1) i).1
        (hall i (by omega) (by omega))
    · intro i hi
      apply (applyWrites_copy dataIn dataOut _ sched hperm (fun w hw => (hst w hw).1) i).2
      intro w hw
      have := (hst w hw).2.1
      omega

set_option maxRecDepth 1000000 in
/-- Witness for C28: `n = 1024` floats with the input `0, 1, .., 1023`.  The
grid has 2 blocks; thread `t` of block `b` stores the `float4` values
`t + 128*b` and `t + 128*b + 64`; and `data_out[i] = i` for every `i < 1024`. -/
theorem memcpyFloat_whole_chunks_witness :
    memcpyFloatNumblock 1024 = 2 ∧
    ((memcpyFloat 1024 exPriv exIn).2.map fun e => (e.block, e.thread, e.step, e.index))
      = (List.range 2).flatMap (fun b => (List.range 64).flatMap fun t =>
          [(b, t, 0, t + 128 * b), (b, t, 1, t + 128 * b + 64)]) ∧
    (∀ q, q < 1024 / 4 →
      ((memcpyFloat ((1024 : Nat) : Int) exPriv exIn).1).countP (fun e => e.index == q) = 1 ∧
      ((memcpyFloat ((1024 : Nat) : Int) exPriv exIn).2).countP (fun e => e.index == q) = 1) ∧
    (∀ sched, List.Perm sched (float4Stores (memcpyFloat ((1024 : Nat) : Int) exPriv exIn).2) →
      (∀ i, i < 1024 → applyWrites sched exOut i = exIn i) ∧
      (∀ i, 1024 ≤ i → applyWrites sched exOut i = exOut i)) :=
  ⟨by decide, by decide,
    (memcpyFloat_whole_chunks 1024 (by decide) exPriv exIn exOut).2.2.1,
    (memcpyFloat_whole_chunks 1024 (by decide) exPriv exIn exOut).2.2.2⟩

/-- While `blockIdx.x*splitDim` stays below 2^32 the start position of the
code is the floor of the exact quotient. -/
theorem splitP0_eq_exact (D G s : Nat) (h : s * D < 4294967296) :
    splitP0 D G s = exactP0 D G s := by
  unfold splitP0 exactP0
  rw [Nat.mod_eq_of_lt h]

/-- While `(blockIdx.x + 1)*splitDim` stays below 2^32 the split volume of the
code is the difference of the exact floors. -/
theorem splitVol_eq_exact (D G s : Nat) (h : (s + 1) * D < 4294967296) :
    splitVol D G s = ((exactVol D G s : Nat) : Int) := by
  have h0 : s * D < 4294967296 :=
    Nat.lt_of_le_of_lt (Nat.mul_le_mul_right D (Nat.le_succ s)) h
  have hmono := exactP0_mono D G s
  unfold splitVol
  rw [splitP0_eq_exact D G s h0, Nat.mod_eq_of_lt h]
  unfold exactVol
  unfold exactP0 at hmono ⊢
  omega

/-- While `(blockIdx.x + 1)*splitDim` stays below 2^32 the table selector of
the code is the exact one. -/
theorem splitPlusOne_eq_exact (D G s : Nat) (hG : 1 ≤ G) (h : (s + 1) * D < 4294967296) :
    splitPlusOne D G s = ((exactPlusOne D G s : Nat) : Int) := by
  have hb := (exactVol_bounds D G s hG).1
  unfold splitPlusOne
  rw [splitVol_eq_exact D G s h]
  unfold exactPlusOne
  omega

/-- While `(blockIdx.x + 1)*splitDim` stays below 2^32 the block with split
index `blockIdx.x` reads its tables inside them and works on the exact
range. -/
theorem splitWork_eq_exact (warpSize gridDimX blockDim numRegStorage : Nat)
    (splitDim volMmkUnsplit sizeMmk sizeMbar cMmSplit cMkSplit : Nat)
    (glMmk glMbar : Nat → TensorConvInOut) (glMsh : Nat → TensorConv) (s : Nat)
    (hG : 1 ≤ gridDimX) (h : (s + 1) * splitDim < 4294967296) :
    splitWork warpSize gridDimX blockDim numRegStorage splitDim volMmkUnsplit sizeMmk sizeMbar
        cMmSplit cMkSplit glMmk glMbar glMsh s
      = some (exactWork warpSize gridDimX blockDim numRegStorage splitDim volMmkUnsplit sizeMmk
          sizeMbar cMmSplit cMkSplit glMmk glMbar glMsh s) := by
  have h0 : s * splitDim < 4294967296 :=
    Nat.lt_of_le_of_lt (Nat.mul_le_mul_right splitDim (Nat.le_succ s)) h
  unfold splitWork exactWork
  rw [splitPlusOne_eq_exact splitDim gridDimX s hG h, splitVol_eq_exact splitDim gridDimX s h,
    splitP0_eq_exact splitDim gridDimX s h0]
  rw [if_neg (by omega)]
  have e : (((exactVol splitDim gridDimX s : Nat) : Int) * (volMmkUnsplit : Int)).toNat
      = exactVol splitDim gridDimX s * volMmkUnsplit := by
    rw [← Int.ofNat_mul, Int.toNat_ofNat]
  rw [e, Int.toNat_ofNat]

/-- The products of the split are below 2^32 when the last one is. -/
theorem split_product_lt (D G s : Nat) (hs : s ≤ G) (h32 : G * D < 4294967296) :
    s * D < 4294967296 :=
  Nat.lt_of_le_of_lt (Nat.mul_le_mul_right D hs) h32

/-- The end of a batch range is at most `volMbar`, whatever the product
`(blockIdx.y + 1)*volMbar` does modulo 2^32. -/
theorem posMbar1_le (G V y : Nat) (hy : y < G) : posMbar1 G V y ≤ V := by
  unfold posMbar1
  apply Nat.div_le_of_le_mul
  calc (y + 1) * V % 4294967296 ≤ (y + 1) * V := Nat.mod_le _ _
    _ ≤ G * V := Nat.mul_le_mul_right V hy

/-- The batch loop of a block ends, and visits the indices from `posMbar0` up
to `posMbar1`. -/
theorem rangeBatch_spec (G V y : Nat) :
    rangeBatch G V y = some (List.range' (posMbar0 G V y) (posMbar1 G V y - posMbar0 G V y)) :=
  strideLoop_one _ _ _ (Nat.le_add_left _ _)

/-- C14 as amended (split partition in `transposePackedSplit`).  For every
`splitDim` and `gridDim.x = G ≥ 1` with `G*splitDim < 2^32`, the values
`p0`, `volSplit` and `plusone` that the blocks `s < G` compute are
`p0(s) = floor(s*splitDim/G)`,
`volSplit(s) = floor((s+1)*splitDim/G) - p0(s)` and
`volSplit(s) - floor(splitDim/G)`; the first range starts at 0, each range
starts where the one before it ends, and the last ends at `splitDim`; every
position below `splitDim` lies in the range of exactly one split index
`s < G`, and no range reaches beyond `splitDim`; `volSplit(s)` is
`floor(splitDim/G)` or that plus one, so `plusone` is 0 or 1 and the table
index `warpLane + plusone*sizeMmk` of a lane `warpLane < sizeMmk` is inside a
table of `2*sizeMmk` records. -/
theorem split_partition (splitDim G : Nat) (hG : 1 ≤ G) (h32 : G * splitDim < 4294967296) :
    (∀ s, s < G → splitP0 splitDim G s = s * splitDim / G ∧
      splitVol splitDim G s
        = (((s + 1) * splitDim / G : Nat) : Int) - ((s * splitDim / G : Nat) : Int) ∧
      splitPlusOne splitDim G s
        = (((s + 1) * splitDim / G : Nat) : Int) - ((s * splitDim / G : Nat) : Int)
          - ((splitDim / G : Nat) : Int)) ∧
    splitP0 splitDim G 0 = 0 ∧
    (∀ s, s + 1 < G →
      ((splitP0 splitDim G s : Nat) : Int) + splitVol splitDim G s
        = ((splitP0 splitDim G (s + 1) : Nat) : Int)) ∧
    ((splitP0 splitDim G (G - 1) : Nat) : Int) + splitVol splitDim G (G - 1)
      = ((splitDim : Nat) : Int) ∧
    (∀ x : Nat, x < splitDim → ∃ s, (s < G ∧ splitP0 splitDim G s ≤ x ∧
        ((x : Nat) : Int) < ((splitP0 splitDim G s : Nat) : Int) + splitVol splitDim G s) ∧
      ∀ s', s' < G → splitP0 splitDim G s' ≤ x →
        ((x : Nat) : Int) < ((splitP0 splitDim G s' : Nat) : Int) + splitVol splitDim G s' →
        s' = s) ∧
    (∀ s, s < G → ∀ x : Nat,
      ((x : Nat) : Int) < ((splitP0 splitDim G s : Nat) : Int) + splitVol splitDim G s →
      x < splitDim) ∧
    (∀ s, s < G → splitVol splitDim G s = ((splitDim / G : Nat) : Int) ∨
      splitVol splitDim G s = ((splitDim / G : Nat) : Int) + 1) ∧
    (∀ s, s < G → splitPlusOne splitDim G s = 0 ∨ splitPlusOne splitDim G s = 1) ∧
    (∀ s, s < G → ∀ sizeMmk warpLane : Nat, warpLane < sizeMmk →
      0 ≤ ((warpLane : Nat) : Int) + splitPlusOne splitDim G s * ((sizeMmk : Nat) : Int) ∧
      ((warpLane : Nat) : Int) + splitPlusOne splitDim G s * ((sizeMmk : Nat) : Int)
        < 2 * ((sizeMmk : Nat) : Int)) := by
  have hP : ∀ s, s ≤ G → splitP0 splitDim G s = exactP0 splitDim G s := fun s hs =>
    splitP0_eq_exact splitDim G s (split_product_lt splitDim G s hs h32)
  have hV : ∀ s, s < G → splitVol splitDim G s = ((exactVol splitDim G s : Nat) : Int) :=
    fun s hs => splitVol_eq_exact splitDim G s (split_product_lt splitDim G (s + 1) hs h32)
  have hO : ∀ s, s < G → splitPlusOne splitDim G s = ((exactPlusOne splitDim G s : Nat) : Int) :=
    fun s hs => splitPlusOne_eq_exact splitDim G s hG
      (split_product_lt splitDim G (s + 1) hs h32)
  obtain ⟨e0, e1, e2, e3, e4, e5, e6, e7, e8⟩ := exact_partition splitDim G hG
  refine ⟨?_, ?_, ?_, ?_, ?_, ?_, ?_, ?_, ?_⟩
  · intro s hs
    have hm := (e5 s hs).1
    have hq := (e5 s hs).2
    refine ⟨hP s (Nat.le_of_lt hs), ?_, ?_⟩
    · rw [hV s hs]
      unfold exactVol exactP0
      omega
    · rw [hO s hs]
      unfold exactPlusOne
      unfold exactVol exactP0 at hq ⊢
      omega
  · rw [hP 0 (Nat.zero_le G)]
    exact e0
  · intro s hs
    rw [hP s (by omega), hP (s + 1) (by omega), hV s (by omega)]
    exact_mod_cast e1 s (by omega)
  · rw [hP (G - 1) (Nat.sub_le G 1), hV (G - 1) (by omega)]
    exact_mod_cast e2
  · intro x hx
    obtain ⟨s, ⟨hs, h1, h2⟩, huniq⟩ := e3 x hx
    refine ⟨s, ⟨hs, ?_, ?_⟩, ?_⟩
    · rw [hP s (Nat.le_of_lt hs)]
      exact h1
    · rw [hP s (Nat.le_of_lt hs), hV s hs]
      exact_mod_cast h2
    · intro s' hs' h1' h2'
      rw [hP s' (Nat.le_of_lt hs')] at h1' h2'
      rw [hV s' hs'] at h2'
      exact huniq s' hs' h1' (by exact_mod_cast h2')
  · intro s hs x hx
    rw [hP s (Nat.le_of_lt hs), hV s hs] at hx
    exact e4 s hs x (by exact_mod_cast hx)
  · intro s hs
    rw [hV s hs]
    rcases e6 s hs with h | h
    · left; exact_mod_cast h
    · right; exact_mod_cast h
  · intro s hs
    rw [hO s hs]
    rcases e7 s hs with h | h
    · left; exact_mod_cast h
    · right; exact_mod_cast h
  · intro s hs sizeMmk warpLane hw
    rw [hO s hs]
    have h := e8 s hs sizeMmk warpLane hw
    constructor
    · exact_mod_cast Nat.zero_le _
    · exact_mod_cast h

/-- Witness for C14: `splitDim = 10` on 4 blocks gives the start positions
0, 2, 5, 7, the volumes 2, 3, 2, 3 and `plusone` 0, 1, 0, 1; `splitDim = 0`
gives empty ranges. -/
theorem split_partition_witness :
    (List.range 4).map (splitP0 10 4) = [0, 2, 5, 7] ∧
    (List.range 4).map (splitVol 10 4) = [2, 3, 2, 3] ∧
    (List.range 4).map (splitPlusOne 10 4) = [0, 1, 0, 1] ∧
    (List.range 4).map (splitVol 0 4) = [0, 0, 0, 0] ∧
    ((splitP0 10 4 3 : Nat) : Int) + splitVol 10 4 3 = 10 ∧
    ∀ s, s < 4 → splitPlusOne 10 4 s = 0 ∨ splitPlusOne 10 4 s = 1 :=
  ⟨by decide, by decide, by decide, by decide, by decide,
    (split_partition 10 4 (by decide) (by decide)).2.2.2.2.2.2.2.1⟩

/-- Counterexample to C14 as stated: `splitDim = 65536` on
`gridDim.x = 65536` blocks.  The claim's formulas give block 65535 the start
65535, the volume 1 and `plusone = 0`; in the kernel the product
`(blockIdx.x + 1)*splitDim = 2^32` of two 32-bit unsigned values is 0, so the
block computes `volSplit = -65535` and `plusone = -65536`: neither
`floor(splitDim/G)` nor that plus one, and a table index
`warpLane + plusone*sizeMmk` below zero. -/
theorem split_partition_counterexample :
    (exactP0 65536 65536 65535 = 65535 ∧ exactVol 65536 65536 65535 = 1 ∧
      exactPlusOne 65536 65536 65535 = 0) ∧
    splitP0 65536 65536 65535 = 65535 ∧
    splitVol 65536 65536 65535 = -65535 ∧
    splitPlusOne 65536 65536 65535 = -65536 ∧
    ¬ (splitVol 65536 65536 65535 = ((65536 / 65536 : Nat) : Int) ∨
      splitVol 65536 65536 65535 = ((65536 / 65536 : Nat) : Int) + 1) ∧
    ¬ (splitPlusOne 65536 65536 65535 = 0 ∨ splitPlusOne 65536 65536 65535 = 1) ∧
    ((0 : Nat) : Int) + splitPlusOne 65536 65536 65535 * ((1 : Nat) : Int) < 0 := by
  decide

/-- The stores of a launch of `transposePackedSplit` with full warps, while
`gridDim.x*splitDim` stays below 2^32. -/
theorem transposePackedSplit_stores {α : Type} (k nw gridDimX gridDimY numRegStorage : Nat)
    (splitDim volMmkUnsplit volMbar sizeMmk sizeMbar cMmSplit cMkSplit : Nat)
    (glMmk glMbar : Nat → TensorConvInOut) (glMsh : Nat → TensorConv)
    (garbage : Nat → Nat → Garbage α) (dataIn : Nat → α)
    (hx32 : gridDimX * splitDim < 4294967296)
    (hsmmk : sizeMmk ≤ 2 ^ k) (hsmbar : sizeMbar ≤ 2 ^ k)
    (hcov : ∀ s, s < gridDimX →
      exactVol splitDim gridDimX s * volMmkUnsplit ≤ nw * 2 ^ k * numRegStorage)
    (hsh : ∀ s, s < gridDimX → ∀ t, t < exactVol splitDim gridDimX s * volMmkUnsplit →
      (exactWork (2 ^ k) gridDimX (nw * 2 ^ k) numRegStorage splitDim volMmkUnsplit sizeMmk
        sizeMbar cMmSplit cMkSplit glMmk glMbar glMsh s).shOff t
        < exactVol splitDim gridDimX s * volMmkUnsplit) :
    ∃ stores,
      transposePackedSplit (2 ^ k) gridDimX gridDimY (nw * 2 ^ k) numRegStorage splitDim
        volMmkUnsplit volMbar sizeMmk sizeMbar cMmSplit cMkSplit glMmk glMbar glMsh garbage
        dataIn = some stores ∧
      ∀ x, x ∈ stores ↔ ∃ y, y < gridDimY ∧ ∃ s, s < gridDimX ∧
        ∃ b, (posMbar0 gridDimY volMbar y ≤ b ∧ b < posMbar1 gridDimY volMbar y) ∧
        ∃ t, t < exactVol splitDim gridDimX s * volMmkUnsplit ∧
          x = ((exactWork (2 ^ k) gridDimX (nw * 2 ^ k) numRegStorage splitDim volMmkUnsplit
                sizeMmk sizeMbar cMmSplit cMkSplit glMmk glMbar glMsh s).outOff b t,
              dataIn ((exactWork (2 ^ k) gridDimX (nw * 2 ^ k) numRegStorage splitDim
                volMmkUnsplit sizeMmk sizeMbar cMmSplit cMkSplit glMmk glMbar glMsh s).inOff b
                ((exactWork (2 ^ k) gridDimX (nw * 2 ^ k) numRegStorage splitDim volMmkUnsplit
                  sizeMmk sizeMbar cMmSplit cMkSplit glMmk glMbar glMsh s).shOff t))) := by
  have hblock : ∀ y s, s < gridDimX →
      ∃ st, splitBlock (2 ^ k) gridDimX gridDimY (nw * 2 ^ k) numRegStorage splitDim
          volMmkUnsplit volMbar sizeMmk sizeMbar cMmSplit cMkSplit glMmk glMbar glMsh garbage
          dataIn y s = some st ∧
        ∀ x, x ∈ st ↔
          ∃ b, (posMbar0 gridDimY volMbar y ≤ b ∧ b < posMbar1 gridDimY volMbar y) ∧
            ∃ t, t < exactVol splitDim gridDimX s * volMmkUnsplit ∧
              x = ((exactWork (2 ^ k) gridDimX (nw * 2 ^ k) numRegStorage splitDim volMmkUnsplit
                  sizeMmk sizeMbar cMmSplit cMkSplit glMmk glMbar glMsh s).outOff b t,
                dataIn ((exactWork (2 ^ k) gridDimX (nw * 2 ^ k) numRegStorage splitDim
                  volMmkUnsplit sizeMmk sizeMbar cMmSplit cMkSplit glMmk glMbar glMsh s).inOff b
                  ((exactWork (2 ^ k) gridDimX (nw * 2 ^ k) numRegStorage splitDim
                    volMmkUnsplit sizeMmk sizeMbar cMmSplit cMkSplit glMmk glMbar
                    glMsh s).shOff t))) := by
    intro y s hs
    have hw := splitWork_eq_exact (2 ^ k) gridDimX (nw * 2 ^ k) numRegStorage splitDim
      volMmkUnsplit sizeMmk sizeMbar cMmSplit cMkSplit glMmk glMbar glMsh s (by omega)
      (split_product_lt splitDim gridDimX (s + 1) hs hx32)
    obtain ⟨st, hst, hstmem⟩ := PackedWork.run_full
      (exactWork (2 ^ k) gridDimX (nw * 2 ^ k) numRegStorage splitDim volMmkUnsplit sizeMmk
        sizeMbar cMmSplit cMkSplit glMmk glMbar glMsh s) k nw ⟨rfl, rfl, hsmmk, hsmbar⟩
      (hcov s hs) (hsh s hs) (garbage s y) dataIn
      (List.range' (posMbar0 gridDimY volMbar y)
        (posMbar1 gridDimY volMbar y - posMbar0 gridDimY volMbar y)) (garbage s y).shared
    refine ⟨st, ?_, ?_⟩
    · unfold splitBlock
      simp only [hw, rangeBatch_spec, hst]
    · intro x
      rw [hstmem]
      constructor
      · rintro ⟨b, hb, rest⟩
        rw [List.mem_range'_1] at hb
        exact ⟨b, ⟨hb.1, by omega⟩, rest⟩
      · rintro ⟨b, hb, rest⟩
        exact ⟨b, by rw [List.mem_range'_1]; omega, rest⟩
  have hrow : ∀ y, ∃ L, optConcat ((List.range gridDimX).map
        (splitBlock (2 ^ k) gridDimX gridDimY (nw * 2 ^ k) numRegStorage splitDim
          volMmkUnsplit volMbar sizeMmk sizeMbar cMmSplit cMkSplit glMmk glMbar glMsh garbage
          dataIn y)) = some L ∧
      ∀ x, x ∈ L ↔ ∃ s, s < gridDimX ∧
        ∃ b, (posMbar0 gridDimY volMbar y ≤ b ∧ b < posMbar1 gridDimY volMbar y) ∧
        ∃ t, t < exactVol splitDim gridDimX s * volMmkUnsplit ∧
          x = ((exactWork (2 ^ k) gridDimX (nw * 2 ^ k) numRegStorage splitDim volMmkUnsplit
                sizeMmk sizeMbar cMmSplit cMkSplit glMmk glMbar glMsh s).outOff b t,
              dataIn ((exactWork (2 ^ k) gridDimX (nw * 2 ^ k) numRegStorage splitDim
                volMmkUnsplit sizeMmk sizeMbar cMmSplit cMkSplit glMmk glMbar glMsh s).inOff b
                ((exactWork (2 ^ k) gridDimX (nw * 2 ^ k) numRegStorage splitDim volMmkUnsplit
                  sizeMmk sizeMbar cMmSplit cMkSplit glMmk glMbar glMsh s).shOff t))) := by
    intro y
    obtain ⟨L, hL, hLmem⟩ := optConcat_mem (List.range gridDimX)
      (splitBlock (2 ^ k) gridDimX gridDimY (nw * 2 ^ k) numRegStorage splitDim
          volMmkUnsplit volMbar sizeMmk sizeMbar cMmSplit cMkSplit glMmk glMbar glMsh garbage
          dataIn y)
      (by
        intro s hs
        obtain ⟨st, hst, _⟩ := hblock y s (List.mem_range.mp hs)
        exact ⟨st, hst⟩)
    refine ⟨L, hL, ?_⟩
    intro x
    rw [hLmem]
    constructor
    · rintro ⟨s, hs, l, hl, hx⟩
      have hs' := List.mem_range.mp hs
      obtain ⟨st, hst, hstmem⟩ := hblock y s hs'
      rw [hst] at hl
      cases hl
      obtain ⟨b, hb, t, ht, rfl⟩ := (hstmem x).mp hx
      exact ⟨s, hs', b, hb, t, ht, rfl⟩
    · rintro ⟨s, hs, b, hb, t, ht, rfl⟩
      obtain ⟨st, hst, hstmem⟩ := hblock y s hs
      refine ⟨s, List.mem_range.mpr hs, st, hst, ?_⟩
      rw [hstmem]
      exact ⟨b, hb, t, ht, rfl⟩
  obtain ⟨L, hL, hLmem⟩ := optConcat_mem (List.range gridDimY)
    (fun y => optConcat ((List.range gridDimX).map
        (splitBlock (2 ^ k) gridDimX gridDimY (nw * 2 ^ k) numRegStorage splitDim
          volMmkUnsplit volMbar sizeMmk sizeMbar cMmSplit cMkSplit glMmk glMbar glMsh garbage
          dataIn y)))
    (by
      intro y _
      obtain ⟨L, hL, _⟩ := hrow y
      exact ⟨L, hL⟩)
  refine ⟨L, hL, ?_⟩
  intro x
  rw [hLmem]
  constructor
  · rintro ⟨y, hy, l, hl, hx⟩
    obtain ⟨L', hL', hmem'⟩ := hrow y
    rw [hL'] at hl
    cases hl
    exact ⟨y, List.mem_range.mp hy, (hmem' x).mp hx⟩
  · rintro ⟨y, hy, hrest⟩
    obtain ⟨L', hL', hmem'⟩ := hrow y
    exact ⟨y, List.mem_range.mpr hy, L', hL', (hmem' x).mpr hrest⟩

/-- C3 as amended (`transposePackedSplit`).  For a warp size that is a power
of two, blocks of full warps, `gridDim.x*splitDim < 2^32`,
`sizeMmk, sizeMbar ≤ warpSize`, `c, d ≥ 1`, for every split index `s` enough
threads and register slots for its `volSplit * volMmkUnsplit` elements and a
shared-slot decode that stays below that number, and pairwise distinct
output offsets over the launch: the kernel is defined, every block `s`
works with `p0 = floor(s*splitDim/gridDim.x)`,
`volSplit = floor((s+1)*splitDim/gridDim.x) - p0` and the table rows
`r = volSplit - floor(splitDim/gridDim.x)`, and after the kernel, in whatever
order its stores are applied, for every block `(s, y)`, every batch index
`b` of its range `posMbar0 ≤ b < posMbar1` and every
`t < volSplit * volMmkUnsplit`,
`dataOut[outBar(b) + p0*cMkSplit + outMmk_r(t)]
   = dataIn[inBar(b) + p0*cMmSplit + inMmk_r(sh_r(t))]`. -/
theorem transposePackedSplit_correct {α : Type}
    (warpSize k nw gridDimX gridDimY blockDim numRegStorage : Nat)
    (splitDim volMmkUnsplit volMbar sizeMmk sizeMbar cMmSplit cMkSplit : Nat)
    (glMmk glMbar : Nat → TensorConvInOut) (glMsh : Nat → TensorConv)
    (garbage : Nat → Nat → Garbage α) (dataIn dataOut : Nat → α)
    (hws : warpSize = 2 ^ k) (hbd : blockDim = nw * warpSize)
    (hx32 : gridDimX * splitDim < 4294967296)
    (hsmmk : sizeMmk ≤ warpSize) (hsmbar : sizeMbar ≤ warpSize)
    (hcd : (∀ i, i < 2 * sizeMmk → 1 ≤ (glMmk i).c_in ∧ 1 ≤ (glMmk i).d_in ∧
        1 ≤ (glMmk i).c_out ∧ 1 ≤ (glMmk i).d_out ∧
        1 ≤ (glMsh i).c ∧ 1 ≤ (glMsh i).d) ∧
      ∀ i, i < sizeMbar → 1 ≤ (glMbar i).c_in ∧ 1 ≤ (glMbar i).d_in ∧
        1 ≤ (glMbar i).c_out ∧ 1 ≤ (glMbar i).d_out)
    (hcov : ∀ s, s < gridDimX →
      exactVol splitDim gridDimX s * volMmkUnsplit ≤ blockDim * numRegStorage)
    (hsh : ∀ s, s < gridDimX → ∀ t, t < exactVol splitDim gridDimX s * volMmkUnsplit →
      (exactWork warpSize gridDimX blockDim numRegStorage splitDim volMmkUnsplit sizeMmk
        sizeMbar cMmSplit cMkSplit glMmk glMbar glMsh s).shOff t
        < exactVol splitDim gridDimX s * volMmkUnsplit)
    (hinj : ∀ s, s < gridDimX → ∀ b, b < volMbar →
      ∀ t, t < exactVol splitDim gridDimX s * volMmkUnsplit →
      ∀ s', s' < gridDimX → ∀ b', b' < volMbar →
      ∀ t', t' < exactVol splitDim gridDimX s' * volMmkUnsplit →
      (exactWork warpSize gridDimX blockDim numRegStorage splitDim volMmkUnsplit sizeMmk
          sizeMbar cMmSplit cMkSplit glMmk glMbar glMsh s).outOff b t
        = (exactWork warpSize gridDimX blockDim numRegStorage splitDim volMmkUnsplit sizeMmk
          sizeMbar cMmSplit cMkSplit glMmk glMbar glMsh s').outOff b' t' →
      s = s' ∧ b = b' ∧ t = t') :
    ∃ stores,
      transposePackedSplit warpSize gridDimX gridDimY blockDim numRegStorage splitDim
        volMmkUnsplit volMbar sizeMmk sizeMbar cMmSplit cMkSplit glMmk glMbar glMsh garbage
        dataIn = some stores ∧
      (∀ s, s < gridDimX →
        splitWork warpSize gridDimX blockDim numRegStorage splitDim volMmkUnsplit sizeMmk
            sizeMbar cMmSplit cMkSplit glMmk glMbar glMsh s
          = some (exactWork warpSize gridDimX blockDim numRegStorage splitDim volMmkUnsplit
              sizeMmk sizeMbar cMmSplit cMkSplit glMmk glMbar glMsh s)) ∧
      ∀ sched, List.Perm sched stores →
        ∀ s, s < gridDimX → ∀ y, y < gridDimY →
        ∀ b, posMbar0 gridDimY volMbar y ≤ b → b < posMbar1 gridDimY volMbar y →
        ∀ t, t < exactVol splitDim gridDimX s * volMmkUnsplit →
          applyWrites sched dataOut
              ((exactWork warpSize gridDimX blockDim numRegStorage splitDim volMmkUnsplit
                sizeMmk sizeMbar cMmSplit cMkSplit glMmk glMbar glMsh s).outOff b t)
            = dataIn ((exactWork warpSize gridDimX blockDim numRegStorage splitDim
                volMmkUnsplit sizeMmk sizeMbar cMmSplit cMkSplit glMmk glMbar glMsh s).inOff b
                ((exactWork warpSize gridDimX blockDim numRegStorage splitDim volMmkUnsplit
                  sizeMmk sizeMbar cMmSplit cMkSplit glMmk glMbar glMsh s).shOff t)) := by
  subst hws hbd
  obtain ⟨stores, hst, hmem⟩ := transposePackedSplit_stores k nw gridDimX gridDimY
    numRegStorage splitDim volMmkUnsplit volMbar sizeMmk sizeMbar cMmSplit cMkSplit glMmk glMbar
    glMsh garbage dataIn hx32 hsmmk hsmbar hcov hsh
  refine ⟨stores, hst, ?_, ?_⟩
  · intro s hs
    exact splitWork_eq_exact _ _ _ _ _ _ _ _ _ _ _ _ _ s (by omega)
      (split_product_lt splitDim gridDimX (s + 1) hs hx32)
  intro sched hperm s hs y hy b hb0 hb1 t ht
  have hmem' : ∀ x, x ∈ sched ↔ x ∈ stores := fun x => hperm.mem_iff
  have hrange : ∀ y', y' < gridDimY → ∀ b', b' < posMbar1 gridDimY volMbar y' →
      b' < volMbar := by
    intro y' hy' b' hb'
    have := posMbar1_le gridDimY volMbar y' hy'
    omega
  apply applyWrites_eq_of_forall
  · intro x hx hxa
    obtain ⟨y', hy', s', hs', b', ⟨_, hb'⟩, t', ht', rfl⟩ := (hmem x).mp ((hmem' x).mp hx)
    simp only at hxa
    obtain ⟨rfl, rfl, rfl⟩ := hinj s' hs' b' (hrange y' hy' b' hb') t' ht' s hs b
      (hrange y hy b hb1) t ht hxa
    rfl
  · right
    exact ⟨_, (hmem' _).mpr ((hmem _).mpr ⟨y, hy, s, hs, b, ⟨hb0, hb1⟩, t, ht, rfl⟩), rfl⟩

set_option synthInstance.maxSize 2000 in
/-- Witness for C3: two batches of a 2 x 3 transposition split in two along
the axis of size 3 (split volumes 1 and 2), on a grid of 2 by 2 blocks of
one warp of two threads with two register slots.  The output is
`0 2 4 1 3 5 6 8 10 7 9 11`. -/
theorem transposePackedSplit_correct_witness :
    (transposePackedSplit 2 2 2 2 2 3 2 2 2 1 2 1 exMmkSplit exMbar6 exMshSplit exGarbage2
        exIn).map (fun st => (List.range 13).map (applyWrites st exOut))
      = some [0, 2, 4, 1, 3, 5, 6, 8, 10, 7, 9, 11, 0] ∧
    ∃ stores,
      transposePackedSplit 2 2 2 2 2 3 2 2 2 1 2 1 exMmkSplit exMbar6 exMshSplit exGarbage2
        exIn = some stores ∧
      (∀ s, s < 2 →
        splitWork 2 2 2 2 3 2 2 1 2 1 exMmkSplit exMbar6 exMshSplit s
          = some (exactWork 2 2 2 2 3 2 2 1 2 1 exMmkSplit exMbar6 exMshSplit s)) ∧
      ∀ sched, List.Perm sched stores →
        ∀ s, s < 2 → ∀ y, y < 2 →
        ∀ b, posMbar0 2 2 y ≤ b → b < posMbar1 2 2 y →
        ∀ t, t < exactVol 3 2 s * 2 →
          applyWrites sched exOut
              ((exactWork 2 2 2 2 3 2 2 1 2 1 exMmkSplit exMbar6 exMshSplit s).outOff b t)
            = exIn ((exactWork 2 2 2 2 3 2 2 1 2 1 exMmkSplit exMbar6 exMshSplit s).inOff b
                ((exactWork 2 2 2 2 3 2 2 1 2 1 exMmkSplit exMbar6 exMshSplit s).shOff t)) :=
  ⟨by decide,
    transposePackedSplit_correct 2 1 1 2 2 2 2 3 2 2 2 1 2 1 exMmkSplit exMbar6 exMshSplit
      exGarbage2 exIn exOut (by decide) (by decide) (by decide) (by decide) (by decide)
      (by decide) (by decide) (by decide) (by decide)⟩

/-- Counterexample to C3 as stated.  First, one block of one full warp
(2 threads, 2 register slots) for a 2 x 2 minor volume whose output strides
are all 0: every assumption of the claim holds, but the claimed equations for
`t = 0` and `t = 1` are about the same element of `dataOut` and ask for
different values; after the kernel it holds 3, not the `dataIn[0] = 0`
claimed for `t = 0`.  Second, `splitDim = 131072` on `gridDim.x = 32768`
blocks of one full warp: the claim gives block 32767 the start 131068, the
volume 4 and the table rows `r = 0`; in the kernel the product
`(blockIdx.x + 1)*splitDim = 2^32` of two 32-bit unsigned values is 0, so
the block computes `volSplit = -131068` and `plusone = -131072` and its
lanes read the tables before their start: the launch is undefined, whatever
the tables and the other arguments. -/
theorem transposePackedSplit_counterexample :
    ((2 ≤ 2 ∧ 1 ≤ 2) ∧
    ((∀ i, i < 2 * 2 → 1 ≤ (exMmkFlat i).c_in ∧ 1 ≤ (exMmkFlat i).d_in ∧
        1 ≤ (exMmkFlat i).c_out ∧ 1 ≤ (exMmkFlat i).d_out ∧
        1 ≤ (exMsh2 i).c ∧ 1 ≤ (exMsh2 i).d) ∧
      ∀ i, i < 1 → 1 ≤ (exMbar2 i).c_in ∧ 1 ≤ (exMbar2 i).d_in ∧
        1 ≤ (exMbar2 i).c_out ∧ 1 ≤ (exMbar2 i).d_out) ∧
    (exactP0 2 1 0 = 0 ∧ exactVol 2 1 0 = 2 ∧ exactPlusOne 2 1 0 = 0) ∧
    exactVol 2 1 0 * 2 ≤ 2 * 2 ∧
    (∀ t, t < exactVol 2 1 0 * 2 →
      (exactWork 2 1 2 2 2 2 2 1 2 2 exMmkFlat exMbar2 exMsh2 0).shOff t
        < exactVol 2 1 0 * 2) ∧
    (exactWork 2 1 2 2 2 2 2 1 2 2 exMmkFlat exMbar2 exMsh2 0).outOff 0 0 = 0 ∧
    (exactWork 2 1 2 2 2 2 2 1 2 2 exMmkFlat exMbar2 exMsh2 0).outOff 0 1 = 0 ∧
    exIn ((exactWork 2 1 2 2 2 2 2 1 2 2 exMmkFlat exMbar2 exMsh2 0).inOff 0
      ((exactWork 2 1 2 2 2 2 2 1 2 2 exMmkFlat exMbar2 exMsh2 0).shOff 0)) = 0 ∧
    exIn ((exactWork 2 1 2 2 2 2 2 1 2 2 exMmkFlat exMbar2 exMsh2 0).inOff 0
      ((exactWork 2 1 2 2 2 2 2 1 2 2 exMmkFlat exMbar2 exMsh2 0).shOff 1)) = 2 ∧
    (transposePackedSplit 2 1 1 2 2 2 2 1 2 1 2 2 exMmkFlat exMbar2 exMsh2 exGarbage2 exIn).map
      (fun st => applyWrites st exOut 0) = some 3) ∧
    ((exactP0 131072 32768 32767 = 131068 ∧ exactVol 131072 32768 32767 = 4 ∧
      exactPlusOne 131072 32768 32767 = 0) ∧
    splitP0 131072 32768 32767 = 131068 ∧ splitVol 131072 32768 32767 = -131068 ∧
    splitPlusOne 131072 32768 32767 = -131072 ∧
    ∀ (numRegStorage volMmkUnsplit volMbar sizeMbar cMmSplit cMkSplit : Nat)
      (glMmk glMbar : Nat → TensorConvInOut) (glMsh : Nat → TensorConv)
      (garbage : Nat → Nat → Garbage Nat) (dataIn : Nat → Nat),
      transposePackedSplit 2 32768 1 2 numRegStorage 131072 volMmkUnsplit volMbar 2 sizeMbar
        cMmSplit cMkSplit glMmk glMbar glMsh garbage dataIn = none) := by
  refine ⟨by decide, by decide, by decide, by decide, by decide, ?_⟩
  intro numRegStorage volMmkUnsplit volMbar sizeMbar cMmSplit cMkSplit glMmk glMbar glMsh
    garbage dataIn
  unfold transposePackedSplit
  refine optConcat_eq_none (List.range 1) _ 0 (List.mem_range.mpr (by decide)) ?_
  refine optConcat_eq_none (List.range 32768) _ 32767 (List.mem_range.mpr (by decide)) ?_
  have hw : splitWork 2 32768 2 numRegStorage 131072 volMmkUnsplit 2 sizeMbar cMmSplit cMkSplit
      glMmk glMbar glMsh 32767 = none := by
    unfold splitWork
    rw [if_pos ⟨by decide, by decide, by decide⟩]
  unfold splitBlock
  simp only [hw]

/-- Counterexample to C6 as stated: a block whose last warp is not full.
With a warp size of 2 and one thread the butterfly of thread 0 reads the
value of lane 1, which no thread holds, so no value is defined for it; with
a warp size of 4 and 6 threads the threads of the full first warp hold the
sum, and those of the second warp, which has two lanes only, hold no defined
value. -/
theorem major_offset_reduction_counterexample :
    ((2 = 2 ^ 1 ∧ 1 ≤ 2) ∧
      posMajorOut 2 1 1 exMbar exJunk 5 0 = none ∧
      posMajorIn 2 1 1 exMbar exJunk 5 0 = none) ∧
    ((4 = 2 ^ 2 ∧ 2 ≤ 4) ∧
      posMajorOut 4 6 2 exMbar exJunk 5 3 = some 25 ∧
      posMajorOut 4 6 2 exMbar exJunk 5 4 = none ∧
      posMajorOut 4 6 2 exMbar exJunk 5 5 = none) := by
  decide

/-- A value in the range of `int` is its own 32-bit pattern. -/
theorem toInt32_of_range (x : Int) (h0 : -2147483648 ≤ x) (h1 : x < 2147483648) :
    toInt32 x = x := by
  unfold toInt32
  omega

/-- While `bound + step` stays within `int`, the loop on `int` visits the
indices of the loop on unbounded integers. -/
theorem intLoop_eq_strideLoop (step bound : Nat) (hb : bound + step ≤ 2147483648) :
    ∀ (fuel start : Nat),
      intLoop step (bound : Int) fuel (start : Int)
        = (strideLoop step bound fuel start).map fun l => l.map fun i => ((i : Nat) : Int) := by
  intro fuel
  induction fuel with
  | zero =>
    intro start
    simp only [intLoop, strideLoop, Nat.cast_lt]
    split <;> rfl
  | succ fuel ih =>
    intro start
    simp only [intLoop, strideLoop, Nat.cast_lt]
    by_cases h : start < bound
    · rw [if_pos h, if_pos h]
      have e : toInt32 ((start : Int) + (step : Int)) = ((start + step : Nat) : Int) := by
        rw [toInt32_of_range _ (by omega) (by omega)]
        exact (Int.ofNat_add start step).symm
      rw [e, ih (start + step)]
      cases strideLoop step bound fuel (start + step) <;> rfl
    · rw [if_neg h, if_neg h]
      rfl

/-- The accesses at indices that are not negative. -/
theorem threadAccesses_cast (b t : Nat) (l : List Nat) :
    threadAccesses b t (l.map fun i => ((i : Nat) : Int))
      = some (l.map fun i => CopyAccess.mk b t i) := by
  unfold threadAccesses
  rw [if_pos]
  · rw [List.map_map]
    congr 1
  · rw [List.all_eq_true]
    intro x hx
    obtain ⟨i, _, rfl⟩ := List.mem_map.mp hx
    exact decide_eq_true (Int.ofNat_nonneg i)

/-- A launch whose starts and steps are formed without leaving the range of
`int`, and in which `bound + step` stays within it, performs the accesses of
the loops on unbounded integers. -/
theorem gridLoop_eq_exact (G B : Nat) (start : Nat → Nat → Int) (step : Nat → Nat → Nat)
    (startN stepN : Nat → Nat → Nat) (bound : Nat)
    (h : ∀ b, b < G → ∀ t, t < B → start b t = ((startN b t : Nat) : Int) ∧
      step b t = stepN b t ∧ bound + stepN b t ≤ 2147483648) :
    gridLoop G B start step bound = gridLoopExact G B startN stepN bound := by
  unfold gridLoop gridLoopExact
  congr 1
  apply List.map_congr_left
  intro b hb
  congr 1
  apply List.map_congr_left
  intro t ht
  obtain ⟨h1, h2, h3⟩ := h b (List.mem_range.mp hb) t (List.mem_range.mp ht)
  rw [h1, h2, intLoop_eq_strideLoop (stepN b t) bound h3]
  cases strideLoop (stepN b t) bound bound (startN b t) with
  | none => rfl
  | some l =>
    simp only [Option.map_some', Option.some_bind]
    exact threadAccesses_cast b t l

/-- A list of indices with a negative one has no defined accesses. -/
theorem threadAccesses_neg (b t : Nat) (i : Int) (l : List Int) (hi : i < 0) :
    threadAccesses b t (i :: l) = none := by
  unfold threadAccesses
  rw [if_neg]
  simp only [List.all_cons, Bool.and_eq_true, decide_eq_true_eq, not_and]
  intro h
  omega

/-- Undefined accesses stay undefined when an index is put in front. -/
theorem threadAccesses_cons_none (b t : Nat) (i : Int) (l : List Int)
    (h : threadAccesses b t l = none) : threadAccesses b t (i :: l) = none := by
  unfold threadAccesses at h ⊢
  by_cases hl : (l.all fun i => decide (0 ≤ i)) = true
  · rw [if_pos hl] at h
    cases h
  · rw [if_neg]
    simp only [List.all_cons, Bool.and_eq_true, not_and]
    intro _
    exact hl

/-- A thread whose index is negative at the loop test accesses a negative
index, or does not end within the iteration bound. -/
theorem thread_negative (step : Nat) (bound : Int) (b t : Nat) (i : Int) (hi : i < 0)
    (hb : 0 ≤ bound) :
    ∀ fuel, (intLoop step bound fuel i).bind (threadAccesses b t) = none := by
  intro fuel
  cases fuel with
  | zero =>
    simp only [intLoop]
    rw [if_pos (by omega)]
    rfl
  | succ fuel =>
    simp only [intLoop]
    rw [if_pos (by omega)]
    cases intLoop step bound fuel (toInt32 (i + (step : Int))) with
    | none => rfl
    | some l => exact threadAccesses_neg b t i l hi

/-- A thread that enters its loop and whose next index wraps below zero
accesses a negative index, or does not end within the iteration bound. -/
theorem thread_wraps (step : Nat) (bound : Int) (b t : Nat) (i : Int) (h0 : i < bound)
    (hb : 0 ≤ bound) (h1 : toInt32 (i + (step : Int)) < 0) :
    ∀ fuel, (intLoop step bound fuel i).bind (threadAccesses b t) = none := by
  intro fuel
  cases fuel with
  | zero =>
    simp only [intLoop]
    rw [if_pos h0]
    rfl
  | succ fuel =>
    have hneg := thread_negative step bound b t _ h1 hb fuel
    simp only [intLoop]
    rw [if_pos h0]
    cases h : intLoop step bound fuel (toInt32 (i + (step : Int))) with
    | none => rfl
    | some l =>
      rw [h] at hneg
      exact threadAccesses_cons_none b t i l hneg

/-- A launch in which a thread performs an undefined access is undefined. -/
theorem gridLoop_eq_none (G B : Nat) (start : Nat → Nat → Int) (step : Nat → Nat → Nat)
    (bound b t : Nat) (hb : b < G) (ht : t < B)
    (h : (intLoop (step b t) (bound : Int) bound (start b t)).bind (threadAccesses b t) = none) :
    gridLoop G B start step bound = none := by
  unfold gridLoop
  refine optConcat_eq_none (List.range G) _ b (List.mem_range.mpr hb) ?_
  exact optConcat_eq_none (List.range B) _ t (List.mem_range.mpr ht) h

/-- The grid of `scalarCopy`: `64*numblock` is `n` rounded up to a multiple of
64, and 64 for `n = 0`. -/
theorem scalarCopyNumblock_le (n : Nat) :
    64 * (scalarCopyNumblock (n : Int)).toNat ≤ n + 64 ∧
    (n ≤ 1073741824 → 64 * (scalarCopyNumblock (n : Int)).toNat ≤ 1073741824) := by
  unfold scalarCopyNumblock numthread
  rcases Nat.eq_zero_or_pos n with h0 | h0
  · subst h0
    constructor
    · decide
    · intro _; decide
  · have hb := tdiv_bounds ((n : Int) - 1) 64 (by omega) (by norm_num)
    constructor
    · omega
    · intro h; omega

/-- For `n ≤ 2^30` no index of `scalarCopy` leaves the range of `int`: the
launch performs the accesses of the loops on unbounded integers. -/
theorem scalarCopy_eq_exact (n : Nat) (hn : n ≤ 1073741824) :
    scalarCopy (n : Int) = scalarCopyExact (n : Int) := by
  have hG := (scalarCopyNumblock_le n).2 hn
  unfold scalarCopy scalarCopyExact scalarCopyKernel scalarCopyKernelExact
  have e64 : numthread.toNat = 64 := rfl
  rw [e64, Int.toNat_ofNat]
  generalize (scalarCopyNumblock (n : Int)).toNat = G at hG ⊢
  apply gridLoop_eq_exact
  intro b hb t ht
  have hidx : t + b * 64 < 64 * G := by omega
  refine ⟨?_, ?_, ?_⟩
  · rw [Nat.mod_eq_of_lt (by omega)]
    exact toInt32_of_range _ (by omega) (by omega)
  · exact Nat.mod_eq_of_lt (by omega)
  · omega

/-- The grid of `vectorCopy`: `64*numblock` is at most `n/vectorLength + 64`. -/
theorem vectorCopyNumblock_le (sizeofT n : Nat) :
    64 * (vectorCopyNumblock sizeofT (n : Int)).toNat ≤ n / vectorLength sizeofT + 64 := by
  unfold vectorCopyNumblock numthread
  have h0 := Int.tdiv_nonneg (Int.ofNat_nonneg n) (Int.ofNat_nonneg (vectorLength sizeofT))
  have e : Int.tdiv (n : Int) (vectorLength sizeofT)
      = ((n / vectorLength sizeofT : Nat) : Int) := by
    rw [Int.tdiv_eq_ediv (Int.ofNat_nonneg n) (Int.ofNat_nonneg _)]
    rfl
  rw [e]
  generalize n / vectorLength sizeofT = m
  rcases Nat.eq_zero_or_pos m with h | h
  · subst h
    decide
  · have hb := tdiv_bounds ((m : Int) - 1) 64 (by omega) (by norm_num)
    omega

/-- For `n + n/vectorLength + 127 ≤ 2^31` no index of `vectorCopy` leaves the
range of `int`: the launch performs the accesses of the loops on unbounded
integers. -/
theorem vectorCopy_eq_exact (sizeofT n : Nat)
    (hn : n + n / vectorLength sizeofT + 127 ≤ 2147483648) :
    vectorCopy sizeofT (n : Int) = vectorCopyExact sizeofT (n : Int) := by
  have hG := vectorCopyNumblock_le sizeofT n
  unfold vectorCopy vectorCopyExact vectorCopyKernel vectorCopyKernelExact
  have e64 : numthread.toNat = 64 := rfl
  rw [e64, Int.toNat_ofNat]
  generalize (vectorCopyNumblock sizeofT (n : Int)).toNat = G at hG ⊢
  have hdiv : n / vectorLength sizeofT * vectorLength sizeofT ≤ n := Nat.div_mul_le_self _ _
  have hq : n / vectorLength sizeofT ≤ n := Nat.div_le_self _ _
  have h1 : gridLoop G 64 (fun b t => toInt32 (((t + b * 64) % 4294967296 : Nat) : Int))
        (fun _ _ => 64 * G % 4294967296) (n / vectorLength sizeofT)
      = gridLoopExact G 64 (fun b t => t + b * 64) (fun _ _ => 64 * G)
        (n / vectorLength sizeofT) := by
    apply gridLoop_eq_exact
    intro b hb t ht
    have hidx : t + b * 64 < 64 * G := by omega
    refine ⟨?_, ?_, ?_⟩
    · rw [Nat.mod_eq_of_lt (by omega)]
      exact toInt32_of_range _ (by omega) (by omega)
    · exact Nat.mod_eq_of_lt (by omega)
    · omega
  have h2 : gridLoop G 64
        (fun b t => toInt32 (toInt32 (((t + b * 64) % 4294967296 : Nat) : Int)
          + (((n / vectorLength sizeofT) * vectorLength sizeofT : Nat) : Int)))
        (fun _ t => (64 * G + t) % 4294967296) n
      = gridLoopExact G 64
        (fun b t => t + b * 64 + (n / vectorLength sizeofT) * vectorLength sizeofT)
        (fun _ t => 64 * G + t) n := by
    apply gridLoop_eq_exact
    intro b hb t ht
    have hidx : t + b * 64 < 64 * G := by omega
    refine ⟨?_, ?_, ?_⟩
    · have e1 : toInt32 (((t + b * 64 : Nat) : Int)) = ((t + b * 64 : Nat) : Int) :=
        toInt32_of_range _ (by omega) (by omega)
      rw [Nat.mod_eq_of_lt (by omega), e1]
      generalize n / vectorLength sizeofT * vectorLength sizeofT = m at hdiv ⊢
      rw [toInt32_of_range _ (by omega) (by omega)]
      omega
    · exact Nat.mod_eq_of_lt (by omega)
    · omega
  rw [h1, h2]

/-- C15 as amended (`scalarCopy` is a correct copy for every length up to
2^30).  For every `0 ≤ n ≤ 2^30`, on the grid of `numblock = (n - 1)/64 + 1`
blocks of 64 threads that `scalarCopy` computes: the kernel ends, after it
`data_out[i] = data_in[i]` for every `i < n` in whatever order its stores are
applied, every `i < n` is accessed exactly once (by one thread in one
iteration), and no index at or beyond `n` is accessed, so that the rest of
`data_out` is as it was. -/
theorem scalarCopy_correct {α : Type} (n : Nat) (hn : n ≤ 1073741824)
    (dataIn dataOut : Nat → α) :
    ∃ ev, scalarCopy (n : Int) = some ev ∧
      (∀ sched, List.Perm sched (copyStores dataIn ev) →
        (∀ i, i < n → applyWrites sched dataOut i = dataIn i) ∧
        (∀ i, n ≤ i → applyWrites sched dataOut i = dataOut i)) ∧
      (∀ i, i < n → ev.countP (fun e => e.index == i) = 1) ∧
      ev.length = n ∧
      (∀ e, e ∈ ev → e.index < n ∧ (e.block : Int) < scalarCopyNumblock n ∧ e.thread < 64) := by
  rw [scalarCopy_eq_exact n hn]
  exact scalarCopyExact_correct n dataIn dataOut

set_option maxRecDepth 1000000 in
/-- Witness for C15: `n = 1024` with the input `0, 1, .., 1023`.  The grid has
16 blocks, element `i` is accessed by thread `i % 64` of block `i / 64` and
by no other, and the theorem gives `data_out[i] = i` for every `i < 1024`. -/
theorem scalarCopy_correct_witness :
    scalarCopyNumblock 1024 = 16 ∧
    (scalarCopy 1024).map (fun ev => ev.map fun e => (e.block, e.thread, e.index))
      = some ((List.range 1024).map fun i => (i / 64, i % 64, i)) ∧
    ∃ ev, scalarCopy ((1024 : Nat) : Int) = some ev ∧
      (∀ sched, List.Perm sched (copyStores exIn ev) →
        (∀ i, i < 1024 → applyWrites sched exOut i = exIn i) ∧
        (∀ i, 1024 ≤ i → applyWrites sched exOut i = exOut i)) ∧
      (∀ i, i < 1024 → ev.countP (fun e => e.index == i) = 1) ∧
      ev.length = 1024 ∧
      (∀ e, e ∈ ev → e.index < 1024 ∧ (e.block : Int) < scalarCopyNumblock (1024 : Nat) ∧
        e.thread < 64) :=
  ⟨by decide, by decide, scalarCopy_correct 1024 (by decide) exIn exOut⟩

/-- Counterexample to C15 as stated: `n = 2^30 + 1`.  The grid has
`16777217` blocks, so the step `blockDim.x*gridDim.x` is `2^30 + 64`.
Thread 0 of block 16777216 starts at `i = 2^30 < n` and accesses it; its next
index `2^31 + 64` does not fit `int` and is `-2147483584`, which passes the
test `i < n`: the thread accesses `data_out[-2147483584]`, before the start
of the array, and the launch is undefined. -/
theorem scalarCopy_counterexample :
    scalarCopyNumblock 1073741825 = 16777217 ∧
    toInt32 (((0 + 16777216 * 64) % 4294967296 : Nat) : Int) = 1073741824 ∧
    toInt32 (1073741824 + ((64 * 16777217 % 4294967296 : Nat) : Int)) = -2147483584 ∧
    scalarCopy 1073741825 = none := by
  refine ⟨by decide, by decide, by decide, ?_⟩
  have hG : (scalarCopyNumblock 1073741825).toNat = 16777217 := by decide
  unfold scalarCopy scalarCopyKernel
  rw [hG]
  refine gridLoop_eq_none _ _ _ _ _ 16777216 0 (by decide) (by decide) ?_
  exact thread_wraps _ _ _ _ _ (by decide) (by decide) (by decide) _

/-- C16 as amended (`vectorCopy` write set).  For elements of 2, 4 or 8
bytes, with `VL = 16/sizeof(T)`, and every `n ≥ 0` with
`n + floor(n/VL) + 127 ≤ 2^31`: the kernel ends; it performs exactly
`floor(n/VL)` vector stores, one for each vector index below `floor(n/VL)`,
and exactly `n mod VL` tail stores, one for each index from `VL*floor(n/VL)`
up to `n`; no store goes to an offset at or beyond `n`; and after it, in
whatever order the stores are applied, `data_out[i] = data_in[i]` for every
`i < n`, the rest of `data_out` being as it was. -/
theorem vectorCopy_write_set {α : Type} (sizeofT : Nat)
    (hT : sizeofT = 2 ∨ sizeofT = 4 ∨ sizeofT = 8) (n : Nat)
    (hn : n + n / vectorLength sizeofT + 127 ≤ 2147483648) (dataIn dataOut : Nat → α) :
    ∃ vec tail, vectorCopy sizeofT (n : Int) = some (vec, tail) ∧
      (vec.length = n / vectorLength sizeofT ∧
        ∀ g, g < n / vectorLength sizeofT → vec.countP (fun e => e.index == g) = 1) ∧
      (tail.length = n % vectorLength sizeofT ∧
        ∀ i, vectorLength sizeofT * (n / vectorLength sizeofT) ≤ i → i < n →
          tail.countP (fun e => e.index == i) = 1) ∧
      (∀ w, w ∈ vectorStores (vectorLength sizeofT) dataIn vec ++ copyStores dataIn tail →
        w.1 < n) ∧
      (∀ sched, List.Perm sched
          (vectorStores (vectorLength sizeofT) dataIn vec ++ copyStores dataIn tail) →
        (∀ i, i < n → applyWrites sched dataOut i = dataIn i) ∧
        (∀ i, n ≤ i → applyWrites sched dataOut i = dataOut i)) := by
  rw [vectorCopy_eq_exact sizeofT n hn]
  exact vectorCopyExact_write_set sizeofT hT n dataIn dataOut

/-- Witness for C16: `n = 17` elements of 4 bytes.  The grid has one block;
threads 0..3 store the vectors 0..3, thread 0 stores the tail element 16, and
with the input `0, 1, ..` the output is `0, 1, .., 16`, element 17 being left
as it was. -/
theorem vectorCopy_write_set_witness :
    vectorLength 4 = 4 ∧ vectorCopyNumblock 4 17 = 1 ∧
    (vectorCopy 4 17).map (fun r => (r.1.map fun e => (e.block, e.thread, e.index),
        r.2.map fun e => (e.block, e.thread, e.index)))
      = some ([(0, 0, 0), (0, 1, 1), (0, 2, 2), (0, 3, 3)], [(0, 0, 16)]) ∧
    (vectorCopy 4 17).map (fun r => (List.range 19).map
        (applyWrites (vectorStores 4 exIn r.1 ++ copyStores exIn r.2) exOut))
      = some [0, 1, 2, 3, 4, 5, 6, 7, 8, 9, 10, 11, 12, 13, 14, 15, 16, 0, 0] ∧
    ∃ vec tail, vectorCopy 4 ((17 : Nat) : Int) = some (vec, tail) ∧
      (vec.length = 17 / vectorLength 4 ∧
        ∀ g, g < 17 / vectorLength 4 → vec.countP (fun e => e.index == g) = 1) ∧
      (tail.length = 17 % vectorLength 4 ∧
        ∀ i, vectorLength 4 * (17 / vectorLength 4) ≤ i → i < 17 →
          tail.countP (fun e => e.index == i) = 1) ∧
      (∀ w, w ∈ vectorStores (vectorLength 4) exIn vec ++ copyStores exIn tail → w.1 < 17) ∧
      (∀ sched, List.Perm sched
          (vectorStores (vectorLength 4) exIn vec ++ copyStores exIn tail) →
        (∀ i, i < 17 → applyWrites sched exOut i = exIn i) ∧
        (∀ i, 17 ≤ i → applyWrites sched exOut i = exOut i)) :=
  ⟨by decide, by decide, by decide, by decide,
    vectorCopy_write_set 4 (Or.inr (Or.inl rfl)) 17 (by decide) exIn exOut⟩

/-- Counterexample to C16 as stated: `n = 1910000001` elements of 2 bytes
(`VL = 8`).  The grid has `3730469` blocks of 64 threads; the last thread,
thread 63 of block 3730468, has `idx = 238750015`, and its tail loop starts
at `idx + (n/VL)*VL = 2148750015`, which does not fit `int` and is
`-2146217281`: the test `i < n` passes and the thread accesses
`data_out[-2146217281]`, before the start of the array, so the launch is
undefined. -/
theorem vectorCopy_write_set_counterexample :
    vectorLength 2 = 8 ∧ vectorCopyNumblock 2 1910000001 = 3730469 ∧
    toInt32 (((63 + 3730468 * 64) % 4294967296 : Nat) : Int) = 238750015 ∧
    toInt32 (238750015 + (((1910000001 / 8) * 8 : Nat) : Int)) = -2146217281 ∧
    vectorCopy 2 1910000001 = none := by
  refine ⟨by decide, by decide, by decide, by decide, ?_⟩
  have hG : (vectorCopyNumblock 2 1910000001).toNat = 3730469 := by decide
  have hV : vectorLength 2 = 8 := by decide
  have htail : gridLoop 3730469 64
      (fun b t => toInt32 (toInt32 (((t + b * 64) % 4294967296 : Nat) : Int)
        + (((1910000001 / 8) * 8 : Nat) : Int)))
      (fun _ t => (64 * 3730469 + t) % 4294967296) 1910000001 = none := by
    refine gridLoop_eq_none _ _ _ _ _ 3730468 63 (by decide) (by decide) ?_
    exact thread_negative _ _ _ _ _ (by decide) (by decide) _
  unfold vectorCopy vectorCopyKernel
  rw [hG, hV]
  have e64 : numthread.toNat = 64 := rfl
  have en : (1910000001 : Int).toNat = 1910000001 := rfl
  rw [e64, en, htail]
  cases gridLoop 3730469 64 (fun b t => toInt32 (((t + b * 64) % 4294967296 : Nat) : Int))
      (fun _ _ => 64 * 3730469 % 4294967296) (1910000001 / 8) <;> rfl

/-- C17 as amended (the three bulk copies agree on whole `float4` groups that
the grid of `memcpyFloat` reaches).  For every `0 ≤ n ≤ 2^30` that is a
multiple of 4 and whose `float4` count `n/4` is not `128k + 1` with `k ≥ 1`,
and every input of `n` 4-byte elements: the kernels of `scalarCopy` and of
`vectorCopy` end, and after each of `scalarCopy`, `vectorCopy` and
`memcpyFloat`, in whatever order its stores are applied,
`data_out[i] = data_in[i]` for every `i < n` and the rest of `data_out` is as
it was: the three leave the same output. -/
theorem bulk_copies_agree {α : Type} (n : Nat) (hn : n ≤ 1073741824) (h4 : n % 4 = 0)
    (hcov : ¬ (n / 4 % 128 = 1 ∧ 1 < n / 4))
    (priv : Nat → Nat → Nat → α × α × α × α) (dataIn dataOut : Nat → α) :
    ∃ ev vec tail, scalarCopy (n : Int) = some ev ∧ vectorCopy 4 (n : Int) = some (vec, tail) ∧
      ∀ s1 s2 s3, List.Perm s1 (copyStores dataIn ev) →
        List.Perm s2 (vectorStores (vectorLength 4) dataIn vec ++ copyStores dataIn tail) →
        List.Perm s3 (float4Stores (memcpyFloat (n : Int) priv dataIn).2) →
        (∀ i, i < n → applyWrites s1 dataOut i = dataIn i ∧
          applyWrites s2 dataOut i = dataIn i ∧ applyWrites s3 dataOut i = dataIn i) ∧
        (∀ i, n ≤ i → applyWrites s1 dataOut i = dataOut i ∧
          applyWrites s2 dataOut i = dataOut i ∧ applyWrites s3 dataOut i = dataOut i) := by
  have hv : n + n / vectorLength 4 + 127 ≤ 2147483648 := by
    have e : vectorLength 4 = 4 := rfl
    rw [e]
    omega
  rw [scalarCopy_eq_exact n hn, vectorCopy_eq_exact 4 n hv]
  exact bulk_copies_agree_exact n h4 hcov priv dataIn dataOut

set_option maxRecDepth 100000 in
/-- Witness for C17: `n = 12` elements `0, 1, .., 11`; each of the three
copies leaves `0, 1, .., 11` followed by the untouched element 12. -/
theorem bulk_copies_agree_witness :
    ((scalarCopy 12).map fun ev => (List.range 13).map (applyWrites (copyStores exIn ev) exOut))
      = some [0, 1, 2, 3, 4, 5, 6, 7, 8, 9, 10, 11, 0] ∧
    ((vectorCopy 4 12).map fun r => (List.range 13).map
        (applyWrites (vectorStores (vectorLength 4) exIn r.1 ++ copyStores exIn r.2) exOut))
      = some [0, 1, 2, 3, 4, 5, 6, 7, 8, 9, 10, 11, 0] ∧
    (List.range 13).map (applyWrites (float4Stores (memcpyFloat 12 exPriv exIn).2) exOut)
      = [0, 1, 2, 3, 4, 5, 6, 7, 8, 9, 10, 11, 0] ∧
    ∃ ev vec tail, scalarCopy ((12 : Nat) : Int) = some ev ∧
      vectorCopy 4 ((12 : Nat) : Int) = some (vec, tail) ∧
      ∀ s1 s2 s3, List.Perm s1 (copyStores exIn ev) →
        List.Perm s2 (vectorStores (vectorLength 4) exIn vec ++ copyStores exIn tail) →
        List.Perm s3 (float4Stores (memcpyFloat ((12 : Nat) : Int) exPriv exIn).2) →
        (∀ i, i < 12 → applyWrites s1 exOut i = exIn i ∧
          applyWrites s2 exOut i = exIn i ∧ applyWrites s3 exOut i = exIn i) ∧
        (∀ i, 12 ≤ i → applyWrites s1 exOut i = exOut i ∧
          applyWrites s2 exOut i = exOut i ∧ applyWrites s3 exOut i = exOut i) :=
  ⟨by decide, by decide, by decide,
    bulk_copies_agree 12 (by decide) (by decide) (by decide) exPriv exIn exOut⟩

set_option maxRecDepth 100000 in
/-- Counterexample to C17 as stated.  For `n = 5` elements `0, 1, 2, 3, 4`,
`scalarCopy` and `vectorCopy` copy all five, but `memcpyFloat` hands `5/4 = 1`
`float4` value to its kernel and leaves element 4 as it was: it works on
whole `float4` groups.  For `n = 516`, a multiple of 4, the grid of
`memcpyFloat` is one block, which reaches 128 of the 129 values, and the
elements `512 .. 515` are left as they were while `scalarCopy` and
`vectorCopy` copy them.  For `n = 2^30 + 8`, a multiple of 4 with
`n/4 = 128*2097152 + 2`, the step of `scalarCopy` is `2^30 + 64`: thread 0 of
block 16777216 accesses index `2^30`, its next index `2^31 + 64` does not fit
`int` and is `-2147483584`, and the launch of `scalarCopy` is undefined. -/
theorem bulk_copies_counterexample :
    (((scalarCopy 5).map fun ev => (List.range 6).map (applyWrites (copyStores exIn ev) exOut))
      = some [0, 1, 2, 3, 4, 0] ∧
    ((vectorCopy 4 5).map fun r => (List.range 6).map
        (applyWrites (vectorStores (vectorLength 4) exIn r.1 ++ copyStores exIn r.2) exOut))
      = some [0, 1, 2, 3, 4, 0] ∧
    (List.range 6).map (applyWrites (float4Stores (memcpyFloat 5 exPriv exIn).2) exOut)
      = [0, 1, 2, 3, 0, 0]) ∧
    (((scalarCopy 516).map fun ev =>
        (List.range' 510 4).map (applyWrites (copyStores exIn ev) exOut))
      = some [510, 511, 512, 513] ∧
    ((vectorCopy 4 516).map fun r => (List.range' 510 4).map
        (applyWrites (vectorStores (vectorLength 4) exIn r.1 ++ copyStores exIn r.2) exOut))
      = some [510, 511, 512, 513] ∧
    (List.range' 510 4).map (applyWrites (float4Stores (memcpyFloat 516 exPriv exIn).2) exOut)
      = [510, 511, 0, 0]) ∧
    ((1073741832 % 4 = 0 ∧ 1073741832 / 4 % 128 = 2) ∧
      scalarCopyNumblock 1073741832 = 16777217 ∧
      toInt32 (1073741824 + ((64 * 16777217 % 4294967296 : Nat) : Int)) = -2147483584 ∧
      scalarCopy 1073741832 = none) := by
  refine ⟨by decide, by decide, by decide, by decide, by decide, ?_⟩
  have hG : (scalarCopyNumblock 1073741832).toNat = 16777217 := by decide
  unfold scalarCopy scalarCopyKernel
  rw [hG]
  refine gridLoop_eq_none _ _ _ _ _ 16777216 0 (by decide) (by decide) ?_
  exact thread_wraps _ _ _ _ _ (by decide) (by decide) (by decide) _

/-- C18 (empty copy).  For `n = 0` each of `scalarCopy`, `vectorCopy` (for any
element size) and `memcpyFloat` computes a grid of exactly one block, and its
kernel performs no access: no load from `data_in`, no store to `data_out`.
For every `n ≥ 0` each computed `numblock` is at least 1. -/
theorem empty_copy {α : Type} (sizeofT : Nat) (priv : Nat → Nat → Nat → α × α × α × α)
    (dataIn : Nat → α) :
    (scalarCopyNumblock 0 = 1 ∧ vectorCopyNumblock sizeofT 0 = 1 ∧ memcpyFloatNumblock 0 = 1) ∧
    (scalarCopy 0 = some [] ∧ vectorCopy sizeofT 0 = some ([], []) ∧
      memcpyFloat 0 priv dataIn = ([], [])) ∧
    ∀ n : Nat, 1 ≤ scalarCopyNumblock (n : Int) ∧ 1 ≤ vectorCopyNumblock sizeofT (n : Int) ∧
      1 ≤ memcpyFloatNumblock (n : Int) := by
  have hv : vectorCopyNumblock sizeofT 0 = 1 := by
    unfold vectorCopyNumblock numthread
    rw [Int.zero_tdiv]
    decide
  refine ⟨⟨by decide, hv, by decide⟩, ⟨?_, ?_, ?_⟩, ?_⟩
  · have h := scalarCopy_eq_exact 0 (by decide)
    rw [Nat.cast_zero] at h
    rw [h]
    unfold scalarCopyExact scalarCopyKernelExact
    exact gridLoopExact_bound_zero _ _ _ _
  · have h := vectorCopy_eq_exact sizeofT 0 (by simp)
    rw [Nat.cast_zero] at h
    rw [h]
    unfold vectorCopyExact vectorCopyKernelExact
    simp only [Int.toNat_zero, Nat.zero_div]
    rw [gridLoopExact_bound_zero, Option.some_bind, gridLoopExact_bound_zero, Option.map_some']
  · have hl := fun e => (memcpyFloatKernel_spec NUM_ELEM (memcpyFloatNumblock 0).toNat
      numthread.toNat (Int.tdiv 0 4).toNat priv (asFloat4 dataIn) e)
    have e1 : (memcpyFloat 0 priv dataIn).1 = [] := by
      rw [List.eq_nil_iff_forall_not_mem]
      intro e he
      obtain ⟨b, -, t, -, i, -, hlt, -⟩ := (hl e).1.mp he
      simp at hlt
    have e2 : (memcpyFloat 0 priv dataIn).2 = [] := by
      rw [List.eq_nil_iff_forall_not_mem]
      intro e he
      obtain ⟨b, -, t, -, i, -, hlt, -⟩ := (hl e).2.mp he
      simp at hlt
    exact Prod.ext e1 e2
  · intro n
    have h1 := scalarCopyNumblock_pos n
    have h2 := vectorCopyNumblock_pos sizeofT n
    have h3 := memcpyFloatNumblock_pos n
    omega

/-- Examples for C18: the grids for lengths 0, 1, 64, 65 and 1024, and the
three copies of 4-byte elements at length 0. -/
theorem empty_copy_witness :
    [0, 1, 64, 65, 1024].map scalarCopyNumblock = [1, 1, 1, 2, 16] ∧
    [0, 1, 64, 65, 1024].map (vectorCopyNumblock 4) = [1, 1, 1, 1, 4] ∧
    [0, 1, 64, 65, 1024].map memcpyFloatNumblock = [1, 1, 1, 1, 2] ∧
    scalarCopy 0 = some [] ∧ vectorCopy 4 0 = some ([], []) ∧
    (memcpyFloat 0 exPriv exIn).1.length = 0 ∧ (memcpyFloat 0 exPriv exIn).2.length = 0 := by
  decide

end HipTT
